import Mathlib

/-!
# x0 HTTP/1.1 message processor: shallow embedding and verified properties

The definitions below embed `HttpMessageProcessor::process`
(`src/lib/http/HttpMessageProcessor.cpp`) as a step function over an explicit
parser record.  One call of `step` is one pass through the body of the
`while (i != e)` loop, i.e. one dispatch of the `switch (state_)`.

Conventions.
* A byte is a natural number (`0 .. 255`); the backing `Buffer` is a list of bytes.
* `size_t` arithmetic is arithmetic modulo `2^64` (`szAdd`, `szSub`).
* The signed fields (`versionMajor_`, `versionMinor_`, `code_`, `contentLength_`)
  are unbounded integers; signed overflow is undefined behaviour in the source.
* The filter chain `filters_` is empty, as it is after construction.
* Hooks (`onMessage...`) are represented by the event they receive; the boolean
  they return comes from an oracle that sees the events emitted before in the call.
-/

namespace X0

/-! ## Bytes and `size_t` -/

/-- The modulus of `size_t` arithmetic, `2^64`. -/
def SIZE_MOD : Nat := 18446744073709551616

/-- Addition of two `size_t` values. -/
def szAdd (a b : Nat) : Nat := (a + b) % SIZE_MOD

/-- Subtraction of two `size_t` values (wraps around below zero). -/
def szSub (a b : Nat) : Nat := (a % SIZE_MOD + SIZE_MOD - b % SIZE_MOD) % SIZE_MOD

/-- The conversion `static_cast<size_t>(v)` of a signed value. -/
def toSize (v : Int) : Nat := (v % (SIZE_MOD : Int)).toNat

/-- The bytes of an ASCII string literal. -/
def bytesOf (s : String) : List Nat := s.toList.map Char.toNat

def CR : Nat := 13
def LF : Nat := 10
def SP : Nat := 32
def HT : Nat := 9

/-! ## Character classes (`HttpMessageProcessor.cpp`, lines 100-148) -/

def isChar (value : Nat) : Bool := decide (value ≤ 127)

def isControl (value : Nat) : Bool := decide (value ≤ 31) || decide (value = 127)

def isSeparator (value : Nat) : Bool :=
  value = 40 || value = 41 || value = 60 || value = 62 || value = 64 ||
  value = 44 || value = 59 || value = 58 || value = 92 || value = 34 ||
  value = 47 || value = 91 || value = 93 || value = 63 || value = 61 ||
  value = 123 || value = 125 || value = SP || value = HT

def isToken (value : Nat) : Bool := isChar value && !(isControl value || isSeparator value)

def isText (value : Nat) : Bool := !isControl value || value = SP || value = HT

/-- The C library `isprint` in the "C" locale. -/
def isprint (value : Nat) : Bool := decide (32 ≤ value) && decide (value ≤ 126)

/-- The C library `isdigit`. -/
def isdigit (value : Nat) : Bool := decide (48 ≤ value) && decide (value ≤ 57)

/-- The C library `isxdigit`. -/
def isxdigit (value : Nat) : Bool :=
  isdigit value || (decide (97 ≤ value) && decide (value ≤ 102)) ||
    (decide (65 ≤ value) && decide (value ≤ 70))

/-! ## Buffer references -/

/-- Modelled from the spec: `BufferRef` is declared in `x0/BufferRef.h`, which is not
part of the sources at hand.  It is a borrow of a contiguous byte range
(offset, length) over a backing buffer. -/
structure BufferRef where
  offset : Nat
  size : Nat
deriving DecidableEq, Repr

namespace BufferRef

/-- Modelled from the spec: `BufferRef::ref(offset, size)`, the sub-range that starts
`o` bytes into this range and is `n` bytes long. -/
def ref (r : BufferRef) (o n : Nat) : BufferRef := ⟨szAdd r.offset o, n⟩

/-- Modelled from the spec: `BufferRef::ref(offset)`, the sub-range from `o` bytes into
this range up to its end. -/
def refFrom (r : BufferRef) (o : Nat) : BufferRef := ⟨szAdd r.offset o, szSub r.size o⟩

/-- Modelled from the spec: `BufferRef::shr(n)`, the in-place extend operation; the
range grows by `n` bytes at its right end. -/
def shr (r : BufferRef) (n : Nat) : BufferRef := ⟨r.offset, szAdd r.size n⟩

/-- Modelled from the spec: `BufferRef::empty()`. -/
def empty (r : BufferRef) : Bool := decide (r.size = 0)

/-- Modelled from the spec: `BufferRef::clear()`, which makes the range empty. -/
def clear (r : BufferRef) : BufferRef := ⟨r.offset, 0⟩

/-- The bytes a reference denotes in the backing buffer. -/
def bytes (buf : List Nat) (r : BufferRef) : List Nat := (buf.drop r.offset).take r.size

end BufferRef

/-- ASCII lower-casing of one byte. -/
def toLowerByte (b : Nat) : Nat := if 65 ≤ b ∧ b ≤ 90 then b + 32 else b

/-- Modelled from the spec: `iequals`, equality of two byte strings ignoring ASCII case
(declared in a header that is not part of the sources at hand). -/
def iequals (a b : List Nat) : Bool := decide (a.map toLowerByte = b.map toLowerByte)

/-- Value of a run of decimal digits, most significant first, continuing `acc`. -/
def digitsValue : Int → List Nat → Int
  | acc, [] => acc
  | acc, d :: ds => if isdigit d then digitsValue (acc * 10 + ((d : Int) - 48)) ds else acc

/-- The C++ `int` (32 bits, two's complement) that is congruent to `x` modulo 2^32: the value
an `int` holds after arithmetic whose exact result is `x`.  It is `x` itself when `x` fits
`int`, and it always lies in the range of `int`. -/
def wrapInt (x : Int) : Int := (x + 2147483648) % 4294967296 - 2147483648

/-- Modelled from the spec: `BufferRef::as<int>()`, which parses the value as a decimal
integer (declared in a header that is not part of the sources at hand).  The model
reads the leading run of decimal digits.  The call site names the result type, `int`, so
the result is the decimal value held in an `int`: the exact value when it fits `int`, and a
value in the range of `int` otherwise. -/
def asInt (v : List Nat) : Int := wrapInt (digitsValue 0 v)

/-! ## Parser record -/

inductive ParseMode
  | REQUEST | RESPONSE | MESSAGE
deriving DecidableEq, Repr

inductive State
  | SYNTAX_ERROR
  | MESSAGE_BEGIN
  | REQUEST_LINE_BEGIN
  | REQUEST_METHOD
  | REQUEST_ENTITY_BEGIN
  | REQUEST_ENTITY
  | REQUEST_PROTOCOL_BEGIN
  | REQUEST_PROTOCOL_T1
  | REQUEST_PROTOCOL_T2
  | REQUEST_PROTOCOL_P
  | REQUEST_PROTOCOL_SLASH
  | REQUEST_PROTOCOL_VERSION_MAJOR
  | REQUEST_PROTOCOL_VERSION_MINOR
  | REQUEST_LINE_LF
  | STATUS_LINE_BEGIN
  | STATUS_PROTOCOL_BEGIN
  | STATUS_PROTOCOL_T1
  | STATUS_PROTOCOL_T2
  | STATUS_PROTOCOL_P
  | STATUS_PROTOCOL_SLASH
  | STATUS_PROTOCOL_VERSION_MAJOR
  | STATUS_PROTOCOL_VERSION_MINOR
  | STATUS_CODE_BEGIN
  | STATUS_CODE
  | STATUS_MESSAGE_BEGIN
  | STATUS_MESSAGE
  | STATUS_MESSAGE_LF
  | HEADER_NAME_BEGIN
  | HEADER_NAME
  | HEADER_COLON
  | HEADER_VALUE_BEGIN
  | HEADER_VALUE
  | HEADER_VALUE_LF
  | HEADER_VALUE_END
  | HEADER_END_LF
  | LWS_BEGIN
  | LWS_LF
  | LWS_SP_HT_BEGIN
  | LWS_SP_HT
  | CONTENT_BEGIN
  | CONTENT
  | CONTENT_ENDLESS
  | CONTENT_CHUNK_SIZE_BEGIN
  | CONTENT_CHUNK_SIZE
  | CONTENT_CHUNK_LF1
  | CONTENT_CHUNK_BODY
  | CONTENT_CHUNK_LF2
  | CONTENT_CHUNK_CR3
  | CONTENT_CHUNK_LF3
deriving DecidableEq, Repr

/-- Modelled from the spec: the integer value of the enumerator `SYNTAX_ERROR`, which is
declared in `x0/http/HttpMessageProcessor.h` (not part of the sources at hand).  It is
the first state listed by `state_str`. -/
def SYNTAX_ERROR_value : Int := 0

/-- The member variables of `HttpMessageProcessor`. -/
structure HttpMessageProcessor where
  mode : ParseMode
  state : State
  lwsNext : State
  lwsNull : State
  method : BufferRef
  entity : BufferRef
  versionMajor : Int
  versionMinor : Int
  code : Int
  message : BufferRef
  name : BufferRef
  value : BufferRef
  chunked : Bool
  contentLength : Int
deriving DecidableEq, Repr

/-- The constructor `HttpMessageProcessor::HttpMessageProcessor(mode)`. -/
def HttpMessageProcessor.new (mode : ParseMode) : HttpMessageProcessor :=
  { mode := mode, state := State.MESSAGE_BEGIN, lwsNext := State.SYNTAX_ERROR, lwsNull := State.SYNTAX_ERROR, method := ⟨0, 0⟩, entity := ⟨0, 0⟩, versionMajor := 0, versionMinor := 0, code := 0, message := ⟨0, 0⟩, name := ⟨0, 0⟩, value := ⟨0, 0⟩, chunked := false, contentLength := -1 }

/-! ## Hooks -/

/-- One hook invocation together with the payload it receives. -/
inductive Event
  | onMessageBeginRequest (method entity : List Nat) (versionMajor versionMinor : Int)
  | onMessageBeginResponse (versionMajor versionMinor code : Int) (text : List Nat)
  | onMessageBegin
  | onMessageHeader (name value : List Nat)
  | onMessageHeaderEnd
  | onMessageContent (chunk : List Nat)
  | onMessageEnd
deriving DecidableEq, Repr

/-- The return values of the hooks: given the events emitted earlier in the call and the
event being delivered, whether the hook returns `true`. -/
abbrev Hooks := List Event → Event → Bool

/-- Hooks that always return `true` (the stubs of the base class). -/
def allTrue : Hooks := fun _ _ => true

/-! ## The byte loop -/

/-- The local variables of `process` together with the parser and the events emitted
so far: `i` is the read pointer (as an index into the backing buffer) and `nparsed`
is `*nparsed`. -/
structure Cfg where
  p : HttpMessageProcessor
  i : Nat
  nparsed : Nat
  trace : List Event
deriving DecidableEq, Repr

/-- How `process` left the loop. -/
inductive Exit
  | chunkEnd
  | hookFalse
  | syntaxError
deriving DecidableEq, Repr

/-- Result of one pass through the loop body: `next` is a `break` out of the switch,
`done` is a `goto done`. -/
inductive Step
  | next (c : Cfg)
  | done (c : Cfg) (why : Exit)
deriving DecidableEq, Repr

/-- The statement pair `++*nparsed; ++i;`. -/
def Cfg.advance (c : Cfg) : Cfg :=
  { c with nparsed := szAdd c.nparsed 1, i := c.i + 1 }

/-- The assignment `state_ = s`. -/
def Cfg.setState (c : Cfg) (s : State) : Cfg :=
  { c with p := { c.p with state := s } }

/-- Consume the current byte and move to state `s`. -/
def Cfg.eat (c : Cfg) (s : State) : Cfg := (c.setState s).advance

/-- The expression `chunk.ref(*nparsed - chunk.offset(), 1)`. -/
def refHere (chunk : BufferRef) (c : Cfg) : BufferRef :=
  chunk.ref (szSub c.nparsed chunk.offset) 1

/-- Invoke a hook: record the event; on `false` leave through `done`. -/
def callHook (cb : Hooks) (c : Cfg) (ev : Event) (k : Cfg → Step) : Step :=
  if cb c.trace ev then k { c with trace := c.trace ++ [ev] }
  else Step.done { c with trace := c.trace ++ [ev] } Exit.hookFalse

/-- Expect the literal byte `lit`: consume it and go to `s`, else `SYNTAX_ERROR`. -/
def expectByte (c : Cfg) (b lit : Nat) (s : State) : Step :=
  if b ≠ lit then Step.next (c.setState State.SYNTAX_ERROR) else Step.next (c.eat s)

/-- The hook call `onMessageBegin(method_, entity_, versionMajor_, versionMinor_)`. -/
def requestBegin (buf : List Nat) (c : Cfg) : Event :=
  Event.onMessageBeginRequest (c.p.method.bytes buf) (c.p.entity.bytes buf)
    c.p.versionMajor c.p.versionMinor

/-- The body of `case STATUS_CODE:` (also reached by falling through from
`STATUS_CODE_BEGIN`). -/
def statusCode (c : Cfg) (b : Nat) : Step :=
  if isdigit b then
    Step.next { c with p := { c.p with code := c.p.code * 10 + (b : Int) - 48 } }.advance
  else if b = SP then Step.next (c.eat State.STATUS_MESSAGE_BEGIN)
  else if b = CR then Step.next (c.eat State.STATUS_MESSAGE_LF)
  else Step.next (c.setState State.SYNTAX_ERROR)

/-- The body of `case CONTENT_CHUNK_SIZE:` (also reached by falling through from
`CONTENT_CHUNK_SIZE_BEGIN`). -/
def chunkSize (c : Cfg) (b : Nat) : Step :=
  if b = CR then Step.next (c.eat State.CONTENT_CHUNK_LF1)
  else if 48 ≤ b ∧ b ≤ 57 then
    Step.next { c with p := { c.p with contentLength := c.p.contentLength * 16 + (b : Int) - 48 } }.advance
  else if 97 ≤ b ∧ b ≤ 102 then
    Step.next { c with p := { c.p with contentLength := c.p.contentLength * 16 + 10 + (b : Int) - 97 } }.advance
  else if 65 ≤ b ∧ b ≤ 70 then
    Step.next { c with p := { c.p with contentLength := c.p.contentLength * 16 + 10 + (b : Int) - 65 } }.advance
  else Step.next (c.setState State.SYNTAX_ERROR)

/-- The number of bytes a body state takes from the chunk:
`std::min(static_cast<size_t>(contentLength_), chunk.size() - (*nparsed - chunk.offset()))`. -/
def bodyTake (chunk : BufferRef) (c : Cfg) : Nat :=
  min (toSize c.p.contentLength) (szSub chunk.size (szSub c.nparsed chunk.offset))

/-- The statements `contentLength_ -= chunkSize; *nparsed += chunkSize; i += chunkSize;`. -/
def Cfg.takeBody (c : Cfg) (n : Nat) : Cfg :=
  { c with p := { c.p with contentLength := c.p.contentLength - (n : Int) }, nparsed := szAdd c.nparsed n, i := c.i + n }

/-- The header side effects of `case HEADER_VALUE_END:` on the parser fields. -/
def headerEffects (buf : List Nat) (p : HttpMessageProcessor) : HttpMessageProcessor :=
  if iequals (p.name.bytes buf) (bytesOf "Content-Length") then
    { p with contentLength := asInt (p.value.bytes buf) }
  else if iequals (p.name.bytes buf) (bytesOf "Transfer-Encoding") then
    if iequals (p.value.bytes buf) (bytesOf "chunked") then { p with chunked := true } else p
  else p

/-- One pass through the body of `while (i != e) { switch (state_) ... }`, reading the
byte `*i` from the backing buffer `buf`. -/
def step (buf : List Nat) (chunk : BufferRef) (cb : Hooks) (c : Cfg) : Step :=
  let b := buf.getD c.i 0
  match c.p.state with
  | State.MESSAGE_BEGIN =>
      match c.p.mode with
      | ParseMode.REQUEST =>
          Step.next { c with p := { c.p with contentLength := -1, state := State.REQUEST_LINE_BEGIN, versionMajor := 0, versionMinor := 0 } }
      | ParseMode.RESPONSE =>
          Step.next { c with p := { c.p with contentLength := -1, state := State.STATUS_LINE_BEGIN, code := 0 } }
      | ParseMode.MESSAGE =>
          callHook cb { c with p := { c.p with contentLength := -1, state := State.HEADER_NAME_BEGIN } }
            Event.onMessageBegin Step.next
  | State.REQUEST_LINE_BEGIN =>
      if isToken b then
        Step.next { c with p := { c.p with state := State.REQUEST_METHOD, method := refHere chunk c } }.advance
      else Step.next (c.setState State.SYNTAX_ERROR)
  | State.REQUEST_METHOD =>
      if b = SP then Step.next (c.eat State.REQUEST_ENTITY_BEGIN)
      else if !isToken b then Step.next (c.setState State.SYNTAX_ERROR)
      else Step.next { c with p := { c.p with method := c.p.method.shr 1 } }.advance
  | State.REQUEST_ENTITY_BEGIN =>
      if isprint b then
        Step.next { c with p := { c.p with entity := refHere chunk c, state := State.REQUEST_ENTITY } }.advance
      else Step.next (c.setState State.SYNTAX_ERROR)
  | State.REQUEST_ENTITY =>
      if b = SP then Step.next (c.eat State.REQUEST_PROTOCOL_BEGIN)
      else if isprint b then Step.next { c with p := { c.p with entity := c.p.entity.shr 1 } }.advance
      else Step.next (c.setState State.SYNTAX_ERROR)
  | State.REQUEST_PROTOCOL_BEGIN => expectByte c b 72 State.REQUEST_PROTOCOL_T1
  | State.REQUEST_PROTOCOL_T1 => expectByte c b 84 State.REQUEST_PROTOCOL_T2
  | State.REQUEST_PROTOCOL_T2 => expectByte c b 84 State.REQUEST_PROTOCOL_P
  | State.REQUEST_PROTOCOL_P => expectByte c b 80 State.REQUEST_PROTOCOL_SLASH
  | State.REQUEST_PROTOCOL_SLASH => expectByte c b 47 State.REQUEST_PROTOCOL_VERSION_MAJOR
  | State.REQUEST_PROTOCOL_VERSION_MAJOR =>
      if b = 46 then Step.next (c.eat State.REQUEST_PROTOCOL_VERSION_MINOR)
      else if !isdigit b then Step.next (c.setState State.SYNTAX_ERROR)
      else Step.next { c with p := { c.p with versionMajor := c.p.versionMajor * 10 + (b : Int) - 48 } }.advance
  | State.REQUEST_PROTOCOL_VERSION_MINOR =>
      if b = CR then Step.next (c.eat State.REQUEST_LINE_LF)
      else if b = LF then
        callHook cb (c.eat State.HEADER_NAME_BEGIN) (requestBegin buf c) Step.next
      else if !isdigit b then Step.next (c.setState State.SYNTAX_ERROR)
      else Step.next { c with p := { c.p with versionMinor := c.p.versionMinor * 10 + (b : Int) - 48 } }.advance
  | State.REQUEST_LINE_LF =>
      if b = LF then
        callHook cb (c.eat State.HEADER_NAME_BEGIN) (requestBegin buf c) Step.next
      else Step.next (c.setState State.SYNTAX_ERROR)
  | State.STATUS_LINE_BEGIN => expectByte c b 72 State.STATUS_PROTOCOL_T1
  | State.STATUS_PROTOCOL_BEGIN => expectByte c b 72 State.STATUS_PROTOCOL_T1
  | State.STATUS_PROTOCOL_T1 => expectByte c b 84 State.STATUS_PROTOCOL_T2
  | State.STATUS_PROTOCOL_T2 => expectByte c b 84 State.STATUS_PROTOCOL_P
  | State.STATUS_PROTOCOL_P => expectByte c b 80 State.STATUS_PROTOCOL_SLASH
  | State.STATUS_PROTOCOL_SLASH => expectByte c b 47 State.STATUS_PROTOCOL_VERSION_MAJOR
  | State.STATUS_PROTOCOL_VERSION_MAJOR =>
      if b = 46 then Step.next (c.eat State.STATUS_PROTOCOL_VERSION_MINOR)
      else if !isdigit b then Step.next (c.setState State.SYNTAX_ERROR)
      else Step.next { c with p := { c.p with versionMajor := c.p.versionMajor * 10 + (b : Int) - 48 } }.advance
  | State.STATUS_PROTOCOL_VERSION_MINOR =>
      if b = SP then Step.next (c.eat State.STATUS_CODE_BEGIN)
      else if !isdigit b then Step.next (c.setState State.SYNTAX_ERROR)
      else Step.next { c with p := { c.p with versionMinor := c.p.versionMinor * 10 + (b : Int) - 48 } }.advance
  | State.STATUS_CODE_BEGIN =>
      if !isdigit b then Step.next { c with p := { c.p with code := SYNTAX_ERROR_value } }
      else statusCode (c.setState State.STATUS_CODE) b
  | State.STATUS_CODE => statusCode c b
  | State.STATUS_MESSAGE_BEGIN =>
      if isText b then
        Step.next { c with p := { c.p with state := State.STATUS_MESSAGE, message := refHere chunk c } }.advance
      else Step.next (c.setState State.SYNTAX_ERROR)
  | State.STATUS_MESSAGE =>
      if isText b && b ≠ CR && b ≠ LF then
        Step.next { c with p := { c.p with message := c.p.message.shr 1 } }.advance
      else if b = CR then Step.next (c.eat State.STATUS_MESSAGE_LF)
      else Step.next (c.setState State.SYNTAX_ERROR)
  | State.STATUS_MESSAGE_LF =>
      if b = LF then
        callHook cb (c.eat State.HEADER_NAME_BEGIN)
          (Event.onMessageBeginResponse c.p.versionMajor c.p.versionMinor c.p.code
            (c.p.message.bytes buf)) Step.next
      else Step.next (c.setState State.SYNTAX_ERROR)
  | State.HEADER_NAME_BEGIN =>
      if isToken b then
        Step.next { c with p := { c.p with name := refHere chunk c, state := State.HEADER_NAME } }.advance
      else if b = CR then Step.next (c.eat State.HEADER_END_LF)
      else if b = LF then Step.next (c.setState State.HEADER_END_LF)
      else Step.next (c.setState State.SYNTAX_ERROR)
  | State.HEADER_NAME =>
      if isToken b then Step.next { c with p := { c.p with name := c.p.name.shr 1 } }.advance
      else if b = 58 then
        Step.next { c with p := { c.p with state := State.LWS_BEGIN, lwsNext := State.HEADER_VALUE_BEGIN, lwsNull := State.HEADER_VALUE_END } }.advance
      else if b = CR then
        Step.next { c with p := { c.p with state := State.LWS_LF, lwsNext := State.HEADER_COLON, lwsNull := State.SYNTAX_ERROR } }.advance
      else Step.next (c.setState State.SYNTAX_ERROR)
  | State.HEADER_COLON =>
      if b = 58 then
        Step.next { c with p := { c.p with state := State.LWS_BEGIN, lwsNext := State.HEADER_VALUE_BEGIN, lwsNull := State.HEADER_VALUE_END } }.advance
      else Step.next (c.setState State.SYNTAX_ERROR)
  | State.LWS_BEGIN =>
      if b = CR then Step.next (c.eat State.LWS_LF)
      else if b = LF then Step.next (c.eat State.LWS_SP_HT_BEGIN)
      else if b = SP ∨ b = HT then Step.next (c.eat State.LWS_SP_HT)
      else if isprint b then Step.next (c.setState c.p.lwsNext)
      else Step.next (c.setState State.SYNTAX_ERROR)
  | State.LWS_LF =>
      if b = LF then Step.next (c.eat State.LWS_SP_HT_BEGIN)
      else Step.next (c.setState State.SYNTAX_ERROR)
  | State.LWS_SP_HT_BEGIN =>
      if b = SP ∨ b = HT then
        Step.next { c with p := { c.p with
                     value := if !c.p.value.empty then c.p.value.shr 3 else c.p.value,
                     state := State.LWS_SP_HT } }.advance
      else Step.next (c.setState c.p.lwsNull)
  | State.LWS_SP_HT =>
      if b = SP ∨ b = HT then
        Step.next { c with p := { c.p with
                     value := if !c.p.value.empty then c.p.value.shr 1 else c.p.value } }.advance
      else Step.next (c.setState c.p.lwsNext)
  | State.HEADER_VALUE_BEGIN =>
      if isText b then
        Step.next { c with p := { c.p with value := refHere chunk c, state := State.HEADER_VALUE } }.advance
      else if b = CR then Step.next (c.eat State.HEADER_VALUE_LF)
      else if b = LF then Step.next (c.eat State.HEADER_VALUE_END)
      else Step.next (c.setState State.SYNTAX_ERROR)
  | State.HEADER_VALUE =>
      if b = CR then
        Step.next { c with p := { c.p with state := State.LWS_LF, lwsNext := State.HEADER_VALUE, lwsNull := State.HEADER_VALUE_END } }.advance
      else if b = LF then
        Step.next { c with p := { c.p with state := State.LWS_SP_HT_BEGIN, lwsNext := State.HEADER_VALUE, lwsNull := State.HEADER_VALUE_END } }.advance
      else if isText b then Step.next { c with p := { c.p with value := c.p.value.shr 1 } }.advance
      else Step.next (c.setState State.SYNTAX_ERROR)
  | State.HEADER_VALUE_LF =>
      if b = LF then Step.next (c.eat State.HEADER_VALUE_END)
      else Step.next (c.setState State.SYNTAX_ERROR)
  | State.HEADER_VALUE_END =>
      let p1 := headerEffects buf c.p
      let ev := Event.onMessageHeader (p1.name.bytes buf) (p1.value.bytes buf)
      let rv := cb c.trace ev
      let c1 : Cfg := { c with p := { p1 with name := p1.name.clear, value := p1.value.clear, state := State.HEADER_NAME_BEGIN }, trace := c.trace ++ [ev] }
      if !rv then Step.done c1 Exit.hookFalse else Step.next c1
  | State.HEADER_END_LF =>
      if b = LF then
        let contentExpected : Bool :=
          decide (c.p.contentLength > 0) || c.p.chunked || decide (c.p.mode = ParseMode.MESSAGE)
        let c1 := (c.setState (if contentExpected then State.CONTENT_BEGIN else State.MESSAGE_BEGIN)).advance
        callHook cb c1 Event.onMessageHeaderEnd (fun c2 =>
          if !contentExpected then callHook cb c2 Event.onMessageEnd Step.next
          else Step.next c2)
      else Step.next (c.setState State.SYNTAX_ERROR)
  | State.CONTENT_BEGIN =>
      if c.p.chunked then Step.next (c.setState State.CONTENT_CHUNK_SIZE_BEGIN)
      else if c.p.contentLength ≥ 0 then Step.next (c.setState State.CONTENT)
      else Step.next (c.setState State.CONTENT_ENDLESS)
  | State.CONTENT_ENDLESS =>
      let r := chunk.refFrom (szSub c.nparsed chunk.offset)
      callHook cb { c with nparsed := szAdd c.nparsed r.size, i := c.i + r.size }
        (Event.onMessageContent (r.bytes buf)) Step.next
  | State.CONTENT =>
      let n := bodyTake chunk c
      let offset := szSub c.nparsed chunk.offset
      let c1 := c.takeBody n
      let ev := Event.onMessageContent ((chunk.ref offset n).bytes buf)
      let rv := cb c.trace ev
      let c2 : Cfg := { c1 with trace := c.trace ++ [ev] }
      let c3 := if c2.p.contentLength = 0 then c2.setState State.MESSAGE_BEGIN else c2
      if !rv then Step.done c3 Exit.hookFalse
      else if c3.p.state = State.MESSAGE_BEGIN then callHook cb c3 Event.onMessageEnd Step.next
      else Step.next c3
  | State.CONTENT_CHUNK_SIZE_BEGIN =>
      if !isxdigit b then Step.next (c.setState State.SYNTAX_ERROR)
      else chunkSize { c with p := { c.p with state := State.CONTENT_CHUNK_SIZE, contentLength := 0 } } b
  | State.CONTENT_CHUNK_SIZE => chunkSize c b
  | State.CONTENT_CHUNK_LF1 =>
      if b ≠ LF then Step.next (c.setState State.SYNTAX_ERROR)
      else if c.p.contentLength ≠ 0 then Step.next (c.eat State.CONTENT_CHUNK_BODY)
      else Step.next (c.eat State.CONTENT_CHUNK_CR3)
  | State.CONTENT_CHUNK_BODY =>
      if c.p.contentLength ≠ 0 then
        let n := bodyTake chunk c
        let offset := szSub c.nparsed chunk.offset
        callHook cb (c.takeBody n) (Event.onMessageContent ((chunk.ref offset n).bytes buf)) Step.next
      else if b = CR then Step.next (c.eat State.CONTENT_CHUNK_LF2)
      else Step.next c
  | State.CONTENT_CHUNK_LF2 => expectByte c b LF State.CONTENT_CHUNK_SIZE
  | State.CONTENT_CHUNK_CR3 => expectByte c b CR State.CONTENT_CHUNK_LF3
  | State.CONTENT_CHUNK_LF3 =>
      if b ≠ LF then Step.next (c.setState State.SYNTAX_ERROR)
      else callHook cb c.advance Event.onMessageEnd (fun c2 => Step.next (c2.setState State.MESSAGE_BEGIN))
  | State.SYNTAX_ERROR => Step.done c Exit.syntaxError

/-- The loop `while (i != e) ...` with `e = chunk.end()`, run for at most `fuel` passes;
`none` means that the passes were used up before the loop was left. -/
def loop (buf : List Nat) (chunk : BufferRef) (cb : Hooks) : Nat → Cfg → Option (Cfg × Exit)
  | 0, _ => none
  | fuel + 1, c =>
      if c.i = chunk.offset + chunk.size then some (c, Exit.chunkEnd)
      else
        match step buf chunk cb c with
        | Step.next c1 => loop buf chunk cb fuel c1
        | Step.done c1 why => some (c1, why)

/-- The code between the loop and the label `done:` (reached only when the loop ran to
the end of the chunk). -/
def tail (cb : Hooks) (c : Cfg) : Cfg × Exit :=
  if c.p.state = State.CONTENT_BEGIN then
    if c.p.contentLength < 0 ∧ c.p.chunked = false ∧ c.p.mode ≠ ParseMode.MESSAGE then
      if cb c.trace Event.onMessageEnd then
        ({ c with trace := c.trace ++ [Event.onMessageEnd] }.setState State.MESSAGE_BEGIN, Exit.chunkEnd)
      else ({ c with trace := c.trace ++ [Event.onMessageEnd] }, Exit.hookFalse)
    else (c, Exit.chunkEnd)
  else (c, Exit.chunkEnd)

/-- What a call of `process` leaves behind. -/
structure Result where
  parser : HttpMessageProcessor
  nparsed : Nat
  ret : Nat
  trace : List Event
  exit : Exit
  i : Nat
deriving DecidableEq, Repr

/-- The configuration on entry to the loop: `i = chunk.begin()`, and `*nparsed` is the
caller's cursor, or `chunk.offset()` when no cursor is passed. -/
def entry (p : HttpMessageProcessor) (chunk : BufferRef) (out_nparsed : Option Nat) : Cfg :=
  { p := p, i := chunk.offset, nparsed := out_nparsed.getD chunk.offset, trace := [] }

/-- The value `*nparsed - chunk.offset()` returned at `done:`. -/
def finish (chunk : BufferRef) (r : Cfg × Exit) : Result :=
  { parser := r.1.p, nparsed := r.1.nparsed, ret := szSub r.1.nparsed chunk.offset, trace := r.1.trace, exit := r.2, i := r.1.i }

/-- The method `HttpMessageProcessor::process(chunk, out_nparsed)` on the parser `p`, over
the backing buffer `buf`, with at most `fuel` passes through the loop. -/
def process (fuel : Nat) (p : HttpMessageProcessor) (buf : List Nat) (chunk : BufferRef)
    (out_nparsed : Option Nat) (cb : Hooks) : Option Result :=
  match loop buf chunk cb fuel (entry p chunk out_nparsed) with
  | none => none
  | some (c, Exit.chunkEnd) => some (finish chunk (tail cb c))
  | some (c, why) => some (finish chunk (c, why))

/-- The chunk that covers the whole backing buffer. -/
def whole (buf : List Nat) : BufferRef := ⟨0, buf.length⟩

/-! ## Auxiliary definitions for the statements -/

/-- The configuration a step result carries. -/
def Step.cfg : Step → Cfg
  | Step.next c => c
  | Step.done c _ => c

/-- The step result with the events `t` put in front of its trace. -/
def Step.prepend (t : List Event) : Step → Step
  | Step.next c => Step.next { c with trace := t ++ c.trace }
  | Step.done c w => Step.done { c with trace := t ++ c.trace } w

/-- The configuration after `n` body bytes with payload `s` were handed to
`onMessageContent`. -/
def Cfg.deliver (c : Cfg) (n : Nat) (s : List Nat) : Cfg :=
  { c.takeBody n with trace := c.trace ++ [Event.onMessageContent s] }

/-- The configuration after the last `n` body bytes of a message with payload `s` were
handed to `onMessageContent` and `onMessageEnd` was invoked. -/
def Cfg.deliverLast (c : Cfg) (n : Nat) (s : List Nat) : Cfg :=
  { (c.takeBody n).setState State.MESSAGE_BEGIN with
    trace := c.trace ++ [Event.onMessageContent s, Event.onMessageEnd] }

/-- The configuration after `n` bytes with payload `s` were handed to `onMessageContent`
in state `CONTENT_ENDLESS`. -/
def Cfg.deliverEndless (c : Cfg) (n : Nat) (s : List Nat) : Cfg :=
  { c with nparsed := szAdd c.nparsed n, i := c.i + n,
           trace := c.trace ++ [Event.onMessageContent s] }

/-- The states in which a pass hands out body bytes up to the end of the chunk. -/
def State.isBody : State → Bool
  | State.CONTENT => true
  | State.CONTENT_ENDLESS => true
  | State.CONTENT_CHUNK_BODY => true
  | _ => false

/-- Whether an event is an `onMessageContent` invocation. -/
def Event.isContent : Event → Bool
  | Event.onMessageContent _ => true
  | _ => false

/-- Feeding consecutive pieces of the backing buffer `buf` (which holds the stream): the
piece of length `len` at offset `off` is passed as the chunk `buf.ref(off, len)`, and the
in/out cursor is handed from one call to the next.  The result is the parser, the cursor
and the hook events of all calls in order. -/
def feed (fuel : Nat) (buf : List Nat) (cb : Hooks) :
    HttpMessageProcessor → Nat → Nat → List Nat → Option (HttpMessageProcessor × Nat × List Event)
  | p, _, cursor, [] => some (p, cursor, [])
  | p, off, cursor, len :: rest =>
      match process fuel p buf ⟨off, len⟩ (some cursor) cb with
      | none => none
      | some r =>
          match feed fuel buf cb r.parser (off + len) r.nparsed rest with
          | none => none
          | some (q, cur, t) => some (q, cur, r.trace ++ t)

/-- The last hook invoked returned `false`: the trace ends with an event that the hooks
refuse. -/
def HookRefused (cb : Hooks) (trace : List Event) : Prop :=
  ∃ pre ev, trace = pre ++ [ev] ∧ cb pre ev = false

/-- Re-slicing of content: `Reslices t u` says that the event sequence `t` is the sequence
`u` in which some `onMessageContent` payloads are delivered as several consecutive
non-empty slices (in order, without gap or overlap); all other events are identical. -/
inductive Reslices : List Event → List Event → Prop
  | nil : Reslices [] []
  | same (ev : Event) {t u : List Event} : Reslices t u → Reslices (ev :: t) (ev :: u)
  | split (s1 s2 : List Nat) {t u : List Event} : s1 ≠ [] → s2 ≠ [] →
      Reslices t (Event.onMessageContent s2 :: u) →
      Reslices (Event.onMessageContent s1 :: t) (Event.onMessageContent (s1 ++ s2) :: u)

/-- What holds of the parser fields between calls of `process` on a parser that started
fresh: the state `CONTENT_BEGIN` is only entered when content is expected, and the saved
continuation states of the LWS sub-machine are never `CONTENT_BEGIN`. -/
def Inv (p : HttpMessageProcessor) : Prop :=
  (p.state = State.CONTENT_BEGIN →
    (p.contentLength > 0 ∨ p.chunked = true ∨ p.mode = ParseMode.MESSAGE)) ∧
  p.lwsNext ≠ State.CONTENT_BEGIN ∧ p.lwsNull ≠ State.CONTENT_BEGIN

/-- The configuration after `n` further passes through the loop over `chunk`, as long as
the loop is still running. -/
def after (buf : List Nat) (chunk : BufferRef) (cb : Hooks) : Nat → Cfg → Option Cfg
  | 0, c => some c
  | n + 1, c =>
      if c.i = chunk.offset + chunk.size then none
      else
        match step buf chunk cb c with
        | Step.next c1 => after buf chunk cb n c1
        | Step.done _ _ => none

/-! ## Chunked transfer coding -/

/-- The value of one hexadecimal digit, in either case. -/
def hexDigit (b : Nat) : Option Nat :=
  if 48 ≤ b ∧ b ≤ 57 then some (b - 48)
  else if 97 ≤ b ∧ b ≤ 102 then some (b - 97 + 10)
  else if 65 ≤ b ∧ b ≤ 70 then some (b - 65 + 10)
  else none

/-- The value of a run of hexadecimal digits, most significant first, continuing `acc`;
`none` when a byte is not a hexadecimal digit. -/
def hexValue : Nat → List Nat → Option Nat
  | acc, [] => some acc
  | acc, b :: bs =>
      match hexDigit b with
      | some v => hexValue (acc * 16 + v) bs
      | none => none

/-- The chunked transfer coding of the chunks `cs`, each given as its size line (the
hexadecimal digits) and its data: `size CRLF data CRLF` for every chunk, then the last
chunk `0 CRLF CRLF`. -/
def chunkedBody : List (List Nat × List Nat) → List Nat
  | [] => [48, CR, LF, CR, LF]
  | (sz, d) :: rest => sz ++ [CR, LF] ++ d ++ [CR, LF] ++ chunkedBody rest

/-- Every size line is a non-empty run of hexadecimal digits that denotes the length of
its data, and no data is empty. -/
def ValidChunks (cs : List (List Nat × List Nat)) : Prop :=
  ∀ x ∈ cs, x.1 ≠ [] ∧ x.2 ≠ [] ∧ hexValue 0 x.1 = some x.2.length

instance (cs : List (List Nat × List Nat)) : Decidable (ValidChunks cs) :=
  inferInstanceAs (Decidable (∀ x ∈ cs, x.1 ≠ [] ∧ x.2 ≠ [] ∧ hexValue 0 x.1 = some x.2.length))

/-! ## Scenario inputs -/

/-- Scenario A: a simple GET request. -/
def simpleGet : List Nat := bytesOf "GET /x HTTP/1.1\r\nHost: a\r\n\r\n"

/-- Scenario C: a POST request with a body of fixed length. -/
def postHello : List Nat := bytesOf "POST /p HTTP/1.1\r\nContent-Length: 5\r\n\r\nhello"

/-- Scenario D: a response with a chunked body. -/
def chunkedHello : List Nat :=
  bytesOf "HTTP/1.1 200 OK\r\nTransfer-Encoding: chunked\r\n\r\n5\r\nhello\r\n0\r\n\r\n"

/-- The head of scenario C. -/
def postHead : List Nat := bytesOf "POST /p HTTP/1.1\r\nContent-Length: 5\r\n\r\n"

/-- The body of scenarios C and D. -/
def helloBody : List Nat := bytesOf "hello"

/-- The head of scenario D. -/
def chunkedHead : List Nat := bytesOf "HTTP/1.1 200 OK\r\nTransfer-Encoding: chunked\r\n\r\n"

/-- The chunks of scenario D: the size line `5` and the data `hello`. -/
def helloChunks : List (List Nat × List Nat) := [(bytesOf "5", helloBody)]

/-- Scenario F: a request line with a separator in the method. -/
def badMethod : List Nat := bytesOf "GE@ / HTTP/1.1\r\n"


/-! ## Hook invocations of one pass -/

/-- Whether an event is one of the three `onMessageBegin` invocations. -/
def Event.isBegin : Event → Bool
  | Event.onMessageBeginRequest _ _ _ _ => true
  | Event.onMessageBeginResponse _ _ _ _ => true
  | Event.onMessageBegin => true
  | _ => false

/-- Whether an event is an `onMessageHeader` invocation. -/
def Event.isHeader : Event → Bool
  | Event.onMessageHeader _ _ => true
  | _ => false

/-- The hook invocations of one pass through the loop body, in order.  Each entry is the
configuration at the moment the hook is invoked (parser fields, read pointer, `*nparsed`,
and the events delivered before) together with the event the hook receives.  A second hook
of the same pass is invoked only when the first one returned `true`. -/
def hookCalls (buf : List Nat) (chunk : BufferRef) (cb : Hooks) (c : Cfg) : List (Cfg × Event) :=
  let b := buf.getD c.i 0
  match c.p.state with
  | State.MESSAGE_BEGIN =>
      match c.p.mode with
      | ParseMode.MESSAGE =>
          [({ c with p := { c.p with contentLength := -1, state := State.HEADER_NAME_BEGIN } }, Event.onMessageBegin)]
      | _ => []
  | State.REQUEST_PROTOCOL_VERSION_MINOR =>
      if b = CR then []
      else if b = LF then [(c.eat State.HEADER_NAME_BEGIN, requestBegin buf c)]
      else []
  | State.REQUEST_LINE_LF =>
      if b = LF then [(c.eat State.HEADER_NAME_BEGIN, requestBegin buf c)] else []
  | State.STATUS_MESSAGE_LF =>
      if b = LF then
        [(c.eat State.HEADER_NAME_BEGIN,
          Event.onMessageBeginResponse c.p.versionMajor c.p.versionMinor c.p.code (c.p.message.bytes buf))]
      else []
  | State.HEADER_VALUE_END =>
      let p1 := headerEffects buf c.p
      [({ c with p := p1 }, Event.onMessageHeader (p1.name.bytes buf) (p1.value.bytes buf))]
  | State.HEADER_END_LF =>
      if b = LF then
        let contentExpected : Bool :=
          decide (c.p.contentLength > 0) || c.p.chunked || decide (c.p.mode = ParseMode.MESSAGE)
        let c1 := (c.setState (if contentExpected then State.CONTENT_BEGIN else State.MESSAGE_BEGIN)).advance
        (c1, Event.onMessageHeaderEnd) ::
          (if cb c1.trace Event.onMessageHeaderEnd && !contentExpected then
            [({ c1 with trace := c1.trace ++ [Event.onMessageHeaderEnd] }, Event.onMessageEnd)]
           else [])
      else []
  | State.CONTENT_ENDLESS =>
      let r := chunk.refFrom (szSub c.nparsed chunk.offset)
      [({ c with nparsed := szAdd c.nparsed r.size, i := c.i + r.size }, Event.onMessageContent (r.bytes buf))]
  | State.CONTENT =>
      let n := bodyTake chunk c
      let c1 := c.takeBody n
      let ev := Event.onMessageContent ((chunk.ref (szSub c.nparsed chunk.offset) n).bytes buf)
      (c1, ev) ::
        (if cb c.trace ev && decide (c1.p.contentLength = 0) then
          [({ c1 with trace := c.trace ++ [ev] }.setState State.MESSAGE_BEGIN, Event.onMessageEnd)]
         else [])
  | State.CONTENT_CHUNK_BODY =>
      if c.p.contentLength ≠ 0 then
        [(c.takeBody (bodyTake chunk c),
          Event.onMessageContent ((chunk.ref (szSub c.nparsed chunk.offset) (bodyTake chunk c)).bytes buf))]
      else []
  | State.CONTENT_CHUNK_LF3 =>
      if b ≠ LF then [] else [(c.advance, Event.onMessageEnd)]
  | _ => []

/-- The hook invocation of the code after the loop (the end-of-chunk tail), with the
configuration at the moment it is made. -/
def tailCalls (c : Cfg) : List (Cfg × Event) :=
  if c.p.state = State.CONTENT_BEGIN ∧ c.p.contentLength < 0 ∧ c.p.chunked = false ∧
      c.p.mode ≠ ParseMode.MESSAGE then [(c, Event.onMessageEnd)]
  else []

/-- Every hook invoked before the end of the trace `t` returned `true`, each given the
events delivered before it. -/
def AllAccepted (cb : Hooks) (t : List Event) : Prop :=
  ∀ pre ev post, t = pre ++ ev :: post → cb pre ev = true

/-- The last hook of the trace `t` returned `false`, and every hook before it returned
`true`. -/
def RefusedLast (cb : Hooks) (t : List Event) : Prop :=
  ∃ pre ev, t = pre ++ [ev] ∧ AllAccepted cb pre ∧ cb pre ev = false

/-- Hooks that refuse `onMessageHeader` and accept everything else. -/
def refuseHeader : Hooks := fun _ ev => !ev.isHeader

/-- Hooks that refuse `onMessageContent` and accept everything else. -/
def refuseContent : Hooks := fun _ ev => !ev.isContent

/-! ## Order of the callbacks -/

/-- Where a callback trace stands within a message: before `onMessageBegin`, between
`onMessageBegin` and `onMessageHeaderEnd`, or between `onMessageHeaderEnd` and
`onMessageEnd`. -/
inductive Phase
  | idle
  | headers
  | body
deriving DecidableEq, Repr

/-- The callback that may come next in each phase, and the phase it leads to. -/
def orderStep : Phase → Event → Option Phase
  | Phase.idle, Event.onMessageBeginRequest _ _ _ _ => some Phase.headers
  | Phase.idle, Event.onMessageBeginResponse _ _ _ _ => some Phase.headers
  | Phase.idle, Event.onMessageBegin => some Phase.headers
  | Phase.headers, Event.onMessageHeader _ _ => some Phase.headers
  | Phase.headers, Event.onMessageHeaderEnd => some Phase.body
  | Phase.body, Event.onMessageContent _ => some Phase.body
  | Phase.body, Event.onMessageEnd => some Phase.idle
  | _, _ => none

/-- Run a callback trace from a phase; `none` when a callback comes out of order. -/
def order : Phase → List Event → Option Phase
  | ph, [] => some ph
  | ph, ev :: t =>
      match orderStep ph ev with
      | some ph1 => order ph1 t
      | none => none

/-- The callbacks of one complete message: one `onMessageBegin`, zero or more
`onMessageHeader`, one `onMessageHeaderEnd`, zero or more `onMessageContent`, one
`onMessageEnd`. -/
def IsMessage (m : List Event) : Prop :=
  ∃ (b : Event) (hs cs : List Event), b.isBegin = true ∧ (∀ h ∈ hs, h.isHeader = true) ∧
    (∀ x ∈ cs, x.isContent = true) ∧
    m = b :: (hs ++ Event.onMessageHeaderEnd :: (cs ++ [Event.onMessageEnd]))

/-- The callbacks of a message that has been started and not finished, by phase: nothing
before `onMessageBegin`; `onMessageBegin` and headers in the headers; these,
`onMessageHeaderEnd` and contents in the body. -/
def PartialMessage : Phase → List Event → Prop
  | Phase.idle, pre => pre = []
  | Phase.headers, pre =>
      ∃ (b : Event) (hs : List Event), b.isBegin = true ∧ (∀ h ∈ hs, h.isHeader = true) ∧
        pre = b :: hs
  | Phase.body, pre =>
      ∃ (b : Event) (hs cs : List Event), b.isBegin = true ∧ (∀ h ∈ hs, h.isHeader = true) ∧
        (∀ x ∈ cs, x.isContent = true) ∧ pre = b :: (hs ++ Event.onMessageHeaderEnd :: cs)

/-- The phase of the callback trace in which the parser is in a given state. -/
def statePhase : State → Phase
  | State.HEADER_NAME_BEGIN => Phase.headers
  | State.HEADER_NAME => Phase.headers
  | State.HEADER_COLON => Phase.headers
  | State.HEADER_VALUE_BEGIN => Phase.headers
  | State.HEADER_VALUE => Phase.headers
  | State.HEADER_VALUE_LF => Phase.headers
  | State.HEADER_VALUE_END => Phase.headers
  | State.HEADER_END_LF => Phase.headers
  | State.LWS_BEGIN => Phase.headers
  | State.LWS_LF => Phase.headers
  | State.LWS_SP_HT_BEGIN => Phase.headers
  | State.LWS_SP_HT => Phase.headers
  | State.CONTENT_BEGIN => Phase.body
  | State.CONTENT => Phase.body
  | State.CONTENT_ENDLESS => Phase.body
  | State.CONTENT_CHUNK_SIZE_BEGIN => Phase.body
  | State.CONTENT_CHUNK_SIZE => Phase.body
  | State.CONTENT_CHUNK_LF1 => Phase.body
  | State.CONTENT_CHUNK_BODY => Phase.body
  | State.CONTENT_CHUNK_LF2 => Phase.body
  | State.CONTENT_CHUNK_CR3 => Phase.body
  | State.CONTENT_CHUNK_LF3 => Phase.body
  | _ => Phase.idle

/-- The parser agrees with the phase of the callback trace: unless it is in `SYNTAX_ERROR`,
its state belongs to the phase, and the saved continuation states of the LWS sub-machine
are header states (or `SYNTAX_ERROR`). -/
def Sync (p : HttpMessageProcessor) (ph : Phase) : Prop :=
  (p.state = State.SYNTAX_ERROR ∨ statePhase p.state = ph) ∧
  (p.lwsNext = State.SYNTAX_ERROR ∨ statePhase p.lwsNext = Phase.headers) ∧
  (p.lwsNull = State.SYNTAX_ERROR ∨ statePhase p.lwsNull = Phase.headers)

/-- One call of `process` in a sequence of calls: the passes allowed, the backing buffer,
the chunk and the cursor passed. -/
structure Call where
  fuel : Nat
  buf : List Nat
  chunk : BufferRef
  cursor : Option Nat
deriving DecidableEq, Repr

/-- A sequence of calls of `process` on the same parser, each with its own backing buffer,
chunk and cursor; the result is the parser after the last call and the callbacks of all
calls in order. -/
def processAll (cb : Hooks) : HttpMessageProcessor → List Call → Option (HttpMessageProcessor × List Event)
  | p, [] => some (p, [])
  | p, k :: rest =>
      match process k.fuel p k.buf k.chunk k.cursor cb with
      | none => none
      | some r =>
          match processAll cb r.parser rest with
          | none => none
          | some (q, t) => some (q, r.trace ++ t)

/-! ## Header recognition -/

/-- The decimal integer denoted by a run of decimal digits, most significant first. -/
def decimalValue (ds : List Nat) : Nat := Nat.ofDigits 10 ((ds.map fun d => d - 48).reverse)

/-! ## More scenario inputs -/

/-- Scenario E: a request with a folded header. -/
def foldedHeader : List Nat := bytesOf "GET / HTTP/1.1\r\nX: a\r\n b\r\n\r\n"

/-- A request without `Content-Length`, one with `Content-Length: 0`. -/
def getZeroLength : List Nat := bytesOf "GET / HTTP/1.1\r\nContent-Length: 0\r\n\r\n"

/-- A request with a header `X: a`. -/
def getWithHeader : List Nat := bytesOf "GET / HTTP/1.1\r\nX: a\r\n\r\n"

/-- A chunked request with an empty body, followed on the same connection by a request
with a body of fixed length. -/
def chunkedThenFixed : List Nat :=
  bytesOf "POST /a HTTP/1.1\r\nTransfer-Encoding: chunked\r\n\r\n0\r\n\r\nPOST /p HTTP/1.1\r\nContent-Length: 5\r\n\r\nhello"

/-- The simple GET of scenario A with bare LF line terminators. -/
def shortLfGet : List Nat := bytesOf "GET /x HTTP/1.1\nHost: a\n\n"

/-- An internet message (MESSAGE mode) without framing, the start of its body, and more of
its body in the same backing buffer. -/
def endlessMessage : List Nat := bytesOf "X: a\r\n\r\nbodymore"

/-! ## Request heads -/

/-- The line terminator: CR LF, or a bare LF in the short form. -/
def eol (short : Bool) : List Nat := if short then [LF] else [CR, LF]

/-- One header line of a request head: the field name, the white space after the colon and
the field value. -/
structure HeaderLine where
  name : List Nat
  ws : List Nat
  value : List Nat
deriving DecidableEq, Repr

/-- The request line without its terminator: `method SP uri SP HTTP/major.minor`. -/
def requestLine (method uri major minor : List Nat) : List Nat :=
  method ++ SP :: (uri ++ SP :: 72 :: 84 :: 84 :: 80 :: 47 :: (major ++ 46 :: minor))

/-- The header lines `name ":" ws value`, each with its terminator, followed by the empty
line. -/
def headerLines (short : Bool) : List HeaderLine → List Nat
  | [] => eol short
  | h :: hs => h.name ++ 58 :: (h.ws ++ (h.value ++ (eol short ++ headerLines short hs)))

/-- A request head: request line, header lines, empty line, with CR LF or bare LF as the
line terminator throughout. -/
def requestHead (short : Bool) (method uri major minor : List Nat) (hs : List HeaderLine) :
    List Nat :=
  requestLine method uri major minor ++ (eol short ++ headerLines short hs)

/-- The parts of a request line are well formed: the method is a token, the URI consists of
printable characters other than SP, and the version numbers are decimal digits. -/
def WellFormedRequestLine (method uri major minor : List Nat) : Prop :=
  method ≠ [] ∧ (∀ b ∈ method, isToken b = true) ∧
  uri ≠ [] ∧ (∀ b ∈ uri, isprint b = true ∧ b ≠ SP) ∧
  (∀ b ∈ major, isdigit b = true) ∧ (∀ b ∈ minor, isdigit b = true)

/-- A header line is well formed and not folded: the name is a token, the white space is SP
and HT, and the value is empty or consists of TEXT (so it contains neither CR nor LF) and
starts with a byte other than SP and HT, which is printable when it follows the colon
directly. -/
def HeaderLine.WellFormed (h : HeaderLine) : Prop :=
  h.name ≠ [] ∧ (∀ b ∈ h.name, isToken b = true) ∧
  (∀ b ∈ h.ws, b = SP ∨ b = HT) ∧
  (h.value = [] ∨ ∃ v0 vs, h.value = v0 :: vs ∧ isText v0 = true ∧ v0 ≠ SP ∧ v0 ≠ HT ∧
    (h.ws = [] → isprint v0 = true) ∧ ∀ b ∈ vs, isText b = true)

/-- The framing fields (`contentLength_`, `chunked_`) after a header line was recognised. -/
def headerFrame (f : Int × Bool) (h : HeaderLine) : Int × Bool :=
  if iequals h.name (bytesOf "Content-Length") then (asInt h.value, f.2)
  else if iequals h.name (bytesOf "Transfer-Encoding") then
    if iequals h.value (bytesOf "chunked") then (f.1, true) else f
  else f

/-- A head is body-less when its headers announce no body: after all header lines the
content length is not positive and the transfer coding is not chunked. -/
def Bodyless (hs : List HeaderLine) : Prop :=
  ¬ (hs.foldl headerFrame (-1, false)).1 > 0 ∧ (hs.foldl headerFrame (-1, false)).2 = false

/-- The callbacks of a body-less request: begin (with the version numbers as the decimal
values of their digits), one header callback per header line, header end, end. -/
def headTrace (method uri major minor : List Nat) (hs : List HeaderLine) : List Event :=
  Event.onMessageBeginRequest method uri (digitsValue 0 major) (digitsValue 0 minor) ::
    (hs.map (fun h => Event.onMessageHeader h.name h.value) ++
      [Event.onMessageHeaderEnd, Event.onMessageEnd])

/-- The parser stands at the beginning of a header line (or of the empty line) of a request,
with no value pending and the framing fields `f`. -/
def HeaderReady (p : HttpMessageProcessor) (f : Int × Bool) : Prop :=
  p.state = State.HEADER_NAME_BEGIN ∧ p.mode = ParseMode.REQUEST ∧ p.value.size = 0 ∧
  p.contentLength = f.1 ∧ p.chunked = f.2

/-- The parser `q` agrees with `p` in the mode, the name reference and the framing fields. -/
def SameHeaderFields (p q : HttpMessageProcessor) : Prop :=
  q.mode = p.mode ∧ q.name = p.name ∧ q.contentLength = p.contentLength ∧ q.chunked = p.chunked

/-! ## The error category (`http_message_category_impl`) -/

/-- Modelled from the spec: the enumeration `HttpMessageError`, declared in a header that is
not part of the sources at hand, with the values the specification gives
(`Success=0, Partial=1, Aborted=2, SyntaxError=3`). -/
inductive HttpMessageError
  | Success
  | Partial
  | Aborted
  | SyntaxError
deriving DecidableEq, Repr

/-- The conversion `static_cast<int>(ec)`. -/
def HttpMessageError.toInt : HttpMessageError → Nat
  | HttpMessageError.Success => 0
  | HttpMessageError.Partial => 1
  | HttpMessageError.Aborted => 2
  | HttpMessageError.SyntaxError => 3

/-- The method `set(ec, message)`: `codes_[static_cast<int>(ec)] = message`. -/
def setCode (codes : List String) (ec : HttpMessageError) (message : String) : List String :=
  codes.set ec.toInt message

/-- The table `codes_[32]` after `initialize_codes()`: every entry is set to `Undefined`,
then the four known codes get their names. -/
def initialize_codes : List String :=
  setCode (setCode (setCode (setCode (List.replicate 32 "Undefined")
    HttpMessageError.Success "Success") HttpMessageError.Partial "Partial")
    HttpMessageError.Aborted "Aborted") HttpMessageError.SyntaxError "Invalid Syntax"

/-- The method `message(int ec)`, which returns `codes_[ec]`; an index outside the table is
undefined behaviour and gives no result here. -/
def categoryMessage (ec : Int) : Option String :=
  if 0 ≤ ec then initialize_codes[ec.toNat]? else none

/-! ## The reverse proxy (`src/plugins/proxy.cpp`) -/

inductive ConnectResult
  | Failed
  | Established
  | InProgress
deriving DecidableEq, Repr

/-- The enumeration `ProxyConnection::State`. -/
inductive ProxyConnection.State
  | DISCONNECTED
  | ABOUT_TO_CONNECT
  | CONNECTING
  | CONNECTED
  | WRITING
  | READING
deriving DecidableEq, Repr

/-- Modelled from the spec: the values of `x0::HttpError` the proxy uses (the enumeration is
declared in a header that is not part of the sources at hand); `status code` is the value
`static_cast<x0::HttpError>(code)` of a status code of the origin. -/
inductive HttpError
  | Undefined
  | ServiceUnavailable
  | InternalServerError
  | status (code : Int)
deriving DecidableEq, Repr

/-- Modelled from the spec: the client request as the proxy uses it (the revision of
`HttpRequest` the proxy is written against is not part of the sources at hand): method and
URI, the request headers in their order, the response header list, the response status, the
number of calls of `finish()` so far, and whether request body is available. -/
structure HttpRequest where
  method : List Nat
  uri : List Nat
  requestHeaders : List (List Nat × List Nat)
  responseHeaders : List (List Nat × List Nat)
  status : HttpError
  finished : Nat
  contentAvailable : Bool
deriving DecidableEq, Repr

/-- The events an `ev::io` watcher is set to. -/
inductive IoEvents
  | NONE
  | READ
  | WRITE
deriving DecidableEq, Repr

/-- The member variables of `ProxyConnection`.  `request` says whether `request_` is not
null; the watcher and the timer are represented by what the proxy sets on them. -/
structure ProxyConnection where
  hostname : List Nat
  port : Int
  fd : Int
  request : Bool
  state : ProxyConnection.State
  ioActive : Bool
  ioEvents : IoEvents
  timerActive : Bool
  connectTimeout : Int
  readTimeout : Int
  writeTimeout : Int
  writeBuffer : List Nat
  writeOffset : Nat
  writeProgress : Nat
  writeActive : Bool
  readBuffer : List Nat
  readActive : Bool
  cloak : Bool
deriving DecidableEq, Repr

/-- A proxy connection together with what it acts on: whether the object still exists
(`alive` is false once `delete this` has run), the client request `request_` points to, and
the descriptors passed to `::close` so far, oldest first. -/
structure World where
  self : ProxyConnection
  alive : Bool
  client : HttpRequest
  closed : List Int
deriving DecidableEq, Repr

/-- Modelled from the spec: `BufferRef::rfind(ch)`, the index of the last occurrence of `ch`,
or `npos` (here `none`) when there is none. -/
def rfind : List Nat → Nat → Option Nat
  | [], _ => none
  | b :: bs, ch =>
      match rfind bs ch with
      | some k => some (k + 1)
      | none => if b = ch then some 0 else none

/-- Modelled from the spec: `BufferRef::toInt()`, the decimal value of the leading digits.
The result is an unbounded integer; the model is faithful for values that fit `int`. -/
def toInt (v : List Nat) : Int := digitsValue 0 v

/-- The origin parsing of the constructor `ProxyConnection::ProxyConnection`: the values of
`hostname_` and `port_` for an origin string (a C string, without its terminating NUL). -/
def parseOrigin (origin : List Nat) : List Nat × Int :=
  if (bytesOf "unix:").isPrefixOf origin then (origin.drop 5, 0)
  else
    match rfind origin 58 with
    | some pos => (origin.take pos, toInt (origin.drop (pos + 1)))
    | none => (origin, 80)

/-- The constructor `ProxyConnection::ProxyConnection(origin, r, cloak)`. -/
def ProxyConnection.new (origin : List Nat) (cloak : Bool) : ProxyConnection :=
  { hostname := (parseOrigin origin).1, port := (parseOrigin origin).2, fd := -1, request := true, state := ProxyConnection.State.DISCONNECTED, ioActive := false, ioEvents := IoEvents.NONE, timerActive := false, connectTimeout := 0, readTimeout := 0, writeTimeout := 0, writeBuffer := [], writeOffset := 0, writeProgress := 0, writeActive := false, readBuffer := [], readActive := false, cloak := cloak }

/-- What `connect()` opens: `openUnix(hostname_)` or `openTcp(hostname_, port_)`. -/
inductive Target
  | unix (path : List Nat)
  | tcp (host : List Nat) (port : Int)
deriving DecidableEq, Repr

/-- The choice `port_ ? openTcp(hostname_, port_, &fd_) : openUnix(hostname_, &fd_)` of
`ProxyConnection::connect`. -/
def connectTarget (pc : ProxyConnection) : Target :=
  if pc.port ≠ 0 then Target.tcp pc.hostname pc.port else Target.unix pc.hostname

/-- The results of the system calls of `openUnix`: of `::socket` and of `::connect`. -/
structure UnixCalls where
  socketFd : Int
  connectRv : Int
deriving DecidableEq, Repr

/-- The function `openUnix`: the result, the value stored in `*out_fd` (if any), and the
descriptors it closes itself. -/
def openUnix (k : UnixCalls) : ConnectResult × Option Int × List Int :=
  if k.socketFd < 0 then (ConnectResult.Failed, none, [])
  else if k.connectRv < 0 then (ConnectResult.Failed, none, [k.socketFd])
  else (ConnectResult.Established, some k.socketFd, [])

/-- One resolved address tried by `openTcp`: the result of `::socket`, the result of
`::connect`, and whether `errno` is `EINPROGRESS` after it. -/
structure Attempt where
  socketFd : Int
  connectRv : Int
  inProgress : Bool
deriving DecidableEq, Repr

/-- The loop over the resolved addresses in `openTcp`: the result, the final value of the
local `fd`, and the descriptors closed. -/
def openTcpLoop : List Attempt → Int → List Int → ConnectResult × Int × List Int
  | [], fd, cl => (ConnectResult.Failed, fd, cl)
  | a :: rest, _, cl =>
      if a.socketFd < 0 then openTcpLoop rest a.socketFd cl
      else if a.connectRv = 0 then (ConnectResult.Established, a.socketFd, cl)
      else if a.inProgress then (ConnectResult.InProgress, a.socketFd, cl)
      else openTcpLoop rest (-1) (cl ++ [a.socketFd])

/-- The function `openTcp`, given the result of `getaddrinfo` and the addresses it resolved:
the result, the value stored in `*out_fd` (if any), and the descriptors it closes itself. -/
def openTcp (gaiRv : Int) (addrs : List Attempt) : ConnectResult × Option Int × List Int :=
  if gaiRv ≠ 0 then (ConnectResult.Failed, none, [])
  else
    ((openTcpLoop addrs (-1) []).1, some (openTcpLoop addrs (-1) []).2.1,
      (openTcpLoop addrs (-1) []).2.2)

/-- What the operating system answers to a connect attempt. -/
structure Env where
  unixCalls : UnixCalls
  gaiRv : Int
  addrs : List Attempt
deriving DecidableEq, Repr

namespace ProxyConnection

/-- The method `close()`. -/
def close (w : World) : World :=
  if w.self.fd < 0 then w
  else
    { w with self := { w.self with timerActive := false, ioActive := false, fd := 0 }, closed := w.closed ++ [w.self.fd] }

/-- The destructor `~ProxyConnection()`, run by `delete this` (and by `delete self` in
`onAbort`): `close()`, then `request_->finish()` if `request_` is not null. -/
def destructor (w : World) : World :=
  if (close w).self.request then
    { close w with client := { (close w).client with finished := (close w).client.finished + 1 }, alive := false }
  else { close w with alive := false }

/-- The method `destroy(code)`; the default argument is `HttpError::Undefined`. -/
def destroy (code : HttpError) (w : World) : World :=
  let w1 := if w.self.fd ≥ 0 then close w else w
  let w2 :=
    if w1.self.request then
      { w1 with client := { w1.client with status := if code ≠ HttpError.Undefined then code else w1.client.status, finished := w1.client.finished + 1 }, self := { w1.self with request := false } }
    else w1
  destructor w2

/-- The method `startRead()`. -/
def startRead (w : World) : World :=
  match w.self.state with
  | State.DISCONNECTED => w
  | State.ABOUT_TO_CONNECT => w
  | State.CONNECTING =>
      { w with self := { w.self with state := State.CONNECTED, ioEvents := IoEvents.READ } }
  | State.CONNECTED => w
  | State.WRITING =>
      { w with self := { w.self with timerActive := w.self.timerActive || decide (w.self.readTimeout > 0), state := State.READING, ioEvents := IoEvents.READ } }
  | State.READING =>
      { w with self := { w.self with timerActive := w.self.timerActive || decide (w.self.readTimeout > 0) } }

/-- The branches of the `switch` of `startWrite()` other than `DISCONNECTED`. -/
def startWriteConnected (w : World) : World :=
  match w.self.state with
  | State.DISCONNECTED => w
  | State.ABOUT_TO_CONNECT =>
      { w with self := { w.self with timerActive := w.self.timerActive || decide (w.self.connectTimeout > 0), ioEvents := IoEvents.WRITE, ioActive := true, state := State.CONNECTING } }
  | State.CONNECTING =>
      { w with self := { w.self with timerActive := w.self.timerActive || decide (w.self.writeTimeout > 0), state := State.WRITING } }
  | State.CONNECTED =>
      { w with self := { w.self with timerActive := w.self.timerActive || decide (w.self.writeTimeout > 0), state := State.WRITING, ioEvents := IoEvents.WRITE, ioActive := true } }
  | State.WRITING => w
  | State.READING =>
      { w with self := { w.self with timerActive := w.self.timerActive || decide (w.self.writeTimeout > 0), state := State.WRITING, ioEvents := IoEvents.WRITE } }

/-- The method `connect()`.  On success it sets `state_` to `CONNECTED` or
`ABOUT_TO_CONNECT` and calls `startWrite()`, which then takes one of the branches of
`startWriteConnected`. -/
def connect (env : Env) (w : World) : Bool × World :=
  let r :=
    match connectTarget w.self with
    | Target.tcp _ _ => openTcp env.gaiRv env.addrs
    | Target.unix _ => openUnix env.unixCalls
  let w1 : World := { w with self := { w.self with fd := r.2.1.getD w.self.fd }, closed := w.closed ++ r.2.2 }
  match r.1 with
  | ConnectResult.Established =>
      (true, startWriteConnected { w1 with self := { w1.self with state := State.CONNECTED } })
  | ConnectResult.InProgress =>
      (true, startWriteConnected { w1 with self := { w1.self with state := State.ABOUT_TO_CONNECT } })
  | ConnectResult.Failed => (false, w1)

/-- The method `startWrite()`. -/
def startWrite (env : Env) (w : World) : World :=
  match w.self.state with
  | State.DISCONNECTED =>
      if !(connect env w).1 then destroy HttpError.ServiceUnavailable (connect env w).2
      else (connect env w).2
  | _ => startWriteConnected w

/-- The method `timeout(ev::timer&, int)`, whose body is `TRACE("timeout"); // TODO`. -/
def timeout (w : World) : World := w

/-- The method `onConnectComplete()`, given the result of `getsockopt` and the value of
`SO_ERROR` it stores. -/
def onConnectComplete (env : Env) (sockoptRv val : Int) (w : World) : World :=
  if sockoptRv = 0 then
    if val = 0 then startWrite env w else destroy HttpError.ServiceUnavailable w
  else destroy HttpError.ServiceUnavailable w

/-- The method `writeSome()`, given the result `rv` of `::write`.  The call
`request_->read(callback)` only registers a callback. -/
def writeSome (rv : Int) (w : World) : World :=
  if rv > 0 then
    let w1 : World := { w with self := { w.self with writeOffset := szAdd w.self.writeOffset rv.toNat, writeProgress := szAdd w.self.writeProgress rv.toNat } }
    if w1.self.writeOffset = w1.self.writeBuffer.length then
      let w2 : World := { w1 with self := { w1.self with writeOffset := 0, writeBuffer := [] } }
      if w2.client.contentAvailable then { w2 with self := { w2.self with ioActive := false } }
      else startRead w2
    else w1
  else close w

/-- The method `readSome()`, given the result `rv` of `::read`, the bytes read, whether
`errno` is `EAGAIN`, and the outcome of the call of `process` on the bytes read (that call
belongs to a revision of the parser that returns an error code and is not part of the sources
at hand: its result and its effect through the callbacks are an oracle). -/
def readSome (rv : Int) (data : List Nat) (eagain : Bool)
    (processed : World → HttpMessageError × World) (w : World) : World :=
  if rv > 0 then
    let w1 : World := { w with self := { w.self with readBuffer := w.self.readBuffer ++ data } }
    match (processed w1).1 with
    | HttpMessageError.Success => destroy HttpError.Undefined (processed w1).2
    | HttpMessageError.Partial => startRead (processed w1).2
    | _ => destroy HttpError.InternalServerError (processed w1).2
  else if rv = 0 then close w
  else if eagain then startRead w
  else close w

/-- The loop over the request headers in `start()`: a header named `Content-Transfer`,
`Expect` or `Connection` is skipped, any other is appended as name, `": "`, value, CR LF. -/
def pushRequestHeaders (buf : List Nat) : List (List Nat × List Nat) → List Nat
  | [] => buf
  | h :: hs =>
      if iequals h.1 (bytesOf "Content-Transfer") || iequals h.1 (bytesOf "Expect") ||
          iequals h.1 (bytesOf "Connection") then
        pushRequestHeaders buf hs
      else pushRequestHeaders ((((buf ++ h.1) ++ bytesOf ": ") ++ h.2) ++ bytesOf "\r\n") hs

/-- The part of `start()` before the call of `startWrite()`: the request line, the request
headers and the terminator are appended to `writeBuffer_`. -/
def serialize (w : World) : World :=
  { w with self := { w.self with writeBuffer := pushRequestHeaders ((((w.self.writeBuffer ++ w.client.method) ++ [32]) ++ w.client.uri) ++ bytesOf " HTTP/1.1\r\n") w.client.requestHeaders ++ bytesOf "\r\n" } }

/-- The method `start()`. -/
def start (env : Env) (w : World) : World := startWrite env (serialize w)

/-- The function `validateResponseHeader(name)`. -/
def validateResponseHeader (name : List Nat) : Bool :=
  if iequals name (bytesOf "Connection") then false
  else if iequals name (bytesOf "Transfer-Encoding") then false
  else true

/-- The method `messageHeader(name, value)`. -/
def messageHeader (name value : List Nat) (w : World) : World :=
  if !validateResponseHeader name then w
  else if w.self.cloak && iequals name (bytesOf "Server") then w
  else { w with client := { w.client with responseHeaders := w.client.responseHeaders ++ [(name, value)] } }

end ProxyConnection

/-- The header lines `start()` writes for a list of request headers. -/
def forwardedRequestHeader (h : List Nat × List Nat) : Bool :=
  !(iequals h.1 (bytesOf "Content-Transfer") || iequals h.1 (bytesOf "Expect") ||
    iequals h.1 (bytesOf "Connection"))

/-- Whether a response header is one the claim lets through: its name is neither
`Connection` nor `Transfer-Encoding`, nor `Server` while cloaking is on. -/
def forwardedResponseHeader (cloak : Bool) (h : List Nat × List Nat) : Bool :=
  !(iequals h.1 (bytesOf "Connection") || iequals h.1 (bytesOf "Transfer-Encoding")) &&
    !(cloak && iequals h.1 (bytesOf "Server"))

/-- A proxy connection in the state `s` with the origin descriptor `fd`, for the scenarios. -/
def proxyIn (s : ProxyConnection.State) (fd : Int) : World :=
  { self := { ProxyConnection.new (bytesOf "localhost:3000") true with state := s, fd := fd, ioActive := true }, alive := true, client := { method := bytesOf "GET", uri := bytesOf "/", requestHeaders := [], responseHeaders := [], status := HttpError.Undefined, finished := 0, contentAvailable := false }, closed := [] }

/-! ## Status lines and more scenario inputs -/

/-- A status line `HTTP/major.minor SP code [SP reason] CR LF`; an empty reason stands for a
status line without reason phrase (and without the SP before it). -/
def statusLine (major minor code reason : List Nat) : List Nat :=
  72 :: 84 :: 84 :: 80 :: 47 :: (major ++ 46 :: (minor ++ SP :: (code ++
    (match reason with
     | [] => [CR, LF]
     | r :: rs => SP :: r :: (rs ++ [CR, LF])))))

/-- A status line whose status code starts with a letter. -/
def badStatusStart : List Nat := bytesOf "HTTP/1.1 X00 OK\r\n"

/-- A status line with a status code of two digits. -/
def shortStatusCode : List Nat := bytesOf "HTTP/1.1 20 OK\r\n"

/-- A status line with a status code of four digits. -/
def longStatusCode : List Nat := bytesOf "HTTP/1.1 2000 OK\r\n"

/-- A request preceded by a byte that cannot start a request line. -/
def atGet : List Nat := bytesOf "@GET / HTTP/1.1\r\n\r\n"

/-! ## More of the reverse proxy -/

/-- The method `isClosed()`: `fd_ < 0`. -/
def ProxyConnection.isClosed (pc : ProxyConnection) : Bool := decide (pc.fd < 0)

/-- A request whose header `X` is folded with bare LF line terminators. -/
def lfFold : List Nat := bytesOf "GET / HTTP/1.1\nX: a\n b\n\n"

/-- Two responses without a body, one after the other. -/
def twoResponses : List Nat :=
  bytesOf "HTTP/1.1 204 No Content\r\n\r\nHTTP/1.1 204 No Content\r\n\r\n"

/-- A chunked response whose chunk data is followed by a byte other than CR. -/
def chunkWithoutCr : List Nat :=
  bytesOf "HTTP/1.1 200 OK\r\nTransfer-Encoding: chunked\r\n\r\n5\r\nhelloX"

/-- A request that ends right after the CR LF of a header line with a value. -/
def openHeader : List Nat := bytesOf "GET / HTTP/1.1\r\nHost: a\r\n"

/-- A request that ends right after the CR LF of a header line whose value is empty after
white space. -/
def openEmptyHeader : List Nat := bytesOf "GET / HTTP/1.1\r\nHost: \r\n"

/-! ## Counting body bytes -/

/-- The number of bytes handed to `onMessageContent` by the events of a trace. -/
def delivered : List Event → Nat
  | [] => 0
  | Event.onMessageContent s :: t => s.length + delivered t
  | _ :: t => delivered t

/-- The states in which `contentLength_` holds a byte count of the body: the fixed-length
body state and the states of a chunk between its size line and the line end after its data. -/
def State.isCounting : State → Bool
  | State.CONTENT => true
  | State.CONTENT_CHUNK_SIZE => true
  | State.CONTENT_CHUNK_LF1 => true
  | State.CONTENT_CHUNK_BODY => true
  | State.CONTENT_CHUNK_LF2 => true
  | _ => false

/-- What holds of `contentLength_` on a parser that started fresh: it is not negative in the
counting states, and the saved continuation states of the LWS sub-machine are not counting
states. -/
def Counted (p : HttpMessageProcessor) : Prop :=
  (p.state.isCounting = true → 0 ≤ p.contentLength) ∧
  p.lwsNext.isCounting = false ∧ p.lwsNull.isCounting = false

/-- The configuration is well placed in the chunk: the cursor follows the read pointer, the
read pointer lies in the chunk, and the chunk lies in the backing buffer. -/
def Cfg.Placed (buf : List Nat) (chunk : BufferRef) (c : Cfg) : Prop :=
  c.nparsed = c.i ∧ chunk.offset ≤ c.i ∧ c.i ≤ chunk.offset + chunk.size ∧
  chunk.offset + chunk.size ≤ buf.length ∧ buf.length < SIZE_MOD

/-! ## Heads with a body, and heads that are not complete -/

/-- The header lines `name ":" ws value`, each with its terminator, without the empty line
that ends the head. -/
def headerBlock (short : Bool) : List HeaderLine → List Nat
  | [] => []
  | h :: hs => h.name ++ 58 :: (h.ws ++ (h.value ++ (eol short ++ headerBlock short hs)))

/-- Whether the framing fields announce a body in mode `mode` (`contentExpected` of
`case HEADER_END_LF`). -/
def contentExpected (mode : ParseMode) (f : Int × Bool) : Bool :=
  decide (f.1 > 0) || f.2 || decide (mode = ParseMode.MESSAGE)

/-- The header line `name ": " value` that `ProxyConnection::start` writes for a request
header. -/
def wireHeader (h : List Nat × List Nat) : HeaderLine := ⟨h.1, [SP], h.2⟩

/-- The state at the end of a header line `name ":" ws value CR LF` when no byte follows. -/
def HeaderLine.openState (h : HeaderLine) : State :=
  if h.value = [] ∧ h.ws ≠ [] then State.HEADER_VALUE_END else State.LWS_SP_HT_BEGIN

/-- A request head that ends right after the CR LF of the header line `h`: request line,
the header lines `hs`, the header line `h`, and no empty line. -/
def openHead (method uri major minor : List Nat) (hs : List HeaderLine) (h : HeaderLine) :
    List Nat :=
  requestLine method uri major minor ++ (eol false ++ headerBlock false (hs ++ [h]))

/-! ## Runs of a proxy connection -/

/-- The method `onRequestChunk(chunk)`: the chunk is appended to `writeBuffer_`, the watcher
is started and `startWrite()` is called. -/
def ProxyConnection.onRequestChunk (env : Env) (chunk : List Nat) (w : World) : World :=
  ProxyConnection.startWrite env { w with self := { w.self with writeBuffer := w.self.writeBuffer ++ chunk, ioActive := true } }

/-- One call of a method of `ProxyConnection`, with what the operating system and the parser
answer during the call. -/
inductive ProxyCall
  | start (env : Env)
  | onRequestChunk (env : Env) (chunk : List Nat)
  | startWrite (env : Env)
  | startRead
  | onConnectComplete (env : Env) (sockoptRv val : Int)
  | writeSome (rv : Int)
  | readSome (rv : Int) (data : List Nat) (eagain : Bool)
      (processed : World → HttpMessageError × World)
  | messageHeader (name value : List Nat)
  | close
  | destroy (code : HttpError)
  | onAbort

/-- The effect of one call. -/
def ProxyCall.run : ProxyCall → World → World
  | ProxyCall.start env, w => ProxyConnection.start env w
  | ProxyCall.onRequestChunk env chunk, w => ProxyConnection.onRequestChunk env chunk w
  | ProxyCall.startWrite env, w => ProxyConnection.startWrite env w
  | ProxyCall.startRead, w => ProxyConnection.startRead w
  | ProxyCall.onConnectComplete env sockoptRv val, w =>
      ProxyConnection.onConnectComplete env sockoptRv val w
  | ProxyCall.writeSome rv, w => ProxyConnection.writeSome rv w
  | ProxyCall.readSome rv data eagain processed, w =>
      ProxyConnection.readSome rv data eagain processed w
  | ProxyCall.messageHeader name value, w => ProxyConnection.messageHeader name value w
  | ProxyCall.close, w => ProxyConnection.close w
  | ProxyCall.destroy code, w => ProxyConnection.destroy code w
  | ProxyCall.onAbort, w => ProxyConnection.destructor w

/-- The effect of a sequence of calls, first to last. -/
def runCalls : List ProxyCall → World → World
  | [], w => w
  | k :: ks, w => runCalls ks (k.run w)

/-- What decides whether a timer runs: whether `timer_` is active, and `connectTimeout_`,
`readTimeout_` and `writeTimeout_`. -/
def timerFields (pc : ProxyConnection) : Bool × Int × Int × Int :=
  (pc.timerActive, pc.connectTimeout, pc.readTimeout, pc.writeTimeout)

/-- The call of `process` inside `readSome()` (an oracle in the model) leaves the timer and
the timeouts as they are: the parser and its callbacks `messageBegin`, `messageHeader`,
`messageContent` and `messageEnd` do not touch them. -/
def ProxyCall.KeepsTimer : ProxyCall → Prop
  | ProxyCall.readSome _ _ _ processed =>
      ∀ v : World, timerFields (processed v).2.self = timerFields v.self
  | _ => True

/-- Every call of the sequence keeps the timer. -/
def KeepTimers : List ProxyCall → Prop
  | [] => True
  | k :: ks => k.KeepsTimer ∧ KeepTimers ks

/-- An origin that accepts the connection at once on the descriptor 7. -/
def originUp : Env := ⟨⟨-1, 0⟩, 0, [⟨7, 0, false⟩]⟩

/-- The connection the constructor builds for the origin `localhost:3000` and a client request
`GET /` without headers. -/
def freshProxy : World :=
  { self := ProxyConnection.new (bytesOf "localhost:3000") true, alive := true, client := { method := bytesOf "GET", uri := bytesOf "/", requestHeaders := [], responseHeaders := [], status := HttpError.Undefined, finished := 0, contentAvailable := false }, closed := [] }

/-- The connection after `start()`: connected, with the request to be written. -/
def writingProxy : World := ProxyConnection.start originUp freshProxy

/-- The connection after the 18 bytes of the request were written in one `writeSome()`. -/
def readingProxy : World := ProxyConnection.writeSome 18 writingProxy
/-! ## Arithmetic of `size_t` -/

theorem szAdd_lt (a b : Nat) : szAdd a b < SIZE_MOD := by
  unfold szAdd SIZE_MOD; omega

theorem szAdd_zero (a : Nat) (h : a < SIZE_MOD) : szAdd a 0 = a := by
  unfold szAdd SIZE_MOD at *; omega

theorem szAdd_small (a b : Nat) (h : a + b < SIZE_MOD) : szAdd a b = a + b := by
  unfold szAdd SIZE_MOD at *; omega

theorem szSub_small (a b : Nat) (hb : b ≤ a) (h : a < SIZE_MOD) : szSub a b = a - b := by
  unfold szSub SIZE_MOD at *; omega

theorem szSub_szAdd (a d : Nat) (hd : d < SIZE_MOD) : szSub (szAdd a d) a = d := by
  unfold szSub szAdd SIZE_MOD at *; omega

theorem toSize_lt (v : Int) : toSize v < SIZE_MOD := by
  unfold toSize SIZE_MOD; omega

theorem toSize_of_nonneg (v : Int) (h0 : 0 ≤ v) (h : v < (SIZE_MOD : Int)) :
    toSize v = v.toNat := by
  unfold toSize SIZE_MOD at *; omega

/-! ## The chunk-dependent expressions when `*nparsed` is in step with `i` -/

theorem refHere_eq (chunk : BufferRef) (c : Cfg) (hnp : c.nparsed = c.i)
    (_ha : chunk.offset ≤ c.i) (hM : c.i < SIZE_MOD) : refHere chunk c = ⟨c.i, 1⟩ := by
  unfold refHere BufferRef.ref szSub szAdd SIZE_MOD at *
  rw [hnp]; congr 1; omega

theorem chunk_ref_eq (chunk : BufferRef) (c : Cfg) (hnp : c.nparsed = c.i)
    (_ha : chunk.offset ≤ c.i) (hM : c.i < SIZE_MOD) (m : Nat) :
    chunk.ref (szSub c.nparsed chunk.offset) m = ⟨c.i, m⟩ := by
  unfold BufferRef.ref szSub szAdd SIZE_MOD at *
  rw [hnp]; congr 1; omega

theorem chunk_left_eq (chunk : BufferRef) (c : Cfg) (hnp : c.nparsed = c.i)
    (_ha : chunk.offset ≤ c.i) (he : c.i ≤ chunk.offset + chunk.size)
    (hM : chunk.offset + chunk.size < SIZE_MOD) :
    szSub chunk.size (szSub c.nparsed chunk.offset) = chunk.offset + chunk.size - c.i := by
  unfold szSub SIZE_MOD at *
  rw [hnp]; omega

theorem bodyTake_eq (chunk : BufferRef) (c : Cfg) (hnp : c.nparsed = c.i)
    (ha : chunk.offset ≤ c.i) (he : c.i ≤ chunk.offset + chunk.size)
    (hM : chunk.offset + chunk.size < SIZE_MOD) :
    bodyTake chunk c = min (toSize c.p.contentLength) (chunk.offset + chunk.size - c.i) := by
  unfold bodyTake
  rw [chunk_left_eq chunk c hnp ha he hM]

theorem chunk_refFrom_eq (chunk : BufferRef) (c : Cfg) (hnp : c.nparsed = c.i)
    (ha : chunk.offset ≤ c.i) (he : c.i ≤ chunk.offset + chunk.size)
    (hM : chunk.offset + chunk.size < SIZE_MOD) :
    chunk.refFrom (szSub c.nparsed chunk.offset) = ⟨c.i, chunk.offset + chunk.size - c.i⟩ := by
  have h1 := chunk_left_eq chunk c hnp ha he hM
  have h2 := chunk_ref_eq chunk c hnp ha (by omega) 0
  unfold BufferRef.ref at h2
  unfold BufferRef.refFrom
  rw [h1]
  injection h2 with h2 _
  rw [h2]

/-! ## Facts about one pass through the loop -/

set_option maxHeartbeats 4000000 in
theorem step_lockstep (buf : List Nat) (chunk : BufferRef) (cb : Hooks) (c : Cfg)
    (h : c.nparsed < SIZE_MOD) :
    c.i ≤ (step buf chunk cb c).cfg.i ∧
    (step buf chunk cb c).cfg.nparsed = szAdd c.nparsed ((step buf chunk cb c).cfg.i - c.i) := by
  have h0 := szAdd_zero _ h
  cases hs : c.p.state <;>
    simp only [step, hs, expectByte, statusCode, chunkSize, callHook, Cfg.eat, Cfg.advance,
      Cfg.setState, Cfg.takeBody] <;>
    (try split) <;> (try split_ifs) <;> simp [Step.cfg, h0]

set_option maxHeartbeats 4000000 in
theorem step_bound (buf : List Nat) (chunk : BufferRef) (cb : Hooks) (c : Cfg)
    (hnp : c.nparsed = c.i) (ha : chunk.offset ≤ c.i) (he : c.i < chunk.offset + chunk.size)
    (hM : chunk.offset + chunk.size < SIZE_MOD) :
    (step buf chunk cb c).cfg.i ≤ chunk.offset + chunk.size := by
  have h1 := bodyTake_eq chunk c hnp ha (by omega) hM
  have h2 := chunk_refFrom_eq chunk c hnp ha (by omega) hM
  have h3 : min (toSize c.p.contentLength) (chunk.offset + chunk.size - c.i)
      ≤ chunk.offset + chunk.size - c.i := Nat.min_le_right _ _
  cases hs : c.p.state <;>
    simp only [step, hs, expectByte, statusCode, chunkSize, callHook, Cfg.eat, Cfg.advance,
      Cfg.setState, Cfg.takeBody, h1, h2] <;>
    (try split) <;> (try split_ifs) <;> simp [Step.cfg] <;> omega

theorem step_chunk_eq (buf : List Nat) (X Y : BufferRef) (cb : Hooks) (c : Cfg)
    (hnp : c.nparsed = c.i) (hX : X.offset ≤ c.i) (hY : Y.offset ≤ c.i)
    (hend : X.offset + X.size = Y.offset + Y.size) (he : c.i ≤ X.offset + X.size)
    (hM : X.offset + X.size < SIZE_MOD) :
    step buf X cb c = step buf Y cb c := by
  have h1 := refHere_eq X c hnp hX (by omega)
  have h2 := refHere_eq Y c hnp hY (by omega)
  have h3 := bodyTake_eq X c hnp hX he hM
  have h4 := bodyTake_eq Y c hnp hY (by omega) (by omega)
  have h5 := chunk_refFrom_eq X c hnp hX he hM
  have h6 := chunk_refFrom_eq Y c hnp hY (by omega) (by omega)
  have h7 := chunk_ref_eq X c hnp hX (by omega)
  have h8 := chunk_ref_eq Y c hnp hY (by omega)
  simp only [step, h1, h2, h3, h4, h5, h6, h7, h8, hend]

/-! ## How a pass can leave the loop -/

theorem hookRefused_snoc (cb : Hooks) (t : List Event) (ev : Event) (h : ¬ cb t ev = true) :
    HookRefused cb (t ++ [ev]) :=
  ⟨t, ev, rfl, by simpa using h⟩

theorem not_hookRefused_allTrue (t : List Event) : ¬ HookRefused allTrue t := by
  rintro ⟨pre, ev, _, h⟩
  simp [allTrue] at h

set_option maxHeartbeats 4000000 in
theorem step_done (buf : List Nat) (chunk : BufferRef) (cb : Hooks) (c c1 : Cfg) (w : Exit)
    (h : step buf chunk cb c = Step.done c1 w) :
    (w = Exit.syntaxError ∧ c.p.state = State.SYNTAX_ERROR ∧ c1 = c) ∨
    (w = Exit.hookFalse ∧ HookRefused cb c1.trace ∧ c1.p.state ≠ State.SYNTAX_ERROR) := by
  cases hs : c.p.state <;>
    simp only [step, hs, expectByte, statusCode, chunkSize, callHook, Cfg.eat, Cfg.advance,
      Cfg.setState, Cfg.takeBody] at h <;>
    (try split at h) <;> (try split_ifs at h) <;> (try cases h)
  all_goals first
    | exact Or.inl ⟨rfl, hs, rfl⟩
    | (refine Or.inr ⟨rfl, hookRefused_snoc _ _ _ (by assumption), ?_⟩; simp [hs])
    | (refine Or.inr ⟨rfl, hookRefused_snoc _ _ _ (by simp_all), ?_⟩; simp [hs])
    | exact Or.inl ⟨rfl, rfl, rfl⟩

theorem step_done_allTrue (buf : List Nat) (chunk : BufferRef) (c c1 : Cfg) (w : Exit)
    (h : step buf chunk allTrue c = Step.done c1 w) :
    w = Exit.syntaxError ∧ c.p.state = State.SYNTAX_ERROR ∧ c1 = c := by
  rcases step_done buf chunk allTrue c c1 w h with h1 | ⟨_, h2, _⟩
  · exact h1
  · exact absurd h2 (not_hookRefused_allTrue _)

/-! ## The loop -/

theorem loop_mono (buf : List Nat) (chunk : BufferRef) (cb : Hooks) (g : Nat) :
    ∀ (f : Nat) (c : Cfg) (r : Cfg × Exit),
      loop buf chunk cb f c = some r → loop buf chunk cb (f + g) c = some r := by
  intro f
  induction f with
  | zero => intro c r h; simp [loop] at h
  | succ f ih =>
    intro c r h
    rw [Nat.add_right_comm]
    simp only [loop] at h ⊢
    split_ifs at h ⊢ with hi
    · exact h
    · cases hst : step buf chunk cb c with
      | next c1 => rw [hst] at h; exact ih c1 r h
      | done c1 w => rw [hst] at h; exact h

theorem loop_mono_le (buf : List Nat) (chunk : BufferRef) (cb : Hooks) (f g : Nat) (c : Cfg)
    (r : Cfg × Exit) (hfg : f ≤ g) (h : loop buf chunk cb f c = some r) :
    loop buf chunk cb g c = some r := by
  obtain ⟨d, rfl⟩ := Nat.exists_eq_add_of_le hfg
  exact loop_mono buf chunk cb d f c r h

theorem loop_next (buf : List Nat) (chunk : BufferRef) (cb : Hooks) (f : Nat) (c c1 : Cfg)
    (hi : c.i ≠ chunk.offset + chunk.size) (hst : step buf chunk cb c = Step.next c1) :
    loop buf chunk cb (f + 1) c = loop buf chunk cb f c1 := by
  simp only [loop, if_neg hi, hst]

theorem loop_end (buf : List Nat) (chunk : BufferRef) (cb : Hooks) (f : Nat) (c : Cfg)
    (hi : c.i = chunk.offset + chunk.size) :
    loop buf chunk cb (f + 1) c = some (c, Exit.chunkEnd) := by
  simp only [loop, if_pos hi]

theorem step_lock (buf : List Nat) (chunk : BufferRef) (cb : Hooks) (c : Cfg)
    (hnp : c.nparsed = c.i) (ha : chunk.offset ≤ c.i) (he : c.i < chunk.offset + chunk.size)
    (hM : chunk.offset + chunk.size < SIZE_MOD) :
    (step buf chunk cb c).cfg.nparsed = (step buf chunk cb c).cfg.i ∧
    c.i ≤ (step buf chunk cb c).cfg.i ∧
    (step buf chunk cb c).cfg.i ≤ chunk.offset + chunk.size := by
  have h1 := step_lockstep buf chunk cb c (by omega)
  have h2 := step_bound buf chunk cb c hnp ha he hM
  refine ⟨?_, h1.1, h2⟩
  rw [h1.2, hnp, szAdd_small _ _ (by omega)]
  omega

theorem loop_lock (buf : List Nat) (chunk : BufferRef) (cb : Hooks)
    (hM : chunk.offset + chunk.size < SIZE_MOD) :
    ∀ (f : Nat) (c : Cfg) (r : Cfg) (w : Exit), c.nparsed = c.i → chunk.offset ≤ c.i →
      c.i ≤ chunk.offset + chunk.size → loop buf chunk cb f c = some (r, w) →
      r.nparsed = r.i ∧ c.i ≤ r.i ∧ r.i ≤ chunk.offset + chunk.size ∧
        (w = Exit.chunkEnd → r.i = chunk.offset + chunk.size) := by
  intro f
  induction f with
  | zero => intro c r w _ _ _ h; simp [loop] at h
  | succ f ih =>
    intro c r w hnp ha he h
    simp only [loop] at h
    split_ifs at h with hi
    · cases h; exact ⟨hnp, le_refl _, he, fun _ => hi⟩
    · have hl := step_lock buf chunk cb c hnp ha (by omega) hM
      cases hst : step buf chunk cb c with
      | next c1 =>
        rw [hst] at h hl
        simp only [Step.cfg] at hl
        have := ih c1 r w hl.1 (by omega) hl.2.2 h
        exact ⟨this.1, by omega, this.2.2.1, this.2.2.2⟩
      | done c1 w1 =>
        rw [hst] at h hl
        simp only [Step.cfg] at hl
        cases h
        refine ⟨hl.1, hl.2.1, hl.2.2, ?_⟩
        intro hw
        rcases step_done buf chunk cb c r w hst with ⟨h1, _⟩ | ⟨h1, _⟩ <;> rw [hw] at h1 <;> cases h1

/-- Whatever the cursor is on entry, the loop moves it by as many bytes as it moves the read
pointer (in `size_t` arithmetic), and the read pointer never moves back. -/
theorem loop_lockstep (buf : List Nat) (chunk : BufferRef) (cb : Hooks) :
    ∀ (f : Nat) (c : Cfg) (r : Cfg) (w : Exit), c.nparsed < SIZE_MOD →
      loop buf chunk cb f c = some (r, w) →
      c.i ≤ r.i ∧ r.nparsed = szAdd c.nparsed (r.i - c.i) := by
  intro f
  induction f with
  | zero => intro c r w _ h; simp [loop] at h
  | succ f ih =>
    intro c r w hlt h
    simp only [loop] at h
    split_ifs at h with hi
    · cases h
      exact ⟨le_refl _, by rw [Nat.sub_self, szAdd_zero _ hlt]⟩
    · have hl := step_lockstep buf chunk cb c hlt
      cases hst : step buf chunk cb c with
      | next c1 =>
        rw [hst] at h hl
        simp only [Step.cfg] at hl
        have h2 := ih c1 r w (by rw [hl.2]; exact szAdd_lt _ _) h
        refine ⟨by omega, ?_⟩
        rw [h2.2, hl.2]
        have h3 := h2.1
        have h4 := hl.1
        unfold szAdd SIZE_MOD
        omega
      | done c1 w1 =>
        rw [hst] at h hl
        simp only [Step.cfg] at hl
        cases h
        exact hl

/-! ## The invariant between calls -/

set_option maxHeartbeats 4000000 in
theorem step_inv (buf : List Nat) (chunk : BufferRef) (cb : Hooks) (c : Cfg) (h : Inv c.p) :
    Inv (step buf chunk cb c).cfg.p ∧ (step buf chunk cb c).cfg.p.mode = c.p.mode := by
  obtain ⟨h1, h2, h3⟩ := h
  cases hs : c.p.state <;>
    simp only [step, hs, expectByte, statusCode, chunkSize, callHook, Cfg.eat, Cfg.advance,
      Cfg.setState, Cfg.takeBody, headerEffects] <;>
    (try split) <;> (try split_ifs) <;> simp_all [Step.cfg, Inv] <;> tauto

/-! ## One call of `process` -/

theorem loop_exit (buf : List Nat) (chunk : BufferRef) (cb : Hooks) :
    ∀ (f : Nat) (c r : Cfg) (w : Exit), loop buf chunk cb f c = some (r, w) →
      (w = Exit.chunkEnd ∧ r.i = chunk.offset + chunk.size) ∨
      (w = Exit.syntaxError ∧ r.p.state = State.SYNTAX_ERROR) ∨
      (w = Exit.hookFalse ∧ HookRefused cb r.trace ∧ r.p.state ≠ State.SYNTAX_ERROR) := by
  intro f
  induction f with
  | zero => intro c r w h; simp [loop] at h
  | succ f ih =>
    intro c r w h
    simp only [loop] at h
    split_ifs at h with hi
    · cases h; exact Or.inl ⟨rfl, hi⟩
    · cases hst : step buf chunk cb c with
      | next c1 => rw [hst] at h; exact ih c1 r w h
      | done c1 w1 =>
        rw [hst] at h
        cases h
        rcases step_done buf chunk cb c r w hst with ⟨h1, h2, h3⟩ | h1
        · subst h3; exact Or.inr (Or.inl ⟨h1, h2⟩)
        · exact Or.inr (Or.inr h1)

theorem tail_cases (cb : Hooks) (c : Cfg) :
    (tail cb c).1.i = c.i ∧ (tail cb c).1.nparsed = c.nparsed ∧
    ((tail cb c).2 = Exit.chunkEnd ∨ ((tail cb c).2 = Exit.hookFalse ∧
      HookRefused cb (tail cb c).1.trace)) ∧
    (c.p.state ≠ State.SYNTAX_ERROR → (tail cb c).1.p.state ≠ State.SYNTAX_ERROR) := by
  unfold tail
  split_ifs with h1 h2 h3
  · simp [Cfg.setState]
  · refine ⟨rfl, rfl, Or.inr ⟨rfl, hookRefused_snoc _ _ _ h3⟩, fun h => h⟩
  · simp
  · simp

theorem tail_inv (cb : Hooks) (c : Cfg) (h : Inv c.p) : tail cb c = (c, Exit.chunkEnd) := by
  unfold tail
  split_ifs with h1 h2 h3
  · exfalso; rcases h.1 h1 with h4 | h4 | h4 <;> first | omega | simp_all
  · exfalso; rcases h.1 h1 with h4 | h4 | h4 <;> first | omega | simp_all
  · rfl
  · rfl

theorem process_eq (fuel : Nat) (p : HttpMessageProcessor) (buf : List Nat) (chunk : BufferRef)
    (cur : Option Nat) (cb : Hooks) (r : Result)
    (h : process fuel p buf chunk cur cb = some r) :
    ∃ c w, loop buf chunk cb fuel (entry p chunk cur) = some (c, w) ∧
      ((w = Exit.chunkEnd ∧ r = finish chunk (tail cb c)) ∨
       (w ≠ Exit.chunkEnd ∧ r = finish chunk (c, w))) := by
  unfold process at h
  cases hl : loop buf chunk cb fuel (entry p chunk cur) with
  | none => rw [hl] at h; simp at h
  | some cw =>
    obtain ⟨c, w⟩ := cw
    rw [hl] at h
    refine ⟨c, w, rfl, ?_⟩
    cases w <;> simp at h <;> simp [h]

theorem process_of_loop_end (fuel : Nat) (p : HttpMessageProcessor) (buf : List Nat)
    (chunk : BufferRef) (cur : Option Nat) (cb : Hooks) (c : Cfg)
    (h : loop buf chunk cb fuel (entry p chunk cur) = some (c, Exit.chunkEnd)) :
    process fuel p buf chunk cur cb = some (finish chunk (tail cb c)) := by
  unfold process; rw [h]

theorem process_of_loop_error (fuel : Nat) (p : HttpMessageProcessor) (buf : List Nat)
    (chunk : BufferRef) (cur : Option Nat) (cb : Hooks) (c : Cfg)
    (h : loop buf chunk cb fuel (entry p chunk cur) = some (c, Exit.syntaxError)) :
    process fuel p buf chunk cur cb = some (finish chunk (c, Exit.syntaxError)) := by
  unfold process; rw [h]

theorem process_mono (fuel g : Nat) (p : HttpMessageProcessor) (buf : List Nat)
    (chunk : BufferRef) (cur : Option Nat) (cb : Hooks) (r : Result) (hfg : fuel ≤ g)
    (h : process fuel p buf chunk cur cb = some r) :
    process g p buf chunk cur cb = some r := by
  unfold process at h ⊢
  cases hl : loop buf chunk cb fuel (entry p chunk cur) with
  | none => rw [hl] at h; simp at h
  | some cw =>
    rw [loop_mono_le buf chunk cb fuel g _ cw hfg hl]
    rw [hl] at h
    exact h

/-! ## Results of a call do not depend on the number of passes allowed -/

theorem process_det (f g : Nat) (p : HttpMessageProcessor) (buf : List Nat) (chunk : BufferRef)
    (cur : Option Nat) (cb : Hooks) (r s : Result)
    (hf : process f p buf chunk cur cb = some r) (hg : process g p buf chunk cur cb = some s) :
    r = s := by
  rcases Nat.le_total f g with h | h
  · have := process_mono f g p buf chunk cur cb r h hf
    rw [this] at hg
    exact Option.some.inj hg
  · have := process_mono g f p buf chunk cur cb s h hg
    rw [this] at hf
    exact (Option.some.inj hf).symm

/-- A parser in state `SYNTAX_ERROR` is left untouched by `process`. -/
theorem process_syntax_error (fuel : Nat) (p : HttpMessageProcessor) (buf : List Nat)
    (chunk : BufferRef) (cur : Option Nat) (cb : Hooks) (h : p.state = State.SYNTAX_ERROR) :
    ∃ r, process (fuel + 1) p buf chunk cur cb = some r ∧ r.parser = p ∧ r.trace = [] ∧
      r.nparsed = cur.getD chunk.offset ∧ r.ret = szSub (cur.getD chunk.offset) chunk.offset := by
  by_cases hi : (entry p chunk cur).i = chunk.offset + chunk.size
  · have hl := loop_end buf chunk cb fuel _ hi
    refine ⟨_, process_of_loop_end _ _ _ _ _ _ _ hl, ?_⟩
    have ht : tail cb (entry p chunk cur) = (entry p chunk cur, Exit.chunkEnd) := by
      unfold tail
      rw [if_neg]
      simp [entry, h]
    rw [ht]
    simp [finish, entry]
  · have hst : step buf chunk cb (entry p chunk cur)
        = Step.done (entry p chunk cur) Exit.syntaxError := by
      have hs : (entry p chunk cur).p.state = State.SYNTAX_ERROR := h
      simp only [step, hs]
    have hl : loop buf chunk cb (fuel + 1) (entry p chunk cur)
        = some (entry p chunk cur, Exit.syntaxError) := by
      simp only [loop, if_neg hi, hst]
    refine ⟨_, process_of_loop_error _ _ _ _ _ _ _ hl, ?_⟩
    simp [finish, entry]

/-! ## Reaching `SYNTAX_ERROR` -/

set_option maxHeartbeats 4000000 in
theorem step_into_error (buf : List Nat) (chunk : BufferRef) (cb : Hooks) (c c1 : Cfg)
    (h : step buf chunk cb c = Step.next c1) (h1 : c1.p.state = State.SYNTAX_ERROR) : c1.i = c.i ∧ c1.nparsed = c.nparsed := by
  cases hst : c.p.state <;>
    simp only [step, hst, expectByte, statusCode, chunkSize, callHook, Cfg.eat, Cfg.advance,
      Cfg.setState, Cfg.takeBody] at h <;>
    (try split at h) <;> (try split_ifs at h) <;> (try cases h) <;>
    simp_all [Cfg.setState]

theorem loop_error_position (buf : List Nat) (chunk : BufferRef) (cb : Hooks) :
    ∀ (f : Nat) (c r : Cfg) (w : Exit), c.p.state ≠ State.SYNTAX_ERROR →
      loop buf chunk cb f c = some (r, w) → r.p.state = State.SYNTAX_ERROR →
      ∃ n c0, after buf chunk cb n c = some c0 ∧ c0.p.state ≠ State.SYNTAX_ERROR ∧
        c0.i ≠ chunk.offset + chunk.size ∧ step buf chunk cb c0 = Step.next r ∧
        r.i = c0.i ∧ r.nparsed = c0.nparsed ∧ w = Exit.syntaxError := by
  intro f
  induction f with
  | zero => intro c r w _ h; simp [loop] at h
  | succ f ih =>
    intro c r w hs h hr
    simp only [loop] at h
    split_ifs at h with hi
    · cases h; exact absurd hr hs
    · cases hst : step buf chunk cb c with
      | next c1 =>
        rw [hst] at h
        by_cases h1 : c1.p.state = State.SYNTAX_ERROR
        · have hpos := step_into_error buf chunk cb c c1 hst h1
          have hst1 : step buf chunk cb c1 = Step.done c1 Exit.syntaxError := by
            simp only [step, h1]
          cases f with
          | zero => simp [loop] at h
          | succ f =>
            simp only [loop, hst1] at h
            rw [if_neg (by rw [hpos.1]; exact hi)] at h
            cases h
            exact ⟨0, c, rfl, hs, hi, hst, hpos.1, hpos.2, rfl⟩
        · obtain ⟨n, c0, h2, h3⟩ := ih c1 r w h1 h hr
          refine ⟨n + 1, c0, ?_, h3⟩
          simp only [after, if_neg hi, hst, h2]
      | done c1 w1 =>
        rw [hst] at h
        cases h
        rcases step_done buf chunk cb c r w hst with ⟨_, h2, _⟩ | ⟨_, _, h3⟩
        · exact absurd h2 hs
        · exact absurd hr h3

/-! ## Re-slicing of content -/

theorem Reslices.refl : ∀ (t : List Event), Reslices t t
  | [] => Reslices.nil
  | ev :: t => Reslices.same ev (Reslices.refl t)

theorem Reslices.append_left (v : List Event) {t u : List Event} (h : Reslices t u) :
    Reslices (v ++ t) (v ++ u) := by
  induction v with
  | nil => exact h
  | cons ev v ih => exact Reslices.same ev ih

theorem Reslices.append_right {t u : List Event} (h : Reslices t u) (v : List Event) :
    Reslices (t ++ v) (u ++ v) := by
  induction h with
  | nil => exact Reslices.refl v
  | same ev _ ih => exact Reslices.same ev ih
  | split s1 s2 h1 h2 _ ih => exact Reslices.split s1 s2 h1 h2 ih

theorem Reslices.append {t u t2 u2 : List Event} (h : Reslices t u) (h2 : Reslices t2 u2) :
    Reslices (t ++ t2) (u ++ u2) := by
  induction h with
  | nil => exact h2
  | same ev _ ih => exact Reslices.same ev ih
  | split s1 s2 h1 h2 _ ih => exact Reslices.split s1 s2 h1 h2 ih

theorem Reslices.trans {a b : List Event} (hab : Reslices a b) :
    ∀ {c : List Event}, Reslices b c → Reslices a c := by
  induction hab with
  | nil => intro c hbc; exact hbc
  | same ev _ ih =>
    intro c hbc
    cases hbc with
    | same _ h => exact Reslices.same ev (ih h)
    | split s1 s2 h1 h2 h => exact Reslices.split s1 s2 h1 h2 (ih h)
  | @split s1 s2 t u h1 h2 hrest ih =>
    intro c hbc
    cases hbc with
    | same _ h =>
      exact Reslices.split s1 s2 h1 h2 (ih (Reslices.same _ h))
    | split s3 s4 h3 h4 h =>
      rw [List.append_assoc]
      refine Reslices.split s1 (s2 ++ s4) h1 (by simp [h2]) ?_
      exact ih (Reslices.split s2 s4 h2 h4 h)

theorem Reslices.eq_of_no_content {t u : List Event} (h : Reslices t u)
    (hu : ∀ ev ∈ u, ev.isContent = false) : t = u := by
  induction h with
  | nil => rfl
  | same ev _ ih =>
    rw [ih (fun e he => hu e (List.mem_cons_of_mem _ he))]
  | split s1 s2 _ _ _ _ =>
    have := hu _ (List.mem_cons_self _ _)
    simp [Event.isContent] at this

/-! ## Hooks that return true do not look at the trace -/

set_option maxHeartbeats 4000000 in
theorem step_trace (buf : List Nat) (chunk : BufferRef) (c : Cfg) (t : List Event) :
    step buf chunk allTrue { c with trace := t ++ c.trace }
      = (step buf chunk allTrue c).prepend t := by
  cases hs : c.p.state <;>
    simp only [step, hs, expectByte, statusCode, chunkSize, callHook, Cfg.eat, Cfg.advance,
      Cfg.setState, Cfg.takeBody, allTrue, refHere, bodyTake, requestBegin] <;>
    (try split) <;> (try split_ifs) <;> simp_all [Step.prepend]

theorem loop_trace (buf : List Nat) (chunk : BufferRef) (t : List Event) :
    ∀ (f : Nat) (c : Cfg),
      loop buf chunk allTrue f { c with trace := t ++ c.trace }
        = (loop buf chunk allTrue f c).map
            fun r => ({ r.1 with trace := t ++ r.1.trace }, r.2) := by
  intro f
  induction f with
  | zero => intro c; rfl
  | succ f ih =>
    intro c
    simp only [loop]
    split_ifs with hi
    · rfl
    · rw [step_trace]
      cases hst : step buf chunk allTrue c with
      | next c1 => simp only [Step.prepend]; exact ih c1
      | done c1 w => rfl

/-! ## Arithmetic of the remaining length -/

theorem toSize_sub (v : Int) (d : Nat) (h : d < toSize v) :
    toSize (v - (d : Int)) = toSize v - d ∧ v - (d : Int) ≠ 0 := by
  unfold toSize SIZE_MOD at *
  omega

/-! ## Payloads -/

theorem bytes_append (buf : List Nat) (i d1 d2 : Nat) :
    BufferRef.bytes buf ⟨i, d1 + d2⟩
      = BufferRef.bytes buf ⟨i, d1⟩ ++ BufferRef.bytes buf ⟨i + d1, d2⟩ := by
  simp only [BufferRef.bytes, List.take_add, List.drop_drop]

theorem bytes_length (buf : List Nat) (i d : Nat) (h : i + d ≤ buf.length) :
    (BufferRef.bytes buf ⟨i, d⟩).length = d := by
  simp only [BufferRef.bytes, List.length_take, List.length_drop]
  omega

theorem bytes_ne_nil (buf : List Nat) (i d : Nat) (h : i + d ≤ buf.length) (hd : 0 < d) :
    BufferRef.bytes buf ⟨i, d⟩ ≠ [] := by
  intro h0
  have := bytes_length buf i d h
  rw [h0] at this
  simp at this
  omega

/-! ## The body states, with `*nparsed` in step with `i` -/

theorem step_size_irrel (buf : List Nat) (a n n2 : Nat) (cb : Hooks) (c : Cfg)
    (h1 : c.p.state ≠ State.CONTENT) (h2 : c.p.state ≠ State.CONTENT_ENDLESS)
    (h3 : c.p.state = State.CONTENT_CHUNK_BODY → c.p.contentLength = 0) :
    step buf ⟨a, n⟩ cb c = step buf ⟨a, n2⟩ cb c := by
  cases hs : c.p.state <;> simp_all [step, refHere, BufferRef.ref]

theorem step_content (buf : List Nat) (chunk : BufferRef) (c : Cfg)
    (hs : c.p.state = State.CONTENT) (hnp : c.nparsed = c.i) (ha : chunk.offset ≤ c.i)
    (he : c.i ≤ chunk.offset + chunk.size) (hM : chunk.offset + chunk.size < SIZE_MOD)
    (m : Nat) (hm : m = min (toSize c.p.contentLength) (chunk.offset + chunk.size - c.i)) :
    step buf chunk allTrue c =
      if c.p.contentLength - (m : Int) = 0 then
        Step.next (c.deliverLast m (BufferRef.bytes buf ⟨c.i, m⟩))
      else Step.next (c.deliver m (BufferRef.bytes buf ⟨c.i, m⟩)) := by
  have h1 := bodyTake_eq chunk c hnp ha he hM
  have h2 := chunk_ref_eq chunk c hnp ha (by omega)
  rw [← hm] at h1
  simp only [step, hs, h1, h2, allTrue, callHook, Cfg.deliver, Cfg.deliverLast, Cfg.takeBody,
    Cfg.setState]
  split_ifs <;> simp_all

theorem step_chunk_body (buf : List Nat) (chunk : BufferRef) (c : Cfg)
    (hs : c.p.state = State.CONTENT_CHUNK_BODY) (hcl : c.p.contentLength ≠ 0)
    (hnp : c.nparsed = c.i) (ha : chunk.offset ≤ c.i)
    (he : c.i ≤ chunk.offset + chunk.size) (hM : chunk.offset + chunk.size < SIZE_MOD)
    (m : Nat) (hm : m = min (toSize c.p.contentLength) (chunk.offset + chunk.size - c.i)) :
    step buf chunk allTrue c = Step.next (c.deliver m (BufferRef.bytes buf ⟨c.i, m⟩)) := by
  have h1 := bodyTake_eq chunk c hnp ha he hM
  have h2 := chunk_ref_eq chunk c hnp ha (by omega)
  rw [← hm] at h1
  simp only [step, hs, h1, h2, allTrue, callHook, Cfg.deliver, Cfg.takeBody]
  simp [hcl]

theorem step_endless (buf : List Nat) (chunk : BufferRef) (c : Cfg)
    (hs : c.p.state = State.CONTENT_ENDLESS) (hnp : c.nparsed = c.i) (ha : chunk.offset ≤ c.i)
    (he : c.i ≤ chunk.offset + chunk.size) (hM : chunk.offset + chunk.size < SIZE_MOD)
    (m : Nat) (hm : m = chunk.offset + chunk.size - c.i) :
    step buf chunk allTrue c = Step.next (c.deliverEndless m (BufferRef.bytes buf ⟨c.i, m⟩)) := by
  have h1 := chunk_refFrom_eq chunk c hnp ha he hM
  rw [← hm] at h1
  simp only [step, hs, h1, allTrue, callHook, Cfg.deliverEndless]
  simp

/-! ## One pass seen from a shorter chunk -/

/-- Two configurations that differ only in how the content delivered so far was sliced. -/
theorem loop_reslice (buf : List Nat) (chunk : BufferRef) (f : Nat) (c2 c3 r : Cfg) (w : Exit)
    (hp : c2.p = c3.p) (hi : c2.i = c3.i) (hn : c2.nparsed = c3.nparsed)
    (ht : Reslices c2.trace c3.trace)
    (h : loop buf chunk allTrue f c3 = some (r, w)) :
    ∃ r2, loop buf chunk allTrue f c2 = some (r2, w) ∧ r2.p = r.p ∧ r2.i = r.i ∧
      r2.nparsed = r.nparsed ∧ Reslices r2.trace r.trace := by
  obtain ⟨p3, i3, n3, t3⟩ := c3
  obtain ⟨p2, i2, n2, t2⟩ := c2
  simp only at hp hi hn ht
  subst hp hi hn
  have l3 := loop_trace buf chunk t3 f ⟨p2, i2, n2, []⟩
  have l2 := loop_trace buf chunk t2 f ⟨p2, i2, n2, []⟩
  simp only [List.append_nil] at l3 l2
  rw [l3] at h
  rw [l2]
  cases hl : loop buf chunk allTrue f ⟨p2, i2, n2, []⟩ with
  | none => rw [hl] at h; simp at h
  | some r0 =>
    rw [hl] at h
    simp only [Option.map_some', Option.some.injEq, Prod.mk.injEq] at h
    obtain ⟨h1, h2⟩ := h
    subst h1 h2
    exact ⟨_, rfl, rfl, rfl, rfl, Reslices.append_right ht _⟩

/-- The payload of a slice that crosses the position `k`. -/
theorem bytes_cross (buf : List Nat) (i k m : Nat) (hik : i < k) (hkm : k < i + m)
    (hbuf : i + m ≤ buf.length) :
    BufferRef.bytes buf ⟨i, m⟩
        = BufferRef.bytes buf ⟨i, k - i⟩ ++ BufferRef.bytes buf ⟨k, m - (k - i)⟩ ∧
      BufferRef.bytes buf ⟨i, k - i⟩ ≠ [] ∧ BufferRef.bytes buf ⟨k, m - (k - i)⟩ ≠ [] := by
  have hm : m = (k - i) + (m - (k - i)) := by omega
  have hki : i + (k - i) = k := by omega
  refine ⟨?_, bytes_ne_nil _ _ _ (by omega) (by omega), bytes_ne_nil _ _ _ (by omega) (by omega)⟩
  conv_lhs => rw [hm]
  rw [bytes_append, hki]

theorem reslices_cross (t T : List Event) (s1 s2 : List Nat) (h1 : s1 ≠ []) (h2 : s2 ≠ []) :
    Reslices (t ++ [Event.onMessageContent s1] ++ Event.onMessageContent s2 :: T)
      (t ++ Event.onMessageContent (s1 ++ s2) :: T) := by
  rw [List.append_assoc]
  exact Reslices.append_left _ (Reslices.split _ _ h1 h2 (Reslices.refl _))

/-- Delivering `d` bytes and then `m2` bytes, compared with delivering `d + m2` at once. -/
theorem deliver_cross (c : Cfg) (d m2 : Nat) (s1 s2 : List Nat)
    (hM : c.nparsed + d + m2 < SIZE_MOD) (h1 : s1 ≠ []) (h2 : s2 ≠ []) :
    ((c.deliver d s1).deliver m2 s2).p = (c.deliver (d + m2) (s1 ++ s2)).p ∧
    ((c.deliver d s1).deliver m2 s2).i = (c.deliver (d + m2) (s1 ++ s2)).i ∧
    ((c.deliver d s1).deliver m2 s2).nparsed = (c.deliver (d + m2) (s1 ++ s2)).nparsed ∧
    Reslices ((c.deliver d s1).deliver m2 s2).trace (c.deliver (d + m2) (s1 ++ s2)).trace := by
  simp only [Cfg.deliver, Cfg.takeBody]
  refine ⟨?_, by omega, ?_, ?_⟩
  · congr 1; push_cast; omega
  · rw [szAdd_small c.nparsed d (by omega), szAdd_small _ _ (by omega),
      szAdd_small _ _ (by omega)]
    omega
  · exact reslices_cross c.trace [] s1 s2 h1 h2

theorem deliverLast_cross (c : Cfg) (d m2 : Nat) (s1 s2 : List Nat)
    (hM : c.nparsed + d + m2 < SIZE_MOD) (h1 : s1 ≠ []) (h2 : s2 ≠ []) :
    ((c.deliver d s1).deliverLast m2 s2).p = (c.deliverLast (d + m2) (s1 ++ s2)).p ∧
    ((c.deliver d s1).deliverLast m2 s2).i = (c.deliverLast (d + m2) (s1 ++ s2)).i ∧
    ((c.deliver d s1).deliverLast m2 s2).nparsed = (c.deliverLast (d + m2) (s1 ++ s2)).nparsed ∧
    Reslices ((c.deliver d s1).deliverLast m2 s2).trace
      (c.deliverLast (d + m2) (s1 ++ s2)).trace := by
  simp only [Cfg.deliver, Cfg.deliverLast, Cfg.takeBody, Cfg.setState]
  refine ⟨?_, by omega, ?_, ?_⟩
  · congr 1; push_cast; omega
  · rw [szAdd_small c.nparsed d (by omega), szAdd_small _ _ (by omega),
      szAdd_small _ _ (by omega)]
    omega
  · exact reslices_cross c.trace [Event.onMessageEnd] s1 s2 h1 h2

theorem deliverEndless_cross (c : Cfg) (d m2 : Nat) (s1 s2 : List Nat)
    (hM : c.nparsed + d + m2 < SIZE_MOD) (h1 : s1 ≠ []) (h2 : s2 ≠ []) :
    ((c.deliverEndless d s1).deliverEndless m2 s2).p = (c.deliverEndless (d + m2) (s1 ++ s2)).p ∧
    ((c.deliverEndless d s1).deliverEndless m2 s2).i
      = (c.deliverEndless (d + m2) (s1 ++ s2)).i ∧
    ((c.deliverEndless d s1).deliverEndless m2 s2).nparsed
      = (c.deliverEndless (d + m2) (s1 ++ s2)).nparsed ∧
    Reslices ((c.deliverEndless d s1).deliverEndless m2 s2).trace
      (c.deliverEndless (d + m2) (s1 ++ s2)).trace := by
  simp only [Cfg.deliverEndless]
  refine ⟨trivial, by omega, ?_, ?_⟩
  · rw [szAdd_small c.nparsed d (by omega), szAdd_small _ _ (by omega),
      szAdd_small _ _ (by omega)]
    omega
  · exact reslices_cross c.trace [] s1 s2 h1 h2

theorem step_split_content (buf : List Nat) (a k e : Nat) (c : Cfg)
    (hC : c.p.state = State.CONTENT)
    (hnp : c.nparsed = c.i) (ha : a ≤ c.i) (hik : c.i < k) (hke : k < e) (hM : e < SIZE_MOD)
    (hbuf : e ≤ buf.length) :
    step buf ⟨a, k - a⟩ allTrue c = step buf ⟨a, e - a⟩ allTrue c ∨
    ∃ c1 c2 c3,
      step buf ⟨a, k - a⟩ allTrue c = Step.next c1 ∧ c1.i = k ∧ c1.nparsed = k ∧
      c1.p.state.isBody = true ∧
      step buf ⟨a, e - a⟩ allTrue c1 = Step.next c2 ∧
      step buf ⟨a, e - a⟩ allTrue c = Step.next c3 ∧
      c2.p = c3.p ∧ c2.i = c3.i ∧ c2.nparsed = c3.nparsed ∧ Reslices c2.trace c3.trace := by
  have hk1 : a + (k - a) = k := by omega
  have he1 : a + (e - a) = e := by omega
  have hX1 : ∀ m, m = min (toSize c.p.contentLength) (k - c.i) → _ :=
    fun m hm => step_content buf ⟨a, k - a⟩ c hC hnp ha (by simp only [hk1]; omega)
      (by simp only [hk1]; omega) m (by simp only [hk1]; exact hm)
  have hX : ∀ m, m = min (toSize c.p.contentLength) (e - c.i) → _ :=
    fun m hm => step_content buf ⟨a, e - a⟩ c hC hnp ha (by simp only [he1]; omega)
      (by simp only [he1]; omega) m (by simp only [he1]; exact hm)
  by_cases hle : toSize c.p.contentLength ≤ k - c.i
  · left
    rw [hX1 (toSize c.p.contentLength) (by omega), hX (toSize c.p.contentLength) (by omega)]
  · right
    have hd : k - c.i < toSize c.p.contentLength := by omega
    obtain ⟨hts, hne⟩ := toSize_sub _ _ hd
    have h1 := hX1 (k - c.i) (by omega)
    rw [if_neg hne] at h1
    obtain ⟨m2, hm2⟩ : ∃ m2, m2 = min (toSize c.p.contentLength) (e - c.i) - (k - c.i) :=
      ⟨_, rfl⟩
    have hm2pos : 0 < m2 := by omega
    have h3 := hX ((k - c.i) + m2) (by omega)
    obtain ⟨hb, hs1, hs2⟩ := bytes_cross buf c.i k ((k - c.i) + m2) hik (by omega) (by omega)
    rw [hb] at h3
    have hm2' : (k - c.i) + m2 - (k - c.i) = m2 := by omega
    rw [hm2'] at hb hs2 h3
    generalize BufferRef.bytes buf ⟨c.i, k - c.i⟩ = s1 at h1 h3 hs1
    have hc1i : (c.deliver (k - c.i) s1).i = k := by
      simp only [Cfg.deliver, Cfg.takeBody]; omega
    have hc1n : (c.deliver (k - c.i) s1).nparsed = k := by
      simp only [Cfg.deliver, Cfg.takeBody, hnp]
      rw [szAdd_small _ _ (by omega)]; omega
    have hc1s : (c.deliver (k - c.i) s1).p.state = State.CONTENT := by
      simp only [Cfg.deliver, Cfg.takeBody, hC]
    have hc1l : (c.deliver (k - c.i) s1).p.contentLength
        = c.p.contentLength - ((k - c.i : Nat) : Int) := by
      simp only [Cfg.deliver, Cfg.takeBody]
    have h2 := step_content buf ⟨a, e - a⟩ (c.deliver (k - c.i) s1) hc1s (by rw [hc1i, hc1n])
      (by simp only [hc1i]; omega) (by simp only [hc1i, he1]; omega)
      (by simp only [he1]; omega) m2 (by simp only [hc1i, he1, hc1l, hts]; omega)
    rw [hc1i, hc1l] at h2
    have hcl : c.p.contentLength - ((k - c.i : Nat) : Int) - (m2 : Int)
        = c.p.contentLength - ((k - c.i + m2 : Nat) : Int) := by
      push_cast; omega
    rw [hcl] at h2
    by_cases hz : c.p.contentLength - ((k - c.i + m2 : Nat) : Int) = 0
    · rw [if_pos hz] at h2 h3
      exact ⟨_, _, _, h1, hc1i, hc1n, by rw [hc1s]; rfl, h2, h3,
        deliverLast_cross c (k - c.i) m2 s1 _ (by omega) hs1 hs2⟩
    · rw [if_neg hz] at h2 h3
      exact ⟨_, _, _, h1, hc1i, hc1n, by rw [hc1s]; rfl, h2, h3,
        deliver_cross c (k - c.i) m2 s1 _ (by omega) hs1 hs2⟩

theorem step_split_chunk_body (buf : List Nat) (a k e : Nat) (c : Cfg)
    (hC : c.p.state = State.CONTENT_CHUNK_BODY) (hcl : c.p.contentLength ≠ 0)
    (hnp : c.nparsed = c.i) (ha : a ≤ c.i) (hik : c.i < k) (hke : k < e) (hM : e < SIZE_MOD)
    (hbuf : e ≤ buf.length) :
    step buf ⟨a, k - a⟩ allTrue c = step buf ⟨a, e - a⟩ allTrue c ∨
    ∃ c1 c2 c3,
      step buf ⟨a, k - a⟩ allTrue c = Step.next c1 ∧ c1.i = k ∧ c1.nparsed = k ∧
      c1.p.state.isBody = true ∧
      step buf ⟨a, e - a⟩ allTrue c1 = Step.next c2 ∧
      step buf ⟨a, e - a⟩ allTrue c = Step.next c3 ∧
      c2.p = c3.p ∧ c2.i = c3.i ∧ c2.nparsed = c3.nparsed ∧ Reslices c2.trace c3.trace := by
  have hk1 : a + (k - a) = k := by omega
  have he1 : a + (e - a) = e := by omega
  have hX1 : ∀ m, m = min (toSize c.p.contentLength) (k - c.i) → _ :=
    fun m hm => step_chunk_body buf ⟨a, k - a⟩ c hC hcl hnp ha (by simp only [hk1]; omega)
      (by simp only [hk1]; omega) m (by simp only [hk1]; exact hm)
  have hX : ∀ m, m = min (toSize c.p.contentLength) (e - c.i) → _ :=
    fun m hm => step_chunk_body buf ⟨a, e - a⟩ c hC hcl hnp ha (by simp only [he1]; omega)
      (by simp only [he1]; omega) m (by simp only [he1]; exact hm)
  by_cases hle : toSize c.p.contentLength ≤ k - c.i
  · left
    rw [hX1 (toSize c.p.contentLength) (by omega), hX (toSize c.p.contentLength) (by omega)]
  · right
    have hd : k - c.i < toSize c.p.contentLength := by omega
    obtain ⟨hts, hne⟩ := toSize_sub _ _ hd
    have h1 := hX1 (k - c.i) (by omega)
    obtain ⟨m2, hm2⟩ : ∃ m2, m2 = min (toSize c.p.contentLength) (e - c.i) - (k - c.i) :=
      ⟨_, rfl⟩
    have hm2pos : 0 < m2 := by omega
    have h3 := hX ((k - c.i) + m2) (by omega)
    obtain ⟨hb, hs1, hs2⟩ := bytes_cross buf c.i k ((k - c.i) + m2) hik (by omega) (by omega)
    rw [hb] at h3
    have hm2' : (k - c.i) + m2 - (k - c.i) = m2 := by omega
    rw [hm2'] at hb hs2 h3
    generalize BufferRef.bytes buf ⟨c.i, k - c.i⟩ = s1 at h1 h3 hs1
    have hc1i : (c.deliver (k - c.i) s1).i = k := by
      simp only [Cfg.deliver, Cfg.takeBody]; omega
    have hc1n : (c.deliver (k - c.i) s1).nparsed = k := by
      simp only [Cfg.deliver, Cfg.takeBody, hnp]
      rw [szAdd_small _ _ (by omega)]; omega
    have hc1s : (c.deliver (k - c.i) s1).p.state = State.CONTENT_CHUNK_BODY := by
      simp only [Cfg.deliver, Cfg.takeBody, hC]
    have hc1l : (c.deliver (k - c.i) s1).p.contentLength
        = c.p.contentLength - ((k - c.i : Nat) : Int) := by
      simp only [Cfg.deliver, Cfg.takeBody]
    have h2 := step_chunk_body buf ⟨a, e - a⟩ (c.deliver (k - c.i) s1) hc1s
      (by rw [hc1l]; exact hne) (by rw [hc1i, hc1n])
      (by simp only [hc1i]; omega) (by simp only [hc1i, he1]; omega)
      (by simp only [he1]; omega) m2 (by simp only [hc1i, he1, hc1l, hts]; omega)
    rw [hc1i] at h2
    exact ⟨_, _, _, h1, hc1i, hc1n, by rw [hc1s]; rfl, h2, h3,
      deliver_cross c (k - c.i) m2 s1 _ (by omega) hs1 hs2⟩

theorem step_split_endless (buf : List Nat) (a k e : Nat) (c : Cfg)
    (hC : c.p.state = State.CONTENT_ENDLESS)
    (hnp : c.nparsed = c.i) (ha : a ≤ c.i) (hik : c.i < k) (hke : k < e) (hM : e < SIZE_MOD)
    (hbuf : e ≤ buf.length) :
    ∃ c1 c2 c3,
      step buf ⟨a, k - a⟩ allTrue c = Step.next c1 ∧ c1.i = k ∧ c1.nparsed = k ∧
      c1.p.state.isBody = true ∧
      step buf ⟨a, e - a⟩ allTrue c1 = Step.next c2 ∧
      step buf ⟨a, e - a⟩ allTrue c = Step.next c3 ∧
      c2.p = c3.p ∧ c2.i = c3.i ∧ c2.nparsed = c3.nparsed ∧ Reslices c2.trace c3.trace := by
  have hk1 : a + (k - a) = k := by omega
  have he1 : a + (e - a) = e := by omega
  have h1 := step_endless buf ⟨a, k - a⟩ c hC hnp ha (by simp only [hk1]; omega)
      (by simp only [hk1]; omega) (k - c.i) (by simp only [hk1])
  have h3 := step_endless buf ⟨a, e - a⟩ c hC hnp ha (by simp only [he1]; omega)
      (by simp only [he1]; omega) ((k - c.i) + (e - k)) (by simp only [he1]; omega)
  obtain ⟨hb, hs1, hs2⟩ := bytes_cross buf c.i k ((k - c.i) + (e - k)) hik (by omega) (by omega)
  rw [hb] at h3
  have hm2' : (k - c.i) + (e - k) - (k - c.i) = e - k := by omega
  rw [hm2'] at hb hs2 h3
  generalize BufferRef.bytes buf ⟨c.i, k - c.i⟩ = s1 at h1 h3 hs1
  have hc1i : (c.deliverEndless (k - c.i) s1).i = k := by
    simp only [Cfg.deliverEndless]; omega
  have hc1n : (c.deliverEndless (k - c.i) s1).nparsed = k := by
    simp only [Cfg.deliverEndless, hnp]
    rw [szAdd_small _ _ (by omega)]; omega
  have hc1s : (c.deliverEndless (k - c.i) s1).p.state = State.CONTENT_ENDLESS := by
    simp only [Cfg.deliverEndless, hC]
  have h2 := step_endless buf ⟨a, e - a⟩ (c.deliverEndless (k - c.i) s1) hc1s
    (by rw [hc1i, hc1n]) (by simp only [hc1i]; omega) (by simp only [hc1i, he1]; omega)
    (by simp only [he1]; omega) (e - k) (by simp only [hc1i, he1])
  rw [hc1i] at h2
  exact ⟨_, _, _, h1, hc1i, hc1n, by rw [hc1s]; rfl, h2, h3,
    deliverEndless_cross c (k - c.i) (e - k) s1 _ (by omega) hs1 hs2⟩

/-- One pass over the chunk that ends at `k` does what the pass over the chunk that ends at
`e` does, unless that pass hands out content that reaches beyond `k`; then two passes,
the first ending at `k`, do the same up to the slicing of the content. -/
theorem step_split (buf : List Nat) (a k e : Nat) (c : Cfg)
    (hnp : c.nparsed = c.i) (ha : a ≤ c.i) (hik : c.i < k) (hke : k < e) (hM : e < SIZE_MOD)
    (hbuf : e ≤ buf.length) :
    step buf ⟨a, k - a⟩ allTrue c = step buf ⟨a, e - a⟩ allTrue c ∨
    ∃ c1 c2 c3,
      step buf ⟨a, k - a⟩ allTrue c = Step.next c1 ∧ c1.i = k ∧ c1.nparsed = k ∧
      c1.p.state.isBody = true ∧
      step buf ⟨a, e - a⟩ allTrue c1 = Step.next c2 ∧
      step buf ⟨a, e - a⟩ allTrue c = Step.next c3 ∧
      c2.p = c3.p ∧ c2.i = c3.i ∧ c2.nparsed = c3.nparsed ∧ Reslices c2.trace c3.trace := by
  by_cases hC : c.p.state = State.CONTENT
  · exact step_split_content buf a k e c hC hnp ha hik hke hM hbuf
  by_cases hE : c.p.state = State.CONTENT_ENDLESS
  · exact Or.inr (step_split_endless buf a k e c hE hnp ha hik hke hM hbuf)
  by_cases hB : c.p.state = State.CONTENT_CHUNK_BODY ∧ c.p.contentLength ≠ 0
  · exact step_split_chunk_body buf a k e c hB.1 hB.2 hnp ha hik hke hM hbuf
  · left
    refine step_size_irrel buf a _ _ allTrue c hC hE ?_
    intro hs
    by_contra hne
    exact hB ⟨hs, hne⟩

/-! ## The loop over a chunk cut at `k` -/

theorem loop_chunk_eq (buf : List Nat) (X Y : BufferRef) (cb : Hooks)
    (hend : X.offset + X.size = Y.offset + Y.size) (hM : X.offset + X.size < SIZE_MOD) :
    ∀ (f : Nat) (c : Cfg), c.nparsed = c.i → X.offset ≤ c.i → Y.offset ≤ c.i →
      c.i ≤ X.offset + X.size → loop buf X cb f c = loop buf Y cb f c := by
  intro f
  induction f with
  | zero => intro c _ _ _ _; rfl
  | succ f ih =>
    intro c hnp hX hY he
    simp only [loop, ← hend]
    split_ifs with hi
    · rfl
    · rw [← step_chunk_eq buf X Y cb c hnp hX hY hend he hM]
      have hl := step_lock buf X cb c hnp hX (by omega) hM
      cases hst : step buf X cb c with
      | next c1 =>
        rw [hst] at hl
        simp only [Step.cfg] at hl
        exact ih c1 hl.1 (by omega) (by omega) hl.2.2
      | done c1 w => rfl

theorem loop_inv (buf : List Nat) (chunk : BufferRef) (cb : Hooks) :
    ∀ (f : Nat) (c r : Cfg) (w : Exit), Inv c.p → loop buf chunk cb f c = some (r, w) →
      Inv r.p ∧ r.p.mode = c.p.mode := by
  intro f
  induction f with
  | zero => intro c r w _ h; simp [loop] at h
  | succ f ih =>
    intro c r w hinv h
    simp only [loop] at h
    split_ifs at h with hi
    · cases h; exact ⟨hinv, rfl⟩
    · have hs := step_inv buf chunk cb c hinv
      cases hst : step buf chunk cb c with
      | next c1 =>
        rw [hst] at h hs
        simp only [Step.cfg] at hs
        have := ih c1 r w hs.1 h
        exact ⟨this.1, this.2.trans hs.2⟩
      | done c1 w1 =>
        rw [hst] at h hs
        simp only [Step.cfg] at hs
        cases h
        exact hs

theorem loop_exit_allTrue (buf : List Nat) (chunk : BufferRef) (f : Nat) (c r : Cfg) (w : Exit)
    (h : loop buf chunk allTrue f c = some (r, w)) :
    (w = Exit.chunkEnd ∧ r.i = chunk.offset + chunk.size) ∨
    (w = Exit.syntaxError ∧ r.p.state = State.SYNTAX_ERROR) := by
  rcases loop_exit buf chunk allTrue f c r w h with h1 | h1 | ⟨_, h2, _⟩
  · exact Or.inl h1
  · exact Or.inr h1
  · exact absurd h2 (not_hookRefused_allTrue _)

/-- The loop over the chunk from `a` to `e`, compared with the loop over the chunk from `a`
to `k` followed by the loop over the rest. -/
theorem split_loop (buf : List Nat) (a k e : Nat) (hak : a ≤ k) (hke : k ≤ e)
    (hM : e < SIZE_MOD) (hbuf : e ≤ buf.length) :
    ∀ (f : Nat) (c r : Cfg) (w : Exit), c.nparsed = c.i → a ≤ c.i → c.i ≤ k →
      loop buf ⟨a, e - a⟩ allTrue f c = some (r, w) →
      ∃ f1 c1 w1, loop buf ⟨a, k - a⟩ allTrue f1 c = some (c1, w1) ∧
        ((w1 = Exit.syntaxError ∧ w = Exit.syntaxError ∧ c1 = r) ∨
         (w1 = Exit.chunkEnd ∧ c1.i = k ∧ c1.nparsed = k ∧
           ∃ f2 r2, loop buf ⟨a, e - a⟩ allTrue f2 c1 = some (r2, w) ∧ r2.p = r.p ∧
             r2.i = r.i ∧ r2.nparsed = r.nparsed ∧ Reslices r2.trace r.trace)) := by
  have hk1 : a + (k - a) = k := by omega
  have he1 : a + (e - a) = e := by omega
  by_cases hkeq : k = e
  · subst hkeq
    intro f c r w hnp ha hik h
    refine ⟨f, r, w, h, ?_⟩
    have hlock := loop_lock buf ⟨a, k - a⟩ allTrue (by simp only [hk1]; exact hM) f c r w hnp ha
      (by simp only [hk1]; exact hik) h
    rcases loop_exit_allTrue buf _ f c r w h with ⟨hw, hi⟩ | ⟨hw, _⟩
    · right
      simp only [hk1] at hi
      refine ⟨hw, hi, by rw [hlock.1, hi], 1, r, ?_, rfl, rfl, rfl, Reslices.refl _⟩
      rw [hw]
      exact loop_end buf _ allTrue 0 r (by simp only [hk1]; exact hi)
    · left
      exact ⟨hw, hw, rfl⟩
  · have hlt : k < e := by omega
    intro f
    induction f with
    | zero => intro c r w _ _ _ h; simp [loop] at h
    | succ f ih =>
      intro c r w hnp ha hik h
      by_cases hi : c.i = k
      · refine ⟨1, c, Exit.chunkEnd, loop_end buf _ allTrue 0 c (by simp only [hk1]; exact hi),
          Or.inr ⟨rfl, hi, by rw [hnp, hi], f + 1, r, h, rfl, rfl, rfl, Reslices.refl _⟩⟩
      · have hik2 : c.i < k := by omega
        have hne : c.i ≠ (⟨a, e - a⟩ : BufferRef).offset + (⟨a, e - a⟩ : BufferRef).size := by
          simp only [he1]; omega
        have hne1 : c.i ≠ (⟨a, k - a⟩ : BufferRef).offset + (⟨a, k - a⟩ : BufferRef).size := by
          simp only [hk1]; omega
        simp only [loop, if_neg hne] at h
        rcases step_split buf a k e c hnp ha hik2 hlt hM hbuf with
          heq | ⟨c1, c2, c3, h1, h1i, h1n, _, h2, h3, hp, hi2, hn2, hres⟩
        · cases hst : step buf ⟨a, e - a⟩ allTrue c with
          | next c4 =>
            rw [hst] at h heq
            have hl := step_lock buf ⟨a, k - a⟩ allTrue c hnp ha (by simp only [hk1]; omega)
              (by simp only [hk1]; omega)
            rw [heq] at hl
            simp only [Step.cfg, hk1] at hl
            obtain ⟨f1, c1, w1, hl1, hcase⟩ := ih c4 r w hl.1 (by omega) hl.2.2 h
            exact ⟨f1 + 1, c1, w1, by rw [loop_next buf _ allTrue f1 c c4 hne1 heq]; exact hl1,
              hcase⟩
          | done c4 w4 =>
            rw [hst] at h heq
            cases h
            obtain ⟨hw, _, hc⟩ := step_done_allTrue buf _ c r w hst
            refine ⟨1, r, w, ?_, Or.inl ⟨hw, hw, rfl⟩⟩
            simp only [loop, if_neg hne1, heq]
        · rw [h3] at h
          obtain ⟨r2, hl2, hr2⟩ := loop_reslice buf _ f c2 c3 r w hp hi2 hn2 hres h
          have hne2 : c1.i ≠ (⟨a, e - a⟩ : BufferRef).offset + (⟨a, e - a⟩ : BufferRef).size := by
            simp only [he1]; omega
          refine ⟨2, c1, Exit.chunkEnd, ?_, Or.inr ⟨rfl, h1i, h1n, f + 1, r2, ?_, hr2⟩⟩
          · rw [loop_next buf _ allTrue 1 c c1 hne1 h1]
            exact loop_end buf _ allTrue 0 c1 (by simp only [hk1]; exact h1i)
          · rw [loop_next buf _ allTrue f c1 c2 hne2 h2]
            exact hl2

/-! ## Calls on a parser that satisfies the invariant, with hooks returning true -/

theorem process_allTrue_inv (f : Nat) (p : HttpMessageProcessor) (buf : List Nat)
    (chunk : BufferRef) (cur : Option Nat) (R : Result) (hinv : Inv p)
    (h : process f p buf chunk cur allTrue = some R) :
    ∃ c w, loop buf chunk allTrue f (entry p chunk cur) = some (c, w) ∧
      R = finish chunk (c, w) ∧ Inv c.p ∧
      ((w = Exit.chunkEnd ∧ c.i = chunk.offset + chunk.size) ∨
       (w = Exit.syntaxError ∧ c.p.state = State.SYNTAX_ERROR)) := by
  obtain ⟨c, w, hl, hcase⟩ := process_eq _ _ _ _ _ _ _ h
  have hci := (loop_inv buf chunk allTrue f _ c w hinv hl).1
  refine ⟨c, w, hl, ?_, hci, loop_exit_allTrue buf chunk f _ c w hl⟩
  rcases hcase with ⟨hw, hr⟩ | ⟨_, hr⟩
  · rw [hr, tail_inv allTrue c hci, hw]
  · exact hr

theorem process_of_loop_inv (f : Nat) (p : HttpMessageProcessor) (buf : List Nat)
    (chunk : BufferRef) (cur : Option Nat) (c : Cfg) (w : Exit) (hinv : Inv c.p)
    (h : loop buf chunk allTrue f (entry p chunk cur) = some (c, w)) :
    process f p buf chunk cur allTrue = some (finish chunk (c, w)) := by
  unfold process
  rw [h]
  cases w
  · simp only [tail_inv allTrue c hinv]
  · rfl
  · rfl

/-- A call on a chunk, compared with a call on its first `d` bytes followed by a call on
the rest. -/
theorem process_split (buf : List Nat) (a n d : Nat) (p : HttpMessageProcessor) (f : Nat)
    (R : Result) (hM : a + n < SIZE_MOD) (hbuf : a + n ≤ buf.length) (hd : d ≤ n)
    (hinv : Inv p) (h : process f p buf ⟨a, n⟩ (some a) allTrue = some R) :
    ∃ f1 R1, process f1 p buf ⟨a, d⟩ (some a) allTrue = some R1 ∧ Inv R1.parser ∧
      (R1.nparsed = a + d ∨ R1.parser.state = State.SYNTAX_ERROR) ∧
      ∃ f2 R2, process f2 R1.parser buf ⟨a + d, n - d⟩ (some R1.nparsed) allTrue = some R2 ∧
        R2.parser = R.parser ∧ Reslices (R1.trace ++ R2.trace) R.trace := by
  obtain ⟨c, w, hl, hR, hci, _⟩ := process_allTrue_inv f p buf _ _ R hinv h
  have hn : a + n - a = n := by omega
  have hdd : a + d - a = d := by omega
  have hsp := split_loop buf a (a + d) (a + n) (by omega) (by omega) hM hbuf f
    (entry p ⟨a, n⟩ (some a)) c w rfl (le_refl _) (by simp [entry])
    (by rw [hn]; exact hl)
  rw [hn, hdd] at hsp
  obtain ⟨f1, c1, w1, hl1, hcase⟩ := hsp
  have hl1' : loop buf ⟨a, d⟩ allTrue f1 (entry p ⟨a, d⟩ (some a)) = some (c1, w1) := hl1
  have hc1 := (loop_inv buf _ allTrue f1 _ c1 w1 hinv hl1').1
  have hP1 := process_of_loop_inv f1 p buf ⟨a, d⟩ (some a) c1 w1 hc1 hl1'
  refine ⟨f1, _, hP1, hc1, ?_⟩
  rcases hcase with ⟨hw1, hw, hc⟩ | ⟨hw1, h1i, h1n, f2, r2, hl2, hp2, _, _, hres⟩
  · have hse : c1.p.state = State.SYNTAX_ERROR := by
      rcases loop_exit_allTrue buf _ f1 _ c1 w1 hl1' with ⟨hx, _⟩ | ⟨_, hx⟩
      · rw [hw1] at hx; cases hx
      · exact hx
    refine ⟨Or.inr hse, ?_⟩
    obtain ⟨R2, hP2, h2p, h2t, _, _⟩ :=
      process_syntax_error 0 c1.p buf ⟨a + d, n - d⟩ (some c1.nparsed) allTrue hse
    refine ⟨1, R2, hP2, ?_, ?_⟩
    · rw [h2p, hR, hc]; rfl
    · rw [h2t, hR, hc]
      simp only [finish, List.append_nil]
      exact Reslices.refl _
  · refine ⟨Or.inl h1n, ?_⟩
    have hX2 : (⟨a, n⟩ : BufferRef).offset + (⟨a, n⟩ : BufferRef).size
        = (⟨a + d, n - d⟩ : BufferRef).offset + (⟨a + d, n - d⟩ : BufferRef).size := by
      simp only; omega
    have hlt := loop_trace buf ⟨a, n⟩ c1.trace f2 ⟨c1.p, c1.i, c1.nparsed, []⟩
    simp only [List.append_nil] at hlt
    rw [hl2] at hlt
    cases hl0 : loop buf ⟨a, n⟩ allTrue f2 ⟨c1.p, c1.i, c1.nparsed, []⟩ with
    | none => rw [hl0] at hlt; simp at hlt
    | some r0w =>
      obtain ⟨r0, w0⟩ := r0w
      rw [hl0] at hlt
      simp only [Option.map_some', Option.some.injEq, Prod.mk.injEq] at hlt
      obtain ⟨hr2, hw0⟩ := hlt
      subst hw0
      have hl0' : loop buf ⟨a + d, n - d⟩ allTrue f2
          (entry c1.p ⟨a + d, n - d⟩ (some c1.nparsed)) = some (r0, w) := by
        rw [← loop_chunk_eq buf ⟨a, n⟩ ⟨a + d, n - d⟩ allTrue hX2 hM f2 _
          (by simp only [entry, Option.getD_some]; omega)
          (by simp only [entry]; omega) (by simp only [entry]; omega)
          (by simp only [entry]; omega)]
        simp only [entry, Option.getD_some]
        rw [← h1i]
        exact hl0
      have hr0p : r0.p = c.p := by
        rw [← hp2, hr2]
      have hr0inv : Inv r0.p := by rw [hr0p]; exact hci
      refine ⟨f2, _, process_of_loop_inv f2 c1.p buf _ _ r0 w hr0inv hl0', ?_, ?_⟩
      · rw [hR]; exact hr0p
      · rw [hR]
        simp only [finish]
        rw [hr2] at hres
        exact hres

/-! ## Feeding pieces -/

theorem feed_mono (buf : List Nat) (cb : Hooks) (f g : Nat) (hfg : f ≤ g) :
    ∀ (pieces : List Nat) (p : HttpMessageProcessor) (off cur : Nat)
      (x : HttpMessageProcessor × Nat × List Event),
      feed f buf cb p off cur pieces = some x → feed g buf cb p off cur pieces = some x := by
  intro pieces
  induction pieces with
  | nil => intro p off cur x h; exact h
  | cons len rest ih =>
    intro p off cur x h
    simp only [feed] at h ⊢
    cases hp : process f p buf ⟨off, len⟩ (some cur) cb with
    | none => rw [hp] at h; simp at h
    | some r =>
      rw [hp] at h
      rw [process_mono f g p buf _ _ cb r hfg hp]
      simp only at h ⊢
      cases hf : feed f buf cb r.parser (off + len) r.nparsed rest with
      | none => rw [hf] at h; simp at h
      | some y =>
        rw [hf] at h
        rw [ih r.parser (off + len) r.nparsed y hf]
        exact h

theorem feed_syntax_error (buf : List Nat) (cb : Hooks) (p : HttpMessageProcessor)
    (h : p.state = State.SYNTAX_ERROR) :
    ∀ (pieces : List Nat) (off cur : Nat),
      feed 1 buf cb p off cur pieces = some (p, cur, []) := by
  intro pieces
  induction pieces with
  | nil => intro off cur; rfl
  | cons len rest ih =>
    intro off cur
    obtain ⟨r, hP, hrp, hrt, hrn, _⟩ :=
      process_syntax_error 0 p buf ⟨off, len⟩ (some cur) cb h
    simp only [Option.getD_some] at hrn
    simp only [feed, hP, hrp, hrn, ih, hrt, List.append_nil]

theorem Reslices.of_nil {t : List Event} (h : Reslices t []) : t = [] := by
  cases h
  rfl

/-- Feeding a stream in consecutive pieces, compared with one call on the whole of it. -/
theorem feed_whole (buf : List Nat) :
    ∀ (pieces : List Nat) (a cur : Nat) (p : HttpMessageProcessor) (f : Nat) (R : Result),
      Inv p → a + pieces.sum < SIZE_MOD → a + pieces.sum ≤ buf.length →
      (cur = a ∨ p.state = State.SYNTAX_ERROR) →
      process f p buf ⟨a, pieces.sum⟩ (some cur) allTrue = some R →
      ∃ f2 cur2 t, feed f2 buf allTrue p a cur pieces = some (R.parser, cur2, t) ∧
        Reslices t R.trace := by
  intro pieces
  induction pieces with
  | nil =>
    intro a cur p f R hinv _ _ _ h
    obtain ⟨c, w, hl, hR, _, _⟩ := process_allTrue_inv f p buf _ _ R hinv h
    cases f with
    | zero => simp [loop] at hl
    | succ f =>
      rw [loop_end buf _ allTrue f _ (by simp [entry])] at hl
      cases hl
      refine ⟨1, cur, [], ?_, ?_⟩
      · simp only [feed, hR, finish, entry]
      · rw [hR]
        exact Reslices.nil
  | cons len rest ih =>
    intro a cur p f R hinv hM hbuf hcur h
    simp only [List.sum_cons] at hM hbuf h
    by_cases hse : p.state = State.SYNTAX_ERROR
    · obtain ⟨R0, hP0, h0p, h0t, _, _⟩ :=
        process_syntax_error 0 p buf ⟨a, len + rest.sum⟩ (some cur) allTrue hse
      have := process_det _ _ _ _ _ _ _ _ _ h hP0
      subst this
      refine ⟨1, cur, [], ?_, ?_⟩
      · rw [h0p]; exact feed_syntax_error buf allTrue p hse _ _ _
      · rw [h0t]; exact Reslices.nil
    · have hca : cur = a := by
        rcases hcur with hc | hc
        · exact hc
        · exact absurd hc hse
      subst hca
      obtain ⟨f1, R1, hP1, hinv1, hcur1, f2, R2, hP2, h2p, hres⟩ :=
        process_split buf cur (len + rest.sum) len p f R hM hbuf (by omega) hinv h
      have hrs : len + rest.sum - len = rest.sum := by omega
      rw [hrs] at hP2
      obtain ⟨f3, cur3, t3, hfeed, hres3⟩ := ih (cur + len) R1.nparsed R1.parser f2 R2 hinv1
        (by omega) (by omega) hcur1 hP2
      refine ⟨max f1 f3, cur3, R1.trace ++ t3, ?_, ?_⟩
      · simp only [feed]
        rw [process_mono f1 (max f1 f3) p buf _ _ allTrue R1 (le_max_left _ _) hP1]
        simp only
        rw [feed_mono buf allTrue f3 (max f1 f3) (le_max_right _ _) rest _ _ _ _ hfeed, h2p]
      · exact (Reslices.append_left R1.trace hres3).trans hres

theorem inv_new (mode : ParseMode) : Inv (HttpMessageProcessor.new mode) := by
  simp [Inv, HttpMessageProcessor.new]

/-! ## Passes of the loop that are known one by one -/

theorem after_loop (buf : List Nat) (chunk : BufferRef) (cb : Hooks) :
    ∀ (n : Nat) (c c1 : Cfg) (f : Nat), after buf chunk cb n c = some c1 →
      loop buf chunk cb (n + f) c = loop buf chunk cb f c1 := by
  intro n
  induction n with
  | zero =>
    intro c c1 f h
    simp only [after, Option.some.injEq] at h
    rw [h, Nat.zero_add]
  | succ n ih =>
    intro c c1 f h
    simp only [after] at h
    split_ifs at h with hi
    cases hst : step buf chunk cb c with
    | next c2 =>
      rw [hst] at h
      rw [Nat.add_right_comm, loop_next buf chunk cb (n + f) c c2 hi hst]
      exact ih c2 c1 f h
    | done c2 w => rw [hst] at h; simp at h

theorem after_trans (buf : List Nat) (chunk : BufferRef) (cb : Hooks) :
    ∀ (n m : Nat) (c c1 c2 : Cfg), after buf chunk cb n c = some c1 →
      after buf chunk cb m c1 = some c2 → after buf chunk cb (n + m) c = some c2 := by
  intro n
  induction n with
  | zero =>
    intro m c c1 c2 h1 h2
    simp only [after, Option.some.injEq] at h1
    rw [h1, Nat.zero_add]; exact h2
  | succ n ih =>
    intro m c c1 c2 h1 h2
    simp only [after] at h1
    rw [Nat.add_right_comm]
    simp only [after]
    split_ifs at h1 ⊢ with hi
    cases hst : step buf chunk cb c with
    | next c3 =>
      rw [hst] at h1
      exact ih m c3 c1 c2 h1 h2
    | done c3 w => rw [hst] at h1; simp at h1

theorem after_one (buf : List Nat) (chunk : BufferRef) (cb : Hooks) (c c1 : Cfg)
    (hi : c.i ≠ chunk.offset + chunk.size) (hst : step buf chunk cb c = Step.next c1) :
    after buf chunk cb 1 c = some c1 := by
  simp only [after, if_neg hi, hst]

/-! ## Extending a chunk that ended between two passes -/

theorem loop_extend (buf : List Nat) (a k e : Nat) (hak : a ≤ k) (hke : k ≤ e)
    (hM : e < SIZE_MOD) (hbuf : e ≤ buf.length) :
    ∀ (f : Nat) (c c1 : Cfg), c.nparsed = c.i → a ≤ c.i → c.i ≤ k →
      loop buf ⟨a, k - a⟩ allTrue f c = some (c1, Exit.chunkEnd) → c1.p.state.isBody = false →
      ∀ (g : Nat) (r : Cfg × Exit), loop buf ⟨a, e - a⟩ allTrue g c1 = some r →
        loop buf ⟨a, e - a⟩ allTrue (f + g) c = some r := by
  have hk1 : a + (k - a) = k := by omega
  have he1 : a + (e - a) = e := by omega
  by_cases hkeq : k = e
  · subst hkeq
    intro f c c1 hnp ha hik h _ g r hg
    have hi := (loop_lock buf ⟨a, k - a⟩ allTrue (by simp only [hk1]; exact hM) f c c1 _ hnp ha
      (by simp only [hk1]; exact hik) h).2.2.2 rfl
    cases g with
    | zero => simp [loop] at hg
    | succ g =>
      rw [loop_end buf _ allTrue g c1 hi] at hg
      rw [← hg]
      exact loop_mono buf _ allTrue (g + 1) f c _ h
  · have hlt : k < e := by omega
    intro f
    induction f with
    | zero => intro c c1 _ _ _ h; simp [loop] at h
    | succ f ih =>
      intro c c1 hnp ha hik h hbody g r hg
      have hne1 : ∀ x : Cfg, x.i = k →
          x.i = (⟨a, k - a⟩ : BufferRef).offset + (⟨a, k - a⟩ : BufferRef).size := by
        intro x hx; simp only [hk1]; exact hx
      by_cases hi : c.i = k
      · rw [loop_end buf _ allTrue f c (hne1 c hi)] at h
        cases h
        exact loop_mono_le buf _ allTrue g (f + 1 + g) c r (by omega) hg
      · have hik2 : c.i < k := by omega
        have hne : c.i ≠ (⟨a, e - a⟩ : BufferRef).offset + (⟨a, e - a⟩ : BufferRef).size := by
          simp only [he1]; omega
        have hnek : c.i ≠ (⟨a, k - a⟩ : BufferRef).offset + (⟨a, k - a⟩ : BufferRef).size := by
          simp only [hk1]; omega
        simp only [loop, if_neg hnek] at h
        rcases step_split buf a k e c hnp ha hik2 hlt hM hbuf with
          heq | ⟨c2, _, _, h1, h1i, _, h1b, _⟩
        · cases hst : step buf ⟨a, k - a⟩ allTrue c with
          | next c4 =>
            rw [hst] at h heq
            have hl := step_lock buf ⟨a, k - a⟩ allTrue c hnp ha (by simp only [hk1]; omega)
              (by simp only [hk1]; omega)
            rw [hst] at hl
            simp only [Step.cfg, hk1] at hl
            have := ih c4 c1 hl.1 (by omega) hl.2.2 h hbody g r hg
            rw [Nat.add_right_comm, loop_next buf _ allTrue (f + g) c c4 hne heq.symm]
            exact this
          | done c4 w4 =>
            rw [hst] at h
            simp only [Option.some.injEq, Prod.mk.injEq] at h
            have := (step_done_allTrue buf _ c c4 w4 hst).1
            rw [h.2] at this
            cases this
        · rw [h1] at h
          simp only at h
          cases f with
          | zero => simp [loop] at h
          | succ f =>
            rw [loop_end buf _ allTrue f c2 (hne1 c2 h1i)] at h
            cases h
            rw [h1b] at hbody
            cases hbody

/-! ## `CONTENT_BEGIN` is entered together with `onMessageHeaderEnd` -/

set_option maxHeartbeats 4000000 in
theorem step_header_end_last (buf : List Nat) (chunk : BufferRef) (cb : Hooks) (c : Cfg)
    (hinv : Inv c.p) (h : (step buf chunk cb c).cfg.p.state = State.CONTENT_BEGIN) :
    (step buf chunk cb c).cfg.trace.getLast? = some Event.onMessageHeaderEnd := by
  obtain ⟨_, h2, h3⟩ := hinv
  revert h
  cases hs : c.p.state <;>
    simp only [step, hs, expectByte, statusCode, chunkSize, callHook, Cfg.eat, Cfg.advance,
      Cfg.setState, Cfg.takeBody, headerEffects] <;>
    (try split) <;> (try split_ifs) <;> simp_all [Step.cfg]

theorem loop_header_end_last (buf : List Nat) (chunk : BufferRef) (cb : Hooks) :
    ∀ (f : Nat) (c r : Cfg) (w : Exit), Inv c.p →
      (c.p.state = State.CONTENT_BEGIN → c.trace.getLast? = some Event.onMessageHeaderEnd) →
      loop buf chunk cb f c = some (r, w) → r.p.state = State.CONTENT_BEGIN →
      r.trace.getLast? = some Event.onMessageHeaderEnd := by
  intro f
  induction f with
  | zero => intro c r w _ _ h; simp [loop] at h
  | succ f ih =>
    intro c r w hinv hj h hr
    simp only [loop] at h
    split_ifs at h with hi
    · cases h; exact hj hr
    · have hs := step_inv buf chunk cb c hinv
      have hl := step_header_end_last buf chunk cb c hinv
      cases hst : step buf chunk cb c with
      | next c1 =>
        rw [hst] at h hs hl
        simp only [Step.cfg] at hs hl
        exact ih c1 r w hs.1 hl h hr
      | done c1 w1 =>
        rw [hst] at h hl
        simp only [Step.cfg] at hl
        cases h
        exact hl hr

/-! ## Reading a re-sliced trace -/

theorem Reslices.append_inv {t : List Event} :
    ∀ {a b : List Event}, Reslices t (a ++ b) →
      ∃ ta tb, t = ta ++ tb ∧ Reslices ta a ∧ Reslices tb b := by
  intro a b h
  generalize hu : a ++ b = u at h
  induction h generalizing a with
  | nil =>
    have ha : a = [] := (List.append_eq_nil.mp hu).1
    have hb : b = [] := (List.append_eq_nil.mp hu).2
    subst ha hb
    exact ⟨[], [], rfl, Reslices.nil, Reslices.nil⟩
  | @same ev t u h ih =>
    cases a with
    | nil =>
      simp only [List.nil_append] at hu
      subst hu
      exact ⟨[], ev :: t, rfl, Reslices.nil, Reslices.same ev h⟩
    | cons x a =>
      simp only [List.cons_append, List.cons.injEq] at hu
      obtain ⟨hx, hu⟩ := hu
      subst hx
      obtain ⟨ta, tb, ht, h1, h2⟩ := ih hu
      exact ⟨x :: ta, tb, by rw [ht]; rfl, Reslices.same x h1, h2⟩
  | @split s1 s2 t u h1 h2 h ih =>
    cases a with
    | nil =>
      simp only [List.nil_append] at hu
      subst hu
      exact ⟨[], _, rfl, Reslices.nil, Reslices.split s1 s2 h1 h2 h⟩
    | cons x a =>
      simp only [List.cons_append, List.cons.injEq] at hu
      obtain ⟨hx, hu⟩ := hu
      subst hx
      obtain ⟨ta, tb, ht, h3, h4⟩ := @ih (Event.onMessageContent s2 :: a) (by rw [← hu]; rfl)
      exact ⟨Event.onMessageContent s1 :: ta, tb, by rw [ht]; rfl,
        Reslices.split s1 s2 h1 h2 h3, h4⟩

theorem Reslices.content_inv {t : List Event} :
    ∀ {s : List Nat} {rest : List Event}, Reslices t (Event.onMessageContent s :: rest) →
      ∃ (slices : List (List Nat)) (t2 : List Event),
        t = slices.map Event.onMessageContent ++ t2 ∧ slices.flatten = s ∧
        (s ≠ [] → ∀ x ∈ slices, x ≠ []) ∧ Reslices t2 rest := by
  intro s rest h
  generalize hu : Event.onMessageContent s :: rest = u at h
  induction h generalizing s with
  | nil => cases hu
  | @same ev t u h _ =>
    simp only [List.cons.injEq] at hu
    obtain ⟨hx, hu⟩ := hu
    subst hx hu
    refine ⟨[s], t, rfl, by simp, ?_, h⟩
    intro hs x hx
    simp only [List.mem_singleton] at hx
    rw [hx]; exact hs
  | @split s1 s2 t u h1 h2 h ih =>
    simp only [List.cons.injEq, Event.onMessageContent.injEq] at hu
    obtain ⟨hx, hu⟩ := hu
    subst hx hu
    obtain ⟨slices, t2, ht, hj, hne, hr⟩ := @ih s2 rfl
    refine ⟨s1 :: slices, t2, by rw [ht]; rfl, by simp [hj], ?_, hr⟩
    intro _ x hx
    rcases List.mem_cons.mp hx with hx | hx
    · rw [hx]; exact h1
    · exact hne h2 x hx

theorem Reslices.getLast_eq {t u : List Event} (h : Reslices t u) (ev : Event)
    (hev : ev.isContent = false) (hu : u.getLast? = some ev) : t.getLast? = some ev := by
  obtain ⟨u0, hu0⟩ : ∃ u0, u = u0 ++ [ev] :=
    ⟨u.dropLast, (List.dropLast_append_getLast? ev hu).symm⟩
  subst hu0
  obtain ⟨ta, tb, ht, _, hb⟩ := h.append_inv
  have hb2 := hb.eq_of_no_content (by
    intro e he
    simp only [List.mem_singleton] at he
    rw [he]; exact hev)
  rw [ht, hb2]
  simp

/-! ## Single passes in the body states, written out -/

theorem getD_of_drop : ∀ (buf : List Nat) (i b : Nat) (rest : List Nat),
    buf.drop i = b :: rest →
    buf.getD i 0 = b ∧ buf.drop (i + 1) = rest ∧ i < buf.length
  | [], i, b, rest, h => by simp at h
  | x :: xs, 0, b, rest, h => by
    simp only [List.drop_zero, List.cons.injEq] at h
    obtain ⟨h1, h2⟩ := h
    subst h1 h2
    simp
  | x :: xs, i + 1, b, rest, h => by
    simp only [List.drop_succ_cons] at h
    obtain ⟨h1, h2, h3⟩ := getD_of_drop xs i b rest h
    refine ⟨?_, ?_, ?_⟩
    · simpa using h1
    · simpa using h2
    · simp only [List.length_cons]; omega

theorem drop_append_of_drop (buf : List Nat) (i : Nat) (s rest : List Nat)
    (hi : i ≤ buf.length) (h : buf.drop i = s ++ rest) :
    buf.drop (i + s.length) = rest ∧ i + s.length ≤ buf.length ∧
      BufferRef.bytes buf ⟨i, s.length⟩ = s := by
  have hlen : (buf.drop i).length = s.length + rest.length := by rw [h]; simp
  simp only [List.length_drop] at hlen
  refine ⟨?_, by omega, ?_⟩
  · rw [← List.drop_drop, h]; simp
  · simp only [BufferRef.bytes, h]
    simp

theorem step_content_begin_chunked (buf : List Nat) (X : BufferRef) (cb : Hooks)
    (p : HttpMessageProcessor) (i n : Nat) (t : List Event)
    (hs : p.state = State.CONTENT_BEGIN) (hc : p.chunked = true) :
    step buf X cb ⟨p, i, n, t⟩
      = Step.next ⟨{ p with state := State.CONTENT_CHUNK_SIZE_BEGIN }, i, n, t⟩ := by
  simp [step, hs, hc, Cfg.setState]

theorem hexDigit_isxdigit (b v : Nat) (h : hexDigit b = some v) :
    isxdigit b = true ∧ b ≠ CR := by
  unfold hexDigit at h
  unfold isxdigit isdigit CR
  split_ifs at h <;> simp <;> omega

theorem step_size_begin (buf : List Nat) (X : BufferRef) (cb : Hooks)
    (p : HttpMessageProcessor) (i n : Nat) (t : List Event)
    (hs : p.state = State.CONTENT_CHUNK_SIZE_BEGIN) (hb : isxdigit (buf.getD i 0) = true) :
    step buf X cb ⟨p, i, n, t⟩
      = step buf X cb ⟨{ p with state := State.CONTENT_CHUNK_SIZE, contentLength := 0 }, i, n, t⟩
      := by
  simp only [step, hs]
  generalize buf.getD i 0 = b at hb
  simp [hb]

theorem step_size_digit (buf : List Nat) (X : BufferRef) (cb : Hooks)
    (p : HttpMessageProcessor) (i v : Nat) (t : List Event)
    (hs : p.state = State.CONTENT_CHUNK_SIZE) (hb : hexDigit (buf.getD i 0) = some v)
    (hi : i + 1 < SIZE_MOD) :
    step buf X cb ⟨p, i, i, t⟩
      = Step.next ⟨{ p with contentLength := p.contentLength * 16 + (v : Int) }, i + 1, i + 1, t⟩
      := by
  have hx := (hexDigit_isxdigit _ _ hb).2
  have e1 := szAdd_small i 1 hi
  unfold hexDigit at hb
  simp only [step, hs, chunkSize, Cfg.advance, if_neg hx, e1]
  generalize buf.getD i 0 = b at hb hx
  split_ifs at hb ⊢ with h1 h2 h3 <;>
    simp only [Option.some.injEq] at hb <;>
    (try cases hb) <;>
    · congr 3
      push_cast
      omega

theorem step_size_cr (buf : List Nat) (X : BufferRef) (cb : Hooks)
    (p : HttpMessageProcessor) (i : Nat) (t : List Event)
    (hs : p.state = State.CONTENT_CHUNK_SIZE) (hb : buf.getD i 0 = CR)
    (hi : i + 1 < SIZE_MOD) :
    step buf X cb ⟨p, i, i, t⟩
      = Step.next ⟨{ p with state := State.CONTENT_CHUNK_LF1 }, i + 1, i + 1, t⟩ := by
  have e1 := szAdd_small i 1 hi
  simp only [step, hs]
  generalize buf.getD i 0 = b at hb
  subst hb
  simp [chunkSize, Cfg.eat, Cfg.advance, Cfg.setState, e1]

theorem step_lf1 (buf : List Nat) (X : BufferRef) (cb : Hooks)
    (p : HttpMessageProcessor) (i : Nat) (t : List Event)
    (hs : p.state = State.CONTENT_CHUNK_LF1) (hb : buf.getD i 0 = LF)
    (hi : i + 1 < SIZE_MOD) :
    step buf X cb ⟨p, i, i, t⟩
      = Step.next ⟨{ p with state := if p.contentLength ≠ 0 then State.CONTENT_CHUNK_BODY
                                      else State.CONTENT_CHUNK_CR3 }, i + 1, i + 1, t⟩ := by
  have e1 := szAdd_small i 1 hi
  simp only [step, hs]
  generalize buf.getD i 0 = b at hb
  subst hb
  by_cases hc : p.contentLength = 0 <;>
    simp [hc, Cfg.eat, Cfg.advance, Cfg.setState, e1]

theorem step_body_cr (buf : List Nat) (X : BufferRef) (cb : Hooks)
    (p : HttpMessageProcessor) (i : Nat) (t : List Event)
    (hs : p.state = State.CONTENT_CHUNK_BODY) (hc : p.contentLength = 0)
    (hb : buf.getD i 0 = CR) (hi : i + 1 < SIZE_MOD) :
    step buf X cb ⟨p, i, i, t⟩
      = Step.next ⟨{ p with state := State.CONTENT_CHUNK_LF2 }, i + 1, i + 1, t⟩ := by
  have e1 := szAdd_small i 1 hi
  simp only [step, hs]
  generalize buf.getD i 0 = b at hb
  subst hb
  simp [hc, Cfg.eat, Cfg.advance, Cfg.setState, e1]

theorem step_lf2 (buf : List Nat) (X : BufferRef) (cb : Hooks)
    (p : HttpMessageProcessor) (i : Nat) (t : List Event)
    (hs : p.state = State.CONTENT_CHUNK_LF2) (hb : buf.getD i 0 = LF)
    (hi : i + 1 < SIZE_MOD) :
    step buf X cb ⟨p, i, i, t⟩
      = Step.next ⟨{ p with state := State.CONTENT_CHUNK_SIZE }, i + 1, i + 1, t⟩ := by
  have e1 := szAdd_small i 1 hi
  simp only [step, hs]
  generalize buf.getD i 0 = b at hb
  subst hb
  simp [expectByte, Cfg.eat, Cfg.advance, Cfg.setState, e1]

theorem step_cr3 (buf : List Nat) (X : BufferRef) (cb : Hooks)
    (p : HttpMessageProcessor) (i : Nat) (t : List Event)
    (hs : p.state = State.CONTENT_CHUNK_CR3) (hb : buf.getD i 0 = CR)
    (hi : i + 1 < SIZE_MOD) :
    step buf X cb ⟨p, i, i, t⟩
      = Step.next ⟨{ p with state := State.CONTENT_CHUNK_LF3 }, i + 1, i + 1, t⟩ := by
  have e1 := szAdd_small i 1 hi
  simp only [step, hs]
  generalize buf.getD i 0 = b at hb
  subst hb
  simp [expectByte, Cfg.eat, Cfg.advance, Cfg.setState, e1]

theorem step_lf3 (buf : List Nat) (X : BufferRef)
    (p : HttpMessageProcessor) (i : Nat) (t : List Event)
    (hs : p.state = State.CONTENT_CHUNK_LF3) (hb : buf.getD i 0 = LF)
    (hi : i + 1 < SIZE_MOD) :
    step buf X allTrue ⟨p, i, i, t⟩
      = Step.next ⟨{ p with state := State.MESSAGE_BEGIN }, i + 1, i + 1,
          t ++ [Event.onMessageEnd]⟩ := by
  have e1 := szAdd_small i 1 hi
  simp only [step, hs]
  generalize buf.getD i 0 = b at hb
  subst hb
  simp [callHook, allTrue, Cfg.advance, Cfg.setState, e1]

theorem step_chunk_body_all (buf : List Nat) (X : BufferRef)
    (p : HttpMessageProcessor) (i m : Nat) (t : List Event)
    (hs : p.state = State.CONTENT_CHUNK_BODY) (hc : p.contentLength = (m : Int)) (hm : 0 < m)
    (ha : X.offset ≤ i) (he : i + m ≤ X.offset + X.size)
    (hM : X.offset + X.size < SIZE_MOD) :
    step buf X allTrue ⟨p, i, i, t⟩
      = Step.next ⟨{ p with contentLength := 0 }, i + m, i + m,
          t ++ [Event.onMessageContent (BufferRef.bytes buf ⟨i, m⟩)]⟩ := by
  have hts : toSize p.contentLength = m := by
    rw [hc, toSize_of_nonneg _ (by omega) (by unfold SIZE_MOD at *; omega)]
    simp
  have h := step_chunk_body buf X ⟨p, i, i, t⟩ hs (by rw [hc]; omega) rfl ha (by simp only; omega)
    hM m (by simp only [hts]; omega)
  rw [h]
  simp only [Cfg.deliver, Cfg.takeBody, hc, sub_self, szAdd_small i m (by omega)]

/-- What is known after the bytes of a message head were processed as one chunk and left
the parser in `CONTENT_BEGIN`. -/
theorem head_loop (buf : List Nat) (h : Nat) (p0 : HttpMessageProcessor) (fH : Nat)
    (RH : Result) (hM : h < SIZE_MOD) (hinv : Inv p0) (hp0 : p0.state ≠ State.CONTENT_BEGIN)
    (hH : process fH p0 buf ⟨0, h⟩ (some 0) allTrue = some RH)
    (hst : RH.parser.state = State.CONTENT_BEGIN) :
    loop buf ⟨0, h⟩ allTrue fH ⟨p0, 0, 0, []⟩
        = some (⟨RH.parser, h, h, RH.trace⟩, Exit.chunkEnd) ∧
      Inv RH.parser ∧ RH.trace.getLast? = some Event.onMessageHeaderEnd := by
  obtain ⟨c, w, hl, hR, hci, hcase⟩ := process_allTrue_inv fH p0 buf _ _ RH hinv hH
  have hlock := loop_lock buf ⟨0, h⟩ allTrue (by simpa using hM) fH _ c w rfl (le_refl _)
    (by simp [entry]) hl
  have hlast := loop_header_end_last buf ⟨0, h⟩ allTrue fH _ c w hinv
    (fun hx => absurd hx hp0) hl
  have hcp : c.p = RH.parser := by rw [hR]; rfl
  have hct : c.trace = RH.trace := by rw [hR]; rfl
  rcases hcase with ⟨hw, hi⟩ | ⟨_, hse⟩
  · simp only [Nat.zero_add] at hi
    refine ⟨?_, by rw [← hcp]; exact hci, by rw [← hct]; exact hlast (by rw [hcp]; exact hst)⟩
    have hc : c = ⟨RH.parser, h, h, RH.trace⟩ := by
      obtain ⟨cp, ci, cn, ct⟩ := c
      simp only at hcp hct hi hlock
      simp only [Cfg.mk.injEq]
      exact ⟨hcp, hi, by rw [hlock.1, hi], hct⟩
    rw [← hc, ← hw]
    exact hl
  · rw [hcp, hst] at hse
    cases hse

/-- The call on the whole stream, put together from the call on the head and the passes
over the body. -/
theorem whole_of_head (buf : List Nat) (h : Nat) (p0 : HttpMessageProcessor) (fH : Nat)
    (RH : Result) (hh : h ≤ buf.length) (hM : buf.length < SIZE_MOD) (hinv : Inv p0)
    (hp0 : p0.state ≠ State.CONTENT_BEGIN)
    (hH : process fH p0 buf ⟨0, h⟩ (some 0) allTrue = some RH)
    (hst : RH.parser.state = State.CONTENT_BEGIN)
    (n : Nat) (cF : Cfg)
    (hafter : after buf (whole buf) allTrue n ⟨RH.parser, h, h, RH.trace⟩ = some cF)
    (hend : cF.i = buf.length) (hFinv : Inv cF.p) :
    process (fH + (n + 1)) p0 buf (whole buf) (some 0) allTrue
      = some (finish (whole buf) (cF, Exit.chunkEnd)) := by
  obtain ⟨hl, _, _⟩ := head_loop buf h p0 fH RH (by omega) hinv hp0 hH hst
  have hg : loop buf (whole buf) allTrue (n + 1) ⟨RH.parser, h, h, RH.trace⟩
      = some (cF, Exit.chunkEnd) := by
    rw [after_loop buf _ allTrue n _ cF 1 hafter]
    exact loop_end buf _ allTrue 0 cF (by simp [whole, hend])
  have hx := loop_extend buf 0 h buf.length (Nat.zero_le _) hh hM (le_refl _) fH
    ⟨p0, 0, 0, []⟩ ⟨RH.parser, h, h, RH.trace⟩ rfl (le_refl _) (Nat.zero_le _)
    (by simpa using hl) (by simp only [hst]; rfl) (n + 1) (cF, Exit.chunkEnd)
    (by simpa [whole] using hg)
  simp only [Nat.sub_zero] at hx
  exact process_of_loop_inv _ p0 buf (whole buf) (some 0) cF Exit.chunkEnd hFinv hx

/-- Feeding, in any pieces, a stream that consists of a head and a body whose passes are
known: the callbacks are those of the head followed by those of the body, up to the
slicing of content. -/
theorem feed_of_head (buf : List Nat) (h : Nat) (p0 : HttpMessageProcessor) (fH : Nat)
    (RH : Result) (pieces : List Nat) (hh : h ≤ buf.length) (hM : buf.length < SIZE_MOD)
    (hsum : pieces.sum = buf.length) (hinv : Inv p0)
    (hp0 : p0.state ≠ State.CONTENT_BEGIN)
    (hH : process fH p0 buf ⟨0, h⟩ (some 0) allTrue = some RH)
    (hst : RH.parser.state = State.CONTENT_BEGIN)
    (n : Nat) (cF : Cfg) (T2 : List Event)
    (hafter : after buf (whole buf) allTrue n ⟨RH.parser, h, h, RH.trace⟩ = some cF)
    (hend : cF.i = buf.length) (hFinv : Inv cF.p) (hT2 : cF.trace = RH.trace ++ T2) :
    ∃ f cur pre tb, feed f buf allTrue p0 0 0 pieces = some (cF.p, cur, pre ++ tb) ∧
      Reslices pre RH.trace ∧ pre.getLast? = some Event.onMessageHeaderEnd ∧
      Reslices tb T2 := by
  have hW := whole_of_head buf h p0 fH RH hh hM hinv hp0 hH hst n cF hafter hend hFinv
  obtain ⟨_, _, hlast⟩ := head_loop buf h p0 fH RH (by omega) hinv hp0 hH hst
  have hW2 : process (fH + (n + 1)) p0 buf ⟨0, pieces.sum⟩ (some 0) allTrue
      = some (finish (whole buf) (cF, Exit.chunkEnd)) := by
    rw [hsum]; exact hW
  obtain ⟨f2, cur2, t, hfeed, hres⟩ :=
    feed_whole buf pieces 0 0 p0 _ _ hinv (by omega) (by omega) (Or.inl rfl) hW2
  simp only [finish, hT2] at hres hfeed
  obtain ⟨pre, tb, ht, hpre, htb⟩ := hres.append_inv
  refine ⟨f2, cur2, pre, tb, by rw [← ht]; exact hfeed, hpre, ?_, htb⟩
  exact hpre.getLast_eq _ rfl hlast

theorem after_succ (buf : List Nat) (cb : Hooks) (n : Nat) (c c1 c2 : Cfg)
    (hi : c.i < buf.length) (hst : step buf (whole buf) cb c = Step.next c1)
    (h : after buf (whole buf) cb n c1 = some c2) :
    after buf (whole buf) cb (n + 1) c = some c2 := by
  have hne : c.i ≠ (whole buf).offset + (whole buf).size := by simp only [whole]; omega
  simp only [after, if_neg hne, hst, h]

/-- The digits of a size line. -/
theorem after_hex (buf : List Nat) (hM : buf.length < SIZE_MOD) :
    ∀ (sz : List Nat) (acc v : Nat) (p : HttpMessageProcessor) (i : Nat) (t : List Event)
      (rest : List Nat),
      hexValue acc sz = some v → p.state = State.CONTENT_CHUNK_SIZE →
      p.contentLength = (acc : Int) → buf.drop i = sz ++ rest → i ≤ buf.length →
      after buf (whole buf) allTrue sz.length ⟨p, i, i, t⟩
        = some ⟨{ p with contentLength := (v : Int) }, i + sz.length, i + sz.length, t⟩ := by
  intro sz
  induction sz with
  | nil =>
    intro acc v p i t rest hv hs hc _ _
    simp only [hexValue, Option.some.injEq] at hv
    subst hv
    simp only [after, List.length_nil, Nat.add_zero, ← hc]
  | cons b bs ih =>
    intro acc v p i t rest hv hs hc hdrop hi
    simp only [hexValue] at hv
    cases hd : hexDigit b with
    | none => rw [hd] at hv; simp at hv
    | some d =>
      rw [hd] at hv
      simp only at hv
      obtain ⟨hb, hdrop1, hlt⟩ := getD_of_drop buf i b (bs ++ rest) hdrop
      have hst := step_size_digit buf (whole buf) allTrue p i d t hs (by rw [hb]; exact hd)
        (by omega)
      have := ih (acc * 16 + d) v { p with contentLength := p.contentLength * 16 + (d : Int) }
        (i + 1) t rest hv hs (by simp only [hc]; push_cast; rfl) hdrop1 (by omega)
      have h2 := after_succ buf allTrue bs.length _ _ _ hlt hst this
      simp only [List.length_cons]
      rw [h2]
      simp only [Nat.add_assoc, Nat.add_comm 1]

/-- One chunk: size line, CR LF, data, CR LF. -/
theorem after_one_chunk (buf : List Nat) (hM : buf.length < SIZE_MOD)
    (sz d rest : List Nat) (p : HttpMessageProcessor) (i : Nat) (t : List Event)
    (hs : p.state = State.CONTENT_CHUNK_SIZE) (hc : p.contentLength = 0)
    (hv : hexValue 0 sz = some d.length) (hd : d ≠ [])
    (hdrop : buf.drop i = sz ++ [CR, LF] ++ d ++ [CR, LF] ++ rest) (hi : i ≤ buf.length) :
    after buf (whole buf) allTrue (sz.length + 5) ⟨p, i, i, t⟩
      = some ⟨{ p with contentLength := 0 }, i + sz.length + 2 + d.length + 2,
          i + sz.length + 2 + d.length + 2, t ++ [Event.onMessageContent d]⟩ ∧
      buf.drop (i + sz.length + 2 + d.length + 2) = rest ∧
      i + sz.length + 2 + d.length + 2 ≤ buf.length := by
  have hdpos : 0 < d.length := List.length_pos.mpr hd
  have hdrop0 : buf.drop i = sz ++ (CR :: LF :: (d ++ (CR :: LF :: rest))) := by
    rw [hdrop]; simp
  have a0 := after_hex buf hM sz 0 d.length p i t _ hv hs (by rw [hc]; rfl) hdrop0 hi
  obtain ⟨hdrop1, hi1, _⟩ := drop_append_of_drop buf i sz _ hi hdrop0
  obtain ⟨hb1, hdrop2, hlt1⟩ := getD_of_drop buf _ _ _ hdrop1
  obtain ⟨hb2, hdrop3, hlt2⟩ := getD_of_drop buf _ _ _ hdrop2
  obtain ⟨hdrop4, hi4, hbytes⟩ := drop_append_of_drop buf _ d _ (by omega) hdrop3
  obtain ⟨hb5, hdrop5, hlt5⟩ := getD_of_drop buf _ _ _ hdrop4
  obtain ⟨hb6, hdrop6, hlt6⟩ := getD_of_drop buf _ _ _ hdrop5
  have s1 := step_size_cr buf (whole buf) allTrue { p with contentLength := (d.length : Int) }
    (i + sz.length) t hs hb1 (by omega)
  have s2 := step_lf1 buf (whole buf) allTrue
    { p with contentLength := (d.length : Int), state := State.CONTENT_CHUNK_LF1 }
    (i + sz.length + 1) t rfl hb2 (by omega)
  have hne : ((d.length : Nat) : Int) ≠ 0 := by omega
  simp only [ne_eq, hne, not_false_eq_true, if_true] at s2
  have s3 := step_chunk_body_all buf (whole buf)
    { p with contentLength := (d.length : Int), state := State.CONTENT_CHUNK_BODY }
    (i + sz.length + 1 + 1) d.length t rfl rfl hdpos (Nat.zero_le _)
    (by simp only [whole]; omega) (by simpa [whole] using hM)
  rw [hbytes] at s3
  have s4 := step_body_cr buf (whole buf) allTrue
    { p with contentLength := 0, state := State.CONTENT_CHUNK_BODY }
    (i + sz.length + 1 + 1 + d.length) (t ++ [Event.onMessageContent d]) rfl rfl hb5 (by omega)
  have s5 := step_lf2 buf (whole buf) allTrue
    { p with contentLength := 0, state := State.CONTENT_CHUNK_LF2 }
    (i + sz.length + 1 + 1 + d.length + 1) (t ++ [Event.onMessageContent d]) rfl hb6 (by omega)
  have a5 := after_succ buf allTrue 0 _ _ _ hlt6 s5 rfl
  have a4 := after_succ buf allTrue 1 _ _ _ hlt5 s4 a5
  have a3 := after_succ buf allTrue 2 _ _ _ (by simp only; omega) s3 a4
  have a2 := after_succ buf allTrue 3 _ _ _ hlt2 s2 a3
  have a1 := after_succ buf allTrue 4 _ _ _ hlt1 s1 a2
  have a := after_trans buf (whole buf) allTrue _ _ _ _ _ a0 a1
  have hpe : ({ p with contentLength := 0, state := State.CONTENT_CHUNK_SIZE }
      : HttpMessageProcessor) = { p with contentLength := 0 } := by
    cases p; simp only at hs; subst hs; rfl
  have hpos : i + sz.length + 1 + 1 + d.length + 1 + 1 = i + sz.length + 2 + d.length + 2 := by
    omega
  simp only [hpos, hpe] at a hdrop6 hlt6
  exact ⟨a, hdrop6, by omega⟩

/-- The last chunk `0 CR LF CR LF`. -/
theorem after_last_chunk (buf : List Nat) (hM : buf.length < SIZE_MOD)
    (p : HttpMessageProcessor) (i : Nat) (t : List Event)
    (hs : p.state = State.CONTENT_CHUNK_SIZE) (hc : p.contentLength = 0)
    (hdrop : buf.drop i = [48, CR, LF, CR, LF]) :
    after buf (whole buf) allTrue 5 ⟨p, i, i, t⟩
      = some ⟨{ p with contentLength := 0, state := State.MESSAGE_BEGIN }, buf.length,
          buf.length, t ++ [Event.onMessageEnd]⟩ := by
  have hlen : buf.length - i = 5 := by
    have := congrArg List.length hdrop
    simpa using this
  obtain ⟨hb1, hdrop1, hlt1⟩ := getD_of_drop buf _ _ _ hdrop
  obtain ⟨hb2, hdrop2, hlt2⟩ := getD_of_drop buf _ _ _ hdrop1
  obtain ⟨hb3, hdrop3, hlt3⟩ := getD_of_drop buf _ _ _ hdrop2
  obtain ⟨hb4, hdrop4, hlt4⟩ := getD_of_drop buf _ _ _ hdrop3
  obtain ⟨hb5, _, hlt5⟩ := getD_of_drop buf _ _ _ hdrop4
  have s1 := step_size_digit buf (whole buf) allTrue p i 0 t hs (by rw [hb1]; rfl) (by omega)
  have hz : p.contentLength * 16 + ((0 : Nat) : Int) = 0 := by rw [hc]; rfl
  rw [hz] at s1
  have s2 := step_size_cr buf (whole buf) allTrue { p with contentLength := 0 }
    (i + 1) t hs hb2 (by omega)
  have s3 := step_lf1 buf (whole buf) allTrue
    { p with contentLength := 0, state := State.CONTENT_CHUNK_LF1 }
    (i + 1 + 1) t rfl hb3 (by omega)
  simp only [ne_eq, not_true_eq_false, if_false] at s3
  have s4 := step_cr3 buf (whole buf) allTrue
    { p with contentLength := 0, state := State.CONTENT_CHUNK_CR3 }
    (i + 1 + 1 + 1) t rfl hb4 (by omega)
  have s5 := step_lf3 buf (whole buf)
    { p with contentLength := 0, state := State.CONTENT_CHUNK_LF3 }
    (i + 1 + 1 + 1 + 1) t rfl hb5 (by omega)
  have a5 := after_succ buf allTrue 0 _ _ _ hlt5 s5 rfl
  have a4 := after_succ buf allTrue 1 _ _ _ hlt4 s4 a5
  have a3 := after_succ buf allTrue 2 _ _ _ hlt3 s3 a4
  have a2 := after_succ buf allTrue 3 _ _ _ hlt2 s2 a3
  have a1 := after_succ buf allTrue 4 _ _ _ hlt1 s1 a2
  have hpos : i + 1 + 1 + 1 + 1 + 1 = buf.length := by omega
  simp only [hpos] at a1
  exact a1

/-- All chunks of a chunked body, from the first size line to the end of the last chunk. -/
theorem after_chunks (buf : List Nat) (hM : buf.length < SIZE_MOD) :
    ∀ (cs : List (List Nat × List Nat)) (p : HttpMessageProcessor) (i : Nat) (t : List Event),
      ValidChunks cs → p.state = State.CONTENT_CHUNK_SIZE → p.contentLength = 0 →
      buf.drop i = chunkedBody cs → i ≤ buf.length →
      ∃ n, after buf (whole buf) allTrue (n + 1) ⟨p, i, i, t⟩
        = some ⟨{ p with contentLength := 0, state := State.MESSAGE_BEGIN }, buf.length,
            buf.length,
            t ++ (cs.map fun x => Event.onMessageContent x.2) ++ [Event.onMessageEnd]⟩ := by
  intro cs
  induction cs with
  | nil =>
    intro p i t _ hs hc hdrop _
    refine ⟨4, ?_⟩
    have := after_last_chunk buf hM p i t hs hc hdrop
    simpa using this
  | cons x cs ih =>
    intro p i t hv hs hc hdrop hi
    obtain ⟨sz, d⟩ := x
    have hx := hv (sz, d) (List.mem_cons_self _ _)
    simp only at hx
    obtain ⟨a1, hdrop1, hi1⟩ := after_one_chunk buf hM sz d (chunkedBody cs) p i t hs hc hx.2.2
      hx.2.1 (by rw [hdrop]; rfl) hi
    obtain ⟨n, a2⟩ := ih { p with contentLength := 0 } (i + sz.length + 2 + d.length + 2)
      (t ++ [Event.onMessageContent d]) (fun y hy => hv y (List.mem_cons_of_mem _ hy)) hs rfl
      hdrop1 hi1
    refine ⟨sz.length + 5 + n, ?_⟩
    have := after_trans buf (whole buf) allTrue _ _ _ _ _ a1 a2
    rw [Nat.add_assoc]
    rw [this]
    simp

/-- The first byte of a chunked body is a hexadecimal digit. -/
theorem chunkedBody_first (cs : List (List Nat × List Nat)) (hv : ValidChunks cs) :
    ∃ b rest, chunkedBody cs = b :: rest ∧ isxdigit b = true := by
  cases cs with
  | nil => exact ⟨48, _, rfl, by decide⟩
  | cons x cs =>
    obtain ⟨sz, d⟩ := x
    have hx := hv (sz, d) (List.mem_cons_self _ _)
    simp only at hx
    cases sz with
    | nil => exact absurd rfl hx.1
    | cons b bs =>
      refine ⟨b, _, rfl, ?_⟩
      have h3 := hx.2.2
      simp only [hexValue] at h3
      cases hd : hexDigit b with
      | none => rw [hd] at h3; simp at h3
      | some v => exact (hexDigit_isxdigit b v hd).1

/-- The passes over a chunked body that follows the head. -/
theorem after_chunked_body (buf : List Nat) (hM : buf.length < SIZE_MOD)
    (cs : List (List Nat × List Nat)) (p : HttpMessageProcessor) (h : Nat) (t : List Event)
    (hv : ValidChunks cs) (hs : p.state = State.CONTENT_BEGIN) (hc : p.chunked = true)
    (hdrop : buf.drop h = chunkedBody cs) (hh : h ≤ buf.length) :
    ∃ n, after buf (whole buf) allTrue n ⟨p, h, h, t⟩
      = some ⟨{ p with contentLength := 0, state := State.MESSAGE_BEGIN }, buf.length,
          buf.length,
          t ++ (cs.map fun x => Event.onMessageContent x.2) ++ [Event.onMessageEnd]⟩ := by
  obtain ⟨b, rest, hb, hx⟩ := chunkedBody_first cs hv
  obtain ⟨hgd, _, hlt⟩ := getD_of_drop buf h b rest (by rw [hdrop, hb])
  have s0 := step_content_begin_chunked buf (whole buf) allTrue p h h t hs hc
  have s1 := step_size_begin buf (whole buf) allTrue
    { p with state := State.CONTENT_CHUNK_SIZE_BEGIN } h h t rfl (by rw [hgd]; exact hx)
  obtain ⟨n, a⟩ := after_chunks buf hM cs
    { p with state := State.CONTENT_CHUNK_SIZE, contentLength := 0 } h t hv rfl rfl hdrop hh
  have hne : h ≠ (whole buf).offset + (whole buf).size := by simp only [whole]; omega
  have a1 : after buf (whole buf) allTrue (n + 1)
      ⟨{ p with state := State.CONTENT_CHUNK_SIZE_BEGIN }, h, h, t⟩
      = after buf (whole buf) allTrue (n + 1)
        ⟨{ p with state := State.CONTENT_CHUNK_SIZE, contentLength := 0 }, h, h, t⟩ := by
    simp only [after, s1]
  rw [a] at a1
  refine ⟨n + 1 + 1, ?_⟩
  exact after_succ buf allTrue (n + 1) _ _ _ hlt s0 a1

/-! ## The callbacks of a body, read off a re-sliced trace -/

theorem inv_message_begin (p : HttpMessageProcessor) (h : Inv p) :
    Inv { p with contentLength := 0, state := State.MESSAGE_BEGIN } := by
  obtain ⟨_, h2, h3⟩ := h
  exact ⟨fun hx => (by cases hx), h2, h3⟩

theorem Reslices.contents_inv : ∀ (ds : List (List Nat)) (t rest : List Event),
    (∀ d ∈ ds, d ≠ []) → (∀ ev ∈ rest, ev.isContent = false) →
    Reslices t (ds.map Event.onMessageContent ++ rest) →
    ∃ slices : List (List Nat), t = slices.map Event.onMessageContent ++ rest ∧
      slices.flatten = ds.flatten ∧ ∀ s ∈ slices, s ≠ []
  | [], t, rest, _, hrest, h => by
    refine ⟨[], ?_, rfl, fun s hs => by cases hs⟩
    simpa using h.eq_of_no_content hrest
  | d :: ds, t, rest, hds, hrest, h => by
    simp only [List.map_cons, List.cons_append] at h
    obtain ⟨s1, t2, ht, hj, hne, hr⟩ := h.content_inv
    obtain ⟨s2, ht2, hj2, hne2⟩ := Reslices.contents_inv ds t2 rest
      (fun x hx => hds x (List.mem_cons_of_mem _ hx)) hrest hr
    refine ⟨s1 ++ s2, ?_, ?_, ?_⟩
    · rw [ht, ht2]; simp
    · simp [hj, hj2]
    · intro s hs
      rcases List.mem_append.mp hs with hs | hs
      · exact hne (hds d (List.mem_cons_self _ _)) s hs
      · exact hne2 s hs

theorem AllAccepted.nil (cb : Hooks) : AllAccepted cb [] := by
  intro pre ev post h
  simp at h

theorem AllAccepted.snoc {cb : Hooks} {t : List Event} {ev : Event} (h : AllAccepted cb t)
    (hev : cb t ev = true) : AllAccepted cb (t ++ [ev]) := by
  intro pre e post heq
  rcases List.eq_nil_or_concat post with hp | ⟨post1, x, hp⟩
  · subst hp
    have heq1 : t ++ [ev] = pre ++ [e] := by simpa using heq
    have := List.append_inj_left' heq1 rfl
    have h2 := List.append_inj_right' heq1 rfl
    simp only [List.cons.injEq, and_true] at h2
    rw [← this, ← h2]
    exact hev
  · subst hp
    have heq2 : t ++ [ev] = (pre ++ e :: post1) ++ [x] := by
      rw [heq]; simp
    have := List.append_inj_left' heq2 rfl
    exact h pre e post1 this

theorem AllAccepted.allTrue (t : List Event) : AllAccepted allTrue t := by
  intro _ _ _ _
  rfl

/-- A trace whose last event was refused, all others accepted: any refused event in it is
the last one. -/
theorem refused_is_last (cb : Hooks) (t : List Event) (ev : Event) (h : AllAccepted cb t)
    (pre : List Event) (e : Event) (post : List Event) (heq : t ++ [ev] = pre ++ e :: post)
    (hr : cb pre e = false) : post = [] ∧ pre = t ∧ e = ev := by
  rcases List.eq_nil_or_concat post with hp | ⟨post1, x, hp⟩
  · subst hp
    have heq1 : t ++ [ev] = pre ++ [e] := by simpa using heq
    have h1 := List.append_inj_left' heq1 rfl
    have h2 := List.append_inj_right' heq1 rfl
    simp only [List.cons.injEq, and_true] at h2
    exact ⟨rfl, h1.symm, h2.symm⟩
  · subst hp
    have heq2 : t ++ [ev] = (pre ++ e :: post1) ++ [x] := by
      rw [heq]; simp
    have := List.append_inj_left' heq2 rfl
    have := h pre e post1 this
    rw [hr] at this
    cases this

set_option maxHeartbeats 4000000 in
/-- The events a pass adds to the trace are those of its hook invocations. -/
theorem step_hookCalls_trace (buf : List Nat) (chunk : BufferRef) (cb : Hooks) (c : Cfg) :
    (step buf chunk cb c).cfg.trace = c.trace ++ (hookCalls buf chunk cb c).map Prod.snd := by
  cases hs : c.p.state <;>
    simp only [step, hookCalls, hs, expectByte, statusCode, chunkSize, callHook, Cfg.eat,
      Cfg.advance, Cfg.setState, Cfg.takeBody] <;>
    (try split) <;> (try split_ifs) <;> simp_all [Step.cfg] <;> omega

set_option maxHeartbeats 4000000 in
/-- A hook of a pass that returns `false` ends the pass through `done`: no further hook is
invoked, the read pointer and the cursor stay where they were when the hook was invoked,
and, outside `HEADER_VALUE_END` and `CONTENT`, no parser field is written. -/
theorem hook_refused_step (buf : List Nat) (chunk : BufferRef) (cb : Hooks) (c : Cfg)
    (s : Cfg × Event) (hmem : s ∈ hookCalls buf chunk cb c)
    (hr : cb s.1.trace s.2 = false) :
    ∃ c1, step buf chunk cb c = Step.done c1 Exit.hookFalse ∧
      c1.trace = s.1.trace ++ [s.2] ∧ c1.i = s.1.i ∧ c1.nparsed = s.1.nparsed ∧
      (c.p.state ≠ State.HEADER_VALUE_END → c.p.state ≠ State.CONTENT → c1.p = s.1.p) := by
  revert hmem hr
  cases hs : c.p.state <;>
    simp only [step, hookCalls, hs, expectByte, statusCode, chunkSize, callHook, Cfg.eat,
      Cfg.advance, Cfg.setState, Cfg.takeBody] <;>
    (try split) <;> (try split_ifs) <;> simp_all [Step.cfg] <;> (try omega) <;>
    (try (rintro (rfl | rfl) <;> simp_all))

theorem allAccepted_snoc_iff (cb : Hooks) (t : List Event) (ev : Event) :
    AllAccepted cb (t ++ [ev]) ↔ AllAccepted cb t ∧ cb t ev = true := by
  constructor
  · intro h
    refine ⟨?_, h t ev [] rfl⟩
    intro pre e post heq
    exact h pre e (post ++ [ev]) (by rw [heq]; simp)
  · rintro ⟨h1, h2⟩
    exact h1.snoc h2

theorem allAccepted_snoc2_iff (cb : Hooks) (t : List Event) (e1 e2 : Event) :
    AllAccepted cb (t ++ [e1, e2]) ↔
      AllAccepted cb t ∧ cb t e1 = true ∧ cb (t ++ [e1]) e2 = true := by
  have : t ++ [e1, e2] = (t ++ [e1]) ++ [e2] := by simp
  rw [this, allAccepted_snoc_iff, allAccepted_snoc_iff, and_assoc]

theorem refusedLast_snoc_iff (cb : Hooks) (t : List Event) (ev : Event) :
    RefusedLast cb (t ++ [ev]) ↔ AllAccepted cb t ∧ cb t ev = false := by
  constructor
  · rintro ⟨pre, e, heq, h1, h2⟩
    have h3 := List.append_inj_left' heq rfl
    have h4 := List.append_inj_right' heq rfl
    simp only [List.cons.injEq, and_true] at h4
    subst h3 h4
    exact ⟨h1, h2⟩
  · rintro ⟨h1, h2⟩
    exact ⟨t, ev, rfl, h1, h2⟩

theorem refusedLast_snoc2_iff (cb : Hooks) (t : List Event) (e1 e2 : Event) :
    RefusedLast cb (t ++ [e1, e2]) ↔
      AllAccepted cb t ∧ cb t e1 = true ∧ cb (t ++ [e1]) e2 = false := by
  have : t ++ [e1, e2] = (t ++ [e1]) ++ [e2] := by simp
  rw [this, refusedLast_snoc_iff, allAccepted_snoc_iff, and_assoc]

set_option maxHeartbeats 4000000 in
/-- A pass that goes on had all its hooks return `true`; a pass left through `done` was left
in `SYNTAX_ERROR` or right after the first hook that returned `false`. -/
theorem step_accepted (buf : List Nat) (chunk : BufferRef) (cb : Hooks) (c : Cfg)
    (h : AllAccepted cb c.trace) :
    (∀ c1, step buf chunk cb c = Step.next c1 → AllAccepted cb c1.trace) ∧
    (∀ c1 w, step buf chunk cb c = Step.done c1 w →
      (w = Exit.syntaxError ∧ c1.trace = c.trace) ∨
      (w = Exit.hookFalse ∧ RefusedLast cb c1.trace)) := by
  cases hs : c.p.state <;>
    simp only [step, hs, expectByte, statusCode, chunkSize, callHook, Cfg.eat,
      Cfg.advance, Cfg.setState, Cfg.takeBody] <;>
    (try split) <;> (try split_ifs) <;>
    simp_all [allAccepted_snoc_iff, allAccepted_snoc2_iff, refusedLast_snoc_iff,
      refusedLast_snoc2_iff]

set_option maxHeartbeats 4000000 in
/-- A pass left through `done` after a hook returned `false` was left at one of its hook
invocations. -/
theorem step_done_hook (buf : List Nat) (chunk : BufferRef) (cb : Hooks) (c c1 : Cfg)
    (h : step buf chunk cb c = Step.done c1 Exit.hookFalse) :
    ∃ s, s ∈ hookCalls buf chunk cb c ∧ cb s.1.trace s.2 = false ∧
      c1.trace = s.1.trace ++ [s.2] ∧ c1.i = s.1.i ∧ c1.nparsed = s.1.nparsed := by
  revert h
  cases hs : c.p.state <;>
    simp only [step, hookCalls, hs, expectByte, statusCode, chunkSize, callHook, Cfg.eat,
      Cfg.advance, Cfg.setState, Cfg.takeBody] <;>
    (try split) <;> (try split_ifs) <;> simp_all [Step.cfg] <;>
    (try (rintro rfl <;> simp_all))

theorem loop_accepted (buf : List Nat) (chunk : BufferRef) (cb : Hooks) :
    ∀ (f : Nat) (c r : Cfg) (w : Exit), AllAccepted cb c.trace →
      loop buf chunk cb f c = some (r, w) →
      (w = Exit.hookFalse ∧ RefusedLast cb r.trace) ∨
      (w ≠ Exit.hookFalse ∧ AllAccepted cb r.trace) := by
  intro f
  induction f with
  | zero => intro c r w _ h; simp [loop] at h
  | succ f ih =>
    intro c r w hacc h
    simp only [loop] at h
    split_ifs at h with hi
    · cases h
      exact Or.inr ⟨by simp, hacc⟩
    · have hs := step_accepted buf chunk cb c hacc
      cases hst : step buf chunk cb c with
      | next c1 =>
        rw [hst] at h
        exact ih c1 r w (hs.1 c1 hst) h
      | done c1 w1 =>
        rw [hst] at h
        simp only [Option.some.injEq, Prod.mk.injEq] at h
        obtain ⟨h1, h2⟩ := h
        subst h1 h2
        rcases hs.2 c1 w1 hst with ⟨hw, ht⟩ | ⟨hw, ht⟩
        · exact Or.inr ⟨by rw [hw]; simp, by rw [ht]; exact hacc⟩
        · exact Or.inl ⟨hw, ht⟩

theorem loop_refused_position (buf : List Nat) (chunk : BufferRef) (cb : Hooks) :
    ∀ (f : Nat) (c r : Cfg), loop buf chunk cb f c = some (r, Exit.hookFalse) →
      ∃ n c0 s, after buf chunk cb n c = some c0 ∧ c0.i ≠ chunk.offset + chunk.size ∧
        s ∈ hookCalls buf chunk cb c0 ∧ cb s.1.trace s.2 = false ∧
        r.trace = s.1.trace ++ [s.2] ∧ r.i = s.1.i ∧ r.nparsed = s.1.nparsed := by
  intro f
  induction f with
  | zero => intro c r h; simp [loop] at h
  | succ f ih =>
    intro c r h
    simp only [loop] at h
    split_ifs at h with hi
    · cases h
    · cases hst : step buf chunk cb c with
      | next c1 =>
        rw [hst] at h
        obtain ⟨n, c0, s, ha, hne, hrest⟩ := ih c1 r h
        refine ⟨n + 1, c0, s, ?_, hne, hrest⟩
        simp only [after, if_neg hi, hst, ha]
      | done c1 w1 =>
        rw [hst] at h
        simp only [Option.some.injEq, Prod.mk.injEq] at h
        obtain ⟨h1, h2⟩ := h
        subst h1 h2
        obtain ⟨s, hs⟩ := step_done_hook buf chunk cb c c1 hst
        exact ⟨0, c, s, rfl, hi, hs⟩

/-- The code after the loop: its hook, when invoked and returning `false`, ends the call
with nothing else changed. -/
theorem tail_refused (cb : Hooks) (c : Cfg) (s : Cfg × Event) (hmem : s ∈ tailCalls c)
    (hr : cb s.1.trace s.2 = false) :
    tail cb c = ({ c with trace := c.trace ++ [Event.onMessageEnd] }, Exit.hookFalse) ∧
      s = (c, Event.onMessageEnd) := by
  unfold tailCalls at hmem
  split_ifs at hmem with hc
  · simp only [List.mem_singleton] at hmem
    subst hmem
    simp only at hr
    simp only [tail, hc.1, hc.2.1, hc.2.2.1, hc.2.2.2, if_true, hr, ne_eq, not_false_eq_true,
      and_self, and_true]
    simp
  · simp at hmem

theorem tail_accepted (cb : Hooks) (c : Cfg) (h : AllAccepted cb c.trace) :
    ((tail cb c).2 = Exit.chunkEnd ∧ AllAccepted cb (tail cb c).1.trace) ∨
    ((tail cb c).2 = Exit.hookFalse ∧ RefusedLast cb (tail cb c).1.trace ∧
      ∃ s, s ∈ tailCalls c ∧ cb s.1.trace s.2 = false ∧
        (tail cb c).1.trace = s.1.trace ++ [s.2] ∧ (tail cb c).1.i = s.1.i ∧
        (tail cb c).1.nparsed = s.1.nparsed) := by
  unfold tail tailCalls
  split_ifs <;> simp_all [allAccepted_snoc_iff, refusedLast_snoc_iff, Cfg.setState]

theorem process_accepted (fuel : Nat) (p : HttpMessageProcessor) (buf : List Nat)
    (chunk : BufferRef) (cur : Option Nat) (cb : Hooks) (R : Result)
    (h : process fuel p buf chunk cur cb = some R) :
    (R.exit = Exit.hookFalse ∧ RefusedLast cb R.trace) ∨
    (R.exit ≠ Exit.hookFalse ∧ AllAccepted cb R.trace) := by
  obtain ⟨c, w, hl, hcase⟩ := process_eq _ _ _ _ _ _ _ h
  have hla := loop_accepted buf chunk cb fuel _ c w (by simpa [entry] using AllAccepted.nil cb) hl
  rcases hcase with ⟨hw, hR⟩ | ⟨hw, hR⟩
  · subst hw
    rcases hla with ⟨hx, _⟩ | ⟨_, hacc⟩
    · cases hx
    · rcases tail_accepted cb c hacc with ⟨h1, h2⟩ | ⟨h1, h2, _⟩
      · right
        rw [hR]
        simp only [finish, h1]
        exact ⟨by simp, h2⟩
      · left
        rw [hR]
        simp only [finish, h1]
        exact ⟨trivial, h2⟩
  · rw [hR]
    simpa [finish] using hla

/-! ## Header recognition -/

theorem decimalValue_cons (d : Nat) (ds : List Nat) :
    decimalValue (d :: ds) = (d - 48) * 10 ^ ds.length + decimalValue ds := by
  simp only [decimalValue, List.map_cons, List.reverse_cons, Nat.ofDigits_append,
    List.length_reverse, List.length_map, Nat.ofDigits_singleton]
  ring

theorem digitsValue_eq (ds : List Nat) :
    ∀ (acc : Int), (∀ d ∈ ds, isdigit d = true) →
      digitsValue acc ds = acc * 10 ^ ds.length + (decimalValue ds : Int) := by
  induction ds with
  | nil => intro acc _; simp [digitsValue, decimalValue]
  | cons d ds ih =>
    intro acc h
    have hd : isdigit d = true := h d (List.mem_cons_self _ _)
    have h48 : 48 ≤ d := by
      simp only [isdigit, Bool.and_eq_true, decide_eq_true_eq] at hd
      exact hd.1
    simp only [digitsValue, hd, if_true]
    rw [ih _ (fun x hx => h x (List.mem_cons_of_mem _ hx)), decimalValue_cons]
    push_cast [h48]
    simp only [List.length_cons, pow_succ]
    ring

theorem digitsValue_zero (ds : List Nat) (h : ∀ d ∈ ds, isdigit d = true) :
    digitsValue 0 ds = (decimalValue ds : Int) := by
  rw [digitsValue_eq ds 0 h]
  simp

theorem wrapInt_range (x : Int) : -2147483648 ≤ wrapInt x ∧ wrapInt x < 2147483648 := by
  unfold wrapInt
  omega

theorem wrapInt_of_fits (x : Int) (h0 : -2147483648 ≤ x) (h1 : x < 2147483648) :
    wrapInt x = x := by
  unfold wrapInt
  omega

theorem asInt_range (v : List Nat) : -2147483648 ≤ asInt v ∧ asInt v < 2147483648 :=
  wrapInt_range _

theorem asInt_digits (ds : List Nat) (h : ∀ d ∈ ds, isdigit d = true)
    (hb : decimalValue ds < 2 ^ 31) : asInt ds = (decimalValue ds : Int) := by
  rw [asInt, digitsValue_zero ds h]
  exact wrapInt_of_fits _ (by omega) (by omega)

theorem iequals_names_differ (a : List Nat)
    (h : iequals a (bytesOf "Content-Length") = true) :
    iequals a (bytesOf "Transfer-Encoding") = false := by
  simp only [iequals, decide_eq_true_eq, decide_eq_false_iff_not] at *
  rw [h]
  decide

theorem step_header_value_end (buf : List Nat) (chunk : BufferRef) (cb : Hooks) (c : Cfg)
    (hs : c.p.state = State.HEADER_VALUE_END) :
    (step buf chunk cb c).cfg =
      ⟨{ headerEffects buf c.p with name := (headerEffects buf c.p).name.clear, value := (headerEffects buf c.p).value.clear, state := State.HEADER_NAME_BEGIN }, c.i, c.nparsed,
        c.trace ++ [Event.onMessageHeader ((headerEffects buf c.p).name.bytes buf)
          ((headerEffects buf c.p).value.bytes buf)]⟩ ∧
    hookCalls buf chunk cb c =
      [(⟨headerEffects buf c.p, c.i, c.nparsed, c.trace⟩,
        Event.onMessageHeader ((headerEffects buf c.p).name.bytes buf)
          ((headerEffects buf c.p).value.bytes buf))] := by
  constructor
  · simp only [step, hs]
    split_ifs <;> rfl
  · simp only [hookCalls, hs]

theorem headerEffects_fields (buf : List Nat) (p : HttpMessageProcessor) :
    (headerEffects buf p).name = p.name ∧ (headerEffects buf p).value = p.value ∧
    (headerEffects buf p).state = p.state ∧
    (headerEffects buf p).contentLength =
      (if iequals (p.name.bytes buf) (bytesOf "Content-Length") = true
        then asInt (p.value.bytes buf) else p.contentLength) ∧
    (headerEffects buf p).chunked =
      (p.chunked || (iequals (p.name.bytes buf) (bytesOf "Transfer-Encoding") &&
        iequals (p.value.bytes buf) (bytesOf "chunked"))) := by
  unfold headerEffects
  by_cases h1 : iequals (p.name.bytes buf) (bytesOf "Content-Length") = true
  · have h2 := iequals_names_differ _ h1
    simp [h1, h2]
  · by_cases h2 : iequals (p.name.bytes buf) (bytesOf "Transfer-Encoding") = true
    · by_cases h3 : iequals (p.value.bytes buf) (bytesOf "chunked") = true
      · simp [h1, h2, h3]
      · simp [h1, h2, h3]
    · simp [h1, h2]

/-! ## Order of the callbacks -/

theorem order_append : ∀ (t u : List Event) (ph : Phase),
    order ph (t ++ u) = (order ph t).bind fun ph1 => order ph1 u := by
  intro t
  induction t with
  | nil => intro u ph; rfl
  | cons ev t ih =>
    intro u ph
    simp only [List.cons_append, order]
    cases orderStep ph ev with
    | none => rfl
    | some ph1 => exact ih u ph1

theorem headerEffects_lws (buf : List Nat) (p : HttpMessageProcessor) :
    (headerEffects buf p).lwsNext = p.lwsNext ∧ (headerEffects buf p).lwsNull = p.lwsNull := by
  unfold headerEffects
  split_ifs <;> exact ⟨rfl, rfl⟩

set_option maxHeartbeats 4000000 in
/-- The saved continuation states of the LWS sub-machine after a pass: unchanged, or one of
the three pairs the header states assign. -/
theorem step_lws_fields (buf : List Nat) (chunk : BufferRef) (cb : Hooks) (c : Cfg) :
    ((step buf chunk cb c).cfg.p.lwsNext = c.p.lwsNext ∧
      (step buf chunk cb c).cfg.p.lwsNull = c.p.lwsNull) ∨
    ((step buf chunk cb c).cfg.p.lwsNext = State.HEADER_VALUE_BEGIN ∧
      (step buf chunk cb c).cfg.p.lwsNull = State.HEADER_VALUE_END) ∨
    ((step buf chunk cb c).cfg.p.lwsNext = State.HEADER_COLON ∧
      (step buf chunk cb c).cfg.p.lwsNull = State.SYNTAX_ERROR) ∨
    ((step buf chunk cb c).cfg.p.lwsNext = State.HEADER_VALUE ∧
      (step buf chunk cb c).cfg.p.lwsNull = State.HEADER_VALUE_END) := by
  have hE := headerEffects_lws buf c.p
  cases hs : c.p.state <;>
    simp only [step, hs, expectByte, statusCode, chunkSize, callHook, Cfg.eat,
      Cfg.advance, Cfg.setState, Cfg.takeBody] <;>
    (try split) <;> (try split_ifs) <;> simp_all [Step.cfg]

set_option maxHeartbeats 4000000 in
/-- The state after a pass, against the callbacks of the pass: the callbacks are in order
from the phase of the state before, and the state after is `SYNTAX_ERROR`, or belongs to the
phase they lead to, or is a saved continuation state of the LWS sub-machine within the
headers. -/
theorem step_state_phase (buf : List Nat) (chunk : BufferRef) (c : Cfg)
    (hne : c.p.state ≠ State.SYNTAX_ERROR) :
    ∃ ph1, order (statePhase c.p.state) ((hookCalls buf chunk allTrue c).map Prod.snd)
        = some ph1 ∧
      ((step buf chunk allTrue c).cfg.p.state = State.SYNTAX_ERROR ∨
        statePhase (step buf chunk allTrue c).cfg.p.state = ph1 ∨
        (ph1 = Phase.headers ∧
          ((step buf chunk allTrue c).cfg.p.state = c.p.lwsNext ∨
            (step buf chunk allTrue c).cfg.p.state = c.p.lwsNull))) := by
  revert hne
  cases hs : c.p.state <;>
    simp only [step, hookCalls, hs, expectByte, statusCode, chunkSize, callHook, Cfg.eat,
      Cfg.advance, Cfg.setState, Cfg.takeBody, requestBegin, allTrue] <;>
    first
    | (intro hne; exact absurd rfl hne)
    | ((try split_ifs) <;> simp [Step.cfg, order, orderStep, statePhase] <;> done)
    | ((try split_ifs) <;> simp_all [Step.cfg, order, orderStep, statePhase] <;> (try omega) <;> done)
    | (cases hm : c.p.mode <;> simp [Step.cfg, order, orderStep, statePhase])

theorem step_sync (buf : List Nat) (chunk : BufferRef) (c : Cfg) (ph0 ph : Phase)
    (ho : order ph0 c.trace = some ph) (h : Sync c.p ph) :
    ∃ ph1, order ph0 (step buf chunk allTrue c).cfg.trace = some ph1 ∧
      Sync (step buf chunk allTrue c).cfg.p ph1 := by
  by_cases hne : c.p.state = State.SYNTAX_ERROR
  · have hst : step buf chunk allTrue c = Step.done c Exit.syntaxError := by
      simp only [step, hne]
    rw [hst]
    exact ⟨ph, ho, h⟩
  · obtain ⟨h1, h2, h3⟩ := h
    have hph : statePhase c.p.state = ph := by
      rcases h1 with h1 | h1
      · exact absurd h1 hne
      · exact h1
    obtain ⟨ph1, ho1, hs1⟩ := step_state_phase buf chunk c hne
    rw [hph] at ho1
    refine ⟨ph1, ?_, ?_, ?_⟩
    · rw [step_hookCalls_trace, order_append, ho]
      exact ho1
    · rcases hs1 with hs1 | hs1 | ⟨hh, hs1 | hs1⟩
      · exact Or.inl hs1
      · exact Or.inr hs1
      · rw [hs1, hh]; exact h2
      · rw [hs1, hh]; exact h3
    · rcases step_lws_fields buf chunk allTrue c with ⟨e1, e2⟩ | ⟨e1, e2⟩ | ⟨e1, e2⟩ | ⟨e1, e2⟩
      · rw [e1, e2]; exact ⟨h2, h3⟩
      · rw [e1, e2]; exact ⟨Or.inr rfl, Or.inr rfl⟩
      · rw [e1, e2]; exact ⟨Or.inr rfl, Or.inl rfl⟩
      · rw [e1, e2]; exact ⟨Or.inr rfl, Or.inr rfl⟩

theorem loop_sync (buf : List Nat) (chunk : BufferRef) (ph0 : Phase) :
    ∀ (f : Nat) (c r : Cfg) (w : Exit) (ph : Phase), order ph0 c.trace = some ph →
      Sync c.p ph → loop buf chunk allTrue f c = some (r, w) →
      ∃ ph1, order ph0 r.trace = some ph1 ∧ Sync r.p ph1 := by
  intro f
  induction f with
  | zero => intro c r w ph _ _ h; simp [loop] at h
  | succ f ih =>
    intro c r w ph ho hs h
    simp only [loop] at h
    split_ifs at h with hi
    · cases h
      exact ⟨ph, ho, hs⟩
    · obtain ⟨ph1, ho1, hs1⟩ := step_sync buf chunk c ph0 ph ho hs
      cases hst : step buf chunk allTrue c with
      | next c1 =>
        rw [hst] at h ho1 hs1
        exact ih c1 r w ph1 ho1 hs1 h
      | done c1 w1 =>
        rw [hst] at h ho1 hs1
        simp only [Option.some.injEq, Prod.mk.injEq] at h
        obtain ⟨e1, _⟩ := h
        subst e1
        exact ⟨ph1, ho1, hs1⟩

theorem tail_sync (c : Cfg) (ph0 ph : Phase) (ho : order ph0 c.trace = some ph)
    (hs : Sync c.p ph) :
    ∃ ph1, order ph0 (tail allTrue c).1.trace = some ph1 ∧ Sync (tail allTrue c).1.p ph1 := by
  unfold tail
  split_ifs with h1 h2 h3
  · obtain ⟨s1, s2, s3⟩ := hs
    have hph : ph = Phase.body := by
      rcases s1 with s1 | s1
      · rw [h1] at s1; cases s1
      · rw [h1] at s1; exact s1.symm
    subst hph
    refine ⟨Phase.idle, ?_, Or.inr rfl, s2, s3⟩
    simp only [Cfg.setState]
    rw [order_append, ho]
    rfl
  · exact absurd rfl h3
  · exact ⟨ph, ho, hs⟩
  · exact ⟨ph, ho, hs⟩

theorem process_sync (f : Nat) (p : HttpMessageProcessor) (buf : List Nat) (chunk : BufferRef)
    (cur : Option Nat) (R : Result) (ph : Phase) (hs : Sync p ph)
    (h : process f p buf chunk cur allTrue = some R) :
    ∃ ph1, order ph R.trace = some ph1 ∧ Sync R.parser ph1 := by
  obtain ⟨c, w, hl, hcase⟩ := process_eq _ _ _ _ _ _ _ h
  obtain ⟨ph1, ho1, hs1⟩ := loop_sync buf chunk ph f (entry p chunk cur) c w ph rfl hs hl
  rcases hcase with ⟨_, hR⟩ | ⟨_, hR⟩
  · rw [hR]
    exact tail_sync c ph ph1 ho1 hs1
  · rw [hR]
    exact ⟨ph1, ho1, hs1⟩

theorem processAll_sync : ∀ (calls : List Call) (p q : HttpMessageProcessor) (t : List Event)
    (ph : Phase), Sync p ph → processAll allTrue p calls = some (q, t) →
    ∃ ph1, order ph t = some ph1 ∧ Sync q ph1 := by
  intro calls
  induction calls with
  | nil =>
    intro p q t ph hs h
    simp only [processAll, Option.some.injEq, Prod.mk.injEq] at h
    obtain ⟨e1, e2⟩ := h
    subst e1 e2
    exact ⟨ph, rfl, hs⟩
  | cons k rest ih =>
    intro p q t ph hs h
    simp only [processAll] at h
    cases hp : process k.fuel p k.buf k.chunk k.cursor allTrue with
    | none => rw [hp] at h; simp at h
    | some r =>
      rw [hp] at h
      simp only at h
      cases hr : processAll allTrue r.parser rest with
      | none => rw [hr] at h; simp at h
      | some x =>
        obtain ⟨q1, t1⟩ := x
        rw [hr] at h
        simp only [Option.some.injEq, Prod.mk.injEq] at h
        obtain ⟨e1, e2⟩ := h
        subst e1 e2
        obtain ⟨ph1, ho1, hs1⟩ := process_sync _ _ _ _ _ r ph hs hp
        obtain ⟨ph2, ho2, hs2⟩ := ih r.parser q1 t1 ph1 hs1 hr
        exact ⟨ph2, by rw [order_append, ho1]; exact ho2, hs2⟩

theorem sync_new (mode : ParseMode) : Sync (HttpMessageProcessor.new mode) Phase.idle :=
  ⟨Or.inr rfl, Or.inl rfl, Or.inl rfl⟩

/-! ## A trace in order is a prefix of complete messages -/

theorem orderStep_cases (ph ph1 : Phase) (ev : Event) (h : orderStep ph ev = some ph1) :
    (ph = Phase.idle ∧ ev.isBegin = true ∧ ph1 = Phase.headers) ∨
    (ph = Phase.headers ∧ ev.isHeader = true ∧ ph1 = Phase.headers) ∨
    (ph = Phase.headers ∧ ev = Event.onMessageHeaderEnd ∧ ph1 = Phase.body) ∨
    (ph = Phase.body ∧ ev.isContent = true ∧ ph1 = Phase.body) ∨
    (ph = Phase.body ∧ ev = Event.onMessageEnd ∧ ph1 = Phase.idle) := by
  cases ph <;> cases ev <;> simp_all [orderStep, Event.isBegin, Event.isHeader, Event.isContent]

theorem partial_complete (ph : Phase) (pre : List Event) (h : PartialMessage ph pre) :
    ∃ (msgs : List (List Event)) (rest : List Event),
      (∀ m ∈ msgs, IsMessage m) ∧ pre ++ rest = msgs.flatten := by
  cases ph with
  | idle =>
    simp only [PartialMessage] at h
    subst h
    exact ⟨[], [], by simp, rfl⟩
  | headers =>
    obtain ⟨b, hs, hb, hh, rfl⟩ := h
    refine ⟨[b :: (hs ++ Event.onMessageHeaderEnd :: ([] ++ [Event.onMessageEnd]))],
      [Event.onMessageHeaderEnd, Event.onMessageEnd], ?_, by simp⟩
    intro m hm
    simp only [List.mem_singleton] at hm
    subst hm
    exact ⟨b, hs, [], hb, hh, by simp, rfl⟩
  | body =>
    obtain ⟨b, hs, cs, hb, hh, hc, rfl⟩ := h
    refine ⟨[b :: (hs ++ Event.onMessageHeaderEnd :: (cs ++ [Event.onMessageEnd]))],
      [Event.onMessageEnd], ?_, by simp⟩
    intro m hm
    simp only [List.mem_singleton] at hm
    subst hm
    exact ⟨b, hs, cs, hb, hh, hc, rfl⟩

theorem order_messages : ∀ (t : List Event) (ph ph1 : Phase) (pre : List Event),
    order ph t = some ph1 → PartialMessage ph pre →
    ∃ (msgs : List (List Event)) (rest : List Event),
      (∀ m ∈ msgs, IsMessage m) ∧ pre ++ t ++ rest = msgs.flatten := by
  intro t
  induction t with
  | nil =>
    intro ph ph1 pre _ hp
    simpa using partial_complete ph pre hp
  | cons ev t ih =>
    intro ph ph1 pre ho hp
    simp only [order] at ho
    cases hst : orderStep ph ev with
    | none => rw [hst] at ho; simp at ho
    | some ph2 =>
      rw [hst] at ho
      simp only at ho
      have key : ∀ pre2, PartialMessage ph2 pre2 → pre2 = pre ++ [ev] →
          ∃ (msgs : List (List Event)) (rest : List Event),
            (∀ m ∈ msgs, IsMessage m) ∧ pre ++ ev :: t ++ rest = msgs.flatten := by
        intro pre2 hp2 he
        obtain ⟨msgs, rest, hm, hf⟩ := ih ph2 ph1 pre2 ho hp2
        refine ⟨msgs, rest, hm, ?_⟩
        rw [← hf, he]
        simp
      rcases orderStep_cases ph ph2 ev hst with ⟨e1, hb, e2⟩ | ⟨e1, hb, e2⟩ | ⟨e1, hb, e2⟩ |
          ⟨e1, hb, e2⟩ | ⟨e1, hb, e2⟩
      · subst e1 e2
        simp only [PartialMessage] at hp
        subst hp
        exact key [ev] ⟨ev, [], hb, by simp, rfl⟩ rfl
      · subst e1 e2
        obtain ⟨b, hs, hb0, hh, rfl⟩ := hp
        refine key _ ⟨b, hs ++ [ev], hb0, ?_, rfl⟩ (by simp)
        intro x hx
        rcases List.mem_append.mp hx with hx | hx
        · exact hh x hx
        · simp only [List.mem_singleton] at hx
          rw [hx]; exact hb
      · subst e1 e2 hb
        obtain ⟨b, hs, hb0, hh, rfl⟩ := hp
        exact key _ ⟨b, hs, [], hb0, hh, by simp, rfl⟩ (by simp)
      · subst e1 e2
        obtain ⟨b, hs, cs, hb0, hh, hc, rfl⟩ := hp
        refine key _ ⟨b, hs, cs ++ [ev], hb0, hh, ?_, rfl⟩ (by simp)
        intro x hx
        rcases List.mem_append.mp hx with hx | hx
        · exact hc x hx
        · simp only [List.mem_singleton] at hx
          rw [hx]; exact hb
      · subst e1 e2 hb
        obtain ⟨b, hs, cs, hb0, hh, hc, rfl⟩ := hp
        obtain ⟨msgs, rest, hm, hf⟩ := ih Phase.idle ph1 [] ho rfl
        refine ⟨(b :: (hs ++ Event.onMessageHeaderEnd :: (cs ++ [Event.onMessageEnd]))) :: msgs,
          rest, ?_, ?_⟩
        · intro m hmem
          rcases List.mem_cons.mp hmem with hmem | hmem
          · rw [hmem]; exact ⟨b, hs, cs, hb0, hh, hc, rfl⟩
          · exact hm m hmem
        · simp only [List.flatten_cons, ← hf]
          simp

/-- In a trace that is in order, a content callback and an end callback come only in the
body of a message, that is after its `onMessageHeaderEnd` and before its `onMessageEnd`. -/
theorem order_before (t : List Event) (ph1 : Phase) (h : order Phase.idle t = some ph1)
    (pre : List Event) (ev : Event) (post : List Event) (he : t = pre ++ ev :: post)
    (hev : ev.isContent = true ∨ ev = Event.onMessageEnd) :
    order Phase.idle pre = some Phase.body := by
  subst he
  rw [order_append] at h
  cases hp : order Phase.idle pre with
  | none => rw [hp] at h; simp at h
  | some ph =>
    rw [hp] at h
    simp only [Option.some_bind, order] at h
    cases hst : orderStep ph ev with
    | none => rw [hst] at h; simp at h
    | some ph2 =>
      rcases orderStep_cases ph ph2 ev hst with ⟨_, hb, _⟩ | ⟨_, hb, _⟩ | ⟨_, hb, _⟩ |
          ⟨e1, _, _⟩ | ⟨e1, _, _⟩
      · rcases hev with hx | hx
        · cases ev <;> simp_all [Event.isBegin, Event.isContent]
        · subst hx; simp [Event.isBegin] at hb
      · rcases hev with hx | hx
        · cases ev <;> simp_all [Event.isHeader, Event.isContent]
        · subst hx; simp [Event.isHeader] at hb
      · rcases hev with hx | hx
        · subst hb; simp [Event.isContent] at hx
        · subst hb; cases hx
      · rw [e1]
      · rw [e1]

/-! ## Single passes in the request-line and header states, written out -/

theorem step_message_begin_request (buf : List Nat) (X : BufferRef) (cb : Hooks)
    (p : HttpMessageProcessor) (i n : Nat) (t : List Event)
    (hs : p.state = State.MESSAGE_BEGIN) (hm : p.mode = ParseMode.REQUEST) :
    step buf X cb ⟨p, i, n, t⟩
      = Step.next ⟨{ p with contentLength := -1, state := State.REQUEST_LINE_BEGIN, versionMajor := 0, versionMinor := 0 }, i, n, t⟩ := by
  simp only [step, hs, hm]

theorem step_request_line_begin (buf : List Nat) (X : BufferRef) (cb : Hooks)
    (p : HttpMessageProcessor) (i : Nat) (t : List Event)
    (hs : p.state = State.REQUEST_LINE_BEGIN) (hb : isToken (buf.getD i 0) = true)
    (ha : X.offset ≤ i) (hi : i + 1 < SIZE_MOD) :
    step buf X cb ⟨p, i, i, t⟩
      = Step.next ⟨{ p with state := State.REQUEST_METHOD, method := ⟨i, 1⟩ }, i + 1, i + 1, t⟩ := by
  have e1 := szAdd_small i 1 hi
  have e2 := refHere_eq X ⟨p, i, i, t⟩ rfl ha (by simp only; omega)
  simp only [step, hs]
  generalize buf.getD i 0 = b at hb
  simp [hb, Cfg.advance, e1, e2]

theorem step_request_method (buf : List Nat) (X : BufferRef) (cb : Hooks)
    (p : HttpMessageProcessor) (i : Nat) (t : List Event)
    (hs : p.state = State.REQUEST_METHOD) (hb : isToken (buf.getD i 0) = true)
    (hi : i + 1 < SIZE_MOD) :
    step buf X cb ⟨p, i, i, t⟩
      = Step.next ⟨{ p with method := p.method.shr 1 }, i + 1, i + 1, t⟩ := by
  have e1 := szAdd_small i 1 hi
  simp only [step, hs]
  generalize buf.getD i 0 = b at hb
  have hsp : b ≠ SP := by
    intro h; subst h; revert hb; decide
  simp [hb, hsp, Cfg.advance, e1]

theorem step_request_method_sp (buf : List Nat) (X : BufferRef) (cb : Hooks)
    (p : HttpMessageProcessor) (i : Nat) (t : List Event)
    (hs : p.state = State.REQUEST_METHOD) (hb : buf.getD i 0 = SP) (hi : i + 1 < SIZE_MOD) :
    step buf X cb ⟨p, i, i, t⟩
      = Step.next ⟨{ p with state := State.REQUEST_ENTITY_BEGIN }, i + 1, i + 1, t⟩ := by
  have e1 := szAdd_small i 1 hi
  simp only [step, hs]
  generalize buf.getD i 0 = b at hb
  subst hb
  simp [Cfg.eat, Cfg.advance, Cfg.setState, e1]

theorem step_request_entity_begin (buf : List Nat) (X : BufferRef) (cb : Hooks)
    (p : HttpMessageProcessor) (i : Nat) (t : List Event)
    (hs : p.state = State.REQUEST_ENTITY_BEGIN) (hb : isprint (buf.getD i 0) = true)
    (ha : X.offset ≤ i) (hi : i + 1 < SIZE_MOD) :
    step buf X cb ⟨p, i, i, t⟩
      = Step.next ⟨{ p with entity := ⟨i, 1⟩, state := State.REQUEST_ENTITY }, i + 1, i + 1, t⟩ := by
  have e1 := szAdd_small i 1 hi
  have e2 := refHere_eq X ⟨p, i, i, t⟩ rfl ha (by simp only; omega)
  simp only [step, hs]
  generalize buf.getD i 0 = b at hb
  simp [hb, Cfg.advance, e1, e2]

theorem step_request_entity (buf : List Nat) (X : BufferRef) (cb : Hooks)
    (p : HttpMessageProcessor) (i : Nat) (t : List Event)
    (hs : p.state = State.REQUEST_ENTITY) (hb : isprint (buf.getD i 0) = true)
    (hsp : buf.getD i 0 ≠ SP) (hi : i + 1 < SIZE_MOD) :
    step buf X cb ⟨p, i, i, t⟩
      = Step.next ⟨{ p with entity := p.entity.shr 1 }, i + 1, i + 1, t⟩ := by
  have e1 := szAdd_small i 1 hi
  simp only [step, hs]
  generalize buf.getD i 0 = b at hb hsp
  simp [hb, hsp, Cfg.advance, e1]

theorem step_request_entity_sp (buf : List Nat) (X : BufferRef) (cb : Hooks)
    (p : HttpMessageProcessor) (i : Nat) (t : List Event)
    (hs : p.state = State.REQUEST_ENTITY) (hb : buf.getD i 0 = SP) (hi : i + 1 < SIZE_MOD) :
    step buf X cb ⟨p, i, i, t⟩
      = Step.next ⟨{ p with state := State.REQUEST_PROTOCOL_BEGIN }, i + 1, i + 1, t⟩ := by
  have e1 := szAdd_small i 1 hi
  simp only [step, hs]
  generalize buf.getD i 0 = b at hb
  subst hb
  simp [Cfg.eat, Cfg.advance, Cfg.setState, e1]

/-- The five literal bytes `HTTP/` of the request line, one pass each. -/
theorem step_request_protocol (buf : List Nat) (X : BufferRef) (cb : Hooks)
    (p : HttpMessageProcessor) (i : Nat) (t : List Event) (s s1 : State) (lit : Nat)
    (hlit : (s, lit, s1) ∈
      [(State.REQUEST_PROTOCOL_BEGIN, 72, State.REQUEST_PROTOCOL_T1),
       (State.REQUEST_PROTOCOL_T1, 84, State.REQUEST_PROTOCOL_T2),
       (State.REQUEST_PROTOCOL_T2, 84, State.REQUEST_PROTOCOL_P),
       (State.REQUEST_PROTOCOL_P, 80, State.REQUEST_PROTOCOL_SLASH),
       (State.REQUEST_PROTOCOL_SLASH, 47, State.REQUEST_PROTOCOL_VERSION_MAJOR)])
    (hs : p.state = s) (hb : buf.getD i 0 = lit) (hi : i + 1 < SIZE_MOD) :
    step buf X cb ⟨p, i, i, t⟩ = Step.next ⟨{ p with state := s1 }, i + 1, i + 1, t⟩ := by
  have e1 := szAdd_small i 1 hi
  simp only [List.mem_cons, Prod.mk.injEq, List.mem_singleton, List.not_mem_nil, or_false] at hlit
  rcases hlit with ⟨rfl, rfl, rfl⟩ | ⟨rfl, rfl, rfl⟩ | ⟨rfl, rfl, rfl⟩ | ⟨rfl, rfl, rfl⟩ |
      ⟨rfl, rfl, rfl⟩ <;>
    · simp only [step, hs]
      generalize buf.getD i 0 = b at hb
      subst hb
      simp [expectByte, Cfg.eat, Cfg.advance, Cfg.setState, e1]

theorem step_version_major (buf : List Nat) (X : BufferRef) (cb : Hooks)
    (p : HttpMessageProcessor) (i : Nat) (t : List Event)
    (hs : p.state = State.REQUEST_PROTOCOL_VERSION_MAJOR) (hb : isdigit (buf.getD i 0) = true)
    (hi : i + 1 < SIZE_MOD) :
    step buf X cb ⟨p, i, i, t⟩
      = Step.next ⟨{ p with versionMajor := p.versionMajor * 10 + ((buf.getD i 0 : Nat) : Int) - 48 }, i + 1, i + 1, t⟩ := by
  have e1 := szAdd_small i 1 hi
  simp only [step, hs]
  generalize buf.getD i 0 = b at hb
  have h46 : b ≠ 46 := by
    intro h; subst h; revert hb; decide
  simp [hb, h46, Cfg.advance, e1]

theorem step_version_major_dot (buf : List Nat) (X : BufferRef) (cb : Hooks)
    (p : HttpMessageProcessor) (i : Nat) (t : List Event)
    (hs : p.state = State.REQUEST_PROTOCOL_VERSION_MAJOR) (hb : buf.getD i 0 = 46)
    (hi : i + 1 < SIZE_MOD) :
    step buf X cb ⟨p, i, i, t⟩
      = Step.next ⟨{ p with state := State.REQUEST_PROTOCOL_VERSION_MINOR }, i + 1, i + 1, t⟩ := by
  have e1 := szAdd_small i 1 hi
  simp only [step, hs]
  generalize buf.getD i 0 = b at hb
  subst hb
  simp [Cfg.eat, Cfg.advance, Cfg.setState, e1]

theorem step_version_minor (buf : List Nat) (X : BufferRef) (cb : Hooks)
    (p : HttpMessageProcessor) (i : Nat) (t : List Event)
    (hs : p.state = State.REQUEST_PROTOCOL_VERSION_MINOR) (hb : isdigit (buf.getD i 0) = true)
    (hi : i + 1 < SIZE_MOD) :
    step buf X cb ⟨p, i, i, t⟩
      = Step.next ⟨{ p with versionMinor := p.versionMinor * 10 + ((buf.getD i 0 : Nat) : Int) - 48 }, i + 1, i + 1, t⟩ := by
  have e1 := szAdd_small i 1 hi
  simp only [step, hs]
  generalize buf.getD i 0 = b at hb
  have hcr : b ≠ CR := by
    intro h; subst h; revert hb; decide
  have hlf : b ≠ LF := by
    intro h; subst h; revert hb; decide
  simp [hb, hcr, hlf, Cfg.advance, e1]

theorem step_version_minor_cr (buf : List Nat) (X : BufferRef) (cb : Hooks)
    (p : HttpMessageProcessor) (i : Nat) (t : List Event)
    (hs : p.state = State.REQUEST_PROTOCOL_VERSION_MINOR) (hb : buf.getD i 0 = CR)
    (hi : i + 1 < SIZE_MOD) :
    step buf X cb ⟨p, i, i, t⟩
      = Step.next ⟨{ p with state := State.REQUEST_LINE_LF }, i + 1, i + 1, t⟩ := by
  have e1 := szAdd_small i 1 hi
  simp only [step, hs]
  generalize buf.getD i 0 = b at hb
  subst hb
  simp [Cfg.eat, Cfg.advance, Cfg.setState, e1]

/-- The LF that ends the request line, after CR (`REQUEST_LINE_LF`) or bare
(`REQUEST_PROTOCOL_VERSION_MINOR`): `onMessageBegin` is invoked. -/
theorem step_request_line_end (buf : List Nat) (X : BufferRef)
    (p : HttpMessageProcessor) (i : Nat) (t : List Event)
    (hs : p.state = State.REQUEST_LINE_LF ∨ p.state = State.REQUEST_PROTOCOL_VERSION_MINOR)
    (hb : buf.getD i 0 = LF) (hi : i + 1 < SIZE_MOD) :
    step buf X allTrue ⟨p, i, i, t⟩
      = Step.next ⟨{ p with state := State.HEADER_NAME_BEGIN }, i + 1, i + 1,
          t ++ [Event.onMessageBeginRequest (p.method.bytes buf) (p.entity.bytes buf)
            p.versionMajor p.versionMinor]⟩ := by
  have e1 := szAdd_small i 1 hi
  rcases hs with hs | hs <;>
    · simp only [step, hs]
      generalize buf.getD i 0 = b at hb
      subst hb
      simp [callHook, allTrue, requestBegin, Cfg.eat, Cfg.advance, Cfg.setState, e1, CR, LF]

theorem step_header_name_begin (buf : List Nat) (X : BufferRef) (cb : Hooks)
    (p : HttpMessageProcessor) (i : Nat) (t : List Event)
    (hs : p.state = State.HEADER_NAME_BEGIN) (hb : isToken (buf.getD i 0) = true)
    (ha : X.offset ≤ i) (hi : i + 1 < SIZE_MOD) :
    step buf X cb ⟨p, i, i, t⟩
      = Step.next ⟨{ p with name := ⟨i, 1⟩, state := State.HEADER_NAME }, i + 1, i + 1, t⟩ := by
  have e1 := szAdd_small i 1 hi
  have e2 := refHere_eq X ⟨p, i, i, t⟩ rfl ha (by simp only; omega)
  simp only [step, hs]
  generalize buf.getD i 0 = b at hb
  simp [hb, Cfg.advance, e1, e2]

theorem step_header_name_begin_cr (buf : List Nat) (X : BufferRef) (cb : Hooks)
    (p : HttpMessageProcessor) (i : Nat) (t : List Event)
    (hs : p.state = State.HEADER_NAME_BEGIN) (hb : buf.getD i 0 = CR) (hi : i + 1 < SIZE_MOD) :
    step buf X cb ⟨p, i, i, t⟩
      = Step.next ⟨{ p with state := State.HEADER_END_LF }, i + 1, i + 1, t⟩ := by
  have e1 := szAdd_small i 1 hi
  simp only [step, hs]
  generalize buf.getD i 0 = b at hb
  subst hb
  simp [Cfg.eat, Cfg.advance, Cfg.setState, e1, isToken, isChar, isControl, CR]

theorem step_header_name_begin_lf (buf : List Nat) (X : BufferRef) (cb : Hooks)
    (p : HttpMessageProcessor) (i : Nat) (t : List Event)
    (hs : p.state = State.HEADER_NAME_BEGIN) (hb : buf.getD i 0 = LF) :
    step buf X cb ⟨p, i, i, t⟩ = Step.next ⟨{ p with state := State.HEADER_END_LF }, i, i, t⟩ := by
  simp only [step, hs]
  generalize buf.getD i 0 = b at hb
  subst hb
  simp [Cfg.setState, isToken, isChar, isControl, CR, LF]

theorem step_header_name (buf : List Nat) (X : BufferRef) (cb : Hooks)
    (p : HttpMessageProcessor) (i : Nat) (t : List Event)
    (hs : p.state = State.HEADER_NAME) (hb : isToken (buf.getD i 0) = true)
    (hi : i + 1 < SIZE_MOD) :
    step buf X cb ⟨p, i, i, t⟩
      = Step.next ⟨{ p with name := p.name.shr 1 }, i + 1, i + 1, t⟩ := by
  have e1 := szAdd_small i 1 hi
  simp only [step, hs]
  generalize buf.getD i 0 = b at hb
  simp [hb, Cfg.advance, e1]

theorem step_header_name_colon (buf : List Nat) (X : BufferRef) (cb : Hooks)
    (p : HttpMessageProcessor) (i : Nat) (t : List Event)
    (hs : p.state = State.HEADER_NAME) (hb : buf.getD i 0 = 58) (hi : i + 1 < SIZE_MOD) :
    step buf X cb ⟨p, i, i, t⟩
      = Step.next ⟨{ p with state := State.LWS_BEGIN, lwsNext := State.HEADER_VALUE_BEGIN, lwsNull := State.HEADER_VALUE_END }, i + 1, i + 1, t⟩ := by
  have e1 := szAdd_small i 1 hi
  simp only [step, hs]
  generalize buf.getD i 0 = b at hb
  subst hb
  simp [Cfg.advance, e1, isToken, isChar, isControl, isSeparator]

/-! ## Single passes in the LWS and header-value states, written out -/

theorem step_lws_begin_cr (buf : List Nat) (X : BufferRef) (cb : Hooks)
    (p : HttpMessageProcessor) (i : Nat) (t : List Event)
    (hs : p.state = State.LWS_BEGIN) (hb : buf.getD i 0 = CR) (hi : i + 1 < SIZE_MOD) :
    step buf X cb ⟨p, i, i, t⟩ = Step.next ⟨{ p with state := State.LWS_LF }, i + 1, i + 1, t⟩ := by
  have e1 := szAdd_small i 1 hi
  simp only [step, hs]
  generalize buf.getD i 0 = b at hb
  subst hb
  simp [Cfg.eat, Cfg.advance, Cfg.setState, e1]

theorem step_lws_begin_lf (buf : List Nat) (X : BufferRef) (cb : Hooks)
    (p : HttpMessageProcessor) (i : Nat) (t : List Event)
    (hs : p.state = State.LWS_BEGIN) (hb : buf.getD i 0 = LF) (hi : i + 1 < SIZE_MOD) :
    step buf X cb ⟨p, i, i, t⟩
      = Step.next ⟨{ p with state := State.LWS_SP_HT_BEGIN }, i + 1, i + 1, t⟩ := by
  have e1 := szAdd_small i 1 hi
  simp only [step, hs]
  generalize buf.getD i 0 = b at hb
  subst hb
  simp [Cfg.eat, Cfg.advance, Cfg.setState, e1, CR, LF]

theorem step_lws_begin_ws (buf : List Nat) (X : BufferRef) (cb : Hooks)
    (p : HttpMessageProcessor) (i : Nat) (t : List Event)
    (hs : p.state = State.LWS_BEGIN) (hb : buf.getD i 0 = SP ∨ buf.getD i 0 = HT)
    (hi : i + 1 < SIZE_MOD) :
    step buf X cb ⟨p, i, i, t⟩
      = Step.next ⟨{ p with state := State.LWS_SP_HT }, i + 1, i + 1, t⟩ := by
  have e1 := szAdd_small i 1 hi
  simp only [step, hs]
  generalize buf.getD i 0 = b at hb
  rcases hb with hb | hb <;> subst hb <;>
    simp [Cfg.eat, Cfg.advance, Cfg.setState, e1, CR, LF, SP, HT]

theorem step_lws_begin_print (buf : List Nat) (X : BufferRef) (cb : Hooks)
    (p : HttpMessageProcessor) (i : Nat) (t : List Event)
    (hs : p.state = State.LWS_BEGIN) (hb : isprint (buf.getD i 0) = true)
    (hsp : buf.getD i 0 ≠ SP) :
    step buf X cb ⟨p, i, i, t⟩ = Step.next ⟨{ p with state := p.lwsNext }, i, i, t⟩ := by
  simp only [step, hs]
  generalize buf.getD i 0 = b at hb hsp
  have hcr : b ≠ CR := by
    intro h; subst h; revert hb; decide
  have hlf : b ≠ LF := by
    intro h; subst h; revert hb; decide
  have hht : b ≠ HT := by
    intro h; subst h; revert hb; decide
  simp [hb, hsp, hcr, hlf, hht, Cfg.setState]

theorem step_lws_lf (buf : List Nat) (X : BufferRef) (cb : Hooks)
    (p : HttpMessageProcessor) (i : Nat) (t : List Event)
    (hs : p.state = State.LWS_LF) (hb : buf.getD i 0 = LF) (hi : i + 1 < SIZE_MOD) :
    step buf X cb ⟨p, i, i, t⟩
      = Step.next ⟨{ p with state := State.LWS_SP_HT_BEGIN }, i + 1, i + 1, t⟩ := by
  have e1 := szAdd_small i 1 hi
  simp only [step, hs]
  generalize buf.getD i 0 = b at hb
  subst hb
  simp [Cfg.eat, Cfg.advance, Cfg.setState, e1]

theorem step_lws_sp_ht_begin_null (buf : List Nat) (X : BufferRef) (cb : Hooks)
    (p : HttpMessageProcessor) (i : Nat) (t : List Event)
    (hs : p.state = State.LWS_SP_HT_BEGIN) (h1 : buf.getD i 0 ≠ SP) (h2 : buf.getD i 0 ≠ HT) :
    step buf X cb ⟨p, i, i, t⟩ = Step.next ⟨{ p with state := p.lwsNull }, i, i, t⟩ := by
  simp only [step, hs]
  generalize buf.getD i 0 = b at h1 h2
  simp [h1, h2, Cfg.setState]

theorem step_lws_sp_ht_ws (buf : List Nat) (X : BufferRef) (cb : Hooks)
    (p : HttpMessageProcessor) (i : Nat) (t : List Event)
    (hs : p.state = State.LWS_SP_HT) (hv : p.value.size = 0)
    (hb : buf.getD i 0 = SP ∨ buf.getD i 0 = HT) (hi : i + 1 < SIZE_MOD) :
    step buf X cb ⟨p, i, i, t⟩ = Step.next ⟨p, i + 1, i + 1, t⟩ := by
  have e1 := szAdd_small i 1 hi
  simp only [step, hs]
  generalize buf.getD i 0 = b at hb
  simp [hb, hv, BufferRef.empty, Cfg.advance, e1]
  cases p
  simp_all

theorem step_lws_sp_ht_next (buf : List Nat) (X : BufferRef) (cb : Hooks)
    (p : HttpMessageProcessor) (i : Nat) (t : List Event)
    (hs : p.state = State.LWS_SP_HT) (h1 : buf.getD i 0 ≠ SP) (h2 : buf.getD i 0 ≠ HT) :
    step buf X cb ⟨p, i, i, t⟩ = Step.next ⟨{ p with state := p.lwsNext }, i, i, t⟩ := by
  simp only [step, hs]
  generalize buf.getD i 0 = b at h1 h2
  simp [h1, h2, Cfg.setState]

theorem step_header_value_begin (buf : List Nat) (X : BufferRef) (cb : Hooks)
    (p : HttpMessageProcessor) (i : Nat) (t : List Event)
    (hs : p.state = State.HEADER_VALUE_BEGIN) (hb : isText (buf.getD i 0) = true)
    (ha : X.offset ≤ i) (hi : i + 1 < SIZE_MOD) :
    step buf X cb ⟨p, i, i, t⟩
      = Step.next ⟨{ p with value := ⟨i, 1⟩, state := State.HEADER_VALUE }, i + 1, i + 1, t⟩ := by
  have e1 := szAdd_small i 1 hi
  have e2 := refHere_eq X ⟨p, i, i, t⟩ rfl ha (by simp only; omega)
  simp only [step, hs]
  generalize buf.getD i 0 = b at hb
  simp [hb, Cfg.advance, e1, e2]

theorem step_header_value_begin_cr (buf : List Nat) (X : BufferRef) (cb : Hooks)
    (p : HttpMessageProcessor) (i : Nat) (t : List Event)
    (hs : p.state = State.HEADER_VALUE_BEGIN) (hb : buf.getD i 0 = CR)
    (hi : i + 1 < SIZE_MOD) :
    step buf X cb ⟨p, i, i, t⟩
      = Step.next ⟨{ p with state := State.HEADER_VALUE_LF }, i + 1, i + 1, t⟩ := by
  have e1 := szAdd_small i 1 hi
  simp only [step, hs]
  generalize buf.getD i 0 = b at hb
  subst hb
  simp [Cfg.eat, Cfg.advance, Cfg.setState, e1, isText, isControl, CR, SP, HT]

theorem step_header_value_begin_lf (buf : List Nat) (X : BufferRef) (cb : Hooks)
    (p : HttpMessageProcessor) (i : Nat) (t : List Event)
    (hs : p.state = State.HEADER_VALUE_BEGIN) (hb : buf.getD i 0 = LF)
    (hi : i + 1 < SIZE_MOD) :
    step buf X cb ⟨p, i, i, t⟩
      = Step.next ⟨{ p with state := State.HEADER_VALUE_END }, i + 1, i + 1, t⟩ := by
  have e1 := szAdd_small i 1 hi
  simp only [step, hs]
  generalize buf.getD i 0 = b at hb
  subst hb
  simp [Cfg.eat, Cfg.advance, Cfg.setState, e1, isText, isControl, CR, LF, SP, HT]

theorem step_header_value (buf : List Nat) (X : BufferRef) (cb : Hooks)
    (p : HttpMessageProcessor) (i : Nat) (t : List Event)
    (hs : p.state = State.HEADER_VALUE) (hb : isText (buf.getD i 0) = true)
    (hi : i + 1 < SIZE_MOD) :
    step buf X cb ⟨p, i, i, t⟩
      = Step.next ⟨{ p with value := p.value.shr 1 }, i + 1, i + 1, t⟩ := by
  have e1 := szAdd_small i 1 hi
  simp only [step, hs]
  generalize buf.getD i 0 = b at hb
  have hcr : b ≠ CR := by
    intro h; subst h; revert hb; decide
  have hlf : b ≠ LF := by
    intro h; subst h; revert hb; decide
  simp [hb, hcr, hlf, Cfg.advance, e1]

theorem step_header_value_cr (buf : List Nat) (X : BufferRef) (cb : Hooks)
    (p : HttpMessageProcessor) (i : Nat) (t : List Event)
    (hs : p.state = State.HEADER_VALUE) (hb : buf.getD i 0 = CR) (hi : i + 1 < SIZE_MOD) :
    step buf X cb ⟨p, i, i, t⟩
      = Step.next ⟨{ p with state := State.LWS_LF, lwsNext := State.HEADER_VALUE, lwsNull := State.HEADER_VALUE_END }, i + 1, i + 1, t⟩ := by
  have e1 := szAdd_small i 1 hi
  simp only [step, hs]
  generalize buf.getD i 0 = b at hb
  subst hb
  simp [Cfg.advance, e1]

theorem step_header_value_lf (buf : List Nat) (X : BufferRef) (cb : Hooks)
    (p : HttpMessageProcessor) (i : Nat) (t : List Event)
    (hs : p.state = State.HEADER_VALUE) (hb : buf.getD i 0 = LF) (hi : i + 1 < SIZE_MOD) :
    step buf X cb ⟨p, i, i, t⟩
      = Step.next ⟨{ p with state := State.LWS_SP_HT_BEGIN, lwsNext := State.HEADER_VALUE, lwsNull := State.HEADER_VALUE_END }, i + 1, i + 1, t⟩ := by
  have e1 := szAdd_small i 1 hi
  simp only [step, hs]
  generalize buf.getD i 0 = b at hb
  subst hb
  simp [Cfg.advance, e1, CR, LF]

theorem step_header_value_lf_state (buf : List Nat) (X : BufferRef) (cb : Hooks)
    (p : HttpMessageProcessor) (i : Nat) (t : List Event)
    (hs : p.state = State.HEADER_VALUE_LF) (hb : buf.getD i 0 = LF) (hi : i + 1 < SIZE_MOD) :
    step buf X cb ⟨p, i, i, t⟩
      = Step.next ⟨{ p with state := State.HEADER_VALUE_END }, i + 1, i + 1, t⟩ := by
  have e1 := szAdd_small i 1 hi
  simp only [step, hs]
  generalize buf.getD i 0 = b at hb
  subst hb
  simp [Cfg.eat, Cfg.advance, Cfg.setState, e1]

/-- The pass through `HEADER_VALUE_END` with hooks returning true. -/
theorem step_header_value_end_true (buf : List Nat) (X : BufferRef)
    (p : HttpMessageProcessor) (i : Nat) (t : List Event)
    (hs : p.state = State.HEADER_VALUE_END) :
    step buf X allTrue ⟨p, i, i, t⟩
      = Step.next ⟨{ headerEffects buf p with name := (headerEffects buf p).name.clear, value := (headerEffects buf p).value.clear, state := State.HEADER_NAME_BEGIN }, i, i,
          t ++ [Event.onMessageHeader (p.name.bytes buf) (p.value.bytes buf)]⟩ := by
  obtain ⟨e1, e2, _⟩ := headerEffects_fields buf p
  simp only [step, hs, allTrue, e1, e2]
  simp

/-- The LF of the empty line in a REQUEST-mode parser without a body to come. -/
theorem step_header_end_lf_bodyless (buf : List Nat) (X : BufferRef)
    (p : HttpMessageProcessor) (i : Nat) (t : List Event)
    (hs : p.state = State.HEADER_END_LF) (hb : buf.getD i 0 = LF)
    (hcl : ¬ p.contentLength > 0) (hch : p.chunked = false) (hm : p.mode = ParseMode.REQUEST)
    (hi : i + 1 < SIZE_MOD) :
    step buf X allTrue ⟨p, i, i, t⟩
      = Step.next ⟨{ p with state := State.MESSAGE_BEGIN }, i + 1, i + 1,
          t ++ [Event.onMessageHeaderEnd, Event.onMessageEnd]⟩ := by
  have e1 := szAdd_small i 1 hi
  simp only [step, hs]
  generalize buf.getD i 0 = b at hb
  subst hb
  simp [hcl, hch, hm, callHook, allTrue, Cfg.setState, Cfg.advance, e1]

/-! ## Runs of passes over the variable parts of a request head -/

theorem after_method (buf : List Nat) (hM : buf.length < SIZE_MOD) :
    ∀ (bs : List Nat) (p : HttpMessageProcessor) (i : Nat) (t : List Event) (rest : List Nat),
      p.state = State.REQUEST_METHOD → (∀ b ∈ bs, isToken b = true) →
      buf.drop i = bs ++ rest → p.method.size + bs.length < SIZE_MOD →
      after buf (whole buf) allTrue bs.length ⟨p, i, i, t⟩
        = some ⟨{ p with method := ⟨p.method.offset, p.method.size + bs.length⟩ },
            i + bs.length, i + bs.length, t⟩ := by
  intro bs
  induction bs with
  | nil =>
    intro p i t rest _ _ _ _
    simp only [after, List.length_nil, Nat.add_zero]
  | cons b bs ih =>
    intro p i t rest hs hb hdrop hsz
    obtain ⟨hgd, hdrop1, hlt⟩ := getD_of_drop buf i b (bs ++ rest) hdrop
    have hst := step_request_method buf (whole buf) allTrue p i t hs
      (by rw [hgd]; exact hb b (List.mem_cons_self _ _)) (by omega)
    simp only [List.length_cons] at hsz
    have := ih { p with method := p.method.shr 1 } (i + 1) t rest hs
      (fun x hx => hb x (List.mem_cons_of_mem _ hx)) hdrop1
      (by simp only [BufferRef.shr, szAdd_small _ _ (show p.method.size + 1 < SIZE_MOD by omega)]
          omega)
    have h2 := after_succ buf allTrue bs.length _ _ _ hlt hst this
    simp only [List.length_cons]
    rw [h2]
    simp only [BufferRef.shr, szAdd_small _ _ (show p.method.size + 1 < SIZE_MOD by omega),
      Nat.add_assoc, Nat.add_comm 1]

theorem after_entity (buf : List Nat) (hM : buf.length < SIZE_MOD) :
    ∀ (bs : List Nat) (p : HttpMessageProcessor) (i : Nat) (t : List Event) (rest : List Nat),
      p.state = State.REQUEST_ENTITY → (∀ b ∈ bs, isprint b = true ∧ b ≠ SP) →
      buf.drop i = bs ++ rest → p.entity.size + bs.length < SIZE_MOD →
      after buf (whole buf) allTrue bs.length ⟨p, i, i, t⟩
        = some ⟨{ p with entity := ⟨p.entity.offset, p.entity.size + bs.length⟩ },
            i + bs.length, i + bs.length, t⟩ := by
  intro bs
  induction bs with
  | nil =>
    intro p i t rest _ _ _ _
    simp only [after, List.length_nil, Nat.add_zero]
  | cons b bs ih =>
    intro p i t rest hs hb hdrop hsz
    obtain ⟨hgd, hdrop1, hlt⟩ := getD_of_drop buf i b (bs ++ rest) hdrop
    have hb0 := hb b (List.mem_cons_self _ _)
    have hst := step_request_entity buf (whole buf) allTrue p i t hs
      (by rw [hgd]; exact hb0.1) (by rw [hgd]; exact hb0.2) (by omega)
    simp only [List.length_cons] at hsz
    have := ih { p with entity := p.entity.shr 1 } (i + 1) t rest hs
      (fun x hx => hb x (List.mem_cons_of_mem _ hx)) hdrop1
      (by simp only [BufferRef.shr, szAdd_small _ _ (show p.entity.size + 1 < SIZE_MOD by omega)]
          omega)
    have h2 := after_succ buf allTrue bs.length _ _ _ hlt hst this
    simp only [List.length_cons]
    rw [h2]
    simp only [BufferRef.shr, szAdd_small _ _ (show p.entity.size + 1 < SIZE_MOD by omega),
      Nat.add_assoc, Nat.add_comm 1]

theorem after_header_name (buf : List Nat) (hM : buf.length < SIZE_MOD) :
    ∀ (bs : List Nat) (p : HttpMessageProcessor) (i : Nat) (t : List Event) (rest : List Nat),
      p.state = State.HEADER_NAME → (∀ b ∈ bs, isToken b = true) →
      buf.drop i = bs ++ rest → p.name.size + bs.length < SIZE_MOD →
      after buf (whole buf) allTrue bs.length ⟨p, i, i, t⟩
        = some ⟨{ p with name := ⟨p.name.offset, p.name.size + bs.length⟩ },
            i + bs.length, i + bs.length, t⟩ := by
  intro bs
  induction bs with
  | nil =>
    intro p i t rest _ _ _ _
    simp only [after, List.length_nil, Nat.add_zero]
  | cons b bs ih =>
    intro p i t rest hs hb hdrop hsz
    obtain ⟨hgd, hdrop1, hlt⟩ := getD_of_drop buf i b (bs ++ rest) hdrop
    have hst := step_header_name buf (whole buf) allTrue p i t hs
      (by rw [hgd]; exact hb b (List.mem_cons_self _ _)) (by omega)
    simp only [List.length_cons] at hsz
    have := ih { p with name := p.name.shr 1 } (i + 1) t rest hs
      (fun x hx => hb x (List.mem_cons_of_mem _ hx)) hdrop1
      (by simp only [BufferRef.shr, szAdd_small _ _ (show p.name.size + 1 < SIZE_MOD by omega)]
          omega)
    have h2 := after_succ buf allTrue bs.length _ _ _ hlt hst this
    simp only [List.length_cons]
    rw [h2]
    simp only [BufferRef.shr, szAdd_small _ _ (show p.name.size + 1 < SIZE_MOD by omega),
      Nat.add_assoc, Nat.add_comm 1]

theorem after_header_value (buf : List Nat) (hM : buf.length < SIZE_MOD) :
    ∀ (bs : List Nat) (p : HttpMessageProcessor) (i : Nat) (t : List Event) (rest : List Nat),
      p.state = State.HEADER_VALUE → (∀ b ∈ bs, isText b = true) →
      buf.drop i = bs ++ rest → p.value.size + bs.length < SIZE_MOD →
      after buf (whole buf) allTrue bs.length ⟨p, i, i, t⟩
        = some ⟨{ p with value := ⟨p.value.offset, p.value.size + bs.length⟩ },
            i + bs.length, i + bs.length, t⟩ := by
  intro bs
  induction bs with
  | nil =>
    intro p i t rest _ _ _ _
    simp only [after, List.length_nil, Nat.add_zero]
  | cons b bs ih =>
    intro p i t rest hs hb hdrop hsz
    obtain ⟨hgd, hdrop1, hlt⟩ := getD_of_drop buf i b (bs ++ rest) hdrop
    have hst := step_header_value buf (whole buf) allTrue p i t hs
      (by rw [hgd]; exact hb b (List.mem_cons_self _ _)) (by omega)
    simp only [List.length_cons] at hsz
    have := ih { p with value := p.value.shr 1 } (i + 1) t rest hs
      (fun x hx => hb x (List.mem_cons_of_mem _ hx)) hdrop1
      (by simp only [BufferRef.shr, szAdd_small _ _ (show p.value.size + 1 < SIZE_MOD by omega)]
          omega)
    have h2 := after_succ buf allTrue bs.length _ _ _ hlt hst this
    simp only [List.length_cons]
    rw [h2]
    simp only [BufferRef.shr, szAdd_small _ _ (show p.value.size + 1 < SIZE_MOD by omega),
      Nat.add_assoc, Nat.add_comm 1]

theorem after_version_major (buf : List Nat) (hM : buf.length < SIZE_MOD) :
    ∀ (ds : List Nat) (p : HttpMessageProcessor) (i : Nat) (t : List Event) (rest : List Nat),
      p.state = State.REQUEST_PROTOCOL_VERSION_MAJOR → (∀ b ∈ ds, isdigit b = true) →
      buf.drop i = ds ++ rest →
      after buf (whole buf) allTrue ds.length ⟨p, i, i, t⟩
        = some ⟨{ p with versionMajor := digitsValue p.versionMajor ds },
            i + ds.length, i + ds.length, t⟩ := by
  intro ds
  induction ds with
  | nil =>
    intro p i t rest _ _ _
    simp only [after, List.length_nil, Nat.add_zero, digitsValue]
  | cons b ds ih =>
    intro p i t rest hs hb hdrop
    obtain ⟨hgd, hdrop1, hlt⟩ := getD_of_drop buf i b (ds ++ rest) hdrop
    have hb0 := hb b (List.mem_cons_self _ _)
    have hst := step_version_major buf (whole buf) allTrue p i t hs
      (by rw [hgd]; exact hb0) (by omega)
    rw [hgd] at hst
    have := ih { p with versionMajor := p.versionMajor * 10 + (b : Int) - 48 } (i + 1) t rest hs
      (fun x hx => hb x (List.mem_cons_of_mem _ hx)) hdrop1
    have h2 := after_succ buf allTrue ds.length _ _ _ hlt hst this
    simp only [List.length_cons]
    rw [h2]
    simp only [digitsValue, hb0, if_true, add_sub_assoc, Nat.add_assoc, Nat.add_comm 1]

theorem after_version_minor (buf : List Nat) (hM : buf.length < SIZE_MOD) :
    ∀ (ds : List Nat) (p : HttpMessageProcessor) (i : Nat) (t : List Event) (rest : List Nat),
      p.state = State.REQUEST_PROTOCOL_VERSION_MINOR → (∀ b ∈ ds, isdigit b = true) →
      buf.drop i = ds ++ rest →
      after buf (whole buf) allTrue ds.length ⟨p, i, i, t⟩
        = some ⟨{ p with versionMinor := digitsValue p.versionMinor ds },
            i + ds.length, i + ds.length, t⟩ := by
  intro ds
  induction ds with
  | nil =>
    intro p i t rest _ _ _
    simp only [after, List.length_nil, Nat.add_zero, digitsValue]
  | cons b ds ih =>
    intro p i t rest hs hb hdrop
    obtain ⟨hgd, hdrop1, hlt⟩ := getD_of_drop buf i b (ds ++ rest) hdrop
    have hb0 := hb b (List.mem_cons_self _ _)
    have hst := step_version_minor buf (whole buf) allTrue p i t hs
      (by rw [hgd]; exact hb0) (by omega)
    rw [hgd] at hst
    have := ih { p with versionMinor := p.versionMinor * 10 + (b : Int) - 48 } (i + 1) t rest hs
      (fun x hx => hb x (List.mem_cons_of_mem _ hx)) hdrop1
    have h2 := after_succ buf allTrue ds.length _ _ _ hlt hst this
    simp only [List.length_cons]
    rw [h2]
    simp only [digitsValue, hb0, if_true, add_sub_assoc, Nat.add_assoc, Nat.add_comm 1]

theorem after_ws (buf : List Nat) (hM : buf.length < SIZE_MOD) :
    ∀ (ws : List Nat) (p : HttpMessageProcessor) (i : Nat) (t : List Event) (rest : List Nat),
      p.state = State.LWS_SP_HT → p.value.size = 0 → (∀ b ∈ ws, b = SP ∨ b = HT) →
      buf.drop i = ws ++ rest →
      after buf (whole buf) allTrue ws.length ⟨p, i, i, t⟩
        = some ⟨p, i + ws.length, i + ws.length, t⟩ := by
  intro ws
  induction ws with
  | nil =>
    intro p i t rest _ _ _ _
    simp only [after, List.length_nil, Nat.add_zero]
  | cons b ws ih =>
    intro p i t rest hs hv hb hdrop
    obtain ⟨hgd, hdrop1, hlt⟩ := getD_of_drop buf i b (ws ++ rest) hdrop
    have hst := step_lws_sp_ht_ws buf (whole buf) allTrue p i t hs hv
      (by rw [hgd]; exact hb b (List.mem_cons_self _ _)) (by omega)
    have := ih p (i + 1) t rest hs hv (fun x hx => hb x (List.mem_cons_of_mem _ hx)) hdrop1
    have h2 := after_succ buf allTrue ws.length _ _ _ hlt hst this
    simp only [List.length_cons]
    rw [h2]
    simp only [Nat.add_assoc, Nat.add_comm 1]

theorem after_snoc (buf : List Nat) (cb : Hooks) (n : Nat) (c c1 c2 : Cfg)
    (h : after buf (whole buf) cb n c = some c1) (hi : c1.i < buf.length)
    (hst : step buf (whole buf) cb c1 = Step.next c2) :
    after buf (whole buf) cb (n + 1) c = some c2 :=
  after_trans buf (whole buf) cb n 1 c c1 c2 h
    (after_one buf (whole buf) cb c1 c2 (by simp only [whole]; omega) hst)

theorem after_cast (buf : List Nat) (chunk : BufferRef) (cb : Hooks) (n m : Nat) (c : Cfg)
    (q : HttpMessageProcessor) (j k : Nat) (t : List Event)
    (h : after buf chunk cb n c = some ⟨q, j, j, t⟩) (hn : n = m) (hj : j = k) :
    after buf chunk cb m c = some ⟨q, k, k, t⟩ := by
  subst hn hj
  exact h

/-! ## The request line -/

/-- The passes over `method SP uri SP HTTP/major.minor`, up to the line terminator. -/
theorem after_request_line_body (buf : List Nat) (hM : buf.length < SIZE_MOD)
    (method uri major minor rest : List Nat) (p : HttpMessageProcessor) (i : Nat)
    (t : List Event) (hw : WellFormedRequestLine method uri major minor)
    (hs : p.state = State.MESSAGE_BEGIN) (hm : p.mode = ParseMode.REQUEST)
    (hdrop : buf.drop i = requestLine method uri major minor ++ rest) :
    ∃ q, after buf (whole buf) allTrue ((requestLine method uri major minor).length + 1)
          ⟨p, i, i, t⟩
        = some ⟨q, i + (requestLine method uri major minor).length,
            i + (requestLine method uri major minor).length, t⟩ ∧
      buf.drop (i + (requestLine method uri major minor).length) = rest ∧
      q.state = State.REQUEST_PROTOCOL_VERSION_MINOR ∧
      q.method.bytes buf = method ∧ q.entity.bytes buf = uri ∧
      q.versionMajor = digitsValue 0 major ∧ q.versionMinor = digitsValue 0 minor ∧
      q.value = p.value ∧ q.mode = p.mode ∧ q.chunked = p.chunked ∧ q.contentLength = -1 := by
  obtain ⟨hm0, hmt, hu0, hut, hmaj, hmin⟩ := hw
  obtain ⟨m0, ms, rfl⟩ := List.exists_cons_of_ne_nil hm0
  obtain ⟨u0, us, rfl⟩ := List.exists_cons_of_ne_nil hu0
  have hdrop0 : buf.drop i = m0 :: (ms ++ SP :: (u0 :: (us ++ SP :: 72 :: 84 :: 84 :: 80 :: 47 ::
      (major ++ 46 :: (minor ++ rest))))) := by
    rw [hdrop]; simp [requestLine]
  obtain ⟨hb0, hd1, hl0⟩ := getD_of_drop buf i m0 _ hdrop0
  obtain ⟨hd2, hi2, _⟩ := drop_append_of_drop buf (i + 1) ms _ (by omega) hd1
  obtain ⟨hb2, hd3, hl2⟩ := getD_of_drop buf _ _ _ hd2
  obtain ⟨hb3, hd4, hl3⟩ := getD_of_drop buf _ _ _ hd3
  obtain ⟨hd5, hi5, _⟩ := drop_append_of_drop buf _ us _ (by omega) hd4
  obtain ⟨hb5, hd6, hl5⟩ := getD_of_drop buf _ _ _ hd5
  obtain ⟨hb6, hd7, hl6⟩ := getD_of_drop buf _ _ _ hd6
  obtain ⟨hb7, hd8, hl7⟩ := getD_of_drop buf _ _ _ hd7
  obtain ⟨hb8, hd9, hl8⟩ := getD_of_drop buf _ _ _ hd8
  obtain ⟨hb9, hd10, hl9⟩ := getD_of_drop buf _ _ _ hd9
  obtain ⟨hb10, hd11, hl10⟩ := getD_of_drop buf _ _ _ hd10
  obtain ⟨hd12, hi12, _⟩ := drop_append_of_drop buf _ major _ (by omega) hd11
  obtain ⟨hb12, hd13, hl12⟩ := getD_of_drop buf _ _ _ hd12
  obtain ⟨hd14, hi14, _⟩ := drop_append_of_drop buf _ minor _ (by omega) hd13
  obtain ⟨_, _, hbm⟩ := drop_append_of_drop buf i (m0 :: ms)
    (SP :: (u0 :: (us ++ SP :: 72 :: 84 :: 84 :: 80 :: 47 :: (major ++ 46 :: (minor ++ rest)))))
    (by omega) hdrop0
  obtain ⟨_, _, hbu⟩ := drop_append_of_drop buf (i + 1 + ms.length + 1) (u0 :: us)
    (SP :: 72 :: 84 :: 84 :: 80 :: 47 :: (major ++ 46 :: (minor ++ rest))) (by omega) hd3
  have hw0 : (whole buf).offset ≤ i := Nat.zero_le _
  have a0 : after buf (whole buf) allTrue 0 ⟨p, i, i, t⟩ = some ⟨p, i, i, t⟩ := rfl
  have a1 := after_snoc buf allTrue _ _ _ _ a0 hl0
    (step_message_begin_request buf _ _ _ _ _ _ hs hm)
  try dsimp only at a1
  have a2 := after_snoc buf allTrue _ _ _ _ a1 hl0
    (step_request_line_begin buf _ _ _ _ _ (by rfl)
      (by rw [hb0]; exact hmt m0 (List.mem_cons_self _ _)) (Nat.zero_le _) (by omega))
  try dsimp only at a2
  have a3 := after_trans buf _ _ _ _ _ _ _ a2
    (after_method buf hM ms _ _ _ _ (by rfl) (fun b hb => hmt b (List.mem_cons_of_mem _ hb)) hd1
      (by simp only; omega))
  try dsimp only at a3
  have a4 := after_snoc buf allTrue _ _ _ _ a3 hl2
    (step_request_method_sp buf _ _ _ _ _ (by rfl) hb2 (by omega))
  try dsimp only at a4
  have a5 := after_snoc buf allTrue _ _ _ _ a4 hl3
    (step_request_entity_begin buf _ _ _ _ _ (by rfl)
      (by rw [hb3]; exact (hut u0 (List.mem_cons_self _ _)).1) (Nat.zero_le _) (by omega))
  try dsimp only at a5
  have a6 := after_trans buf _ _ _ _ _ _ _ a5
    (after_entity buf hM us _ _ _ _ (by rfl) (fun b hb => hut b (List.mem_cons_of_mem _ hb)) hd4
      (by simp only; omega))
  try dsimp only at a6
  have a7 := after_snoc buf allTrue _ _ _ _ a6 hl5
    (step_request_entity_sp buf _ _ _ _ _ (by rfl) hb5 (by omega))
  try dsimp only at a7
  have a8 := after_snoc buf allTrue _ _ _ _ a7 hl6
    (step_request_protocol buf _ _ _ _ _ State.REQUEST_PROTOCOL_BEGIN State.REQUEST_PROTOCOL_T1 72 (by simp) (by rfl) hb6
      (by omega))
  try dsimp only at a8
  have a9 := after_snoc buf allTrue _ _ _ _ a8 hl7
    (step_request_protocol buf _ _ _ _ _ State.REQUEST_PROTOCOL_T1 State.REQUEST_PROTOCOL_T2 84 (by simp) (by rfl) hb7
      (by omega))
  try dsimp only at a9
  have a10 := after_snoc buf allTrue _ _ _ _ a9 hl8
    (step_request_protocol buf _ _ _ _ _ State.REQUEST_PROTOCOL_T2 State.REQUEST_PROTOCOL_P 84 (by simp) (by rfl) hb8
      (by omega))
  try dsimp only at a10
  have a11 := after_snoc buf allTrue _ _ _ _ a10 hl9
    (step_request_protocol buf _ _ _ _ _ State.REQUEST_PROTOCOL_P State.REQUEST_PROTOCOL_SLASH 80 (by simp) (by rfl) hb9
      (by omega))
  try dsimp only at a11
  have a12 := after_snoc buf allTrue _ _ _ _ a11 hl10
    (step_request_protocol buf _ _ _ _ _ State.REQUEST_PROTOCOL_SLASH State.REQUEST_PROTOCOL_VERSION_MAJOR 47 (by simp)
      (by rfl) hb10 (by omega))
  try dsimp only at a12
  have a13 := after_trans buf _ _ _ _ _ _ _ a12
    (after_version_major buf hM major _ _ _ _ (by rfl) hmaj hd11)
  try dsimp only at a13
  have a14 := after_snoc buf allTrue _ _ _ _ a13 hl12
    (step_version_major_dot buf _ _ _ _ _ (by rfl) hb12 (by omega))
  try dsimp only at a14
  have a15 := after_trans buf _ _ _ _ _ _ _ a14
    (after_version_minor buf hM minor _ _ _ _ (by rfl) hmin hd13)
  try dsimp only at a15
  have hL : (requestLine (m0 :: ms) (u0 :: us) major minor).length
      = ms.length + us.length + major.length + minor.length + 10 := by
    simp [requestLine]; omega
  refine ⟨_, after_cast _ _ _ _ _ _ _ _ _ _ a15 (by rw [hL]; omega) (by rw [hL]; omega), ?_, rfl,
    ?_, ?_, rfl, rfl, rfl, rfl, rfl, rfl⟩
  · rw [← hd14]; congr 1; rw [hL]; omega
  · rw [← hbm]; simp only [BufferRef.bytes, List.length_cons]; rw [Nat.add_comm 1]
  · rw [← hbu]; simp only [BufferRef.bytes, List.length_cons]; rw [Nat.add_comm 1]

/-! ## One header line -/

theorem eol_length_pos (short : Bool) : 1 ≤ (eol short).length ∧ (eol short).length ≤ 2 := by
  cases short <;> simp [eol]

/-- The field name and the colon. -/
theorem after_header_name_colon (buf : List Nat) (hM : buf.length < SIZE_MOD)
    (n0 : Nat) (ns rest : List Nat) (p : HttpMessageProcessor) (i : Nat) (t : List Event)
    (hs : p.state = State.HEADER_NAME_BEGIN) (hn : ∀ b ∈ n0 :: ns, isToken b = true)
    (hdrop : buf.drop i = n0 :: (ns ++ 58 :: rest)) :
    after buf (whole buf) allTrue (ns.length + 2) ⟨p, i, i, t⟩
      = some ⟨{ p with name := ⟨i, 1 + ns.length⟩, state := State.LWS_BEGIN, lwsNext := State.HEADER_VALUE_BEGIN, lwsNull := State.HEADER_VALUE_END },
          i + (ns.length + 2), i + (ns.length + 2), t⟩ ∧
      buf.drop (i + (ns.length + 2)) = rest ∧ i + (ns.length + 2) ≤ buf.length := by
  obtain ⟨hb0, hd1, hl0⟩ := getD_of_drop buf i n0 _ hdrop
  obtain ⟨hd2, hi2, _⟩ := drop_append_of_drop buf (i + 1) ns _ (by omega) hd1
  obtain ⟨hb2, hd3, hl2⟩ := getD_of_drop buf _ _ _ hd2
  have a0 : after buf (whole buf) allTrue 0 ⟨p, i, i, t⟩ = some ⟨p, i, i, t⟩ := rfl
  have a1 := after_snoc buf allTrue _ _ _ _ a0 hl0
    (step_header_name_begin buf _ _ _ _ _ hs
      (by rw [hb0]; exact hn n0 (List.mem_cons_self _ _)) (Nat.zero_le _) (by omega))
  have a2 := after_trans buf _ _ _ _ _ _ _ a1
    (after_header_name buf hM ns _ _ _ _ (by rfl)
      (fun b hb => hn b (List.mem_cons_of_mem _ hb)) hd1 (by simp only; omega))
  try dsimp only at a2
  have a3 := after_snoc buf allTrue _ _ _ _ a2 hl2
    (step_header_name_colon buf _ _ _ _ _ (by rfl) hb2 (by omega))
  try dsimp only at a3
  have a4 := after_cast _ _ _ _ (ns.length + 2) _ _ _ (i + (ns.length + 2)) _ a3 (by omega)
    (by omega)
  refine ⟨a4, ?_, by omega⟩
  rw [← hd3]; congr 1; omega

/-- An empty value: the line terminator read in `LWS_BEGIN`, and the byte after it. -/
theorem after_lws_begin_eol (buf : List Nat) (hM : buf.length < SIZE_MOD) (short : Bool)
    (b1 : Nat) (rest : List Nat) (p : HttpMessageProcessor) (i : Nat) (t : List Event)
    (hs : p.state = State.LWS_BEGIN) (hnull : p.lwsNull = State.HEADER_VALUE_END)
    (h1 : b1 ≠ SP) (h2 : b1 ≠ HT)
    (hdrop : buf.drop i = eol short ++ b1 :: rest) :
    ∃ q, after buf (whole buf) allTrue ((eol short).length + 1) ⟨p, i, i, t⟩
        = some ⟨q, i + (eol short).length, i + (eol short).length, t⟩ ∧
      q.state = State.HEADER_VALUE_END ∧ q.value = p.value ∧ SameHeaderFields p q := by
  have a0 : after buf (whole buf) allTrue 0 ⟨p, i, i, t⟩ = some ⟨p, i, i, t⟩ := rfl
  cases short with
  | true =>
    have hd0 : buf.drop i = LF :: b1 :: rest := by rw [hdrop]; rfl
    obtain ⟨hb0, hd1, hl0⟩ := getD_of_drop buf i _ _ hd0
    obtain ⟨hb1, hd2, hl1⟩ := getD_of_drop buf _ _ _ hd1
    have a1 := after_snoc buf allTrue _ _ _ _ a0 hl0
      (step_lws_begin_lf buf _ _ _ _ _ hs hb0 (by omega))
    have a2 := after_snoc buf allTrue _ _ _ _ a1 hl1
      (step_lws_sp_ht_begin_null buf _ _ _ _ _ (by rfl) (by rw [hb1]; exact h1)
        (by rw [hb1]; exact h2))
    try dsimp only at a2
    rw [hnull] at a2
    exact ⟨_, a2, rfl, rfl, rfl, rfl, rfl, rfl⟩
  | false =>
    have hd0 : buf.drop i = CR :: LF :: b1 :: rest := by rw [hdrop]; rfl
    obtain ⟨hb0, hd1, hl0⟩ := getD_of_drop buf i _ _ hd0
    obtain ⟨hb1, hd2, hl1⟩ := getD_of_drop buf _ _ _ hd1
    obtain ⟨hb2, hd3, hl2⟩ := getD_of_drop buf _ _ _ hd2
    have a1 := after_snoc buf allTrue _ _ _ _ a0 hl0
      (step_lws_begin_cr buf _ _ _ _ _ hs hb0 (by omega))
    have a2 := after_snoc buf allTrue _ _ _ _ a1 hl1
      (step_lws_lf buf _ _ _ _ _ (by rfl) hb1 (by omega))
    try dsimp only at a2
    have a3 := after_snoc buf allTrue _ _ _ _ a2 hl2
      (step_lws_sp_ht_begin_null buf _ _ _ _ _ (by rfl) (by rw [hb2]; exact h1)
        (by rw [hb2]; exact h2))
    try dsimp only at a3
    rw [hnull] at a3
    exact ⟨_, a3, rfl, rfl, rfl, rfl, rfl, rfl⟩

/-- An empty value after white space: the line terminator read in `HEADER_VALUE_BEGIN`. -/
theorem after_value_begin_eol (buf : List Nat) (hM : buf.length < SIZE_MOD) (short : Bool)
    (rest : List Nat) (p : HttpMessageProcessor) (i : Nat) (t : List Event)
    (hs : p.state = State.HEADER_VALUE_BEGIN)
    (hdrop : buf.drop i = eol short ++ rest) :
    ∃ q, after buf (whole buf) allTrue (eol short).length ⟨p, i, i, t⟩
        = some ⟨q, i + (eol short).length, i + (eol short).length, t⟩ ∧
      q.state = State.HEADER_VALUE_END ∧ q.value = p.value ∧ SameHeaderFields p q := by
  have a0 : after buf (whole buf) allTrue 0 ⟨p, i, i, t⟩ = some ⟨p, i, i, t⟩ := rfl
  cases short with
  | true =>
    have hd0 : buf.drop i = LF :: rest := by rw [hdrop]; rfl
    obtain ⟨hb0, hd1, hl0⟩ := getD_of_drop buf i _ _ hd0
    have a1 := after_snoc buf allTrue _ _ _ _ a0 hl0
      (step_header_value_begin_lf buf _ _ _ _ _ hs hb0 (by omega))
    exact ⟨_, a1, rfl, rfl, rfl, rfl, rfl, rfl⟩
  | false =>
    have hd0 : buf.drop i = CR :: LF :: rest := by rw [hdrop]; rfl
    obtain ⟨hb0, hd1, hl0⟩ := getD_of_drop buf i _ _ hd0
    obtain ⟨hb1, hd2, hl1⟩ := getD_of_drop buf _ _ _ hd1
    have a1 := after_snoc buf allTrue _ _ _ _ a0 hl0
      (step_header_value_begin_cr buf _ _ _ _ _ hs hb0 (by omega))
    have a2 := after_snoc buf allTrue _ _ _ _ a1 hl1
      (step_header_value_lf_state buf _ _ _ _ _ (by rfl) hb1 (by omega))
    try dsimp only at a2
    exact ⟨_, a2, rfl, rfl, rfl, rfl, rfl, rfl⟩

/-- A value that is not empty, its line terminator, and the byte after it. -/
theorem after_value_eol (buf : List Nat) (hM : buf.length < SIZE_MOD) (short : Bool)
    (v0 : Nat) (vs : List Nat) (b1 : Nat) (rest : List Nat) (p : HttpMessageProcessor)
    (i : Nat) (t : List Event)
    (hs : p.state = State.HEADER_VALUE_BEGIN) (hv0 : isText v0 = true)
    (hvs : ∀ b ∈ vs, isText b = true) (h1 : b1 ≠ SP) (h2 : b1 ≠ HT)
    (hdrop : buf.drop i = v0 :: (vs ++ (eol short ++ b1 :: rest))) :
    ∃ q, after buf (whole buf) allTrue (vs.length + (eol short).length + 2) ⟨p, i, i, t⟩
        = some ⟨q, i + (1 + vs.length + (eol short).length),
            i + (1 + vs.length + (eol short).length), t⟩ ∧
      q.state = State.HEADER_VALUE_END ∧ q.value = ⟨i, 1 + vs.length⟩ ∧
      SameHeaderFields p q := by
  obtain ⟨hb0, hd1, hl0⟩ := getD_of_drop buf i v0 _ hdrop
  obtain ⟨hd2, hi2, _⟩ := drop_append_of_drop buf (i + 1) vs _ (by omega) hd1
  have a0 : after buf (whole buf) allTrue 0 ⟨p, i, i, t⟩ = some ⟨p, i, i, t⟩ := rfl
  have a1 := after_snoc buf allTrue _ _ _ _ a0 hl0
    (step_header_value_begin buf _ _ _ _ _ hs (by rw [hb0]; exact hv0) (Nat.zero_le _)
      (by omega))
  have a2 := after_trans buf _ _ _ _ _ _ _ a1
    (after_header_value buf hM vs _ _ _ _ (by rfl) hvs hd1 (by simp only; omega))
  try dsimp only at a2
  cases short with
  | true =>
    have hd0 : buf.drop (i + 1 + vs.length) = LF :: b1 :: rest := by rw [hd2]; rfl
    obtain ⟨hb3, hd4, hl3⟩ := getD_of_drop buf _ _ _ hd0
    obtain ⟨hb4, hd5, hl4⟩ := getD_of_drop buf _ _ _ hd4
    have a3 := after_snoc buf allTrue _ _ _ _ a2 hl3
      (step_header_value_lf buf _ _ _ _ _ (by rfl) hb3 (by omega))
    try dsimp only at a3
    have a4 := after_snoc buf allTrue _ _ _ _ a3 hl4
      (step_lws_sp_ht_begin_null buf _ _ _ _ _ (by rfl) (by rw [hb4]; exact h1)
        (by rw [hb4]; exact h2))
    try dsimp only at a4
    have a5 := after_cast _ _ _ _ (vs.length + (eol true).length + 2) _ _ _
      (i + (1 + vs.length + (eol true).length)) _ a4 (by simp [eol]; omega) (by simp [eol]; omega)
    exact ⟨_, a5, rfl, rfl, rfl, rfl, rfl, rfl⟩
  | false =>
    have hd0 : buf.drop (i + 1 + vs.length) = CR :: LF :: b1 :: rest := by rw [hd2]; rfl
    obtain ⟨hb3, hd4, hl3⟩ := getD_of_drop buf _ _ _ hd0
    obtain ⟨hb4, hd5, hl4⟩ := getD_of_drop buf _ _ _ hd4
    obtain ⟨hb5, hd6, hl5⟩ := getD_of_drop buf _ _ _ hd5
    have a3 := after_snoc buf allTrue _ _ _ _ a2 hl3
      (step_header_value_cr buf _ _ _ _ _ (by rfl) hb3 (by omega))
    try dsimp only at a3
    have a4 := after_snoc buf allTrue _ _ _ _ a3 hl4
      (step_lws_lf buf _ _ _ _ _ (by rfl) hb4 (by omega))
    try dsimp only at a4
    have a5 := after_snoc buf allTrue _ _ _ _ a4 hl5
      (step_lws_sp_ht_begin_null buf _ _ _ _ _ (by rfl) (by rw [hb5]; exact h1)
        (by rw [hb5]; exact h2))
    try dsimp only at a5
    have a6 := after_cast _ _ _ _ (vs.length + (eol false).length + 2) _ _ _
      (i + (1 + vs.length + (eol false).length)) _ a5 (by simp [eol]; omega)
      (by simp [eol]; omega)
    exact ⟨_, a6, rfl, rfl, rfl, rfl, rfl, rfl⟩

theorem bytes_of_size_zero (buf : List Nat) (r : BufferRef) (h : r.size = 0) :
    r.bytes buf = [] := by
  simp [BufferRef.bytes, h]

/-- The white space and the value of a header line, its terminator, and the byte after it:
from `LWS_BEGIN` after the colon to `HEADER_VALUE_END`. -/
theorem after_header_rest (buf : List Nat) (hM : buf.length < SIZE_MOD) (short : Bool)
    (ws value : List Nat) (b1 : Nat) (rest : List Nat) (p : HttpMessageProcessor) (i : Nat)
    (t : List Event)
    (hs : p.state = State.LWS_BEGIN) (hnext : p.lwsNext = State.HEADER_VALUE_BEGIN)
    (hnull : p.lwsNull = State.HEADER_VALUE_END) (hv : p.value.size = 0)
    (hws : ∀ b ∈ ws, b = SP ∨ b = HT)
    (hval : value = [] ∨ ∃ v0 vs, value = v0 :: vs ∧ isText v0 = true ∧ v0 ≠ SP ∧ v0 ≠ HT ∧
      (ws = [] → isprint v0 = true) ∧ ∀ b ∈ vs, isText b = true)
    (h1 : b1 ≠ SP) (h2 : b1 ≠ HT)
    (hdrop : buf.drop i = ws ++ (value ++ (eol short ++ b1 :: rest))) :
    ∃ n q, after buf (whole buf) allTrue n ⟨p, i, i, t⟩
        = some ⟨q, i + (ws.length + value.length + (eol short).length),
            i + (ws.length + value.length + (eol short).length), t⟩ ∧
      n ≤ ws.length + value.length + (eol short).length + 2 ∧
      q.state = State.HEADER_VALUE_END ∧ q.value.bytes buf = value ∧
      SameHeaderFields p q := by
  have a0 : after buf (whole buf) allTrue 0 ⟨p, i, i, t⟩ = some ⟨p, i, i, t⟩ := rfl
  cases ws with
  | nil =>
    rcases hval with rfl | ⟨v0, vs, rfl, hv0, hsp, hht, hpr, hvs⟩
    · obtain ⟨q, a, hq, hqv, hsame⟩ :=
        after_lws_begin_eol buf hM short b1 rest p i t hs hnull h1 h2 hdrop
      refine ⟨_, q, after_cast _ _ _ _ _ _ _ _ _ _ a rfl (by simp), by simp, hq, ?_, hsame⟩
      exact bytes_of_size_zero buf _ (by rw [hqv]; exact hv)
    · have hd0 : buf.drop i = v0 :: (vs ++ (eol short ++ b1 :: rest)) := by rw [hdrop]; rfl
      obtain ⟨hb0, hd1, hl0⟩ := getD_of_drop buf i v0 _ hd0
      obtain ⟨_, _, hbv⟩ := drop_append_of_drop buf i (v0 :: vs) (eol short ++ b1 :: rest)
        (by omega) hd0
      have a1 := after_snoc buf allTrue _ _ _ _ a0 hl0
        (step_lws_begin_print buf _ _ _ _ _ hs (by rw [hb0]; exact hpr rfl)
          (by rw [hb0]; exact hsp))
      rw [hnext] at a1
      obtain ⟨q, a, hq, hqv, hsame⟩ :=
        after_value_eol buf hM short v0 vs b1 rest
          { p with state := State.HEADER_VALUE_BEGIN, lwsNext := State.HEADER_VALUE_BEGIN } i t rfl hv0 hvs h1 h2 hd0
      have a2 := after_trans buf _ _ _ _ _ _ _ a1 a
      obtain ⟨e1, e2, e3, e4⟩ := hsame
      refine ⟨_, q, after_cast _ _ _ _ _ _ _ _ _ _ a2 rfl
        (by simp only [List.length_nil, List.length_cons]; omega),
        by simp only [List.length_nil, List.length_cons]; omega, hq, ?_, ⟨e1, e2, e3, e4⟩⟩
      rw [hqv, ← hbv]; simp only [List.length_cons]; rw [Nat.add_comm 1]
  | cons w0 wt =>
    have hd0 : buf.drop i = w0 :: (wt ++ (value ++ (eol short ++ b1 :: rest))) := by
      rw [hdrop]; rfl
    obtain ⟨hb0, hd1, hl0⟩ := getD_of_drop buf i w0 _ hd0
    obtain ⟨hd2, hi2, _⟩ := drop_append_of_drop buf (i + 1) wt _ (by omega) hd1
    have a1 := after_snoc buf allTrue _ _ _ _ a0 hl0
      (step_lws_begin_ws buf _ _ _ _ _ hs (by rw [hb0]; exact hws w0 (List.mem_cons_self _ _))
        (by omega))
    have a2 := after_trans buf _ _ _ _ _ _ _ a1
      (after_ws buf hM wt _ _ _ _ (by rfl) hv
        (fun b hb => hws b (List.mem_cons_of_mem _ hb)) hd1)
    rcases hval with rfl | ⟨v0, vs, rfl, hv0, hsp, hht, hpr, hvs⟩
    · have hd3 : buf.drop (i + 1 + wt.length) = eol short ++ b1 :: rest := by rw [hd2]; rfl
      have hx : buf.getD (i + 1 + wt.length) 0 ≠ SP ∧ buf.getD (i + 1 + wt.length) 0 ≠ HT ∧
          i + 1 + wt.length < buf.length := by
        cases short with
        | true =>
          have hd4 : buf.drop (i + 1 + wt.length) = LF :: b1 :: rest := by rw [hd3]; rfl
          obtain ⟨hb, _, hl⟩ := getD_of_drop buf _ _ _ hd4
          rw [hb]; exact ⟨by decide, by decide, hl⟩
        | false =>
          have hd4 : buf.drop (i + 1 + wt.length) = CR :: LF :: b1 :: rest := by rw [hd3]; rfl
          obtain ⟨hb, _, hl⟩ := getD_of_drop buf _ _ _ hd4
          rw [hb]; exact ⟨by decide, by decide, hl⟩
      have a3 := after_snoc buf allTrue _ _ _ _ a2 hx.2.2
        (step_lws_sp_ht_next buf _ _ _ _ _ (by rfl) hx.1 hx.2.1)
      try dsimp only at a3
      rw [hnext] at a3
      obtain ⟨q, a, hq, hqv, hsame⟩ :=
        after_value_begin_eol buf hM short (b1 :: rest)
          { p with state := State.HEADER_VALUE_BEGIN, lwsNext := State.HEADER_VALUE_BEGIN } (i + 1 + wt.length) t rfl hd3
      have a4 := after_trans buf _ _ _ _ _ _ _ a3 a
      obtain ⟨e1, e2, e3, e4⟩ := hsame
      refine ⟨_, q, after_cast _ _ _ _ _ _ _ _ _ _ a4 rfl
        (by simp only [List.length_nil, List.length_cons]; omega),
        by simp only [List.length_nil, List.length_cons]; omega, hq, ?_, ⟨e1, e2, e3, e4⟩⟩
      exact bytes_of_size_zero buf _ (by rw [hqv]; exact hv)
    · have hd3 : buf.drop (i + 1 + wt.length) = v0 :: (vs ++ (eol short ++ b1 :: rest)) := by
        rw [hd2]; rfl
      obtain ⟨hb3, _, hl3⟩ := getD_of_drop buf _ v0 _ hd3
      obtain ⟨_, _, hbv⟩ := drop_append_of_drop buf (i + 1 + wt.length) (v0 :: vs)
        (eol short ++ b1 :: rest) (by omega) hd3
      have a3 := after_snoc buf allTrue _ _ _ _ a2 hl3
        (step_lws_sp_ht_next buf _ _ _ _ _ (by rfl) (by rw [hb3]; exact hsp)
          (by rw [hb3]; exact hht))
      try dsimp only at a3
      rw [hnext] at a3
      obtain ⟨q, a, hq, hqv, hsame⟩ :=
        after_value_eol buf hM short v0 vs b1 rest
          { p with state := State.HEADER_VALUE_BEGIN, lwsNext := State.HEADER_VALUE_BEGIN } (i + 1 + wt.length) t rfl hv0 hvs
          h1 h2 hd3
      have a4 := after_trans buf _ _ _ _ _ _ _ a3 a
      obtain ⟨e1, e2, e3, e4⟩ := hsame
      refine ⟨_, q, after_cast _ _ _ _ _ _ _ _ _ _ a4 rfl
        (by simp only [List.length_nil, List.length_cons]; omega),
        by simp only [List.length_nil, List.length_cons]; omega, hq, ?_, ⟨e1, e2, e3, e4⟩⟩
      rw [hqv, ← hbv]; simp only [List.length_cons]; rw [Nat.add_comm 1]

theorem headerEffects_frame (buf : List Nat) (p : HttpMessageProcessor) (ws : List Nat) :
    (headerEffects buf p).mode = p.mode ∧
    ((headerEffects buf p).contentLength, (headerEffects buf p).chunked)
      = headerFrame (p.contentLength, p.chunked) ⟨p.name.bytes buf, ws, p.value.bytes buf⟩ := by
  unfold headerEffects headerFrame
  split_ifs <;> simp

/-- One header line, its terminator and the byte after it: the header is delivered, and the
parser is ready for the next line. -/
theorem after_header_line (buf : List Nat) (hM : buf.length < SIZE_MOD) (short : Bool)
    (h : HeaderLine) (hw : h.WellFormed) (b1 : Nat) (rest : List Nat)
    (p : HttpMessageProcessor) (i : Nat) (t : List Event) (f : Int × Bool)
    (hr : HeaderReady p f) (h1 : b1 ≠ SP) (h2 : b1 ≠ HT)
    (hdrop : buf.drop i
      = h.name ++ 58 :: (h.ws ++ (h.value ++ (eol short ++ b1 :: rest)))) :
    ∃ n q j, after buf (whole buf) allTrue n ⟨p, i, i, t⟩
        = some ⟨q, j, j, t ++ [Event.onMessageHeader h.name h.value]⟩ ∧
      buf.drop j = b1 :: rest ∧ i ≤ j ∧ n ≤ 2 * (j - i) ∧ HeaderReady q (headerFrame f h) := by
  obtain ⟨name, ws, value⟩ := h
  obtain ⟨hn0, hnt, hws, hval⟩ := hw
  dsimp only at hn0 hnt hws hval hdrop
  obtain ⟨n0, ns, rfl⟩ := List.exists_cons_of_ne_nil hn0
  obtain ⟨hst, hmode, hvz, hcl, hch⟩ := hr
  have hd0 : buf.drop i = n0 :: (ns ++ 58 :: (ws ++ (value ++ (eol short ++ b1 :: rest)))) := by
    rw [hdrop]; rfl
  obtain ⟨aA, hdA, hiA⟩ := after_header_name_colon buf hM n0 ns _ p i t hst hnt hd0
  obtain ⟨_, _, hbn⟩ := drop_append_of_drop buf i (n0 :: ns)
    (58 :: (ws ++ (value ++ (eol short ++ b1 :: rest)))) (by omega) hd0
  obtain ⟨n, q, aB, hnB, hq, hqv, e1, e2, e3, e4⟩ := after_header_rest buf hM short ws value b1
    rest { p with name := ⟨i, 1 + ns.length⟩, state := State.LWS_BEGIN, lwsNext := State.HEADER_VALUE_BEGIN, lwsNull := State.HEADER_VALUE_END }
    (i + (ns.length + 2)) t rfl rfl rfl hvz hws hval h1 h2 hdA
  have hdA1 : buf.drop (i + (ns.length + 2)) = (ws ++ (value ++ eol short)) ++ b1 :: rest := by
    rw [hdA]; simp
  obtain ⟨hdB, hiB, _⟩ := drop_append_of_drop buf _ _ _ hiA hdA1
  have hlen : (ws ++ (value ++ eol short)).length
      = ws.length + value.length + (eol short).length := by
    simp only [List.length_append]; omega
  rw [hlen] at hdB hiB
  obtain ⟨_, _, hlB⟩ := getD_of_drop buf _ _ _ hdB
  have a1 := after_trans buf _ _ _ _ _ _ _ aA aB
  have a2 := after_snoc buf allTrue _ _ _ _ a1 hlB
    (step_header_value_end_true buf _ q _ _ hq)
  have hname : q.name.bytes buf = n0 :: ns := by
    rw [e2, ← hbn]; simp only [List.length_cons]; rw [Nat.add_comm 1]
  rw [hname, hqv] at a2
  obtain ⟨f1, f2⟩ := headerEffects_frame buf q ws
  have hel := eol_length_pos short
  refine ⟨_, _, _, a2, hdB, by omega, by omega, rfl, ?_, rfl, ?_, ?_⟩
  · show (headerEffects buf q).mode = ParseMode.REQUEST
    rw [f1, e1]; exact hmode
  · show (headerEffects buf q).contentLength = _
    rw [hname, hqv, e3, e4] at f2
    have := congrArg Prod.fst f2
    simp only at this
    rw [this]
    have hf : f = (f.1, f.2) := rfl
    rw [hf]
    simp only [← hcl, ← hch]
  · show (headerEffects buf q).chunked = _
    rw [hname, hqv, e3, e4] at f2
    have := congrArg Prod.snd f2
    simp only at this
    rw [this]
    have hf : f = (f.1, f.2) := rfl
    rw [hf]
    simp only [← hcl, ← hch]

/-! ## A whole request head -/

/-- The request line with its terminator: `onMessageBegin` is delivered, and the parser is
ready for the first header line. -/
theorem after_request_line (buf : List Nat) (hM : buf.length < SIZE_MOD) (short : Bool)
    (method uri major minor rest : List Nat) (p : HttpMessageProcessor) (i : Nat)
    (t : List Event) (hw : WellFormedRequestLine method uri major minor)
    (hs : p.state = State.MESSAGE_BEGIN) (hm : p.mode = ParseMode.REQUEST)
    (hv : p.value.size = 0)
    (hdrop : buf.drop i = requestLine method uri major minor ++ (eol short ++ rest)) :
    ∃ n q j, after buf (whole buf) allTrue n ⟨p, i, i, t⟩
        = some ⟨q, j, j,
            t ++ [Event.onMessageBeginRequest method uri (digitsValue 0 major) (digitsValue 0 minor)]⟩ ∧
      buf.drop j = rest ∧ i ≤ j ∧ j ≤ buf.length ∧ n ≤ 2 * (j - i) ∧
      HeaderReady q (-1, p.chunked) := by
  obtain ⟨q, a, hd, hq, hqm, hqe, hmaj, hmin, hqv, hqmode, hqch, hqcl⟩ :=
    after_request_line_body buf hM method uri major minor (eol short ++ rest) p i t hw hs hm hdrop
  cases short with
  | true =>
    have hd0 : buf.drop (i + (requestLine method uri major minor).length) = LF :: rest := by
      rw [hd]; rfl
    obtain ⟨hb0, hd1, hl0⟩ := getD_of_drop buf _ _ _ hd0
    have a1 := after_snoc buf allTrue _ _ _ _ a hl0
      (step_request_line_end buf _ q _ _ (Or.inr hq) hb0 (by omega))
    rw [hqm, hqe, hmaj, hmin] at a1
    refine ⟨_, _, _, a1, hd1, by omega, by omega, by omega, rfl, ?_, ?_, hqcl, hqch⟩
    · show q.mode = ParseMode.REQUEST
      rw [hqmode]; exact hm
    · show q.value.size = 0
      rw [hqv]; exact hv
  | false =>
    have hd0 : buf.drop (i + (requestLine method uri major minor).length)
        = CR :: LF :: rest := by
      rw [hd]; rfl
    obtain ⟨hb0, hd1, hl0⟩ := getD_of_drop buf _ _ _ hd0
    obtain ⟨hb1, hd2, hl1⟩ := getD_of_drop buf _ _ _ hd1
    have a1 := after_snoc buf allTrue _ _ _ _ a hl0
      (step_version_minor_cr buf _ _ q _ _ hq hb0 (by omega))
    have a2 := after_snoc buf allTrue _ _ _ _ a1 hl1
      (step_request_line_end buf _ _ _ _ (Or.inl (by rfl)) hb1 (by omega))
    dsimp only at a2
    rw [hqm, hqe, hmaj, hmin] at a2
    refine ⟨_, _, _, a2, hd2, by omega, by omega, by omega, rfl, ?_, ?_, hqcl, hqch⟩
    · show q.mode = ParseMode.REQUEST
      rw [hqmode]; exact hm
    · show q.value.size = 0
      rw [hqv]; exact hv

/-- The empty line that ends the head of a request without a body. -/
theorem after_empty_line (buf : List Nat) (hM : buf.length < SIZE_MOD) (short : Bool)
    (rest : List Nat) (p : HttpMessageProcessor) (i : Nat) (t : List Event) (f : Int × Bool)
    (hr : HeaderReady p f) (hcl : ¬ f.1 > 0) (hch : f.2 = false)
    (hdrop : buf.drop i = eol short ++ rest) :
    ∃ q, after buf (whole buf) allTrue 2 ⟨p, i, i, t⟩
        = some ⟨q, i + (eol short).length, i + (eol short).length,
            t ++ [Event.onMessageHeaderEnd, Event.onMessageEnd]⟩ ∧
      buf.drop (i + (eol short).length) = rest ∧ i + (eol short).length ≤ buf.length ∧
      q.state = State.MESSAGE_BEGIN := by
  obtain ⟨hst, hmode, hvz, hpcl, hpch⟩ := hr
  have a0 : after buf (whole buf) allTrue 0 ⟨p, i, i, t⟩ = some ⟨p, i, i, t⟩ := rfl
  cases short with
  | true =>
    have hd0 : buf.drop i = LF :: rest := by rw [hdrop]; rfl
    obtain ⟨hb0, hd1, hl0⟩ := getD_of_drop buf _ _ _ hd0
    have a1 := after_snoc buf allTrue _ _ _ _ a0 hl0
      (step_header_name_begin_lf buf _ _ _ _ _ hst hb0)
    have a2 := after_snoc buf allTrue _ _ _ _ a1 hl0
      (step_header_end_lf_bodyless buf _ _ _ _ (by rfl) hb0 (by rw [hpcl]; exact hcl)
        (by rw [hpch]; exact hch) hmode (by omega))
    exact ⟨_, a2, hd1, by simp only [eol, if_true, List.length_singleton]; omega, rfl⟩
  | false =>
    have hd0 : buf.drop i = CR :: LF :: rest := by rw [hdrop]; rfl
    obtain ⟨hb0, hd1, hl0⟩ := getD_of_drop buf _ _ _ hd0
    obtain ⟨hb1, hd2, hl1⟩ := getD_of_drop buf _ _ _ hd1
    have a1 := after_snoc buf allTrue _ _ _ _ a0 hl0
      (step_header_name_begin_cr buf _ _ _ _ _ hst hb0 (by omega))
    have a2 := after_snoc buf allTrue _ _ _ _ a1 hl1
      (step_header_end_lf_bodyless buf _ _ _ _ (by rfl) hb1 (by rw [hpcl]; exact hcl)
        (by rw [hpch]; exact hch) hmode (by omega))
    exact ⟨_, a2, hd2, by simp [eol]; omega, rfl⟩

/-- The header lines of a well-formed head start with a byte that is neither SP nor HT. -/
theorem headerLines_first (short : Bool) (hs : List HeaderLine)
    (hw : ∀ h ∈ hs, h.WellFormed) :
    ∃ b1 r, headerLines short hs = b1 :: r ∧ b1 ≠ SP ∧ b1 ≠ HT := by
  cases hs with
  | nil =>
    cases short
    · exact ⟨CR, [LF], rfl, by decide, by decide⟩
    · exact ⟨LF, [], rfl, by decide, by decide⟩
  | cons h hs =>
    obtain ⟨hn0, hnt, _, _⟩ := hw h (List.mem_cons_self _ _)
    obtain ⟨n0, ns, hname⟩ := List.exists_cons_of_ne_nil hn0
    have htok := hnt n0 (by rw [hname]; exact List.mem_cons_self _ _)
    refine ⟨n0, ns ++ 58 :: (h.ws ++ (h.value ++ (eol short ++ headerLines short hs))), ?_, ?_, ?_⟩
    · simp only [headerLines, hname, List.cons_append]
    · intro hx; subst hx; revert htok; decide
    · intro hx; subst hx; revert htok; decide

/-- The header lines and the empty line of a request without a body. -/
theorem after_header_lines (buf : List Nat) (hM : buf.length < SIZE_MOD) (short : Bool)
    (rest : List Nat) :
    ∀ (hs : List HeaderLine) (p : HttpMessageProcessor) (i : Nat) (t : List Event)
      (f : Int × Bool), (∀ h ∈ hs, h.WellFormed) → HeaderReady p f →
      ¬ (hs.foldl headerFrame f).1 > 0 → (hs.foldl headerFrame f).2 = false →
      buf.drop i = headerLines short hs ++ rest →
      ∃ n q j, after buf (whole buf) allTrue n ⟨p, i, i, t⟩
          = some ⟨q, j, j, t ++ (hs.map (fun h => Event.onMessageHeader h.name h.value) ++
              [Event.onMessageHeaderEnd, Event.onMessageEnd])⟩ ∧
        buf.drop j = rest ∧ i ≤ j ∧ j ≤ buf.length ∧ n ≤ 2 * (j - i) ∧
        q.state = State.MESSAGE_BEGIN := by
  intro hs
  induction hs with
  | nil =>
    intro p i t f _ hr hcl hch hdrop
    obtain ⟨q, a, hd, hi, hq⟩ := after_empty_line buf hM short rest p i t f hr hcl hch hdrop
    have hel := eol_length_pos short
    exact ⟨2, q, _, a, hd, by omega, hi, by omega, hq⟩
  | cons h hs ih =>
    intro p i t f hw hr hcl hch hdrop
    have hws : ∀ x ∈ hs, x.WellFormed := fun x hx => hw x (List.mem_cons_of_mem _ hx)
    obtain ⟨b1, r, hfirst, h1, h2⟩ := headerLines_first short hs hws
    have hd0 : buf.drop i
        = h.name ++ 58 :: (h.ws ++ (h.value ++ (eol short ++ b1 :: (r ++ rest)))) := by
      rw [hdrop]; simp only [headerLines, hfirst, List.append_assoc, List.cons_append]
    obtain ⟨n1, q1, j1, a1, hd1, hij1, hn1, hr1⟩ :=
      after_header_line buf hM short h (hw h (List.mem_cons_self _ _)) b1 (r ++ rest) p i t f hr
        h1 h2 hd0
    have hd1a : buf.drop j1 = headerLines short hs ++ rest := by
      rw [hd1, hfirst]; rfl
    obtain ⟨n2, q2, j2, a2, hd2, hij2, hj2, hn2, hq2⟩ :=
      ih q1 j1 (t ++ [Event.onMessageHeader h.name h.value]) (headerFrame f h) hws hr1 hcl hch hd1a
    have a := after_trans buf _ _ _ _ _ _ _ a1 a2
    refine ⟨n1 + n2, q2, j2, ?_, hd2, by omega, hj2, by omega, hq2⟩
    rw [a]
    simp only [List.map_cons, List.append_assoc, List.cons_append, List.nil_append]

/-- A call of `process` on a fresh REQUEST parser over a well-formed head without a body, in
either form of the line terminator: the call returns at the end of the head with the
callbacks of the message. -/
theorem process_request_head (short : Bool) (method uri major minor : List Nat)
    (hs : List HeaderLine) (hrl : WellFormedRequestLine method uri major minor)
    (hh : ∀ h ∈ hs, h.WellFormed) (hb : Bodyless hs)
    (hM : (requestHead short method uri major minor hs).length < SIZE_MOD)
    (fuel : Nat) (hf : 2 * (requestHead short method uri major minor hs).length < fuel) :
    ∃ r, process fuel (HttpMessageProcessor.new ParseMode.REQUEST)
          (requestHead short method uri major minor hs)
          (whole (requestHead short method uri major minor hs)) none allTrue = some r ∧
      r.trace = headTrace method uri major minor hs ∧
      r.parser.state = State.MESSAGE_BEGIN ∧ r.exit = Exit.chunkEnd ∧
      r.ret = (requestHead short method uri major minor hs).length := by
  generalize hbuf : requestHead short method uri major minor hs = buf at hM hf ⊢
  have hd : buf.drop 0
      = requestLine method uri major minor ++ (eol short ++ (headerLines short hs ++ [])) := by
    rw [← hbuf]; simp [requestHead]
  obtain ⟨n1, q1, j1, a1, hd1, _, _, hn1, hr1⟩ :=
    after_request_line buf hM short method uri major minor (headerLines short hs ++ [])
      (HttpMessageProcessor.new ParseMode.REQUEST) 0 [] hrl rfl rfl rfl hd
  obtain ⟨n2, q2, j2, a2, hd2, hij, hj2, hn2, hq2⟩ :=
    after_header_lines buf hM short [] hs q1 j1 _ (-1, false) hh hr1 hb.1 hb.2 hd1
  have hlen : buf.length ≤ j2 := List.drop_eq_nil_iff.mp hd2
  have hj : j2 = buf.length := by omega
  subst hj
  have a := after_trans buf _ _ _ _ _ _ _ a1 a2
  have hloop := after_loop buf (whole buf) allTrue _ _ _ 1 a
  rw [loop_end buf (whole buf) allTrue 0 _ (by simp [whole])] at hloop
  have hp := process_of_loop_end (n1 + n2 + 1) (HttpMessageProcessor.new ParseMode.REQUEST) buf
    (whole buf) none allTrue _ hloop
  have hp1 := process_mono _ fuel _ _ _ _ _ _ (by omega) hp
  refine ⟨_, hp1, ?_, ?_, ?_, ?_⟩
  · simp [finish, tail, hq2, headTrace]
  · simp [finish, tail, hq2]
  · simp [finish, tail, hq2]
  · simp only [finish, tail, hq2, whole]
    simp only [reduceCtorEq, if_false]
    exact szSub_small _ _ (Nat.zero_le _) hM

theorem headerLines_length_le (hs : List HeaderLine) :
    (headerLines true hs).length ≤ (headerLines false hs).length := by
  induction hs with
  | nil => simp [headerLines, eol]
  | cons h hs ih =>
    simp only [headerLines, eol, List.length_append, List.length_cons, if_true,
      Bool.false_eq_true, if_false, List.length_nil]
    omega

theorem requestHead_length_le (method uri major minor : List Nat) (hs : List HeaderLine) :
    (requestHead true method uri major minor hs).length
      ≤ (requestHead false method uri major minor hs).length := by
  have := headerLines_length_le hs
  simp only [requestHead, eol, List.length_append, List.length_cons, if_true,
    Bool.false_eq_true, if_false, List.length_nil]
  omega

/-! ## Single passes and runs in the status-line states -/

theorem step_message_begin_response (buf : List Nat) (X : BufferRef) (cb : Hooks)
    (p : HttpMessageProcessor) (i n : Nat) (t : List Event)
    (hs : p.state = State.MESSAGE_BEGIN) (hm : p.mode = ParseMode.RESPONSE) :
    step buf X cb ⟨p, i, n, t⟩
      = Step.next ⟨{ p with contentLength := -1, state := State.STATUS_LINE_BEGIN, code := 0 }, i, n, t⟩ := by
  simp only [step, hs, hm]

/-- The five literal bytes `HTTP/` of the status line, one pass each. -/
theorem step_status_protocol (buf : List Nat) (X : BufferRef) (cb : Hooks)
    (p : HttpMessageProcessor) (i : Nat) (t : List Event) (s s1 : State) (lit : Nat)
    (hlit : (s, lit, s1) ∈
      [(State.STATUS_LINE_BEGIN, 72, State.STATUS_PROTOCOL_T1),
       (State.STATUS_PROTOCOL_T1, 84, State.STATUS_PROTOCOL_T2),
       (State.STATUS_PROTOCOL_T2, 84, State.STATUS_PROTOCOL_P),
       (State.STATUS_PROTOCOL_P, 80, State.STATUS_PROTOCOL_SLASH),
       (State.STATUS_PROTOCOL_SLASH, 47, State.STATUS_PROTOCOL_VERSION_MAJOR)])
    (hs : p.state = s) (hb : buf.getD i 0 = lit) (hi : i + 1 < SIZE_MOD) :
    step buf X cb ⟨p, i, i, t⟩ = Step.next ⟨{ p with state := s1 }, i + 1, i + 1, t⟩ := by
  have e1 := szAdd_small i 1 hi
  simp only [List.mem_cons, Prod.mk.injEq, List.mem_singleton, List.not_mem_nil, or_false] at hlit
  rcases hlit with ⟨rfl, rfl, rfl⟩ | ⟨rfl, rfl, rfl⟩ | ⟨rfl, rfl, rfl⟩ | ⟨rfl, rfl, rfl⟩ |
      ⟨rfl, rfl, rfl⟩ <;>
    · simp only [step, hs]
      generalize buf.getD i 0 = b at hb
      subst hb
      simp [expectByte, Cfg.eat, Cfg.advance, Cfg.setState, e1]

theorem step_status_version_major (buf : List Nat) (X : BufferRef) (cb : Hooks)
    (p : HttpMessageProcessor) (i : Nat) (t : List Event)
    (hs : p.state = State.STATUS_PROTOCOL_VERSION_MAJOR) (hb : isdigit (buf.getD i 0) = true)
    (hi : i + 1 < SIZE_MOD) :
    step buf X cb ⟨p, i, i, t⟩
      = Step.next ⟨{ p with versionMajor := p.versionMajor * 10 + ((buf.getD i 0 : Nat) : Int) - 48 }, i + 1, i + 1, t⟩ := by
  have e1 := szAdd_small i 1 hi
  simp only [step, hs]
  generalize buf.getD i 0 = b at hb
  have h46 : b ≠ 46 := by
    intro h; subst h; revert hb; decide
  simp [hb, h46, Cfg.advance, e1]

theorem step_status_version_major_dot (buf : List Nat) (X : BufferRef) (cb : Hooks)
    (p : HttpMessageProcessor) (i : Nat) (t : List Event)
    (hs : p.state = State.STATUS_PROTOCOL_VERSION_MAJOR) (hb : buf.getD i 0 = 46)
    (hi : i + 1 < SIZE_MOD) :
    step buf X cb ⟨p, i, i, t⟩
      = Step.next ⟨{ p with state := State.STATUS_PROTOCOL_VERSION_MINOR }, i + 1, i + 1, t⟩ := by
  have e1 := szAdd_small i 1 hi
  simp only [step, hs]
  generalize buf.getD i 0 = b at hb
  subst hb
  simp [Cfg.eat, Cfg.advance, Cfg.setState, e1]

theorem step_status_version_minor (buf : List Nat) (X : BufferRef) (cb : Hooks)
    (p : HttpMessageProcessor) (i : Nat) (t : List Event)
    (hs : p.state = State.STATUS_PROTOCOL_VERSION_MINOR) (hb : isdigit (buf.getD i 0) = true)
    (hi : i + 1 < SIZE_MOD) :
    step buf X cb ⟨p, i, i, t⟩
      = Step.next ⟨{ p with versionMinor := p.versionMinor * 10 + ((buf.getD i 0 : Nat) : Int) - 48 }, i + 1, i + 1, t⟩ := by
  have e1 := szAdd_small i 1 hi
  simp only [step, hs]
  generalize buf.getD i 0 = b at hb
  have hsp : b ≠ SP := by
    intro h; subst h; revert hb; decide
  simp [hb, hsp, Cfg.advance, e1]

theorem step_status_version_minor_sp (buf : List Nat) (X : BufferRef) (cb : Hooks)
    (p : HttpMessageProcessor) (i : Nat) (t : List Event)
    (hs : p.state = State.STATUS_PROTOCOL_VERSION_MINOR) (hb : buf.getD i 0 = SP)
    (hi : i + 1 < SIZE_MOD) :
    step buf X cb ⟨p, i, i, t⟩
      = Step.next ⟨{ p with state := State.STATUS_CODE_BEGIN }, i + 1, i + 1, t⟩ := by
  have e1 := szAdd_small i 1 hi
  simp only [step, hs]
  generalize buf.getD i 0 = b at hb
  subst hb
  simp [Cfg.eat, Cfg.advance, Cfg.setState, e1]

/-- The first digit of the status code, read in `STATUS_CODE_BEGIN` (which falls through to
`STATUS_CODE`). -/
theorem step_status_code_begin (buf : List Nat) (X : BufferRef) (cb : Hooks)
    (p : HttpMessageProcessor) (i : Nat) (t : List Event)
    (hs : p.state = State.STATUS_CODE_BEGIN) (hb : isdigit (buf.getD i 0) = true)
    (hi : i + 1 < SIZE_MOD) :
    step buf X cb ⟨p, i, i, t⟩
      = Step.next ⟨{ p with state := State.STATUS_CODE, code := p.code * 10 + ((buf.getD i 0 : Nat) : Int) - 48 }, i + 1, i + 1, t⟩ := by
  have e1 := szAdd_small i 1 hi
  simp only [step, hs]
  generalize buf.getD i 0 = b at hb
  simp [hb, hs, statusCode, Cfg.setState, Cfg.advance, e1]

/-- A digit of the status code in `STATUS_CODE`: it is accumulated, however many digits were
read before. -/
theorem step_status_code (buf : List Nat) (X : BufferRef) (cb : Hooks)
    (p : HttpMessageProcessor) (i : Nat) (t : List Event)
    (hs : p.state = State.STATUS_CODE) (hb : isdigit (buf.getD i 0) = true)
    (hi : i + 1 < SIZE_MOD) :
    step buf X cb ⟨p, i, i, t⟩
      = Step.next ⟨{ p with code := p.code * 10 + ((buf.getD i 0 : Nat) : Int) - 48 }, i + 1, i + 1, t⟩ := by
  have e1 := szAdd_small i 1 hi
  simp only [step, hs]
  generalize buf.getD i 0 = b at hb
  simp [hb, hs, statusCode, Cfg.advance, e1]

theorem step_status_code_sp (buf : List Nat) (X : BufferRef) (cb : Hooks)
    (p : HttpMessageProcessor) (i : Nat) (t : List Event)
    (hs : p.state = State.STATUS_CODE) (hb : buf.getD i 0 = SP) (hi : i + 1 < SIZE_MOD) :
    step buf X cb ⟨p, i, i, t⟩
      = Step.next ⟨{ p with state := State.STATUS_MESSAGE_BEGIN }, i + 1, i + 1, t⟩ := by
  have e1 := szAdd_small i 1 hi
  simp only [step, hs]
  generalize buf.getD i 0 = b at hb
  subst hb
  simp [statusCode, Cfg.eat, Cfg.advance, Cfg.setState, e1, isdigit, SP]

theorem step_status_code_cr (buf : List Nat) (X : BufferRef) (cb : Hooks)
    (p : HttpMessageProcessor) (i : Nat) (t : List Event)
    (hs : p.state = State.STATUS_CODE) (hb : buf.getD i 0 = CR) (hi : i + 1 < SIZE_MOD) :
    step buf X cb ⟨p, i, i, t⟩
      = Step.next ⟨{ p with state := State.STATUS_MESSAGE_LF }, i + 1, i + 1, t⟩ := by
  have e1 := szAdd_small i 1 hi
  simp only [step, hs]
  generalize buf.getD i 0 = b at hb
  subst hb
  simp [statusCode, Cfg.eat, Cfg.advance, Cfg.setState, e1, isdigit, SP, CR]

theorem step_status_message_begin (buf : List Nat) (X : BufferRef) (cb : Hooks)
    (p : HttpMessageProcessor) (i : Nat) (t : List Event)
    (hs : p.state = State.STATUS_MESSAGE_BEGIN) (hb : isText (buf.getD i 0) = true)
    (ha : X.offset ≤ i) (hi : i + 1 < SIZE_MOD) :
    step buf X cb ⟨p, i, i, t⟩
      = Step.next ⟨{ p with state := State.STATUS_MESSAGE, message := ⟨i, 1⟩ }, i + 1, i + 1, t⟩ := by
  have e1 := szAdd_small i 1 hi
  have e2 := refHere_eq X ⟨p, i, i, t⟩ rfl ha (by simp only; omega)
  simp only [step, hs]
  generalize buf.getD i 0 = b at hb
  simp [hb, Cfg.advance, e1, e2]

theorem step_status_message (buf : List Nat) (X : BufferRef) (cb : Hooks)
    (p : HttpMessageProcessor) (i : Nat) (t : List Event)
    (hs : p.state = State.STATUS_MESSAGE) (hb : isText (buf.getD i 0) = true)
    (hi : i + 1 < SIZE_MOD) :
    step buf X cb ⟨p, i, i, t⟩
      = Step.next ⟨{ p with message := p.message.shr 1 }, i + 1, i + 1, t⟩ := by
  have e1 := szAdd_small i 1 hi
  simp only [step, hs]
  generalize buf.getD i 0 = b at hb
  have hcr : b ≠ CR := by
    intro h; subst h; revert hb; decide
  have hlf : b ≠ LF := by
    intro h; subst h; revert hb; decide
  simp [hb, hcr, hlf, Cfg.advance, e1]

theorem step_status_message_cr (buf : List Nat) (X : BufferRef) (cb : Hooks)
    (p : HttpMessageProcessor) (i : Nat) (t : List Event)
    (hs : p.state = State.STATUS_MESSAGE) (hb : buf.getD i 0 = CR) (hi : i + 1 < SIZE_MOD) :
    step buf X cb ⟨p, i, i, t⟩
      = Step.next ⟨{ p with state := State.STATUS_MESSAGE_LF }, i + 1, i + 1, t⟩ := by
  have e1 := szAdd_small i 1 hi
  simp only [step, hs]
  generalize buf.getD i 0 = b at hb
  subst hb
  simp [Cfg.eat, Cfg.advance, Cfg.setState, e1, isText, isControl, CR, SP, HT]

/-- The LF that ends the status line: `onMessageBegin` is invoked. -/
theorem step_status_message_lf (buf : List Nat) (X : BufferRef)
    (p : HttpMessageProcessor) (i : Nat) (t : List Event)
    (hs : p.state = State.STATUS_MESSAGE_LF) (hb : buf.getD i 0 = LF) (hi : i + 1 < SIZE_MOD) :
    step buf X allTrue ⟨p, i, i, t⟩
      = Step.next ⟨{ p with state := State.HEADER_NAME_BEGIN }, i + 1, i + 1,
          t ++ [Event.onMessageBeginResponse p.versionMajor p.versionMinor p.code
            (p.message.bytes buf)]⟩ := by
  have e1 := szAdd_small i 1 hi
  simp only [step, hs]
  generalize buf.getD i 0 = b at hb
  subst hb
  simp [callHook, allTrue, Cfg.eat, Cfg.advance, Cfg.setState, e1]

theorem after_status_version_major (buf : List Nat) (hM : buf.length < SIZE_MOD) :
    ∀ (ds : List Nat) (p : HttpMessageProcessor) (i : Nat) (t : List Event) (rest : List Nat),
      p.state = State.STATUS_PROTOCOL_VERSION_MAJOR → (∀ b ∈ ds, isdigit b = true) →
      buf.drop i = ds ++ rest →
      after buf (whole buf) allTrue ds.length ⟨p, i, i, t⟩
        = some ⟨{ p with versionMajor := digitsValue p.versionMajor ds },
            i + ds.length, i + ds.length, t⟩ := by
  intro ds
  induction ds with
  | nil =>
    intro p i t rest _ _ _
    simp only [after, List.length_nil, Nat.add_zero, digitsValue]
  | cons b ds ih =>
    intro p i t rest hs hb hdrop
    obtain ⟨hgd, hdrop1, hlt⟩ := getD_of_drop buf i b (ds ++ rest) hdrop
    have hb0 := hb b (List.mem_cons_self _ _)
    have hst := step_status_version_major buf (whole buf) allTrue p i t hs
      (by rw [hgd]; exact hb0) (by omega)
    rw [hgd] at hst
    have := ih { p with versionMajor := p.versionMajor * 10 + (b : Int) - 48 } (i + 1) t rest hs
      (fun x hx => hb x (List.mem_cons_of_mem _ hx)) hdrop1
    have h2 := after_succ buf allTrue ds.length _ _ _ hlt hst this
    simp only [List.length_cons]
    rw [h2]
    simp only [digitsValue, hb0, if_true, add_sub_assoc, Nat.add_assoc, Nat.add_comm 1]

theorem after_status_version_minor (buf : List Nat) (hM : buf.length < SIZE_MOD) :
    ∀ (ds : List Nat) (p : HttpMessageProcessor) (i : Nat) (t : List Event) (rest : List Nat),
      p.state = State.STATUS_PROTOCOL_VERSION_MINOR → (∀ b ∈ ds, isdigit b = true) →
      buf.drop i = ds ++ rest →
      after buf (whole buf) allTrue ds.length ⟨p, i, i, t⟩
        = some ⟨{ p with versionMinor := digitsValue p.versionMinor ds },
            i + ds.length, i + ds.length, t⟩ := by
  intro ds
  induction ds with
  | nil =>
    intro p i t rest _ _ _
    simp only [after, List.length_nil, Nat.add_zero, digitsValue]
  | cons b ds ih =>
    intro p i t rest hs hb hdrop
    obtain ⟨hgd, hdrop1, hlt⟩ := getD_of_drop buf i b (ds ++ rest) hdrop
    have hb0 := hb b (List.mem_cons_self _ _)
    have hst := step_status_version_minor buf (whole buf) allTrue p i t hs
      (by rw [hgd]; exact hb0) (by omega)
    rw [hgd] at hst
    have := ih { p with versionMinor := p.versionMinor * 10 + (b : Int) - 48 } (i + 1) t rest hs
      (fun x hx => hb x (List.mem_cons_of_mem _ hx)) hdrop1
    have h2 := after_succ buf allTrue ds.length _ _ _ hlt hst this
    simp only [List.length_cons]
    rw [h2]
    simp only [digitsValue, hb0, if_true, add_sub_assoc, Nat.add_assoc, Nat.add_comm 1]

/-- The digits of the status code after the first: any number of them is accepted. -/
theorem after_status_code (buf : List Nat) (hM : buf.length < SIZE_MOD) :
    ∀ (ds : List Nat) (p : HttpMessageProcessor) (i : Nat) (t : List Event) (rest : List Nat),
      p.state = State.STATUS_CODE → (∀ b ∈ ds, isdigit b = true) →
      buf.drop i = ds ++ rest →
      after buf (whole buf) allTrue ds.length ⟨p, i, i, t⟩
        = some ⟨{ p with code := digitsValue p.code ds }, i + ds.length, i + ds.length, t⟩ := by
  intro ds
  induction ds with
  | nil =>
    intro p i t rest _ _ _
    simp only [after, List.length_nil, Nat.add_zero, digitsValue]
  | cons b ds ih =>
    intro p i t rest hs hb hdrop
    obtain ⟨hgd, hdrop1, hlt⟩ := getD_of_drop buf i b (ds ++ rest) hdrop
    have hb0 := hb b (List.mem_cons_self _ _)
    have hst := step_status_code buf (whole buf) allTrue p i t hs
      (by rw [hgd]; exact hb0) (by omega)
    rw [hgd] at hst
    have := ih { p with code := p.code * 10 + (b : Int) - 48 } (i + 1) t rest hs
      (fun x hx => hb x (List.mem_cons_of_mem _ hx)) hdrop1
    have h2 := after_succ buf allTrue ds.length _ _ _ hlt hst this
    simp only [List.length_cons]
    rw [h2]
    simp only [digitsValue, hb0, if_true, add_sub_assoc, Nat.add_assoc, Nat.add_comm 1]

theorem after_status_message (buf : List Nat) (hM : buf.length < SIZE_MOD) :
    ∀ (bs : List Nat) (p : HttpMessageProcessor) (i : Nat) (t : List Event) (rest : List Nat),
      p.state = State.STATUS_MESSAGE → (∀ b ∈ bs, isText b = true) →
      buf.drop i = bs ++ rest → p.message.size + bs.length < SIZE_MOD →
      after buf (whole buf) allTrue bs.length ⟨p, i, i, t⟩
        = some ⟨{ p with message := ⟨p.message.offset, p.message.size + bs.length⟩ },
            i + bs.length, i + bs.length, t⟩ := by
  intro bs
  induction bs with
  | nil =>
    intro p i t rest _ _ _ _
    simp only [after, List.length_nil, Nat.add_zero]
  | cons b bs ih =>
    intro p i t rest hs hb hdrop hsz
    obtain ⟨hgd, hdrop1, hlt⟩ := getD_of_drop buf i b (bs ++ rest) hdrop
    have hst := step_status_message buf (whole buf) allTrue p i t hs
      (by rw [hgd]; exact hb b (List.mem_cons_self _ _)) (by omega)
    simp only [List.length_cons] at hsz
    have := ih { p with message := p.message.shr 1 } (i + 1) t rest hs
      (fun x hx => hb x (List.mem_cons_of_mem _ hx)) hdrop1
      (by simp only [BufferRef.shr, szAdd_small _ _ (show p.message.size + 1 < SIZE_MOD by omega)]
          omega)
    have h2 := after_succ buf allTrue bs.length _ _ _ hlt hst this
    simp only [List.length_cons]
    rw [h2]
    simp only [BufferRef.shr, szAdd_small _ _ (show p.message.size + 1 < SIZE_MOD by omega),
      Nat.add_assoc, Nat.add_comm 1]

/-- A pass in `STATUS_CODE_BEGIN` at a byte that is not a digit assigns the value of the
enumerator `SYNTAX_ERROR` to `code_` and changes nothing else. -/
theorem step_status_code_begin_bad (buf : List Nat) (X : BufferRef) (cb : Hooks) (c : Cfg)
    (hs : c.p.state = State.STATUS_CODE_BEGIN) (hb : isdigit (buf.getD c.i 0) = false) :
    step buf X cb c = Step.next { c with p := { c.p with code := SYNTAX_ERROR_value } } := by
  simp only [step, hs, hb, Bool.not_false, if_true]

/-- The loop never leaves `STATUS_CODE_BEGIN` at a byte that is not a digit. -/
theorem status_code_begin_stuck (buf : List Nat) (X : BufferRef) (cb : Hooks) :
    ∀ (f : Nat) (c : Cfg), c.p.state = State.STATUS_CODE_BEGIN →
      isdigit (buf.getD c.i 0) = false → c.i ≠ X.offset + X.size →
      loop buf X cb f c = none := by
  intro f
  induction f with
  | zero => intro c _ _ _; rfl
  | succ f ih =>
    intro c hs hb hi
    simp only [loop, if_neg hi, step_status_code_begin_bad buf X cb c hs hb]
    exact ih _ hs hb hi

/-! ## A whole status line -/

/-- The passes over `HTTP/major.minor SP code`, for a status code of one or more digits. -/
theorem after_status_line_code (buf : List Nat) (hM : buf.length < SIZE_MOD)
    (major minor : List Nat) (c0 : Nat) (cs rest : List Nat) (p : HttpMessageProcessor)
    (i : Nat) (t : List Event)
    (hmaj : ∀ b ∈ major, isdigit b = true) (hmin : ∀ b ∈ minor, isdigit b = true)
    (hcode : ∀ b ∈ c0 :: cs, isdigit b = true)
    (hs : p.state = State.MESSAGE_BEGIN) (hm : p.mode = ParseMode.RESPONSE)
    (hdrop : buf.drop i
      = 72 :: 84 :: 84 :: 80 :: 47 :: (major ++ 46 :: (minor ++ SP :: c0 :: (cs ++ rest)))) :
    after buf (whole buf) allTrue (major.length + minor.length + cs.length + 9) ⟨p, i, i, t⟩
      = some ⟨{ p with contentLength := -1, state := State.STATUS_CODE, code := digitsValue 0 (c0 :: cs), versionMajor := digitsValue p.versionMajor major, versionMinor := digitsValue p.versionMinor minor },
          i + (major.length + minor.length + cs.length + 8),
          i + (major.length + minor.length + cs.length + 8), t⟩ ∧
      buf.drop (i + (major.length + minor.length + cs.length + 8)) = rest ∧
      i + (major.length + minor.length + cs.length + 8) ≤ buf.length := by
  obtain ⟨hb1, hd1, hl1⟩ := getD_of_drop buf i _ _ hdrop
  obtain ⟨hb2, hd2, hl2⟩ := getD_of_drop buf _ _ _ hd1
  obtain ⟨hb3, hd3, hl3⟩ := getD_of_drop buf _ _ _ hd2
  obtain ⟨hb4, hd4, hl4⟩ := getD_of_drop buf _ _ _ hd3
  obtain ⟨hb5, hd5, hl5⟩ := getD_of_drop buf _ _ _ hd4
  obtain ⟨hd6, hi6, _⟩ := drop_append_of_drop buf _ major _ (by omega) hd5
  obtain ⟨hb7, hd7, hl7⟩ := getD_of_drop buf _ _ _ hd6
  obtain ⟨hd8, hi8, _⟩ := drop_append_of_drop buf _ minor _ (by omega) hd7
  obtain ⟨hb9, hd9, hl9⟩ := getD_of_drop buf _ _ _ hd8
  obtain ⟨hb10, hd10, hl10⟩ := getD_of_drop buf _ _ _ hd9
  obtain ⟨hd11, hi11, _⟩ := drop_append_of_drop buf _ cs _ (by omega) hd10
  have hc0 := hcode c0 (List.mem_cons_self _ _)
  have a0 : after buf (whole buf) allTrue 0 ⟨p, i, i, t⟩ = some ⟨p, i, i, t⟩ := rfl
  have a1 := after_snoc buf allTrue _ _ _ _ a0 hl1
    (step_message_begin_response buf _ _ _ _ _ _ hs hm)
  have a2 := after_snoc buf allTrue _ _ _ _ a1 hl1
    (step_status_protocol buf _ _ _ _ _ State.STATUS_LINE_BEGIN State.STATUS_PROTOCOL_T1 72
      (by simp) (by rfl) hb1 (by omega))
  try dsimp only at a2
  have a3 := after_snoc buf allTrue _ _ _ _ a2 hl2
    (step_status_protocol buf _ _ _ _ _ State.STATUS_PROTOCOL_T1 State.STATUS_PROTOCOL_T2 84
      (by simp) (by rfl) hb2 (by omega))
  try dsimp only at a3
  have a4 := after_snoc buf allTrue _ _ _ _ a3 hl3
    (step_status_protocol buf _ _ _ _ _ State.STATUS_PROTOCOL_T2 State.STATUS_PROTOCOL_P 84
      (by simp) (by rfl) hb3 (by omega))
  try dsimp only at a4
  have a5 := after_snoc buf allTrue _ _ _ _ a4 hl4
    (step_status_protocol buf _ _ _ _ _ State.STATUS_PROTOCOL_P State.STATUS_PROTOCOL_SLASH 80
      (by simp) (by rfl) hb4 (by omega))
  try dsimp only at a5
  have a6 := after_snoc buf allTrue _ _ _ _ a5 hl5
    (step_status_protocol buf _ _ _ _ _ State.STATUS_PROTOCOL_SLASH
      State.STATUS_PROTOCOL_VERSION_MAJOR 47 (by simp) (by rfl) hb5 (by omega))
  try dsimp only at a6
  have a7 := after_trans buf _ _ _ _ _ _ _ a6
    (after_status_version_major buf hM major _ _ _ _ (by rfl) hmaj hd5)
  try dsimp only at a7
  have a8 := after_snoc buf allTrue _ _ _ _ a7 hl7
    (step_status_version_major_dot buf _ _ _ _ _ (by rfl) hb7 (by omega))
  try dsimp only at a8
  have a9 := after_trans buf _ _ _ _ _ _ _ a8
    (after_status_version_minor buf hM minor _ _ _ _ (by rfl) hmin hd7)
  try dsimp only at a9
  have a10 := after_snoc buf allTrue _ _ _ _ a9 hl9
    (step_status_version_minor_sp buf _ _ _ _ _ (by rfl) hb9 (by omega))
  try dsimp only at a10
  have a11 := after_snoc buf allTrue _ _ _ _ a10 hl10
    (step_status_code_begin buf _ _ _ _ _ (by rfl) (by rw [hb10]; exact hc0) (by omega))
  try dsimp only at a11
  rw [hb10] at a11
  have a12 := after_trans buf _ _ _ _ _ _ _ a11
    (after_status_code buf hM cs _ _ _ _ (by rfl)
      (fun b hb => hcode b (List.mem_cons_of_mem _ hb)) hd10)
  try dsimp only at a12
  have hv : digitsValue (0 * 10 + (c0 : Int) - 48) cs = digitsValue 0 (c0 :: cs) := by
    simp only [digitsValue, hc0, if_true, add_sub_assoc]
  rw [hv] at a12
  have a13 := after_cast _ _ _ _ (major.length + minor.length + cs.length + 9) _ _ _
    (i + (major.length + minor.length + cs.length + 8)) _ a12 (by omega) (by omega)
  refine ⟨a13, ?_, by omega⟩
  rw [← hd11]; congr 1; omega

/-- The passes over a whole status line: any status code of one or more digits is accepted,
and `onMessageBegin` receives its decimal value. -/
theorem after_status_line (buf : List Nat) (hM : buf.length < SIZE_MOD)
    (major minor code reason rest : List Nat) (p : HttpMessageProcessor)
    (i : Nat) (t : List Event)
    (hmaj : ∀ b ∈ major, isdigit b = true) (hmin : ∀ b ∈ minor, isdigit b = true)
    (hne : code ≠ []) (hcode : ∀ b ∈ code, isdigit b = true)
    (hreason : ∀ b ∈ reason, isText b = true)
    (hs : p.state = State.MESSAGE_BEGIN) (hm : p.mode = ParseMode.RESPONSE)
    (hdrop : buf.drop i = statusLine major minor code reason ++ rest) :
    ∃ q, after buf (whole buf) allTrue ((statusLine major minor code reason).length + 1)
          ⟨p, i, i, t⟩
        = some ⟨q, i + (statusLine major minor code reason).length,
            i + (statusLine major minor code reason).length,
            t ++ [Event.onMessageBeginResponse (digitsValue p.versionMajor major)
              (digitsValue p.versionMinor minor) (digitsValue 0 code)
              (if reason = [] then p.message.bytes buf else reason)]⟩ ∧
      buf.drop (i + (statusLine major minor code reason).length) = rest ∧
      i + (statusLine major minor code reason).length ≤ buf.length ∧
      q.state = State.HEADER_NAME_BEGIN ∧ q.mode = p.mode := by
  obtain ⟨c0, cs, rfl⟩ := List.exists_cons_of_ne_nil hne
  cases reason with
  | nil =>
    have hd0 : buf.drop i = 72 :: 84 :: 84 :: 80 :: 47 :: (major ++ 46 :: (minor ++ SP :: c0 ::
        (cs ++ (CR :: LF :: rest)))) := by
      rw [hdrop]; simp [statusLine]
    obtain ⟨a, hd1, hi1⟩ := after_status_line_code buf hM major minor c0 cs _ p i t hmaj hmin
      hcode hs hm hd0
    obtain ⟨hb2, hd2, hl2⟩ := getD_of_drop buf _ _ _ hd1
    obtain ⟨hb3, hd3, hl3⟩ := getD_of_drop buf _ _ _ hd2
    have a1 := after_snoc buf allTrue _ _ _ _ a hl2
      (step_status_code_cr buf _ _ _ _ _ (by rfl) hb2 (by omega))
    try dsimp only at a1
    have a2 := after_snoc buf allTrue _ _ _ _ a1 hl3
      (step_status_message_lf buf _ _ _ _ (by rfl) hb3 (by omega))
    try dsimp only at a2
    have hL : (statusLine major minor (c0 :: cs) []).length
        = major.length + minor.length + cs.length + 10 := by
      simp [statusLine]; omega
    refine ⟨_, after_cast _ _ _ _ _ _ _ _ _ _ a2 (by rw [hL]) (by rw [hL]; omega), ?_,
      by rw [hL]; omega, rfl, rfl⟩
    rw [← hd3]; congr 1; rw [hL]; omega
  | cons r rs =>
    have hd0 : buf.drop i = 72 :: 84 :: 84 :: 80 :: 47 :: (major ++ 46 :: (minor ++ SP :: c0 ::
        (cs ++ (SP :: r :: (rs ++ (CR :: LF :: rest)))))) := by
      rw [hdrop]; simp [statusLine]
    obtain ⟨a, hd1, hi1⟩ := after_status_line_code buf hM major minor c0 cs _ p i t hmaj hmin
      hcode hs hm hd0
    obtain ⟨hb2, hd2, hl2⟩ := getD_of_drop buf _ _ _ hd1
    obtain ⟨hb3, hd3, hl3⟩ := getD_of_drop buf _ _ _ hd2
    obtain ⟨hd4, hi4, _⟩ := drop_append_of_drop buf _ rs _ (by omega) hd3
    obtain ⟨hb5, hd5, hl5⟩ := getD_of_drop buf _ _ _ hd4
    obtain ⟨hb6, hd6, hl6⟩ := getD_of_drop buf _ _ _ hd5
    obtain ⟨_, _, hbm⟩ := drop_append_of_drop buf _ (r :: rs) (CR :: LF :: rest) (by omega) hd2
    have a1 := after_snoc buf allTrue _ _ _ _ a hl2
      (step_status_code_sp buf _ _ _ _ _ (by rfl) hb2 (by omega))
    try dsimp only at a1
    have a2 := after_snoc buf allTrue _ _ _ _ a1 hl3
      (step_status_message_begin buf _ _ _ _ _ (by rfl)
        (by rw [hb3]; exact hreason r (List.mem_cons_self _ _)) (Nat.zero_le _) (by omega))
    try dsimp only at a2
    have a3 := after_trans buf _ _ _ _ _ _ _ a2
      (after_status_message buf hM rs _ _ _ _ (by rfl)
        (fun b hb => hreason b (List.mem_cons_of_mem _ hb)) hd3 (by simp only; omega))
    try dsimp only at a3
    have a4 := after_snoc buf allTrue _ _ _ _ a3 hl5
      (step_status_message_cr buf _ _ _ _ _ (by rfl) hb5 (by omega))
    try dsimp only at a4
    have a5 := after_snoc buf allTrue _ _ _ _ a4 hl6
      (step_status_message_lf buf _ _ _ _ (by rfl) hb6 (by omega))
    try dsimp only at a5
    have hL : (statusLine major minor (c0 :: cs) (r :: rs)).length
        = major.length + minor.length + cs.length + rs.length + 12 := by
      simp [statusLine]; omega
    have hbm2 : BufferRef.bytes buf
        ⟨i + (major.length + minor.length + cs.length + 8) + 1, 1 + rs.length⟩ = r :: rs := by
      rw [← hbm]; simp only [List.length_cons]; rw [Nat.add_comm 1]
    rw [hbm2] at a5
    refine ⟨_, after_cast _ _ _ _ _ _ _ _ _ _ a5 (by rw [hL]; omega) (by rw [hL]; omega), ?_,
      by rw [hL]; omega, rfl, rfl⟩
    rw [← hd6]; congr 1; rw [hL]; omega

/-- A call of `process` on a fresh RESPONSE parser over a status line. -/
theorem process_status_line (major minor code reason : List Nat)
    (hmaj : ∀ b ∈ major, isdigit b = true) (hmin : ∀ b ∈ minor, isdigit b = true)
    (hne : code ≠ []) (hcode : ∀ b ∈ code, isdigit b = true)
    (hreason : ∀ b ∈ reason, isText b = true)
    (hM : (statusLine major minor code reason).length < SIZE_MOD)
    (fuel : Nat) (hf : (statusLine major minor code reason).length + 1 < fuel) :
    ∃ r, process fuel (HttpMessageProcessor.new ParseMode.RESPONSE)
          (statusLine major minor code reason) (whole (statusLine major minor code reason))
          none allTrue = some r ∧
      r.trace = [Event.onMessageBeginResponse (digitsValue 0 major) (digitsValue 0 minor)
        (decimalValue code : Int) reason] ∧
      r.parser.state = State.HEADER_NAME_BEGIN ∧ r.exit = Exit.chunkEnd ∧
      r.ret = (statusLine major minor code reason).length := by
  generalize hbuf : statusLine major minor code reason = buf at hM hf ⊢
  have hd : buf.drop 0 = statusLine major minor code reason ++ [] := by
    rw [hbuf]; simp
  obtain ⟨q, a, hd1, hi1, hq, _⟩ := after_status_line buf hM major minor code reason []
    (HttpMessageProcessor.new ParseMode.RESPONSE) 0 [] hmaj hmin hne hcode hreason rfl rfl hd
  rw [hbuf] at a hd1 hi1
  simp only [Nat.zero_add] at a hd1 hi1
  have hloop := after_loop buf (whole buf) allTrue _ _ _ 1 a
  rw [loop_end buf (whole buf) allTrue 0 _ (by simp [whole])] at hloop
  have hp := process_of_loop_end (buf.length + 1 + 1) (HttpMessageProcessor.new ParseMode.RESPONSE)
    buf (whole buf) none allTrue _ hloop
  have hp1 := process_mono _ fuel _ _ _ _ _ _ (by omega) hp
  have hmsg : (if reason = [] then
      BufferRef.bytes buf (HttpMessageProcessor.new ParseMode.RESPONSE).message else reason)
      = reason := by
    split_ifs with h
    · rw [h]; rfl
    · rfl
  have hcv : digitsValue 0 code = (decimalValue code : Int) := digitsValue_zero code hcode
  refine ⟨_, hp1, ?_, ?_, ?_, ?_⟩
  · simp only [finish, tail, hq]
    simp only [reduceCtorEq, if_false, List.nil_append, hmsg, hcv]
    rfl
  · simp [finish, tail, hq]
  · simp [finish, tail, hq]
  · simp only [finish, tail, hq, whole]
    simp only [reduceCtorEq, if_false]
    exact szSub_small _ _ (Nat.zero_le _) hM

/-! ## The reverse proxy: request serialization, header filtering, origin parsing -/

theorem pushRequestHeaders_eq : ∀ (hs : List (List Nat × List Nat)) (buf : List Nat),
    ProxyConnection.pushRequestHeaders buf hs
      = buf ++ ((hs.filter forwardedRequestHeader).map
          (fun h => h.1 ++ bytesOf ": " ++ h.2 ++ bytesOf "\r\n")).flatten := by
  intro hs
  induction hs with
  | nil => intro buf; simp [ProxyConnection.pushRequestHeaders]
  | cons h hs ih =>
    intro buf
    cases hk : (iequals h.1 (bytesOf "Content-Transfer") || iequals h.1 (bytesOf "Expect") ||
        iequals h.1 (bytesOf "Connection")) with
    | false =>
      have hf : forwardedRequestHeader h = true := by
        simp only [forwardedRequestHeader, hk, Bool.not_false]
      simp only [ProxyConnection.pushRequestHeaders, hk, Bool.false_eq_true, if_false, ih,
        List.filter_cons, hf, if_true, List.map_cons, List.flatten_cons, List.append_assoc]
    | true =>
      have hf : forwardedRequestHeader h = false := by
        simp only [forwardedRequestHeader, hk, Bool.not_true]
      simp only [ProxyConnection.pushRequestHeaders, hk, if_true, ih, List.filter_cons, hf,
        Bool.false_eq_true, if_false]

theorem close_frame (w : World) :
    (ProxyConnection.close w).self.writeBuffer = w.self.writeBuffer ∧
    (ProxyConnection.close w).self.request = w.self.request ∧
    (ProxyConnection.close w).self.state = w.self.state ∧
    (ProxyConnection.close w).client = w.client ∧
    (ProxyConnection.close w).alive = w.alive := by
  unfold ProxyConnection.close
  split_ifs <;> simp

theorem destructor_frame (w : World) :
    (ProxyConnection.destructor w).self.writeBuffer = w.self.writeBuffer ∧
    (ProxyConnection.destructor w).self.request = w.self.request ∧
    (ProxyConnection.destructor w).alive = false ∧
    (ProxyConnection.destructor w).client.status = w.client.status ∧
    (ProxyConnection.destructor w).client.finished
      = w.client.finished + (if w.self.request then 1 else 0) := by
  obtain ⟨h1, h2, _, h4, _⟩ := close_frame w
  unfold ProxyConnection.destructor
  rw [h2, h4]
  split_ifs <;> simp [h1, h2, h4]

theorem destroy_effect (code : HttpError) (w : World) (hreq : w.self.request = true) :
    (ProxyConnection.destroy code w).client.status
      = (if code ≠ HttpError.Undefined then code else w.client.status) ∧
    (ProxyConnection.destroy code w).client.finished = w.client.finished + 1 ∧
    (ProxyConnection.destroy code w).alive = false ∧
    (ProxyConnection.destroy code w).self.request = false ∧
    (ProxyConnection.destroy code w).self.writeBuffer = w.self.writeBuffer := by
  obtain ⟨h1, h2, _, h4, _⟩ := close_frame w
  unfold ProxyConnection.destroy
  simp only []
  by_cases hfd : w.self.fd ≥ 0
  · simp only [hfd, if_true, h2, hreq]
    refine ⟨?_, ?_, ?_, ?_, ?_⟩
    · rw [(destructor_frame _).2.2.2.1]; simp [h4]
    · rw [(destructor_frame _).2.2.2.2]; simp [h4]
    · exact (destructor_frame _).2.2.1
    · rw [(destructor_frame _).2.1]
    · rw [(destructor_frame _).1]; exact h1
  · simp only [hfd, if_false, hreq, if_true]
    refine ⟨?_, ?_, ?_, ?_, ?_⟩
    · rw [(destructor_frame _).2.2.2.1]
    · rw [(destructor_frame _).2.2.2.2]; simp
    · exact (destructor_frame _).2.2.1
    · rw [(destructor_frame _).2.1]
    · rw [(destructor_frame _).1]

theorem startWriteConnected_frame (w : World) :
    (ProxyConnection.startWriteConnected w).self.writeBuffer = w.self.writeBuffer ∧
    (ProxyConnection.startWriteConnected w).self.request = w.self.request ∧
    (ProxyConnection.startWriteConnected w).client = w.client ∧
    (ProxyConnection.startWriteConnected w).alive = w.alive := by
  unfold ProxyConnection.startWriteConnected
  cases w.self.state <;> simp

theorem connect_frame (env : Env) (w : World) :
    (ProxyConnection.connect env w).2.self.writeBuffer = w.self.writeBuffer ∧
    (ProxyConnection.connect env w).2.self.request = w.self.request ∧
    (ProxyConnection.connect env w).2.client = w.client ∧
    (ProxyConnection.connect env w).2.alive = w.alive := by
  unfold ProxyConnection.connect
  simp only []
  split <;> simp [(startWriteConnected_frame _).1, (startWriteConnected_frame _).2.1,
    (startWriteConnected_frame _).2.2.1, (startWriteConnected_frame _).2.2.2]

theorem startWrite_writeBuffer (env : Env) (w : World) (hreq : w.self.request = true) :
    (ProxyConnection.startWrite env w).self.writeBuffer = w.self.writeBuffer := by
  obtain ⟨c1, c2, _, _⟩ := connect_frame env w
  unfold ProxyConnection.startWrite
  split
  · split_ifs
    · rw [(destroy_effect _ _ (by rw [c2]; exact hreq)).2.2.2.2, c1]
    · exact c1
  · exact (startWriteConnected_frame w).1

theorem rfind_none : ∀ (s : List Nat) (ch : Nat), ch ∉ s → rfind s ch = none := by
  intro s
  induction s with
  | nil => intro ch _; rfl
  | cons b bs ih =>
    intro ch h
    simp only [List.mem_cons, not_or] at h
    have hb : ¬ b = ch := fun e => h.1 e.symm
    simp only [rfind, ih ch h.2, hb, if_false]

theorem rfind_append : ∀ (host port : List Nat) (ch : Nat), ch ∉ port →
    rfind (host ++ ch :: port) ch = some host.length := by
  intro host
  induction host with
  | nil =>
    intro port ch h
    simp only [List.nil_append, rfind, rfind_none port ch h, if_true, List.length_nil]
  | cons b bs ih =>
    intro port ch h
    have e := ih port ch h
    rw [List.cons_append, rfind, e, List.length_cons]

theorem digit_ne_colon (port : List Nat) (h : ∀ d ∈ port, isdigit d = true) : 58 ∉ port := by
  intro hm
  have := h 58 hm
  revert this
  decide

theorem unix_prefix_has_colon (s : List Nat) (h : (bytesOf "unix:").isPrefixOf s = true) :
    58 ∈ s := by
  rw [List.isPrefixOf_iff_prefix] at h
  obtain ⟨t, rfl⟩ := h
  exact List.mem_append_left _ (by decide)

/-! ## The byte a pass examines, and where payload references are taken -/

set_option maxHeartbeats 4000000 in
/-- With hooks returning true, the parser state, the read pointer and the cursor after a pass
depend on the buffer only through the byte at the read pointer. -/
theorem step_examines_byte_at_i (buf buf2 : List Nat) (chunk : BufferRef) (c : Cfg)
    (h : buf.getD c.i 0 = buf2.getD c.i 0) :
    (step buf chunk allTrue c).cfg.p.state = (step buf2 chunk allTrue c).cfg.p.state ∧
    (step buf chunk allTrue c).cfg.i = (step buf2 chunk allTrue c).cfg.i ∧
    (step buf chunk allTrue c).cfg.nparsed = (step buf2 chunk allTrue c).cfg.nparsed := by
  cases hs : c.p.state <;>
    simp only [step, hs, h, expectByte, statusCode, chunkSize, callHook, allTrue, Cfg.eat,
      Cfg.advance, Cfg.setState, Cfg.takeBody, if_true] <;>
    (try split) <;> (try split_ifs) <;> simp [Step.cfg]

/-- A payload reference taken in a pass starts at the stream position of the cursor. -/
theorem refHere_at_cursor (chunk : BufferRef) (c : Cfg) (ha : chunk.offset ≤ c.nparsed)
    (hM : c.nparsed < SIZE_MOD) : refHere chunk c = ⟨c.nparsed, 1⟩ := by
  simp only [refHere, BufferRef.ref, szAdd, szSub, BufferRef.mk.injEq, and_true]
  have h1 : c.nparsed % SIZE_MOD = c.nparsed := Nat.mod_eq_of_lt hM
  have h2 : chunk.offset % SIZE_MOD = chunk.offset := Nat.mod_eq_of_lt (by omega)
  rw [h1, h2]
  have h3 : (c.nparsed + SIZE_MOD - chunk.offset) % SIZE_MOD = c.nparsed - chunk.offset := by
    have : c.nparsed + SIZE_MOD - chunk.offset = (c.nparsed - chunk.offset) + SIZE_MOD := by omega
    rw [this, Nat.add_mod_right]
    exact Nat.mod_eq_of_lt (by omega)
  rw [h3]
  have h4 : chunk.offset + (c.nparsed - chunk.offset) = c.nparsed := by omega
  rw [h4, h1]

/-- The five passes that take a payload reference (method, request URI, reason phrase, header
name, header value) take it as `chunk.ref(*nparsed - chunk.offset(), 1)`, having examined the
byte at the read pointer. -/
theorem step_takes_ref_at_cursor (buf : List Nat) (chunk : BufferRef) (cb : Hooks) (c : Cfg) :
    (c.p.state = State.REQUEST_LINE_BEGIN → isToken (buf.getD c.i 0) = true →
      (step buf chunk cb c).cfg.p.method = refHere chunk c) ∧
    (c.p.state = State.REQUEST_ENTITY_BEGIN → isprint (buf.getD c.i 0) = true →
      (step buf chunk cb c).cfg.p.entity = refHere chunk c) ∧
    (c.p.state = State.STATUS_MESSAGE_BEGIN → isText (buf.getD c.i 0) = true →
      (step buf chunk cb c).cfg.p.message = refHere chunk c) ∧
    (c.p.state = State.HEADER_NAME_BEGIN → isToken (buf.getD c.i 0) = true →
      (step buf chunk cb c).cfg.p.name = refHere chunk c) ∧
    (c.p.state = State.HEADER_VALUE_BEGIN → isText (buf.getD c.i 0) = true →
      (step buf chunk cb c).cfg.p.value = refHere chunk c) := by
  refine ⟨?_, ?_, ?_, ?_, ?_⟩ <;> intro hs hb <;>
    simp only [step, hs, hb, if_true, Step.cfg, Cfg.advance]

/-! ## The invariant between calls, for any hooks and any sequence of calls -/

theorem after_inv (buf : List Nat) (chunk : BufferRef) (cb : Hooks) :
    ∀ (n : Nat) (c c1 : Cfg), Inv c.p → after buf chunk cb n c = some c1 → Inv c1.p := by
  intro n
  induction n with
  | zero =>
    intro c c1 hinv h
    simp only [after, Option.some.injEq] at h
    rw [← h]; exact hinv
  | succ n ih =>
    intro c c1 hinv h
    simp only [after] at h
    split_ifs at h with hi
    have hs := step_inv buf chunk cb c hinv
    cases hst : step buf chunk cb c with
    | next c2 =>
      rw [hst] at h hs
      exact ih c2 c1 hs.1 h
    | done c2 w => rw [hst] at h; simp at h

theorem process_inv (f : Nat) (p : HttpMessageProcessor) (buf : List Nat) (chunk : BufferRef)
    (cur : Option Nat) (cb : Hooks) (R : Result) (hinv : Inv p)
    (h : process f p buf chunk cur cb = some R) : Inv R.parser := by
  obtain ⟨c, w, hl, hcase⟩ := process_eq _ _ _ _ _ _ _ h
  have hci := (loop_inv buf chunk cb f _ c w hinv hl).1
  rcases hcase with ⟨_, hr⟩ | ⟨_, hr⟩
  · rw [hr, tail_inv cb c hci]; exact hci
  · rw [hr]; exact hci

theorem processAll_inv (cb : Hooks) : ∀ (calls : List Call) (p q : HttpMessageProcessor)
    (t : List Event), Inv p → processAll cb p calls = some (q, t) → Inv q := by
  intro calls
  induction calls with
  | nil =>
    intro p q t hinv h
    simp only [processAll, Option.some.injEq, Prod.mk.injEq] at h
    rw [← h.1]; exact hinv
  | cons k rest ih =>
    intro p q t hinv h
    simp only [processAll] at h
    cases hp : process k.fuel p k.buf k.chunk k.cursor cb with
    | none => rw [hp] at h; simp at h
    | some r =>
      rw [hp] at h
      simp only at h
      cases hr : processAll cb r.parser rest with
      | none => rw [hr] at h; simp at h
      | some x =>
        obtain ⟨q1, t1⟩ := x
        rw [hr] at h
        simp only [Option.some.injEq, Prod.mk.injEq] at h
        rw [← h.1]
        exact ih r.parser q1 t1 (process_inv _ _ _ _ _ _ r hinv hp) hr

/-- The code after the loop does nothing unless its condition holds. -/
theorem tail_skip (cb : Hooks) (c : Cfg)
    (h : ¬ (c.p.state = State.CONTENT_BEGIN ∧ c.p.contentLength < 0 ∧ c.p.chunked = false ∧
      c.p.mode ≠ ParseMode.MESSAGE)) : tail cb c = (c, Exit.chunkEnd) := by
  unfold tail
  by_cases h1 : c.p.state = State.CONTENT_BEGIN
  · by_cases h2 : c.p.contentLength < 0 ∧ c.p.chunked = false ∧ c.p.mode ≠ ParseMode.MESSAGE
    · exact absurd ⟨h1, h2⟩ h
    · simp only [h1, h2, if_true, if_false]
  · simp only [h1, if_false]

/-! ## Passes that change nothing -/

theorem step_chunk_body_idle (buf : List Nat) (X : BufferRef) (cb : Hooks) (c : Cfg)
    (hs : c.p.state = State.CONTENT_CHUNK_BODY) (hl : c.p.contentLength = 0)
    (hb : buf.getD c.i 0 ≠ CR) : step buf X cb c = Step.next c := by
  simp only [step, hs, hl, ne_eq, not_true_eq_false, if_false, hb]

/-- The loop never leaves `CONTENT_CHUNK_BODY` at a byte other than CR once the data of the
chunk has been delivered. -/
theorem chunk_body_stuck (buf : List Nat) (X : BufferRef) (cb : Hooks) :
    ∀ (f : Nat) (c : Cfg), c.p.state = State.CONTENT_CHUNK_BODY → c.p.contentLength = 0 →
      buf.getD c.i 0 ≠ CR → c.i ≠ X.offset + X.size → loop buf X cb f c = none := by
  intro f
  induction f with
  | zero => intro c _ _ _ _; rfl
  | succ f ih =>
    intro c hs hl hb hi
    simp only [loop, if_neg hi, step_chunk_body_idle buf X cb c hs hl hb]
    exact ih c hs hl hb hi

/-- A call whose loop reaches, after some passes, a configuration from which it never leaves
does not return. -/
theorem process_never_returns (p : HttpMessageProcessor) (buf : List Nat) (chunk : BufferRef)
    (cur : Option Nat) (cb : Hooks) (n : Nat) (c : Cfg)
    (ha : after buf chunk cb n (entry p chunk cur) = some c)
    (hstuck : ∀ f, loop buf chunk cb f c = none) :
    ∀ fuel, process fuel p buf chunk cur cb = none := by
  intro fuel
  have hl : loop buf chunk cb (n + fuel) (entry p chunk cur) = none := by
    rw [after_loop _ _ _ n _ c fuel ha]
    exact hstuck fuel
  have hl2 : loop buf chunk cb fuel (entry p chunk cur) = none := by
    cases hx : loop buf chunk cb fuel (entry p chunk cur) with
    | none => rfl
    | some r =>
      have := loop_mono_le _ _ _ fuel (n + fuel) _ r (by omega) hx
      rw [hl] at this
      exact absurd this (by simp)
  simp only [process, hl2]

/-! ## More single passes of the header states -/

theorem step_lws_sp_ht_begin_fold (buf : List Nat) (X : BufferRef) (cb : Hooks)
    (p : HttpMessageProcessor) (i : Nat) (t : List Event)
    (hs : p.state = State.LWS_SP_HT_BEGIN) (hb : buf.getD i 0 = SP ∨ buf.getD i 0 = HT)
    (hv : p.value.size ≠ 0) (hi : i + 1 < SIZE_MOD) :
    step buf X cb ⟨p, i, i, t⟩
      = Step.next ⟨{ p with value := p.value.shr 3, state := State.LWS_SP_HT }, i + 1, i + 1, t⟩ := by
  have e1 := szAdd_small i 1 hi
  simp only [step, hs]
  generalize buf.getD i 0 = b at hb
  simp [hb, hv, BufferRef.empty, Cfg.advance, e1]

/-- The LF of the empty line when a body is to come. -/
theorem step_header_end_lf_body (buf : List Nat) (X : BufferRef)
    (p : HttpMessageProcessor) (i : Nat) (t : List Event)
    (hs : p.state = State.HEADER_END_LF) (hb : buf.getD i 0 = LF)
    (hx : contentExpected p.mode (p.contentLength, p.chunked) = true)
    (hi : i + 1 < SIZE_MOD) :
    step buf X allTrue ⟨p, i, i, t⟩
      = Step.next ⟨{ p with state := State.CONTENT_BEGIN }, i + 1, i + 1,
          t ++ [Event.onMessageHeaderEnd]⟩ := by
  have e1 := szAdd_small i 1 hi
  simp only [contentExpected] at hx
  simp only [step, hs]
  generalize buf.getD i 0 = b at hb
  subst hb
  simp [hx, callHook, allTrue, Cfg.setState, Cfg.advance, e1]

/-! ## Request heads with or without a body to come -/

theorem headerLines_eq_block (short : Bool) (hs : List HeaderLine) :
    headerLines short hs = headerBlock short hs ++ eol short := by
  induction hs with
  | nil => simp [headerLines, headerBlock]
  | cons h hs ih => simp only [headerLines, headerBlock, ih, List.append_assoc, List.cons_append]

/-- Header lines followed by a byte that is neither SP nor HT start with such a byte. -/
theorem headerBlock_first (short : Bool) (hs : List HeaderLine)
    (hw : ∀ h ∈ hs, h.WellFormed) (b1 : Nat) (rest : List Nat) (h1 : b1 ≠ SP) (h2 : b1 ≠ HT) :
    ∃ c r, headerBlock short hs ++ b1 :: rest = c :: r ∧ c ≠ SP ∧ c ≠ HT := by
  cases hs with
  | nil => exact ⟨b1, rest, rfl, h1, h2⟩
  | cons h hs =>
    obtain ⟨hn0, hnt, _, _⟩ := hw h (List.mem_cons_self _ _)
    obtain ⟨n0, ns, hname⟩ := List.exists_cons_of_ne_nil hn0
    have htok := hnt n0 (by rw [hname]; exact List.mem_cons_self _ _)
    refine ⟨n0, ns ++ 58 :: (h.ws ++ (h.value ++ (eol short ++ headerBlock short hs)))
      ++ b1 :: rest, ?_, ?_, ?_⟩
    · simp only [headerBlock, hname, List.cons_append, List.append_assoc]
    · intro hx; subst hx; revert htok; decide
    · intro hx; subst hx; revert htok; decide

/-- The header lines of a head, up to the byte that follows them: one `onMessageHeader` per
line, and the framing fields as the lines set them. -/
theorem after_header_block (buf : List Nat) (hM : buf.length < SIZE_MOD) (short : Bool)
    (b1 : Nat) (rest : List Nat) (h1 : b1 ≠ SP) (h2 : b1 ≠ HT) :
    ∀ (hs : List HeaderLine) (p : HttpMessageProcessor) (i : Nat) (t : List Event)
      (f : Int × Bool), (∀ h ∈ hs, h.WellFormed) → HeaderReady p f →
      buf.drop i = headerBlock short hs ++ b1 :: rest →
      ∃ n q j, after buf (whole buf) allTrue n ⟨p, i, i, t⟩
          = some ⟨q, j, j, t ++ hs.map (fun h => Event.onMessageHeader h.name h.value)⟩ ∧
        buf.drop j = b1 :: rest ∧ i ≤ j ∧ n ≤ 2 * (j - i) ∧
        HeaderReady q (hs.foldl headerFrame f) := by
  intro hs
  induction hs with
  | nil =>
    intro p i t f _ hr hdrop
    exact ⟨0, p, i, by simp [after], by simpa [headerBlock] using hdrop, le_refl _,
      Nat.zero_le _, hr⟩
  | cons h hs ih =>
    intro p i t f hw hr hdrop
    have hws : ∀ x ∈ hs, x.WellFormed := fun x hx => hw x (List.mem_cons_of_mem _ hx)
    obtain ⟨c, r, hfirst, hc1, hc2⟩ := headerBlock_first short hs hws b1 rest h1 h2
    have hd0 : buf.drop i = h.name ++ 58 :: (h.ws ++ (h.value ++ (eol short ++ c :: r))) := by
      rw [hdrop]; simp only [headerBlock, ← hfirst, List.append_assoc, List.cons_append]
    obtain ⟨n1, q1, j1, a1, hd1, hij1, hn1, hr1⟩ :=
      after_header_line buf hM short h (hw h (List.mem_cons_self _ _)) c r p i t f hr hc1 hc2 hd0
    have hd1a : buf.drop j1 = headerBlock short hs ++ b1 :: rest := by
      rw [hd1, hfirst]
    obtain ⟨n2, q2, j2, a2, hd2, hij2, hn2, hq2⟩ :=
      ih q1 j1 (t ++ [Event.onMessageHeader h.name h.value]) (headerFrame f h) hws hr1 hd1a
    have a := after_trans buf _ _ _ _ _ _ _ a1 a2
    refine ⟨n1 + n2, q2, j2, ?_, hd2, by omega, by omega, hq2⟩
    rw [a]
    simp only [List.map_cons, List.append_assoc, List.cons_append, List.nil_append]

/-- The empty line that ends a head, whether a body is to come or not. -/
theorem after_empty_line_any (buf : List Nat) (hM : buf.length < SIZE_MOD) (short : Bool)
    (rest : List Nat) (p : HttpMessageProcessor) (i : Nat) (t : List Event) (f : Int × Bool)
    (hr : HeaderReady p f) (hdrop : buf.drop i = eol short ++ rest) :
    ∃ q, after buf (whole buf) allTrue 2 ⟨p, i, i, t⟩
        = some ⟨q, i + (eol short).length, i + (eol short).length,
            t ++ Event.onMessageHeaderEnd ::
              (if contentExpected ParseMode.REQUEST f then [] else [Event.onMessageEnd])⟩ ∧
      buf.drop (i + (eol short).length) = rest ∧ i + (eol short).length ≤ buf.length ∧
      q.state = (if contentExpected ParseMode.REQUEST f then State.CONTENT_BEGIN
        else State.MESSAGE_BEGIN) ∧
      q.contentLength = f.1 ∧ q.chunked = f.2 ∧ q.mode = ParseMode.REQUEST := by
  obtain ⟨hst, hmode, hvz, hpcl, hpch⟩ := hr
  have a0 : after buf (whole buf) allTrue 0 ⟨p, i, i, t⟩ = some ⟨p, i, i, t⟩ := rfl
  cases hx : contentExpected ParseMode.REQUEST f with
  | false =>
    have hx1 : ¬ f.1 > 0 ∧ f.2 = false := by
      simp only [contentExpected, Bool.or_eq_false_iff, decide_eq_false_iff_not] at hx
      exact ⟨hx.1.1, hx.1.2⟩
    cases short with
    | true =>
      have hd0 : buf.drop i = LF :: rest := by rw [hdrop]; rfl
      obtain ⟨hb0, hd1, hl0⟩ := getD_of_drop buf _ _ _ hd0
      have a1 := after_snoc buf allTrue _ _ _ _ a0 hl0
        (step_header_name_begin_lf buf _ _ _ _ _ hst hb0)
      have a2 := after_snoc buf allTrue _ _ _ _ a1 hl0
        (step_header_end_lf_bodyless buf _ _ _ _ (by rfl) hb0 (by rw [hpcl]; exact hx1.1)
          (by rw [hpch]; exact hx1.2) hmode (by omega))
      refine ⟨_, a2, hd1, by simp only [eol, if_true, List.length_singleton]; omega, rfl,
        hpcl, hpch, hmode⟩
    | false =>
      have hd0 : buf.drop i = CR :: LF :: rest := by rw [hdrop]; rfl
      obtain ⟨hb0, hd1, hl0⟩ := getD_of_drop buf _ _ _ hd0
      obtain ⟨hb1, hd2, hl1⟩ := getD_of_drop buf _ _ _ hd1
      have a1 := after_snoc buf allTrue _ _ _ _ a0 hl0
        (step_header_name_begin_cr buf _ _ _ _ _ hst hb0 (by omega))
      have a2 := after_snoc buf allTrue _ _ _ _ a1 hl1
        (step_header_end_lf_bodyless buf _ _ _ _ (by rfl) hb1 (by rw [hpcl]; exact hx1.1)
          (by rw [hpch]; exact hx1.2) hmode (by omega))
      refine ⟨_, a2, hd2, by simp [eol]; omega, rfl, hpcl, hpch, hmode⟩
  | true =>
    have hx2 : contentExpected p.mode (p.contentLength, p.chunked) = true := by
      rw [hmode, hpcl, hpch]; exact hx
    cases short with
    | true =>
      have hd0 : buf.drop i = LF :: rest := by rw [hdrop]; rfl
      obtain ⟨hb0, hd1, hl0⟩ := getD_of_drop buf _ _ _ hd0
      have a1 := after_snoc buf allTrue _ _ _ _ a0 hl0
        (step_header_name_begin_lf buf _ _ _ _ _ hst hb0)
      have a2 := after_snoc buf allTrue _ _ _ _ a1 hl0
        (step_header_end_lf_body buf _ _ _ _ (by rfl) hb0 hx2 (by omega))
      refine ⟨_, a2, hd1, by simp only [eol, if_true, List.length_singleton]; omega, rfl,
        hpcl, hpch, hmode⟩
    | false =>
      have hd0 : buf.drop i = CR :: LF :: rest := by rw [hdrop]; rfl
      obtain ⟨hb0, hd1, hl0⟩ := getD_of_drop buf _ _ _ hd0
      obtain ⟨hb1, hd2, hl1⟩ := getD_of_drop buf _ _ _ hd1
      have a1 := after_snoc buf allTrue _ _ _ _ a0 hl0
        (step_header_name_begin_cr buf _ _ _ _ _ hst hb0 (by omega))
      have a2 := after_snoc buf allTrue _ _ _ _ a1 hl1
        (step_header_end_lf_body buf _ _ _ _ (by rfl) hb1 hx2 (by omega))
      refine ⟨_, a2, hd2, by simp [eol]; omega, rfl, hpcl, hpch, hmode⟩

/-- A call of `process` on a fresh REQUEST parser over a well-formed head, in either form of
the line terminator: the call returns at the end of the head with the callbacks of the head,
followed by `onMessageEnd` when no body is to come; the framing fields are those the header
lines set. -/
theorem process_request_head_any (short : Bool) (method uri major minor : List Nat)
    (hs : List HeaderLine) (hrl : WellFormedRequestLine method uri major minor)
    (hh : ∀ h ∈ hs, h.WellFormed)
    (hM : (requestHead short method uri major minor hs).length < SIZE_MOD)
    (fuel : Nat) (hf : 2 * (requestHead short method uri major minor hs).length < fuel) :
    ∃ r, process fuel (HttpMessageProcessor.new ParseMode.REQUEST)
          (requestHead short method uri major minor hs)
          (whole (requestHead short method uri major minor hs)) none allTrue = some r ∧
      r.trace = Event.onMessageBeginRequest method uri (digitsValue 0 major)
          (digitsValue 0 minor) ::
        (hs.map (fun h => Event.onMessageHeader h.name h.value) ++
          Event.onMessageHeaderEnd ::
            (if contentExpected ParseMode.REQUEST (hs.foldl headerFrame (-1, false)) then []
              else [Event.onMessageEnd])) ∧
      r.parser.state = (if contentExpected ParseMode.REQUEST (hs.foldl headerFrame (-1, false))
        then State.CONTENT_BEGIN else State.MESSAGE_BEGIN) ∧
      r.parser.contentLength = (hs.foldl headerFrame (-1, false)).1 ∧
      r.parser.chunked = (hs.foldl headerFrame (-1, false)).2 ∧
      r.exit = Exit.chunkEnd ∧
      r.ret = (requestHead short method uri major minor hs).length := by
  generalize hbuf : requestHead short method uri major minor hs = buf at hM hf ⊢
  have hel := eol_length_pos short
  obtain ⟨e0, er, he⟩ : ∃ e0 er, eol short = e0 :: er ∧ e0 ≠ SP ∧ e0 ≠ HT := by
    cases short
    · exact ⟨CR, [LF], rfl, by decide, by decide⟩
    · exact ⟨LF, [], rfl, by decide, by decide⟩
  have hd : buf.drop 0
      = requestLine method uri major minor ++ (eol short ++ (headerBlock short hs ++ e0 :: er)) := by
    rw [← hbuf, ← he.1, ← headerLines_eq_block]; simp [requestHead]
  obtain ⟨n1, q1, j1, a1, hd1, _, _, hn1, hr1⟩ :=
    after_request_line buf hM short method uri major minor (headerBlock short hs ++ e0 :: er)
      (HttpMessageProcessor.new ParseMode.REQUEST) 0 [] hrl rfl rfl rfl hd
  obtain ⟨n2, q2, j2, a2, hd2, hij, hn2, hq2⟩ :=
    after_header_block buf hM short e0 er he.2.1 he.2.2 hs q1 j1 _ (-1, false) hh hr1 hd1
  have hd2a : buf.drop j2 = eol short ++ [] := by rw [hd2, he.1]; simp
  obtain ⟨q3, a3, hd3, hi3, hq3, hcl3, hch3, _⟩ :=
    after_empty_line_any buf hM short [] q2 j2 _ _ hq2 hd2a
  have hlen : buf.length ≤ j2 + (eol short).length := List.drop_eq_nil_iff.mp hd3
  have hj : j2 + (eol short).length = buf.length := by omega
  have a := after_trans buf _ _ _ _ _ _ _ (after_trans buf _ _ _ _ _ _ _ a1 a2) a3
  have hloop := after_loop buf (whole buf) allTrue _ _ _ 1 a
  rw [loop_end buf (whole buf) allTrue 0 _ (by simp only [whole]; omega)] at hloop
  have hp := process_of_loop_end (n1 + n2 + 2 + 1) (HttpMessageProcessor.new ParseMode.REQUEST)
    buf (whole buf) none allTrue _ hloop
  have hp1 := process_mono _ fuel _ _ _ _ _ _ (by omega) hp
  have hnotail : ¬ (q3.state = State.CONTENT_BEGIN ∧ q3.contentLength < 0 ∧ q3.chunked = false ∧
      q3.mode ≠ ParseMode.MESSAGE) := by
    rintro ⟨h1, h2, h3, _⟩
    rw [hq3] at h1
    split_ifs at h1 with hx
    simp only [contentExpected, Bool.or_eq_true, decide_eq_true_eq] at hx
    rw [hcl3] at h2
    rw [hch3] at h3
    rcases hx with (hx | hx) | hx
    · omega
    · rw [h3] at hx; cases hx
    · cases hx
  rw [tail_skip allTrue _ hnotail] at hp1
  refine ⟨_, hp1, ?_, hq3, hcl3, hch3, rfl, ?_⟩
  · simp [finish]
  · simp only [finish, whole, hj]
    exact szSub_small _ _ (Nat.zero_le _) hM

/-! ## What `start()` writes, as a request head -/

theorem headerLines_wire (hs : List (List Nat × List Nat)) :
    headerLines false (hs.map wireHeader)
      = (hs.map (fun h => h.1 ++ bytesOf ": " ++ h.2 ++ bytesOf "\r\n")).flatten
          ++ bytesOf "\r\n" := by
  have h1 : bytesOf ": " = [58, SP] := by decide
  have h2 : bytesOf "\r\n" = [CR, LF] := by decide
  induction hs with
  | nil => simp [headerLines, eol, h2]
  | cons h hs ih =>
    simp only [List.map_cons, headerLines, wireHeader, ih, List.flatten_cons, eol, h1, h2,
      Bool.false_eq_true, if_false, List.append_assoc, List.cons_append, List.nil_append]

/-- The bytes `start()` leaves in an empty write buffer are the request head with the request
line `method SP uri SP HTTP/1.1` and one line `name ": " value` per forwarded header. -/
theorem start_writeBuffer_eq_head (env : Env) (w : World) (hreq : w.self.request = true)
    (hempty : w.self.writeBuffer = []) :
    (ProxyConnection.start env w).self.writeBuffer
      = requestHead false w.client.method w.client.uri [49] [49]
          ((w.client.requestHeaders.filter forwardedRequestHeader).map wireHeader) := by
  have h3 : bytesOf " HTTP/1.1\r\n" = [SP, 72, 84, 84, 80, 47, 49, 46, 49, CR, LF] := by decide
  unfold ProxyConnection.start
  rw [startWrite_writeBuffer env _ (by simpa [ProxyConnection.serialize] using hreq)]
  simp only [ProxyConnection.serialize, pushRequestHeaders_eq, hempty, List.nil_append]
  rw [requestHead, headerLines_wire, requestLine, h3]
  simp only [eol, Bool.false_eq_true, if_false, SP, List.append_assoc, List.cons_append,
    List.nil_append]

/-- The header lines `start()` writes are well formed when the names are non-empty tokens and
the values consist of TEXT and do not start with SP or HT. -/
theorem wireHeader_wellFormed (h : List Nat × List Nat) (hn : h.1 ≠ [])
    (ht : ∀ b ∈ h.1, isToken b = true) (hv : ∀ b ∈ h.2, isText b = true)
    (h0 : ∀ v0 vs, h.2 = v0 :: vs → v0 ≠ SP ∧ v0 ≠ HT) : (wireHeader h).WellFormed := by
  refine ⟨hn, ht, ?_, ?_⟩
  · intro b hb
    simp only [wireHeader, List.mem_singleton] at hb
    exact Or.inl hb
  · cases hval : h.2 with
    | nil => exact Or.inl (by simp [wireHeader, hval])
    | cons v0 vs =>
      refine Or.inr ⟨v0, vs, by simp [wireHeader, hval], ?_, (h0 v0 vs hval).1,
        (h0 v0 vs hval).2, ?_, ?_⟩
      · exact hv v0 (by rw [hval]; exact List.mem_cons_self _ _)
      · intro hx; simp [wireHeader] at hx
      · intro b hb
        exact hv b (by rw [hval]; exact List.mem_cons_of_mem _ hb)

/-! ## A header line with nothing after its CR LF -/

theorem bytes_append_left (buf ext : List Nat) (r : BufferRef)
    (h : r.size = 0 ∨ r.offset + r.size ≤ buf.length) :
    r.bytes (buf ++ ext) = r.bytes buf := by
  rcases h with h | h
  · simp [BufferRef.bytes, h]
  · simp only [BufferRef.bytes]
    rw [List.drop_append_of_le_length (by omega), List.take_append_of_le_length]
    simp only [List.length_drop]
    omega

/-- A value that is not empty and its CR LF, from `HEADER_VALUE_BEGIN`: the parser waits in
`LWS_SP_HT_BEGIN` for the byte that follows. -/
theorem after_value_crlf_open (buf : List Nat) (hM : buf.length < SIZE_MOD)
    (v0 : Nat) (vs rest : List Nat) (p : HttpMessageProcessor) (i : Nat) (t : List Event)
    (hs : p.state = State.HEADER_VALUE_BEGIN) (hv0 : isText v0 = true)
    (hvs : ∀ b ∈ vs, isText b = true)
    (hdrop : buf.drop i = v0 :: (vs ++ (CR :: LF :: rest))) :
    after buf (whole buf) allTrue (vs.length + 3) ⟨p, i, i, t⟩
      = some ⟨{ p with value := ⟨i, 1 + vs.length⟩, state := State.LWS_SP_HT_BEGIN, lwsNext := State.HEADER_VALUE, lwsNull := State.HEADER_VALUE_END },
          i + (vs.length + 3), i + (vs.length + 3), t⟩ := by
  obtain ⟨hb0, hd1, hl0⟩ := getD_of_drop buf i v0 _ hdrop
  obtain ⟨hd2, hi2, _⟩ := drop_append_of_drop buf (i + 1) vs _ (by omega) hd1
  obtain ⟨hb3, hd4, hl3⟩ := getD_of_drop buf _ _ _ hd2
  obtain ⟨hb4, hd5, hl4⟩ := getD_of_drop buf _ _ _ hd4
  have a0 : after buf (whole buf) allTrue 0 ⟨p, i, i, t⟩ = some ⟨p, i, i, t⟩ := rfl
  have a1 := after_snoc buf allTrue _ _ _ _ a0 hl0
    (step_header_value_begin buf _ _ _ _ _ hs (by rw [hb0]; exact hv0) (Nat.zero_le _)
      (by omega))
  have a2 := after_trans buf _ _ _ _ _ _ _ a1
    (after_header_value buf hM vs _ _ _ _ (by rfl) hvs hd1 (by simp only; omega))
  try dsimp only at a2
  have a3 := after_snoc buf allTrue _ _ _ _ a2 hl3
    (step_header_value_cr buf _ _ _ _ _ (by rfl) hb3 (by omega))
  try dsimp only at a3
  have a4 := after_snoc buf allTrue _ _ _ _ a3 hl4
    (step_lws_lf buf _ _ _ _ _ (by rfl) hb4 (by omega))
  try dsimp only at a4
  exact after_cast _ _ _ _ (vs.length + 3) _ _ _ (i + (vs.length + 3)) _ a4 (by omega)
    (by omega)

/-- The white space and the value of a header line and its CR LF, from `LWS_BEGIN` after the
colon, with nothing known about what follows: no header is delivered yet. -/
theorem after_header_rest_open (buf : List Nat) (hM : buf.length < SIZE_MOD)
    (ws value rest : List Nat) (p : HttpMessageProcessor) (i : Nat) (t : List Event)
    (hs : p.state = State.LWS_BEGIN) (hnext : p.lwsNext = State.HEADER_VALUE_BEGIN)
    (hnull : p.lwsNull = State.HEADER_VALUE_END) (hv : p.value.size = 0)
    (hws : ∀ b ∈ ws, b = SP ∨ b = HT)
    (hval : value = [] ∨ ∃ v0 vs, value = v0 :: vs ∧ isText v0 = true ∧ v0 ≠ SP ∧ v0 ≠ HT ∧
      (ws = [] → isprint v0 = true) ∧ ∀ b ∈ vs, isText b = true)
    (hdrop : buf.drop i = ws ++ (value ++ (CR :: LF :: rest))) :
    ∃ n q, after buf (whole buf) allTrue n ⟨p, i, i, t⟩
        = some ⟨q, i + (ws.length + value.length + 2), i + (ws.length + value.length + 2), t⟩ ∧
      n ≤ ws.length + value.length + 4 ∧
      q.state = (if value = [] ∧ ws ≠ [] then State.HEADER_VALUE_END
        else State.LWS_SP_HT_BEGIN) ∧
      q.lwsNull = State.HEADER_VALUE_END ∧
      (q.value.size = 0 ∨ q.value.offset + q.value.size ≤ buf.length) ∧
      q.value.bytes buf = value ∧ SameHeaderFields p q := by
  have a0 : after buf (whole buf) allTrue 0 ⟨p, i, i, t⟩ = some ⟨p, i, i, t⟩ := rfl
  cases ws with
  | nil =>
    rcases hval with rfl | ⟨v0, vs, rfl, hv0, hsp, hht, hpr, hvs⟩
    · have hd0 : buf.drop i = CR :: LF :: rest := by rw [hdrop]; rfl
      obtain ⟨hb0, hd1, hl0⟩ := getD_of_drop buf i _ _ hd0
      obtain ⟨hb1, hd2, hl1⟩ := getD_of_drop buf _ _ _ hd1
      have a1 := after_snoc buf allTrue _ _ _ _ a0 hl0
        (step_lws_begin_cr buf _ _ _ _ _ hs hb0 (by omega))
      have a2 := after_snoc buf allTrue _ _ _ _ a1 hl1
        (step_lws_lf buf _ _ _ _ _ (by rfl) hb1 (by omega))
      try dsimp only at a2
      refine ⟨_, _, after_cast _ _ _ _ _ _ _ _ _ _ a2 rfl (by simp), by simp, by simp, hnull,
        Or.inl hv, bytes_of_size_zero buf _ hv, rfl, rfl, rfl, rfl⟩
    · have hd0 : buf.drop i = v0 :: (vs ++ (CR :: LF :: rest)) := by rw [hdrop]; rfl
      obtain ⟨hb0, hd1, hl0⟩ := getD_of_drop buf i v0 _ hd0
      obtain ⟨_, hiv, hbv⟩ := drop_append_of_drop buf i (v0 :: vs) (CR :: LF :: rest)
        (by omega) hd0
      have a1 := after_snoc buf allTrue _ _ _ _ a0 hl0
        (step_lws_begin_print buf _ _ _ _ _ hs (by rw [hb0]; exact hpr rfl)
          (by rw [hb0]; exact hsp))
      rw [hnext] at a1
      have a := after_value_crlf_open buf hM v0 vs rest
        { p with state := State.HEADER_VALUE_BEGIN, lwsNext := State.HEADER_VALUE_BEGIN } i t rfl hv0 hvs hd0
      have a2 := after_trans buf _ _ _ _ _ _ _ a1 a
      simp only [List.length_cons] at hiv hbv
      refine ⟨_, _, after_cast _ _ _ _ _ _ _ _ _ _ a2 rfl
        (by simp only [List.length_nil, List.length_cons]; omega),
        by simp only [List.length_nil, List.length_cons]; omega, by simp, rfl,
        Or.inr (by simp only; omega), ?_, rfl, rfl, rfl, rfl⟩
      show BufferRef.bytes buf ⟨i, 1 + vs.length⟩ = v0 :: vs
      rw [← hbv, Nat.add_comm 1]
  | cons w0 wt =>
    have hd0 : buf.drop i = w0 :: (wt ++ (value ++ (CR :: LF :: rest))) := by
      rw [hdrop]; rfl
    obtain ⟨hb0, hd1, hl0⟩ := getD_of_drop buf i w0 _ hd0
    obtain ⟨hd2, hi2, _⟩ := drop_append_of_drop buf (i + 1) wt _ (by omega) hd1
    have a1 := after_snoc buf allTrue _ _ _ _ a0 hl0
      (step_lws_begin_ws buf _ _ _ _ _ hs (by rw [hb0]; exact hws w0 (List.mem_cons_self _ _))
        (by omega))
    have a2 := after_trans buf _ _ _ _ _ _ _ a1
      (after_ws buf hM wt _ _ _ _ (by rfl) hv
        (fun b hb => hws b (List.mem_cons_of_mem _ hb)) hd1)
    rcases hval with rfl | ⟨v0, vs, rfl, hv0, hsp, hht, hpr, hvs⟩
    · have hd3 : buf.drop (i + 1 + wt.length) = CR :: LF :: rest := by rw [hd2]; rfl
      obtain ⟨hb3, hd4, hl3⟩ := getD_of_drop buf _ _ _ hd3
      obtain ⟨hb4, hd5, hl4⟩ := getD_of_drop buf _ _ _ hd4
      have a3 := after_snoc buf allTrue _ _ _ _ a2 hl3
        (step_lws_sp_ht_next buf _ _ _ _ _ (by rfl) (by rw [hb3]; decide)
          (by rw [hb3]; decide))
      try dsimp only at a3
      rw [hnext] at a3
      have a4 := after_snoc buf allTrue _ _ _ _ a3 hl3
        (step_header_value_begin_cr buf _ _ _ _ _ (by rfl) hb3 (by omega))
      try dsimp only at a4
      have a5 := after_snoc buf allTrue _ _ _ _ a4 hl4
        (step_header_value_lf_state buf _ _ _ _ _ (by rfl) hb4 (by omega))
      try dsimp only at a5
      refine ⟨_, _, after_cast _ _ _ _ _ _ _ _ _ _ a5 rfl
        (by simp only [List.length_nil, List.length_cons]; omega),
        by simp only [List.length_nil, List.length_cons]; omega, by simp, hnull,
        Or.inl hv, bytes_of_size_zero buf _ hv, rfl, rfl, rfl, rfl⟩
    · have hd3 : buf.drop (i + 1 + wt.length) = v0 :: (vs ++ (CR :: LF :: rest)) := by
        rw [hd2]; rfl
      obtain ⟨hb3, _, hl3⟩ := getD_of_drop buf _ v0 _ hd3
      obtain ⟨_, hiv, hbv⟩ := drop_append_of_drop buf (i + 1 + wt.length) (v0 :: vs)
        (CR :: LF :: rest) (by omega) hd3
      have a3 := after_snoc buf allTrue _ _ _ _ a2 hl3
        (step_lws_sp_ht_next buf _ _ _ _ _ (by rfl) (by rw [hb3]; exact hsp)
          (by rw [hb3]; exact hht))
      try dsimp only at a3
      rw [hnext] at a3
      have a := after_value_crlf_open buf hM v0 vs rest
        { p with state := State.HEADER_VALUE_BEGIN, lwsNext := State.HEADER_VALUE_BEGIN } (i + 1 + wt.length) t rfl hv0 hvs hd3
      have a4 := after_trans buf _ _ _ _ _ _ _ a3 a
      simp only [List.length_cons] at hiv hbv
      refine ⟨_, _, after_cast _ _ _ _ _ _ _ _ _ _ a4 rfl
        (by simp only [List.length_nil, List.length_cons]; omega),
        by simp only [List.length_nil, List.length_cons]; omega, by simp, rfl,
        Or.inr (by simp only; omega), ?_, rfl, rfl, rfl, rfl⟩
      show BufferRef.bytes buf ⟨i + 1 + wt.length, 1 + vs.length⟩ = v0 :: vs
      rw [← hbv, Nat.add_comm 1]

/-- One header line and its CR LF, with nothing known about what follows: the parser has
consumed the line and holds its name and value, and no header is delivered yet. -/
theorem after_header_line_open (buf : List Nat) (hM : buf.length < SIZE_MOD)
    (h : HeaderLine) (hw : h.WellFormed) (rest : List Nat)
    (p : HttpMessageProcessor) (i : Nat) (t : List Event) (f : Int × Bool)
    (hr : HeaderReady p f)
    (hdrop : buf.drop i = h.name ++ 58 :: (h.ws ++ (h.value ++ (CR :: LF :: rest)))) :
    ∃ n q j, after buf (whole buf) allTrue n ⟨p, i, i, t⟩ = some ⟨q, j, j, t⟩ ∧
      buf.drop j = rest ∧ j ≤ buf.length ∧
      j = i + (h.name.length + 1 + h.ws.length + h.value.length + 2) ∧ n ≤ 2 * (j - i) ∧
      q.state = h.openState ∧ q.lwsNull = State.HEADER_VALUE_END ∧
      (∀ ext, q.name.bytes (buf ++ ext) = h.name) ∧
      (∀ ext, q.value.bytes (buf ++ ext) = h.value) := by
  obtain ⟨name, ws, value⟩ := h
  obtain ⟨hn0, hnt, hws, hval⟩ := hw
  dsimp only at hn0 hnt hws hval hdrop
  obtain ⟨n0, ns, rfl⟩ := List.exists_cons_of_ne_nil hn0
  obtain ⟨hst, hmode, hvz, hcl, hch⟩ := hr
  have hd0 : buf.drop i = n0 :: (ns ++ 58 :: (ws ++ (value ++ (CR :: LF :: rest)))) := by
    rw [hdrop]; rfl
  obtain ⟨aA, hdA, hiA⟩ := after_header_name_colon buf hM n0 ns _ p i t hst hnt hd0
  obtain ⟨_, hin, hbn⟩ := drop_append_of_drop buf i (n0 :: ns)
    (58 :: (ws ++ (value ++ (CR :: LF :: rest)))) (by omega) hd0
  obtain ⟨n, q, aB, hnB, hq, hqn, hqv, hqb, e1, e2, e3, e4⟩ := after_header_rest_open buf hM ws
    value rest { p with name := ⟨i, 1 + ns.length⟩, state := State.LWS_BEGIN, lwsNext := State.HEADER_VALUE_BEGIN, lwsNull := State.HEADER_VALUE_END }
    (i + (ns.length + 2)) t rfl rfl rfl hvz hws hval hdA
  have hdA1 : buf.drop (i + (ns.length + 2)) = (ws ++ (value ++ [CR, LF])) ++ rest := by
    rw [hdA]; simp
  obtain ⟨hdB, hiB, _⟩ := drop_append_of_drop buf _ _ _ hiA hdA1
  have hlen : (ws ++ (value ++ [CR, LF])).length = ws.length + value.length + 2 := by
    simp only [List.length_append, List.length_cons, List.length_nil]; omega
  rw [hlen] at hdB hiB
  have a1 := after_trans buf _ _ _ _ _ _ _ aA aB
  simp only [List.length_cons] at hin hbn
  have hname : q.name.bytes buf = n0 :: ns := by
    rw [e2]
    show BufferRef.bytes buf ⟨i, 1 + ns.length⟩ = n0 :: ns
    rw [← hbn, Nat.add_comm 1]
  have hnb : q.name.size = 0 ∨ q.name.offset + q.name.size ≤ buf.length := by
    rw [e2]; exact Or.inr (by simp only; omega)
  refine ⟨_, q, _, a1, hdB, hiB, ?_, ?_, ?_, hqn, ?_, ?_⟩
  · simp only [List.length_cons]; omega
  · omega
  · rw [hq]; rfl
  · intro ext; rw [bytes_append_left buf ext _ hnb]; exact hname
  · intro ext; rw [bytes_append_left buf ext _ hqv]; exact hqb

/-- The header that waits for the byte after its line is delivered within the first two
passes of the next call, before any byte of the new chunk is consumed. -/
theorem header_emitted_next_call (buf : List Nat) (chunk : BufferRef)
    (q : HttpMessageProcessor) (hsz : chunk.size ≠ 0)
    (hq : q.state = State.HEADER_VALUE_END ∨
      (q.state = State.LWS_SP_HT_BEGIN ∧ q.lwsNull = State.HEADER_VALUE_END ∧
        buf.getD chunk.offset 0 ≠ SP ∧ buf.getD chunk.offset 0 ≠ HT)) :
    ∃ n c, n ≤ 2 ∧ 1 ≤ n ∧
      after buf chunk allTrue n (entry q chunk (some chunk.offset)) = some c ∧
      c.trace = [Event.onMessageHeader (q.name.bytes buf) (q.value.bytes buf)] ∧
      c.i = chunk.offset ∧ c.p.state = State.HEADER_NAME_BEGIN := by
  have hne : chunk.offset ≠ chunk.offset + chunk.size := by omega
  rcases hq with hq | ⟨hq, hnull, h1, h2⟩
  · have a1 := after_one buf chunk allTrue _ _ hne
      (step_header_value_end_true buf chunk q chunk.offset [] hq)
    exact ⟨1, _, by omega, le_refl _, a1, rfl, rfl, rfl⟩
  · have a1 := after_one buf chunk allTrue _ _ hne
      (step_lws_sp_ht_begin_null buf chunk allTrue q chunk.offset [] hq h1 h2)
    have a2 := after_one buf chunk allTrue _ _ hne
      (step_header_value_end_true buf chunk { q with state := q.lwsNull } chunk.offset []
        hnull)
    have a := after_trans buf chunk allTrue 1 1 _ _ _ a1 a2
    exact ⟨2, _, le_refl _, by omega, a, rfl, rfl, rfl⟩

theorem headerBlock_append (short : Bool) (hs : List HeaderLine) (h : HeaderLine) :
    headerBlock short (hs ++ [h])
      = headerBlock short hs ++ (h.name ++ 58 :: (h.ws ++ (h.value ++ eol short))) := by
  induction hs with
  | nil => simp [headerBlock]
  | cons x xs ih =>
    rw [List.cons_append, headerBlock, headerBlock, ih]
    simp only [List.append_assoc, List.cons_append]

/-- A call of `process` on a fresh REQUEST parser over a head that ends right after the CR LF
of a header line: the call returns with the callbacks of the lines before, and the parser
holds the name and the value of the last line. -/
theorem process_open_head (method uri major minor : List Nat) (hs : List HeaderLine)
    (h : HeaderLine) (hrl : WellFormedRequestLine method uri major minor)
    (hh : ∀ x ∈ hs, x.WellFormed) (hw : h.WellFormed)
    (hM : (openHead method uri major minor hs h).length < SIZE_MOD)
    (fuel : Nat) (hf : 2 * (openHead method uri major minor hs h).length < fuel) :
    ∃ r, process fuel (HttpMessageProcessor.new ParseMode.REQUEST)
          (openHead method uri major minor hs h)
          (whole (openHead method uri major minor hs h)) none allTrue = some r ∧
      r.trace = Event.onMessageBeginRequest method uri (digitsValue 0 major)
          (digitsValue 0 minor) :: hs.map (fun x => Event.onMessageHeader x.name x.value) ∧
      r.parser.state = h.openState ∧ r.parser.lwsNull = State.HEADER_VALUE_END ∧
      r.exit = Exit.chunkEnd ∧ r.ret = (openHead method uri major minor hs h).length ∧
      (∀ ext, r.parser.name.bytes (openHead method uri major minor hs h ++ ext) = h.name) ∧
      (∀ ext, r.parser.value.bytes (openHead method uri major minor hs h ++ ext) = h.value) := by
  generalize hbuf : openHead method uri major minor hs h = buf at hM hf ⊢
  obtain ⟨n0, ns, hname⟩ := List.exists_cons_of_ne_nil hw.1
  have htok := hw.2.1 n0 (by rw [hname]; exact List.mem_cons_self _ _)
  have hn1 : n0 ≠ SP := by intro hx; subst hx; revert htok; decide
  have hn2 : n0 ≠ HT := by intro hx; subst hx; revert htok; decide
  have hd : buf.drop 0 = requestLine method uri major minor ++ (eol false ++
      (headerBlock false hs ++ n0 :: (ns ++ 58 :: (h.ws ++ (h.value ++ [CR, LF]))))) := by
    rw [← hbuf]
    simp only [openHead, headerBlock_append, hname, eol, Bool.false_eq_true, if_false,
      List.drop_zero, List.cons_append, List.append_assoc]
  obtain ⟨n1, q1, j1, a1, hd1, _, _, hn1', hr1⟩ :=
    after_request_line buf hM false method uri major minor _
      (HttpMessageProcessor.new ParseMode.REQUEST) 0 [] hrl rfl rfl rfl hd
  obtain ⟨n2, q2, j2, a2, hd2, hij, hn2', hq2⟩ :=
    after_header_block buf hM false n0 _ hn1 hn2 hs q1 j1 _ (-1, false) hh hr1 hd1
  have hd2a : buf.drop j2 = h.name ++ 58 :: (h.ws ++ (h.value ++ (CR :: LF :: []))) := by
    rw [hd2, hname]; rfl
  obtain ⟨n3, q3, j3, a3, hd3, hj3, _, hn3, hq3, hnull3, hnm, hvl⟩ :=
    after_header_line_open buf hM h hw [] q2 j2 _ _ hq2 hd2a
  have hlen : buf.length ≤ j3 := List.drop_eq_nil_iff.mp hd3
  have hj : j3 = buf.length := by omega
  subst hj
  have a := after_trans buf _ _ _ _ _ _ _ (after_trans buf _ _ _ _ _ _ _ a1 a2) a3
  have hloop := after_loop buf (whole buf) allTrue _ _ _ 1 a
  rw [loop_end buf (whole buf) allTrue 0 _ (by simp [whole])] at hloop
  have hp := process_of_loop_end (n1 + n2 + n3 + 1) (HttpMessageProcessor.new ParseMode.REQUEST)
    buf (whole buf) none allTrue _ hloop
  have hp1 := process_mono _ fuel _ _ _ _ _ _ (by omega) hp
  have hnotail : ¬ (q3.state = State.CONTENT_BEGIN ∧ q3.contentLength < 0 ∧ q3.chunked = false ∧
      q3.mode ≠ ParseMode.MESSAGE) := by
    rintro ⟨h1, _⟩
    rw [hq3] at h1
    unfold HeaderLine.openState at h1
    split_ifs at h1
  rw [tail_skip allTrue _ hnotail] at hp1
  refine ⟨_, hp1, ?_, hq3, hnull3, rfl, ?_, hnm, hvl⟩
  · simp [finish]
  · simp only [finish, whole]
    exact szSub_small _ _ (Nat.zero_le _) hM

/-! ## The count of body bytes that remain -/

theorem delivered_append (a b : List Event) :
    delivered (a ++ b) = delivered a + delivered b := by
  induction a with
  | nil => simp [delivered]
  | cons e a ih =>
    cases e <;> simp [delivered, ih, Nat.add_assoc]

theorem toSize_le (v : Int) (h : 0 ≤ v) : (toSize v : Int) ≤ v := by
  unfold toSize SIZE_MOD
  omega

theorem bodyTake_le (chunk : BufferRef) (c : Cfg) (h : 0 ≤ c.p.contentLength) :
    (bodyTake chunk c : Int) ≤ c.p.contentLength := by
  have h1 := toSize_le c.p.contentLength h
  have h2 : bodyTake chunk c ≤ toSize c.p.contentLength := by
    unfold bodyTake; exact Nat.min_le_left _ _
  omega

set_option maxHeartbeats 4000000 in
/-- One pass keeps `contentLength_` from getting negative in the counting states. -/
theorem step_counted (buf : List Nat) (chunk : BufferRef) (cb : Hooks) (c : Cfg)
    (h : Counted c.p) : Counted (step buf chunk cb c).cfg.p := by
  obtain ⟨h1, h2, h3⟩ := h
  have hk : 0 ≤ c.p.contentLength → (bodyTake chunk c : Int) ≤ c.p.contentLength :=
    bodyTake_le chunk c
  cases hs : c.p.state <;>
    simp only [step, hs, expectByte, statusCode, chunkSize, callHook, Cfg.eat, Cfg.advance,
      Cfg.setState, Cfg.takeBody, headerEffects] <;>
    (try split) <;> (try split_ifs) <;>
    simp_all [Step.cfg, Counted, State.isCounting] <;> omega

theorem counted_new (mode : ParseMode) : Counted (HttpMessageProcessor.new mode) := by
  simp [Counted, HttpMessageProcessor.new, State.isCounting]

theorem after_counted (buf : List Nat) (chunk : BufferRef) (cb : Hooks) :
    ∀ (n : Nat) (c c1 : Cfg), Counted c.p → after buf chunk cb n c = some c1 →
      Counted c1.p := by
  intro n
  induction n with
  | zero =>
    intro c c1 hc h
    simp only [after, Option.some.injEq] at h
    rw [← h]; exact hc
  | succ n ih =>
    intro c c1 hc h
    simp only [after] at h
    split_ifs at h with hi
    have hs := step_counted buf chunk cb c hc
    cases hst : step buf chunk cb c with
    | next c2 =>
      rw [hst] at h hs
      exact ih c2 c1 hs h
    | done c2 w => rw [hst] at h; simp at h

theorem loop_counted (buf : List Nat) (chunk : BufferRef) (cb : Hooks) :
    ∀ (f : Nat) (c r : Cfg) (w : Exit), Counted c.p → loop buf chunk cb f c = some (r, w) →
      Counted r.p := by
  intro f
  induction f with
  | zero => intro c r w _ h; simp [loop] at h
  | succ f ih =>
    intro c r w hc h
    simp only [loop] at h
    split_ifs at h with hi
    · cases h; exact hc
    · have hs := step_counted buf chunk cb c hc
      cases hst : step buf chunk cb c with
      | next c1 =>
        rw [hst] at h hs
        exact ih c1 r w hs h
      | done c1 w1 =>
        rw [hst] at h hs
        cases h
        exact hs

theorem tail_counted (cb : Hooks) (c : Cfg) (h : Counted c.p) : Counted (tail cb c).1.p := by
  unfold tail
  split_ifs
  · exact ⟨fun hx => by simp [Cfg.setState, State.isCounting] at hx, h.2.1, h.2.2⟩
  · exact h
  · exact h
  · exact h

theorem process_counted (f : Nat) (p : HttpMessageProcessor) (buf : List Nat)
    (chunk : BufferRef) (cur : Option Nat) (cb : Hooks) (R : Result) (hc : Counted p)
    (h : process f p buf chunk cur cb = some R) : Counted R.parser := by
  obtain ⟨c, w, hl, hcase⟩ := process_eq _ _ _ _ _ _ _ h
  have hci := loop_counted buf chunk cb f _ c w hc hl
  rcases hcase with ⟨_, hr⟩ | ⟨_, hr⟩
  · rw [hr]; exact tail_counted cb c hci
  · rw [hr]; exact hci

theorem processAll_counted (cb : Hooks) : ∀ (calls : List Call) (p q : HttpMessageProcessor)
    (t : List Event), Counted p → processAll cb p calls = some (q, t) → Counted q := by
  intro calls
  induction calls with
  | nil =>
    intro p q t hc h
    simp only [processAll, Option.some.injEq, Prod.mk.injEq] at h
    rw [← h.1]; exact hc
  | cons k rest ih =>
    intro p q t hc h
    simp only [processAll] at h
    cases hp : process k.fuel p k.buf k.chunk k.cursor cb with
    | none => rw [hp] at h; simp at h
    | some r =>
      rw [hp] at h
      simp only at h
      cases hr : processAll cb r.parser rest with
      | none => rw [hr] at h; simp at h
      | some x =>
        obtain ⟨q1, t1⟩ := x
        rw [hr] at h
        simp only [Option.some.injEq, Prod.mk.injEq] at h
        rw [← h.1]
        exact ih r.parser q1 t1 (process_counted _ _ _ _ _ _ r hc hp) hr

/-- A pass in a body state hands to `onMessageContent` exactly the bytes it takes off
`contentLength_`, whatever the hooks return. -/
theorem step_body_count (buf : List Nat) (chunk : BufferRef) (cb : Hooks) (c : Cfg)
    (hs : c.p.state = State.CONTENT ∨ c.p.state = State.CONTENT_CHUNK_BODY)
    (h0 : 0 ≤ c.p.contentLength) (hp : c.Placed buf chunk) :
    0 ≤ (step buf chunk cb c).cfg.p.contentLength ∧
    (step buf chunk cb c).cfg.p.contentLength + (delivered (step buf chunk cb c).cfg.trace : Int)
      = c.p.contentLength + (delivered c.trace : Int) := by
  obtain ⟨hnp, ha, he, hb, hM⟩ := hp
  have h1 := bodyTake_eq chunk c hnp ha he (by omega)
  have h2 := chunk_ref_eq chunk c hnp ha (by omega)
  have hk := bodyTake_le chunk c h0
  have hm : bodyTake chunk c ≤ chunk.offset + chunk.size - c.i := by
    rw [h1]; exact Nat.min_le_right _ _
  have hlen : (BufferRef.bytes buf ⟨c.i, bodyTake chunk c⟩).length = bodyTake chunk c :=
    bytes_length buf c.i _ (by omega)
  rcases hs with hs | hs
  · simp only [step, hs, h2, Cfg.takeBody, Cfg.setState, callHook]
    split_ifs <;> simp [Step.cfg, delivered_append, delivered, hlen] <;> omega
  · simp only [step, hs, h2, Cfg.takeBody, Cfg.setState, Cfg.eat, Cfg.advance, callHook]
    split_ifs <;> simp_all [Step.cfg, delivered_append, delivered, hlen]

/-- One call on a piece of a body that does not end in the piece: the piece is delivered in
one slice and taken off `contentLength_`. -/
theorem process_body_piece (buf : List Nat) (hM : buf.length < SIZE_MOD)
    (p : HttpMessageProcessor) (off len fuel : Nat)
    (hs : p.state = State.CONTENT ∨ p.state = State.CONTENT_CHUNK_BODY)
    (hlt : p.contentLength < (SIZE_MOD : Int)) (hlen : (len : Int) < p.contentLength)
    (hb : off + len ≤ buf.length) (hf : 2 ≤ fuel) :
    ∃ t, process fuel p buf ⟨off, len⟩ (some off) allTrue
        = some ⟨{ p with contentLength := p.contentLength - (len : Int) }, off + len, len, t,
            Exit.chunkEnd, off + len⟩ ∧
      delivered t = len ∧ ∀ e ∈ t, e.isContent = true := by
  obtain ⟨f, rfl⟩ : ∃ f, fuel = f + 2 := ⟨fuel - 2, by omega⟩
  have h0 : 0 ≤ p.contentLength := by omega
  have hts : toSize p.contentLength = p.contentLength.toNat :=
    toSize_of_nonneg _ h0 hlt
  by_cases hz : len = 0
  · subst hz
    have hl : loop buf ⟨off, 0⟩ allTrue (f + 2) (entry p ⟨off, 0⟩ (some off))
        = some (entry p ⟨off, 0⟩ (some off), Exit.chunkEnd) :=
      loop_end buf _ allTrue (f + 1) _ rfl
    have hp := process_of_loop_end _ p buf ⟨off, 0⟩ (some off) allTrue _ hl
    rw [tail_skip allTrue _ (by rintro ⟨h1, _⟩; rcases hs with hs | hs <;>
      (simp only [entry] at h1; rw [hs] at h1; cases h1))] at hp
    refine ⟨[], ?_, rfl, fun e he => absurd he (List.not_mem_nil e)⟩
    rw [hp]
    have e2 : szSub off off = 0 := by
      rw [szSub_small off off (le_refl _) (by omega)]; omega
    simp [finish, entry, e2]
  · have hm : len = min (toSize (entry p ⟨off, len⟩ (some off)).p.contentLength)
        ((⟨off, len⟩ : BufferRef).offset + (⟨off, len⟩ : BufferRef).size
          - (entry p ⟨off, len⟩ (some off)).i) := by
      simp only [entry, hts]
      omega
    have hne : (entry p ⟨off, len⟩ (some off)).p.contentLength - (len : Int) ≠ 0 := by
      simp only [entry]; omega
    have hst : step buf ⟨off, len⟩ allTrue (entry p ⟨off, len⟩ (some off))
        = Step.next ((entry p ⟨off, len⟩ (some off)).deliver len
            (BufferRef.bytes buf ⟨off, len⟩)) := by
      rcases hs with hs | hs
      · rw [step_content buf ⟨off, len⟩ _ hs rfl (le_refl _) (by simp [entry])
          (by simp only; omega) len hm, if_neg hne]
        rfl
      · rw [step_chunk_body buf ⟨off, len⟩ _ hs (by simp only [entry]; omega) rfl (le_refl _)
          (by simp [entry]) (by simp only; omega) len hm]
        rfl
    have hl : loop buf ⟨off, len⟩ allTrue (f + 2) (entry p ⟨off, len⟩ (some off))
        = some ((entry p ⟨off, len⟩ (some off)).deliver len (BufferRef.bytes buf ⟨off, len⟩),
            Exit.chunkEnd) := by
      rw [loop_next buf _ allTrue (f + 1) _ _ (by simp only [entry]; omega) hst]
      exact loop_end buf _ allTrue f _ (by simp [Cfg.deliver, Cfg.takeBody, entry])
    have hp := process_of_loop_end _ p buf ⟨off, len⟩ (some off) allTrue _ hl
    rw [tail_skip allTrue _ (by rintro ⟨h1, _⟩; rcases hs with hs | hs <;>
      (simp only [entry, Cfg.deliver, Cfg.takeBody] at h1; rw [hs] at h1; cases h1))] at hp
    refine ⟨[Event.onMessageContent (BufferRef.bytes buf ⟨off, len⟩)], ?_, ?_, ?_⟩
    · rw [hp]
      have e1 : szAdd off len = off + len := szAdd_small _ _ (by omega)
      have e2 : szSub (off + len) off = len := by
        rw [szSub_small _ _ (by omega) (by omega)]; omega
      simp [finish, entry, Cfg.deliver, Cfg.takeBody, e1, e2]
    · simp [delivered, bytes_length buf off len hb]
    · intro e he
      rw [List.mem_singleton] at he
      rw [he]; rfl

/-- Feeding a part of a body, in any pieces, to a parser in a body state: the bytes fed are
delivered and taken off `contentLength_`. -/
theorem feed_body_count (buf : List Nat) (hM : buf.length < SIZE_MOD) (fuel : Nat)
    (hf : 2 ≤ fuel) :
    ∀ (pieces : List Nat) (p : HttpMessageProcessor) (off : Nat),
      (p.state = State.CONTENT ∨ p.state = State.CONTENT_CHUNK_BODY) →
      p.contentLength < (SIZE_MOD : Int) → (pieces.sum : Int) < p.contentLength →
      off + pieces.sum ≤ buf.length →
      ∃ t, feed fuel buf allTrue p off off pieces
          = some ({ p with contentLength := p.contentLength - (pieces.sum : Int) },
              off + pieces.sum, t) ∧
        delivered t = pieces.sum ∧ ∀ e ∈ t, e.isContent = true := by
  intro pieces
  induction pieces with
  | nil =>
    intro p off _ _ _ _
    refine ⟨[], ?_, rfl, fun e he => absurd he (List.not_mem_nil e)⟩
    simp [feed]
  | cons len rest ih =>
    intro p off hs hlt hsum hb
    simp only [List.sum_cons, Nat.cast_add] at hsum
    simp only [List.sum_cons] at hb
    have hr0 : (0 : Int) ≤ (rest.sum : Int) := Int.ofNat_nonneg _
    obtain ⟨t1, hp1, hd1, hc1⟩ := process_body_piece buf hM p off len fuel hs hlt (by omega)
      (by omega) hf
    obtain ⟨t2, hp2, hd2, hc2⟩ := ih { p with contentLength := p.contentLength - (len : Int) }
      (off + len) hs (by simp only; omega) (by simp only; omega) (by omega)
    refine ⟨t1 ++ t2, ?_, ?_, ?_⟩
    · simp only [feed, hp1, hp2, List.sum_cons, Nat.cast_add]
      simp only [Option.some.injEq, Prod.mk.injEq, and_true]
      refine ⟨?_, by omega⟩
      congr 1
      omega
    · rw [delivered_append, hd1, hd2, List.sum_cons]
    · intro e he
      rcases List.mem_append.mp he with h | h
      · exact hc1 e h
      · exact hc2 e h

/-! ## The timer of a proxy connection -/

/-- The constructor leaves the timer inactive and the three timeouts 0. -/
theorem new_timerFields (origin : List Nat) (cloak : Bool) :
    timerFields (ProxyConnection.new origin cloak) = (false, 0, 0, 0) := rfl

theorem close_timerFields (w : World) (h : timerFields w.self = (false, 0, 0, 0)) :
    timerFields (ProxyConnection.close w).self = (false, 0, 0, 0) := by
  simp only [timerFields, Prod.mk.injEq] at h ⊢
  unfold ProxyConnection.close
  split_ifs <;> simp [h]

theorem destructor_timerFields (w : World) (h : timerFields w.self = (false, 0, 0, 0)) :
    timerFields (ProxyConnection.destructor w).self = (false, 0, 0, 0) := by
  have hc := close_timerFields w h
  unfold ProxyConnection.destructor
  split_ifs <;> exact hc

theorem destroy_timerFields (code : HttpError) (w : World)
    (h : timerFields w.self = (false, 0, 0, 0)) :
    timerFields (ProxyConnection.destroy code w).self = (false, 0, 0, 0) := by
  have hc := close_timerFields w h
  unfold ProxyConnection.destroy
  apply destructor_timerFields
  split_ifs <;> first | exact hc | exact h

/-- With `readTimeout_` 0 neither `timer_.start` of `startRead()` runs. -/
theorem startRead_timerFields (w : World) (h : w.self.readTimeout = 0) :
    timerFields (ProxyConnection.startRead w).self = timerFields w.self := by
  unfold ProxyConnection.startRead
  split <;> simp [timerFields, h]

/-- With `connectTimeout_` and `writeTimeout_` 0 none of the four `timer_.start` of
`startWrite()` runs. -/
theorem startWriteConnected_timerFields (w : World) (hc : w.self.connectTimeout = 0)
    (hw : w.self.writeTimeout = 0) :
    timerFields (ProxyConnection.startWriteConnected w).self = timerFields w.self := by
  unfold ProxyConnection.startWriteConnected
  split <;> simp [timerFields, hc, hw]

theorem connect_timerFields (env : Env) (w : World)
    (h : timerFields w.self = (false, 0, 0, 0)) :
    timerFields (ProxyConnection.connect env w).2.self = (false, 0, 0, 0) := by
  simp only [timerFields, Prod.mk.injEq] at h
  unfold ProxyConnection.connect
  simp only
  split
  · refine (startWriteConnected_timerFields _ ?_ ?_).trans ?_ <;> simp [timerFields, h]
  · refine (startWriteConnected_timerFields _ ?_ ?_).trans ?_ <;> simp [timerFields, h]
  · simp [timerFields, h]

theorem startWrite_timerFields (env : Env) (w : World)
    (h : timerFields w.self = (false, 0, 0, 0)) :
    timerFields (ProxyConnection.startWrite env w).self = (false, 0, 0, 0) := by
  have hc := connect_timerFields env w h
  have h2 := h
  simp only [timerFields, Prod.mk.injEq] at h2
  have hs := startWriteConnected_timerFields w h2.2.1 h2.2.2.2
  unfold ProxyConnection.startWrite
  split
  · split_ifs
    · exact destroy_timerFields _ _ hc
    · exact hc
  · rw [hs]; exact h

theorem readSome_timerFields (rv : Int) (data : List Nat) (eagain : Bool)
    (processed : World → HttpMessageError × World)
    (hp : ∀ v : World, timerFields (processed v).2.self = timerFields v.self) (w : World)
    (h : timerFields w.self = (false, 0, 0, 0)) :
    timerFields (ProxyConnection.readSome rv data eagain processed w).self
      = (false, 0, 0, 0) := by
  have h2 := h
  simp only [timerFields, Prod.mk.injEq] at h2
  have hr := startRead_timerFields w h2.2.2.1
  unfold ProxyConnection.readSome
  split_ifs
  · have hq : timerFields (processed { w with self := { w.self with readBuffer := w.self.readBuffer ++ data } }).2.self
        = (false, 0, 0, 0) := by
      rw [hp]; exact h
    have hq2 := hq
    simp only [timerFields, Prod.mk.injEq] at hq2
    simp only
    split
    · exact destroy_timerFields _ _ hq
    · rw [startRead_timerFields _ hq2.2.2.1]; exact hq
    · exact destroy_timerFields _ _ hq
  · exact close_timerFields w h
  · rw [hr]; exact h
  · exact close_timerFields w h

theorem writeSome_timerFields (rv : Int) (w : World)
    (h : timerFields w.self = (false, 0, 0, 0)) :
    timerFields (ProxyConnection.writeSome rv w).self = (false, 0, 0, 0) := by
  have h2 := h
  simp only [timerFields, Prod.mk.injEq] at h2
  unfold ProxyConnection.writeSome
  simp only
  split_ifs
  · simp [timerFields, h2]
  · refine (startRead_timerFields _ ?_).trans ?_ <;> simp [timerFields, h2]
  · simp [timerFields, h2]
  · exact close_timerFields w h

/-- Every method keeps the timer inactive and the timeouts 0. -/
theorem run_timerFields (k : ProxyCall) (w : World) (hk : k.KeepsTimer)
    (h : timerFields w.self = (false, 0, 0, 0)) :
    timerFields (k.run w).self = (false, 0, 0, 0) := by
  cases k with
  | start env => exact startWrite_timerFields env _ h
  | onRequestChunk env chunk => exact startWrite_timerFields env _ h
  | startWrite env => exact startWrite_timerFields env w h
  | startRead =>
    have h2 := h
    simp only [timerFields, Prod.mk.injEq] at h2
    show timerFields (ProxyConnection.startRead w).self = (false, 0, 0, 0)
    rw [startRead_timerFields w h2.2.2.1]; exact h
  | onConnectComplete env sockoptRv val =>
    show timerFields (ProxyConnection.onConnectComplete env sockoptRv val w).self = _
    unfold ProxyConnection.onConnectComplete
    split_ifs
    · exact startWrite_timerFields env w h
    · exact destroy_timerFields _ w h
    · exact destroy_timerFields _ w h
  | writeSome rv => exact writeSome_timerFields rv w h
  | readSome rv data eagain processed => exact readSome_timerFields rv data eagain processed hk w h
  | messageHeader name value =>
    show timerFields (ProxyConnection.messageHeader name value w).self = _
    unfold ProxyConnection.messageHeader
    split_ifs <;> exact h
  | close => exact close_timerFields w h
  | destroy code => exact destroy_timerFields code w h
  | onAbort => exact destructor_timerFields w h

theorem runCalls_timerFields : ∀ (calls : List ProxyCall) (w : World), KeepTimers calls →
    timerFields w.self = (false, 0, 0, 0) →
    timerFields (runCalls calls w).self = (false, 0, 0, 0) := by
  intro calls
  induction calls with
  | nil => intro w _ h; exact h
  | cons k ks ih =>
    intro w hk h
    exact ih (k.run w) hk.2 (run_timerFields k w hk.1 h)

/-! ## Scenario A: a simple GET in one chunk -/

/-- C1: a fresh REQUEST-mode parser with hooks returning true, given the single chunk
`GET /x HTTP/1.1\r\nHost: a\r\n\r\n`, invokes exactly `onMessageBegin("GET", "/x", 1, 1)`,
`onMessageHeader("Host", "a")`, `onMessageHeaderEnd()`, `onMessageEnd()` in this order, and
is left in state `MESSAGE_BEGIN`. -/
theorem simple_get_callbacks :
    (process 64 (HttpMessageProcessor.new ParseMode.REQUEST) simpleGet (whole simpleGet)
        (some 0) allTrue).map (fun r => (r.trace, r.parser.state, r.exit)) =
      some ([Event.onMessageBeginRequest (bytesOf "GET") (bytesOf "/x") 1 1,
             Event.onMessageHeader (bytesOf "Host") (bytesOf "a"),
             Event.onMessageHeaderEnd, Event.onMessageEnd],
            State.MESSAGE_BEGIN, Exit.chunkEnd) := by
  decide

/-- C2, as stated, fails: on the single chunk `GET /x HTTP/1.1\r\nHost: a\r\n\r\n` (chunk
offset 0, cursor 0) there is no number of loop passes after which `process` returns 27. -/
theorem simple_get_never_returns_27 :
    ¬ ∃ fuel r, process fuel (HttpMessageProcessor.new ParseMode.REQUEST) simpleGet
        (whole simpleGet) (some 0) allTrue = some r ∧ r.ret = 27 := by
  rintro ⟨fuel, r, h, hr⟩
  have h64 : ∃ s, process 64 (HttpMessageProcessor.new ParseMode.REQUEST) simpleGet
      (whole simpleGet) (some 0) allTrue = some s ∧ s.ret = 28 := by
    decide
  obtain ⟨s, hs, hs28⟩ := h64
  have := process_det _ _ _ _ _ _ _ _ _ h hs
  subst this
  omega

/-- C2 (amended): on the single chunk `GET /x HTTP/1.1\r\nHost: a\r\n\r\n` (chunk offset 0,
cursor 0) `process` returns 28, the length of the chunk, and leaves the cursor at 28. -/
theorem simple_get_returns_28 :
    simpleGet.length = 28 ∧
    (process 64 (HttpMessageProcessor.new ParseMode.REQUEST) simpleGet (whole simpleGet)
        (some 0) allTrue).map (fun r => (r.ret, r.nparsed)) = some (28, 28) := by
  decide

/-! ## Scenario B: the simple GET in two pieces -/

/-- C4: for every split position `k` of `GET /x HTTP/1.1\r\nHost: a\r\n\r\n`, feeding the
first `k` bytes and then the remaining bytes (second chunk at offset `k`) to a fresh
REQUEST-mode parser yields the callback sequence of the unsplit input, with the same
payloads. -/
theorem simple_get_two_pieces (k : Nat) (hk : k ≤ 28) :
    (feed 64 simpleGet allTrue (HttpMessageProcessor.new ParseMode.REQUEST) 0 0
        [k, 28 - k]).map (fun r => (r.2.2, r.1.state)) =
      some ([Event.onMessageBeginRequest (bytesOf "GET") (bytesOf "/x") 1 1,
             Event.onMessageHeader (bytesOf "Host") (bytesOf "a"),
             Event.onMessageHeaderEnd, Event.onMessageEnd], State.MESSAGE_BEGIN) ∧
    (feed 64 simpleGet allTrue (HttpMessageProcessor.new ParseMode.REQUEST) 0 0
        [k, 28 - k]).map (fun r => r.2.2) =
      (process 64 (HttpMessageProcessor.new ParseMode.REQUEST) simpleGet (whole simpleGet)
        (some 0) allTrue).map (fun r => r.trace) := by
  interval_cases k <;> decide!

/-- Witness for C4: the split after `GET ` (k = 4). -/
theorem simple_get_two_pieces_witness :
    4 ≤ 28 ∧
    (feed 64 simpleGet allTrue (HttpMessageProcessor.new ParseMode.REQUEST) 0 0
        [4, 28 - 4]).map (fun r => (r.2.2, r.1.state)) =
      some ([Event.onMessageBeginRequest (bytesOf "GET") (bytesOf "/x") 1 1,
             Event.onMessageHeader (bytesOf "Host") (bytesOf "a"),
             Event.onMessageHeaderEnd, Event.onMessageEnd], State.MESSAGE_BEGIN) :=
  ⟨by decide, (simple_get_two_pieces 4 (by decide)).1⟩

/-! ## How a call ends -/

/-- C5: for every parser state and every chunk, with the cursor equal to `chunk.offset` on
entry: when `process` returns, the whole chunk was consumed (the return value is
`chunk.size`), or the state is `SYNTAX_ERROR`, or the last hook invoked returned false.
With hooks that always return true, a return value smaller than `chunk.size` implies that the
state is `SYNTAX_ERROR`. -/
theorem process_stops_only_at_end_error_or_refusal (p : HttpMessageProcessor) (buf : List Nat)
    (chunk : BufferRef) (cb : Hooks) (fuel : Nat) (r : Result)
    (hM : chunk.offset + chunk.size < SIZE_MOD)
    (h : process fuel p buf chunk (some chunk.offset) cb = some r) :
    (r.ret = chunk.size ∨ r.parser.state = State.SYNTAX_ERROR ∨ HookRefused cb r.trace) ∧
    (cb = allTrue → r.ret < chunk.size → r.parser.state = State.SYNTAX_ERROR) := by
  have key : r.ret = chunk.size ∨ r.parser.state = State.SYNTAX_ERROR ∨
      HookRefused cb r.trace := by
    obtain ⟨c, w, hl, hr⟩ := process_eq _ _ _ _ _ _ _ h
    have hlock := loop_lock buf chunk cb hM fuel _ c w rfl (le_refl _) (by simp [entry]) hl
    rcases loop_exit buf chunk cb fuel _ c w hl with ⟨hw, hi⟩ | ⟨hw, hs⟩ | ⟨hw, hs, _⟩
    · left
      rcases hr with ⟨_, hr⟩ | ⟨hne, _⟩
      · have ht := tail_cases cb c
        rw [hr]
        simp only [finish, ht.2.1, hlock.1, hi]
        rw [szSub_small _ _ (by omega) (by omega)]
        omega
      · exact absurd hw hne
    · right; left
      rcases hr with ⟨hw2, _⟩ | ⟨_, hr⟩
      · rw [hw] at hw2; cases hw2
      · rw [hr]; exact hs
    · right; right
      rcases hr with ⟨hw2, _⟩ | ⟨_, hr⟩
      · rw [hw] at hw2; cases hw2
      · rw [hr]; exact hs
  refine ⟨key, ?_⟩
  intro hcb hlt
  subst hcb
  rcases key with h1 | h1 | h1
  · omega
  · exact h1
  · exact absurd h1 (not_hookRefused_allTrue _)

/-- Witness for C5: on `GE@ / HTTP/1.1\r\n` the call returns 2 of 16 bytes and the state is
`SYNTAX_ERROR`. -/
theorem process_stops_only_at_end_error_or_refusal_witness :
    ∃ r, process 16 (HttpMessageProcessor.new ParseMode.REQUEST) badMethod (whole badMethod)
        (some (whole badMethod).offset) allTrue = some r ∧ r.ret = 2 ∧
      (r.ret < (whole badMethod).size → r.parser.state = State.SYNTAX_ERROR) :=
  ⟨_, rfl, by decide,
    (process_stops_only_at_end_error_or_refusal (HttpMessageProcessor.new ParseMode.REQUEST)
      badMethod (whole badMethod) allTrue 16 _ (by decide) rfl).2 rfl⟩

/-! ## The cursor -/

/-- C6, as stated, fails in two ways.  For a cursor that differs from `chunk.offset`: on the
chunk `GET /x HTTP/1.1\r\nHost: a\r\n\r\n` at offset 0 with the cursor at 100 on entry, the
cursor moves from 100 to 128 (by 28) while `process` returns 128.  For a cursor at the end of
the range of `size_t`: on the same chunk with the cursor at 2^64 - 1 on entry, the cursor
after the call is 27, which is less than the cursor before it. -/
theorem cursor_increment_differs_from_return :
    (∃ r, process 64 (HttpMessageProcessor.new ParseMode.REQUEST) simpleGet (whole simpleGet)
        (some 100) allTrue = some r ∧ r.nparsed - 100 = 28 ∧ r.ret = 128 ∧
      r.nparsed - 100 ≠ r.ret) ∧
    (∃ r, process 64 (HttpMessageProcessor.new ParseMode.REQUEST) simpleGet (whole simpleGet)
        (some 18446744073709551615) allTrue = some r ∧ r.nparsed = 27 ∧
      r.nparsed < 18446744073709551615) := by
  refine ⟨by decide, by decide⟩

/-- C6 (amended): for every call `process(chunk, &cursor)` that returns, from any parser state
and with any cursor on entry: the read pointer does not move back, and the cursor after the
call is the cursor before it plus the number of bytes the read pointer advanced, in `size_t`
arithmetic.  So, unless that sum leaves the range of `size_t`, the cursor after the call is at
least the cursor before it, and the increment is that number of bytes.  The value returned is
the cursor after the call less `chunk.offset` (modulo 2^64); it equals the increment if and
only if the cursor equals `chunk.offset` on entry.  With the cursor equal to `chunk.offset`
on entry (and `chunk.offset + chunk.size` in the range of `size_t`) the cursor does not move
back, the increment is the value returned, and it is at most `chunk.size`. -/
theorem cursor_monotone (p : HttpMessageProcessor) (buf : List Nat) (chunk : BufferRef)
    (cur : Nat) (cb : Hooks) (fuel : Nat) (r : Result) (hcur : cur < SIZE_MOD)
    (h : process fuel p buf chunk (some cur) cb = some r) :
    chunk.offset ≤ r.i ∧
    r.nparsed = szAdd cur (r.i - chunk.offset) ∧
    r.ret = szSub r.nparsed chunk.offset ∧
    (cur + (r.i - chunk.offset) < SIZE_MOD →
      cur ≤ r.nparsed ∧ r.nparsed - cur = r.i - chunk.offset ∧
      (chunk.offset < SIZE_MOD → (r.nparsed - cur = r.ret ↔ cur = chunk.offset))) ∧
    (cur = chunk.offset → chunk.offset + chunk.size < SIZE_MOD →
      cur ≤ r.nparsed ∧ r.nparsed - cur = r.ret ∧ r.ret ≤ chunk.size) := by
  obtain ⟨c, w, hl, hr⟩ := process_eq _ _ _ _ _ _ _ h
  have hnp : r.nparsed = c.nparsed ∧ r.i = c.i ∧ r.ret = szSub c.nparsed chunk.offset := by
    rcases hr with ⟨_, hr⟩ | ⟨_, hr⟩
    · have ht := tail_cases cb c
      rw [hr]
      simp only [finish, ht.1, ht.2.1, and_self]
    · rw [hr]
      simp only [finish, and_self]
  have hk := loop_lockstep buf chunk cb fuel _ c w (by simpa [entry] using hcur) hl
  simp only [entry, Option.getD_some] at hk
  obtain ⟨h1, h2, h3⟩ := hnp
  obtain ⟨k1, k2⟩ := hk
  rw [← h2] at k1 k2
  rw [← h1] at k2 h3
  refine ⟨k1, k2, h3, ?_, ?_⟩
  · intro hw
    have e : r.nparsed = cur + (r.i - chunk.offset) := by rw [k2, szAdd_small _ _ hw]
    refine ⟨by omega, by omega, ?_⟩
    intro ho
    rw [h3, e]
    unfold szSub SIZE_MOD
    unfold SIZE_MOD at hw ho
    omega
  · intro hc hM
    subst hc
    have hlock := loop_lock buf chunk cb hM fuel _ c w rfl (le_refl _) (by simp [entry]) hl
    simp only [entry, Option.getD_some] at hlock
    rw [h3, h1, hlock.1, szSub_small _ _ (by omega) (by omega)]
    omega

/-- Witness for C6 (amended): the simple GET at offset 0 with the cursor at 100 on entry; the
cursor moves to 128, by the 28 bytes consumed. -/
theorem cursor_monotone_witness :
    ∃ r, process 64 (HttpMessageProcessor.new ParseMode.REQUEST) simpleGet (whole simpleGet)
        (some 100) allTrue = some r ∧
      100 ≤ r.nparsed ∧ r.nparsed - 100 = r.i - (whole simpleGet).offset :=
  ⟨_, rfl,
    ((cursor_monotone (HttpMessageProcessor.new ParseMode.REQUEST) simpleGet (whole simpleGet)
      100 allTrue 64 _ (by decide) rfl).2.2.2.1 (by decide)).1,
    ((cursor_monotone (HttpMessageProcessor.new ParseMode.REQUEST) simpleGet (whole simpleGet)
      100 allTrue 64 _ (by decide) rfl).2.2.2.1 (by decide)).2.1⟩

/-! ## `SYNTAX_ERROR` is terminal -/

/-- C7, as stated, fails for the return value: after the first call on `GE@ / HTTP/1.1\r\n`
(offset 0) has left the parser in `SYNTAX_ERROR` with the cursor at 2, the call on the next
chunk (offset 16) with that cursor returns `2 - 16` modulo `2^64`, not 0. -/
theorem syntax_error_return_not_zero :
    ((process 16 (HttpMessageProcessor.new ParseMode.REQUEST) (badMethod ++ [CR, LF]) ⟨0, 16⟩
        (some 0) allTrue).bind fun r1 =>
      (process 16 r1.parser (badMethod ++ [CR, LF]) ⟨16, 2⟩ (some r1.nparsed) allTrue).map
        fun r2 => (r1.parser.state, r1.nparsed, r2.parser.state, r2.nparsed, r2.ret)) =
      some (State.SYNTAX_ERROR, 2, State.SYNTAX_ERROR, 2, 18446744073709551602) ∧
    18446744073709551602 ≠ 0 := by
  decide

/-- C7 (amended): if the parser state is `SYNTAX_ERROR` on entry, then for every chunk and
every cursor `process` returns (after at most one pass), leaves the cursor unchanged,
invokes no hook, leaves the state `SYNTAX_ERROR` and all parser fields as they were, and
returns `cursor - chunk.offset` modulo `2^64`; this is 0 when the cursor equals
`chunk.offset` on entry. -/
theorem syntax_error_terminal (p : HttpMessageProcessor) (buf : List Nat) (chunk : BufferRef)
    (cursor : Nat) (cb : Hooks) (fuel : Nat) (h : p.state = State.SYNTAX_ERROR) :
    ∃ r, process (fuel + 1) p buf chunk (some cursor) cb = some r ∧
      r.nparsed = cursor ∧ r.trace = [] ∧ r.parser = p ∧
      r.parser.state = State.SYNTAX_ERROR ∧
      r.ret = szSub cursor chunk.offset ∧
      (cursor = chunk.offset → cursor < SIZE_MOD → r.ret = 0) := by
  obtain ⟨r, h1, h2, h3, h4, h5⟩ := process_syntax_error fuel p buf chunk (some cursor) cb h
  simp only [Option.getD_some] at h4 h5
  refine ⟨r, h1, h4, h3, h2, by rw [h2]; exact h, h5, ?_⟩
  intro hc hlt
  rw [h5, ← hc, szSub_small _ _ (le_refl _) hlt]
  omega

/-- Witness for C7 (amended): a parser in `SYNTAX_ERROR` given the simple GET. -/
theorem syntax_error_terminal_witness :
    ∃ r, process 1 { HttpMessageProcessor.new ParseMode.REQUEST with state := State.SYNTAX_ERROR }
        simpleGet (whole simpleGet) (some 0) allTrue = some r ∧
      r.nparsed = 0 ∧ r.trace = [] ∧ r.parser.state = State.SYNTAX_ERROR ∧ r.ret = 0 := by
  obtain ⟨r, h1, h2, h3, _, h5, _, h7⟩ :=
    syntax_error_terminal
      { HttpMessageProcessor.new ParseMode.REQUEST with state := State.SYNTAX_ERROR }
      simpleGet (whole simpleGet) 0 allTrue 0 rfl
  exact ⟨r, h1, h2, h3, h5, h7 rfl (by decide)⟩

/-! ## The byte that triggers `SYNTAX_ERROR` -/

/-- C8: whenever a fresh parser (any mode, any hooks), given an input as one chunk with the
cursor at 0, returns in state `SYNTAX_ERROR`, the transition into `SYNTAX_ERROR` was made by
a pass of the loop that examined the byte at some index `c.i` inside the input and did not
consume it: the read pointer is still at that index when `process` returns, and the value
returned is that index. -/
theorem syntax_error_byte_unconsumed (mode : ParseMode) (buf : List Nat) (cb : Hooks)
    (fuel : Nat) (r : Result) (hM : buf.length < SIZE_MOD)
    (h : process fuel (HttpMessageProcessor.new mode) buf (whole buf) (some 0) cb = some r)
    (hr : r.parser.state = State.SYNTAX_ERROR) :
    ∃ n c, after buf (whole buf) cb n (entry (HttpMessageProcessor.new mode) (whole buf) (some 0))
        = some c ∧
      c.p.state ≠ State.SYNTAX_ERROR ∧ c.i < buf.length ∧
      (step buf (whole buf) cb c).cfg.p.state = State.SYNTAX_ERROR ∧
      (step buf (whole buf) cb c).cfg.i = c.i ∧
      r.i = c.i ∧ r.ret = c.i ∧ r.exit = Exit.syntaxError := by
  have hM2 : (whole buf).offset + (whole buf).size < SIZE_MOD := by simpa [whole] using hM
  obtain ⟨c1, w, hl, hcase⟩ := process_eq _ _ _ _ _ _ _ h
  have hfresh : (entry (HttpMessageProcessor.new mode) (whole buf) (some 0)).p.state
      ≠ State.SYNTAX_ERROR := by simp [entry, HttpMessageProcessor.new]
  have hlock := loop_lock buf (whole buf) cb hM2 fuel _ c1 w rfl (le_refl _)
    (by simp [entry, whole]) hl
  have hc1 : c1.p.state = State.SYNTAX_ERROR := by
    by_contra hne
    rcases hcase with ⟨_, hr2⟩ | ⟨_, hr2⟩
    · have ht := (tail_cases cb c1).2.2.2 hne
      rw [hr2] at hr
      exact ht hr
    · rw [hr2] at hr
      exact hne hr
  obtain ⟨n, c0, h1, h2, h3, h4, h5, h6, h7⟩ :=
    loop_error_position buf (whole buf) cb fuel _ c1 w hfresh hl hc1
  have hr2 : r = finish (whole buf) (c1, w) := by
    rcases hcase with ⟨hw, _⟩ | ⟨_, hr2⟩
    · rw [h7] at hw; cases hw
    · exact hr2
  have hb : c0.i < buf.length := by
    have h8 := hlock.2.2.1
    simp only [whole] at h3 h8
    omega
  refine ⟨n, c0, h1, h2, hb, ?_, ?_, ?_, ?_, ?_⟩
  · rw [h4]; exact hc1
  · rw [h4]; exact h5
  · rw [hr2]; exact h5
  · rw [hr2]
    simp only [finish, whole]
    rw [hlock.1, h5, szSub_small _ _ (Nat.zero_le _) (by omega)]
    omega
  · rw [hr2]; exact h7

/-- Witness for C8: on the REQUEST-mode input `GE@ / HTTP/1.1\r\n` the state is
`SYNTAX_ERROR`, the value returned is 2 (the index of `@`), and no hook is invoked. -/
theorem syntax_error_byte_unconsumed_witness :
    ∃ r, process 16 (HttpMessageProcessor.new ParseMode.REQUEST) badMethod (whole badMethod)
        (some 0) allTrue = some r ∧
      r.parser.state = State.SYNTAX_ERROR ∧ r.ret = 2 ∧ r.trace = [] ∧
      badMethod.getD 2 0 = 64 ∧
      ∃ n c, after badMethod (whole badMethod) allTrue n
          (entry (HttpMessageProcessor.new ParseMode.REQUEST) (whole badMethod) (some 0)) = some c ∧
        c.p.state ≠ State.SYNTAX_ERROR ∧ c.i < badMethod.length ∧
        (step badMethod (whole badMethod) allTrue c).cfg.p.state = State.SYNTAX_ERROR ∧
        (step badMethod (whole badMethod) allTrue c).cfg.i = c.i ∧
        2 = c.i :=
  ⟨_, rfl, by decide, by decide, by decide, by decide,
    (syntax_error_byte_unconsumed ParseMode.REQUEST badMethod allTrue 16 _ (by decide) rfl
      (by decide)).imp fun _ hn =>
        hn.imp fun _ hc => ⟨hc.1, hc.2.1, hc.2.2.1, hc.2.2.2.1, hc.2.2.2.2.1,
          hc.2.2.2.2.2.2.1⟩⟩

/-! ## Fragmentation -/

/-- C3, as stated, fails for a request with a body: the stream
`POST /p HTTP/1.1\r\nContent-Length: 5\r\n\r\nhello` fed as the pieces of 41 and 3 bytes gives
the content callbacks `he` and `llo`, while the stream fed as one chunk gives the single
content callback `hello`; the callback sequences differ. -/
theorem fragmentation_changes_content_slices :
    (feed 64 postHello allTrue (HttpMessageProcessor.new ParseMode.REQUEST) 0 0 [41, 3]).map
        (fun r => r.2.2) =
      some [Event.onMessageBeginRequest (bytesOf "POST") (bytesOf "/p") 1 1,
            Event.onMessageHeader (bytesOf "Content-Length") (bytesOf "5"),
            Event.onMessageHeaderEnd,
            Event.onMessageContent (bytesOf "he"), Event.onMessageContent (bytesOf "llo"),
            Event.onMessageEnd] ∧
    (process 64 (HttpMessageProcessor.new ParseMode.REQUEST) postHello (whole postHello) (some 0)
        allTrue).map (fun r => r.trace) =
      some [Event.onMessageBeginRequest (bytesOf "POST") (bytesOf "/p") 1 1,
            Event.onMessageHeader (bytesOf "Content-Length") (bytesOf "5"),
            Event.onMessageHeaderEnd,
            Event.onMessageContent (bytesOf "hello"),
            Event.onMessageEnd] ∧
    (feed 64 postHello allTrue (HttpMessageProcessor.new ParseMode.REQUEST) 0 0 [41, 3]).map
        (fun r => r.2.2) ≠
      (process 64 (HttpMessageProcessor.new ParseMode.REQUEST) postHello (whole postHello) (some 0)
        allTrue).map (fun r => r.trace) := by
  decide!

/-- C3 (amended): for every stream on which the call with the whole stream as one chunk
returns (hooks returning true, fresh parser of any mode) and every way of splitting the stream
into consecutive pieces, feeding the pieces in order (each chunk's offset being the number of
bytes before it) returns as well, leaves the parser with the same fields, and produces the
callback sequence of the one-chunk run with the same payloads, except that the payload of an
`onMessageContent` callback may be delivered as several consecutive non-empty
`onMessageContent` slices whose concatenation is that payload.  When the one-chunk run has
no `onMessageContent` callback the two sequences are identical. -/
theorem fragmentation_transparency (mode : ParseMode) (buf : List Nat) (pieces : List Nat)
    (f : Nat) (R : Result) (hM : buf.length < SIZE_MOD) (hsum : pieces.sum = buf.length)
    (h : process f (HttpMessageProcessor.new mode) buf (whole buf) (some 0) allTrue = some R) :
    ∃ f2 cur2 t,
      feed f2 buf allTrue (HttpMessageProcessor.new mode) 0 0 pieces = some (R.parser, cur2, t) ∧
      Reslices t R.trace ∧
      ((∀ ev ∈ R.trace, ev.isContent = false) → t = R.trace) := by
  have h2 : process f (HttpMessageProcessor.new mode) buf ⟨0, pieces.sum⟩ (some 0) allTrue
      = some R := by
    rw [hsum]; exact h
  obtain ⟨f2, cur2, t, hfeed, hres⟩ :=
    feed_whole buf pieces 0 0 (HttpMessageProcessor.new mode) f R (inv_new mode)
      (by omega) (by omega) (Or.inl rfl) h2
  exact ⟨f2, cur2, t, hfeed, hres, fun hno => hres.eq_of_no_content hno⟩

/-- Witness for C3 (amended): the POST request of scenario C in pieces of 41 and 3 bytes. -/
theorem fragmentation_transparency_witness :
    postHello.length < SIZE_MOD ∧ [41, 3].sum = postHello.length ∧
    ∃ R, process 64 (HttpMessageProcessor.new ParseMode.REQUEST) postHello (whole postHello)
        (some 0) allTrue = some R ∧
      ∃ f2 cur2 t,
        feed f2 postHello allTrue (HttpMessageProcessor.new ParseMode.REQUEST) 0 0 [41, 3]
          = some (R.parser, cur2, t) ∧
        Reslices t R.trace ∧ ((∀ ev ∈ R.trace, ev.isContent = false) → t = R.trace) :=
  ⟨by decide, by decide, _, rfl,
    fragmentation_transparency ParseMode.REQUEST postHello [41, 3] 64 _ (by decide) (by decide)
      rfl⟩

/-! ## Bodies -/

/-- C10: chunked decoding.  Let `head` be a response head after which (fed as one chunk to a
fresh RESPONSE-mode parser, hooks returning true) the parser expects a chunked body: it is in
`CONTENT_BEGIN` with `chunked_` true, as it is after a head carrying
`Transfer-Encoding: chunked`.  Let the head be followed by the encoding
`size CRLF data CRLF` of chunks with non-empty data, each size line being hexadecimal digits
(in either case) that denote the length of the data, and then by `0 CRLF CRLF`.  Then for
every fragmentation of the stream into consecutive chunks the parser returns from every call,
emits the callbacks of the head (ending with `onMessageHeaderEnd`), after them non-empty
`onMessageContent` slices whose concatenation is the concatenation of the data, then exactly
one `onMessageEnd`, and ends in state `MESSAGE_BEGIN`.  For
`HTTP/1.1 200 OK\r\nTransfer-Encoding: chunked\r\n\r\n5\r\nhello\r\n0\r\n\r\n` in one chunk
the sequence is begin (1, 1, 200, `OK`), header, header end, content (`hello`), end. -/
theorem chunked_decoding :
    (∀ (head : List Nat) (cs : List (List Nat × List Nat)) (pieces : List Nat) (fH : Nat)
        (RH : Result),
      ValidChunks cs → (head ++ chunkedBody cs).length < SIZE_MOD →
      pieces.sum = (head ++ chunkedBody cs).length →
      process fH (HttpMessageProcessor.new ParseMode.RESPONSE) (head ++ chunkedBody cs)
        ⟨0, head.length⟩ (some 0) allTrue = some RH →
      RH.parser.state = State.CONTENT_BEGIN → RH.parser.chunked = true →
      ∃ (f : Nat) (q : HttpMessageProcessor) (cur : Nat) (pre : List Event)
          (slices : List (List Nat)),
        feed f (head ++ chunkedBody cs) allTrue (HttpMessageProcessor.new ParseMode.RESPONSE)
            0 0 pieces
          = some (q, cur, pre ++ slices.map Event.onMessageContent ++ [Event.onMessageEnd]) ∧
        Reslices pre RH.trace ∧ pre.getLast? = some Event.onMessageHeaderEnd ∧
        (∀ s ∈ slices, s ≠ []) ∧ slices.flatten = (cs.map Prod.snd).flatten ∧
        q.state = State.MESSAGE_BEGIN) ∧
    (process 64 (HttpMessageProcessor.new ParseMode.RESPONSE) chunkedHello (whole chunkedHello)
        (some 0) allTrue).map (fun r => (r.trace, r.parser.state)) =
      some ([Event.onMessageBeginResponse 1 1 200 (bytesOf "OK"),
             Event.onMessageHeader (bytesOf "Transfer-Encoding") (bytesOf "chunked"),
             Event.onMessageHeaderEnd,
             Event.onMessageContent (bytesOf "hello"),
             Event.onMessageEnd], State.MESSAGE_BEGIN) := by
  refine ⟨?_, by decide!⟩
  intro head cs pieces fH RH hv hM hsum hH hst hch
  have hh : head.length ≤ (head ++ chunkedBody cs).length := by simp
  obtain ⟨_, hRinv, _⟩ := head_loop (head ++ chunkedBody cs) head.length
    (HttpMessageProcessor.new ParseMode.RESPONSE) fH RH (by omega) (inv_new _)
    (by simp [HttpMessageProcessor.new]) hH hst
  obtain ⟨n, ha⟩ := after_chunked_body (head ++ chunkedBody cs) hM cs RH.parser head.length
    RH.trace hv hst hch (by simp) hh
  obtain ⟨f, cur, pre, tb, hfeed, hpre, hlast, htb⟩ :=
    feed_of_head (head ++ chunkedBody cs) head.length
      (HttpMessageProcessor.new ParseMode.RESPONSE) fH RH pieces hh hM hsum (inv_new _)
      (by simp [HttpMessageProcessor.new]) hH hst n _
      ((cs.map Prod.snd).map Event.onMessageContent ++ [Event.onMessageEnd]) ha rfl
      (inv_message_begin _ hRinv) (by simp only [List.map_map, List.append_assoc]; rfl)
  obtain ⟨slices, ht, hj, hne⟩ := Reslices.contents_inv (cs.map Prod.snd) tb
    [Event.onMessageEnd]
    (by
      intro d hd
      obtain ⟨x, hx, hxd⟩ := List.mem_map.mp hd
      rw [← hxd]
      exact (hv x hx).2.1)
    (by simp [Event.isContent]) htb
  refine ⟨f, { RH.parser with contentLength := 0, state := State.MESSAGE_BEGIN }, cur, pre,
    slices, ?_, hpre, hlast, hne, hj, rfl⟩
  rw [hfeed, ht]
  simp only [List.append_assoc]

/-- Witness for C10: the head and the chunk of scenario D, fed in pieces of 49, 4 and 9
bytes. -/
theorem chunked_decoding_witness :
    ValidChunks helloChunks ∧ (chunkedHead ++ chunkedBody helloChunks).length < SIZE_MOD ∧
    [49, 4, 9].sum = (chunkedHead ++ chunkedBody helloChunks).length ∧
    ∃ RH, process 64 (HttpMessageProcessor.new ParseMode.RESPONSE)
        (chunkedHead ++ chunkedBody helloChunks) ⟨0, chunkedHead.length⟩ (some 0) allTrue
        = some RH ∧
      RH.parser.state = State.CONTENT_BEGIN ∧ RH.parser.chunked = true ∧
      ∃ (f : Nat) (q : HttpMessageProcessor) (cur : Nat) (pre : List Event)
          (slices : List (List Nat)),
        feed f (chunkedHead ++ chunkedBody helloChunks) allTrue
            (HttpMessageProcessor.new ParseMode.RESPONSE) 0 0 [49, 4, 9]
          = some (q, cur, pre ++ slices.map Event.onMessageContent ++ [Event.onMessageEnd]) ∧
        Reslices pre RH.trace ∧ pre.getLast? = some Event.onMessageHeaderEnd ∧
        (∀ s ∈ slices, s ≠ []) ∧ slices.flatten = (helloChunks.map Prod.snd).flatten ∧
        q.state = State.MESSAGE_BEGIN :=
  ⟨by decide, by decide, by decide, _, rfl, by decide, by decide,
    chunked_decoding.1 chunkedHead helloChunks [49, 4, 9] 64 _ (by decide) (by decide)
      (by decide) rfl (by decide) (by decide)⟩

/-! ## Folded header -/

/-- C11, as stated, fails: on `GET / HTTP/1.1\r\nX: a\r\n b\r\n\r\n` the single
`onMessageHeader` callback receives the name `X` and the value `a\r\n b` (five bytes: the
fold's CR LF SP lie inside the value), not the value `a b`. -/
theorem folded_header_value_keeps_fold :
    (process 64 (HttpMessageProcessor.new ParseMode.REQUEST) foldedHeader (whole foldedHeader)
        (some 0) allTrue).map (fun r => r.trace.filter Event.isHeader) =
      some [Event.onMessageHeader (bytesOf "X") (bytesOf "a\r\n b")] ∧
    (process 64 (HttpMessageProcessor.new ParseMode.REQUEST) foldedHeader (whole foldedHeader)
        (some 0) allTrue).map (fun r => r.trace.filter Event.isHeader) ≠
      some [Event.onMessageHeader (bytesOf "X") (bytesOf "a b")] := by
  decide!

/-- C11 (amended): for a fresh REQUEST-mode parser and the input
`GET / HTTP/1.1\r\nX: a\r\n b\r\n\r\n`, exactly one `onMessageHeader` callback is emitted; its
name is `X` and its value is the contiguous byte range `a\r\n b` from the first byte of the
first physical segment to the last byte of the continuation, the CR LF SP of the fold
included.  The whole input is consumed and the callbacks are begin, that header, header end,
end. -/
theorem folded_header_callbacks :
    (process 64 (HttpMessageProcessor.new ParseMode.REQUEST) foldedHeader (whole foldedHeader)
        (some 0) allTrue).map (fun r => (r.trace, r.parser.state, r.ret)) =
      some ([Event.onMessageBeginRequest (bytesOf "GET") (bytesOf "/") 1 1,
             Event.onMessageHeader (bytesOf "X") [97, CR, LF, SP, 98],
             Event.onMessageHeaderEnd, Event.onMessageEnd], State.MESSAGE_BEGIN, 28) := by
  decide!

/-! ## Hooks that return false -/

/-- C12: a callback that returns false halts parsing.  (1) At every hook invocation of a
pass through the loop (`hookCalls` lists them with the configuration at the moment of the
invocation): if the hook returns false, the pass leaves the loop through `done` with no
further hook invoked and with the read pointer and the cursor where they were at the
invocation.  (2) The same holds for the hook of the end-of-chunk tail.  (3) For every call of
`process` that returns: a hook that returned false is the last callback of the call, and the
call returns as left by (1) or (2): its trace ends with that hook and its cursor is the one
at the invocation. -/
theorem hook_false_halts (buf : List Nat) (chunk : BufferRef) (cb : Hooks) :
    (∀ (c : Cfg) (s : Cfg × Event), s ∈ hookCalls buf chunk cb c → cb s.1.trace s.2 = false →
      ∃ c1, step buf chunk cb c = Step.done c1 Exit.hookFalse ∧
        c1.trace = s.1.trace ++ [s.2] ∧ c1.i = s.1.i ∧ c1.nparsed = s.1.nparsed) ∧
    (∀ (c : Cfg) (s : Cfg × Event), s ∈ tailCalls c → cb s.1.trace s.2 = false →
      tail cb c = ({ c with trace := c.trace ++ [Event.onMessageEnd] }, Exit.hookFalse) ∧
        s = (c, Event.onMessageEnd)) ∧
    (∀ (fuel : Nat) (p : HttpMessageProcessor) (cur : Option Nat) (R : Result),
      process fuel p buf chunk cur cb = some R →
      (∀ pre ev post, R.trace = pre ++ ev :: post → cb pre ev = false →
        post = [] ∧ R.exit = Exit.hookFalse) ∧
      (R.exit = Exit.hookFalse →
        (∃ n c s, after buf chunk cb n (entry p chunk cur) = some c ∧
          s ∈ hookCalls buf chunk cb c ∧ cb s.1.trace s.2 = false ∧
          R.trace = s.1.trace ++ [s.2] ∧ R.i = s.1.i ∧ R.nparsed = s.1.nparsed) ∨
        (∃ c s, loop buf chunk cb fuel (entry p chunk cur) = some (c, Exit.chunkEnd) ∧
          s ∈ tailCalls c ∧ cb s.1.trace s.2 = false ∧
          R.trace = s.1.trace ++ [s.2] ∧ R.i = s.1.i ∧ R.nparsed = s.1.nparsed))) := by
  refine ⟨?_, ?_, ?_⟩
  · intro c s hmem hr
    obtain ⟨c1, h1, h2, h3, h4, _⟩ := hook_refused_step buf chunk cb c s hmem hr
    exact ⟨c1, h1, h2, h3, h4⟩
  · intro c s hmem hr
    exact tail_refused cb c s hmem hr
  · intro fuel p cur R h
    constructor
    · intro pre ev post heq hr
      rcases process_accepted fuel p buf chunk cur cb R h with ⟨hx, t, e, ht, hacc, _⟩ | ⟨_, hacc⟩
      · rw [ht] at heq
        exact ⟨(refused_is_last cb t e hacc pre ev post heq hr).1, hx⟩
      · have := hacc pre ev post heq
        rw [hr] at this
        cases this
    · intro hx
      obtain ⟨c, w, hl, hcase⟩ := process_eq _ _ _ _ _ _ _ h
      rcases hcase with ⟨hw, hR⟩ | ⟨hw, hR⟩
      · subst hw
        right
        have hla := loop_accepted buf chunk cb fuel _ c _ (by simpa [entry] using AllAccepted.nil cb) hl
        rcases hla with ⟨hy, _⟩ | ⟨_, hacc⟩
        · cases hy
        · rcases tail_accepted cb c hacc with ⟨h1, _⟩ | ⟨_, _, s, hs1, hs2, hs3, hs4, hs5⟩
          · rw [hR] at hx
            simp only [finish, h1] at hx
            cases hx
          · refine ⟨c, s, hl, hs1, hs2, ?_, ?_, ?_⟩ <;> rw [hR] <;> simp only [finish] <;>
              assumption
      · left
        have hw2 : w = Exit.hookFalse := by
          rw [hR] at hx
          simpa [finish] using hx
        subst hw2
        obtain ⟨n, c0, s, ha, _, hs1, hs2, hs3, hs4, hs5⟩ :=
          loop_refused_position buf chunk cb fuel _ c hl
        refine ⟨n, c0, s, ha, hs1, hs2, ?_, ?_, ?_⟩ <;> rw [hR] <;> simp only [finish] <;>
          assumption

/-- Witness for C12: on `GET / HTTP/1.1\r\nX: a\r\n\r\n` with hooks that refuse
`onMessageHeader`, the call returns after begin and the header, with 22 of 26 bytes
consumed. -/
theorem hook_false_halts_witness :
    ∃ R, process 64 (HttpMessageProcessor.new ParseMode.REQUEST) getWithHeader
        (whole getWithHeader) (some 0) refuseHeader = some R ∧
      R.trace = [Event.onMessageBeginRequest (bytesOf "GET") (bytesOf "/") 1 1,
                 Event.onMessageHeader (bytesOf "X") (bytesOf "a")] ∧
      R.ret = 22 ∧
      (∀ pre ev post, R.trace = pre ++ ev :: post → refuseHeader pre ev = false →
        post = [] ∧ R.exit = Exit.hookFalse) :=
  ⟨_, rfl, by decide, by decide,
    ((hook_false_halts getWithHeader (whole getWithHeader) refuseHeader).2.2 64
      (HttpMessageProcessor.new ParseMode.REQUEST) (some 0) _ rfl).1⟩

/-- C13 fails on the code at two callback sites.  `HEADER_VALUE_END`: on
`GET / HTTP/1.1\r\nX: a\r\n\r\n` with hooks that refuse `onMessageHeader`, the hook is invoked
in state `HEADER_VALUE_END` with `name_` = `X` and `value_` = `a`; when `process` returns, the
state is `HEADER_NAME_BEGIN` and `name_` and `value_` are empty.  `CONTENT`: on
`POST /p HTTP/1.1\r\nContent-Length: 5\r\n\r\nhello` with hooks that refuse
`onMessageContent`, the hook is invoked in state `CONTENT`; when `process` returns, the state
is `MESSAGE_BEGIN`. -/
theorem refused_hook_state_written :
    ((after getWithHeader (whole getWithHeader) refuseHeader 25
        (entry (HttpMessageProcessor.new ParseMode.REQUEST) (whole getWithHeader) (some 0))).map
      fun c => (hookCalls getWithHeader (whole getWithHeader) refuseHeader c).map fun s =>
        (s.1.p.state, s.1.p.name.bytes getWithHeader, s.1.p.value.bytes getWithHeader,
          refuseHeader s.1.trace s.2)) =
      some [(State.HEADER_VALUE_END, bytesOf "X", bytesOf "a", false)] ∧
    (process 64 (HttpMessageProcessor.new ParseMode.REQUEST) getWithHeader (whole getWithHeader)
        (some 0) refuseHeader).map
      (fun r => (r.parser.state, r.parser.name.bytes getWithHeader,
        r.parser.value.bytes getWithHeader, r.exit)) =
      some (State.HEADER_NAME_BEGIN, [], [], Exit.hookFalse) ∧
    ((after postHello (whole postHello) refuseContent 44
        (entry (HttpMessageProcessor.new ParseMode.REQUEST) (whole postHello) (some 0))).map
      fun c => (hookCalls postHello (whole postHello) refuseContent c).map fun s =>
        (s.1.p.state, s.2, refuseContent s.1.trace s.2)) =
      some [(State.CONTENT, Event.onMessageContent (bytesOf "hello"), false)] ∧
    (process 64 (HttpMessageProcessor.new ParseMode.REQUEST) postHello (whole postHello)
        (some 0) refuseContent).map (fun r => (r.parser.state, r.exit)) =
      some (State.MESSAGE_BEGIN, Exit.hookFalse) := by
  refine ⟨by decide!, by decide!, by decide!, by decide!⟩

/-! ## End of headers -/

/-- C15: when the LF of the empty line is processed in `HEADER_END_LF` (hooks returning
true), `contentExpected` is `contentLength_ > 0 || chunked_ || mode_ == MESSAGE`.  If it is
true, the byte is consumed, the state becomes `CONTENT_BEGIN` and only `onMessageHeaderEnd`
is invoked.  If it is false, the byte is consumed, the state becomes `MESSAGE_BEGIN` and
`onMessageHeaderEnd` is invoked, followed immediately by `onMessageEnd`.  No other parser
field changes.  For instance the requests without `Content-Length` and with
`Content-Length: 0` end with header end, end and no content. -/
theorem end_of_headers :
    (∀ (buf : List Nat) (chunk : BufferRef) (c : Cfg), c.p.state = State.HEADER_END_LF →
      buf.getD c.i 0 = LF →
      step buf chunk allTrue c =
        (if c.p.contentLength > 0 ∨ c.p.chunked = true ∨ c.p.mode = ParseMode.MESSAGE then
          Step.next ⟨{ c.p with state := State.CONTENT_BEGIN }, c.i + 1, szAdd c.nparsed 1,
            c.trace ++ [Event.onMessageHeaderEnd]⟩
         else
          Step.next ⟨{ c.p with state := State.MESSAGE_BEGIN }, c.i + 1, szAdd c.nparsed 1,
            c.trace ++ [Event.onMessageHeaderEnd, Event.onMessageEnd]⟩)) ∧
    (process 64 (HttpMessageProcessor.new ParseMode.REQUEST) simpleGet (whole simpleGet) (some 0)
        allTrue).map (fun r => (r.trace.drop 2, r.parser.state)) =
      some ([Event.onMessageHeaderEnd, Event.onMessageEnd], State.MESSAGE_BEGIN) ∧
    (process 64 (HttpMessageProcessor.new ParseMode.REQUEST) getZeroLength (whole getZeroLength)
        (some 0) allTrue).map (fun r => (r.trace.drop 2, r.parser.state)) =
      some ([Event.onMessageHeaderEnd, Event.onMessageEnd], State.MESSAGE_BEGIN) ∧
    (process 64 (HttpMessageProcessor.new ParseMode.REQUEST) postHead (whole postHead)
        (some 0) allTrue).map (fun r => (r.trace.drop 2, r.parser.state)) =
      some ([Event.onMessageHeaderEnd], State.CONTENT_BEGIN) := by
  refine ⟨?_, by decide!, by decide!, by decide!⟩
  intro buf chunk c hs hb
  simp only [step, hs]
  generalize buf.getD c.i 0 = b at hb
  subst hb
  by_cases h1 : c.p.contentLength > 0 <;> by_cases h2 : c.p.chunked = true <;>
    by_cases h3 : c.p.mode = ParseMode.MESSAGE <;>
    simp [h1, h2, h3, callHook, allTrue, Cfg.setState, Cfg.advance]

/-- Witness for C15: a REQUEST-mode parser in `HEADER_END_LF` without framing, at an LF. -/
theorem end_of_headers_witness :
    step [LF] ⟨0, 1⟩ allTrue
        ⟨{ HttpMessageProcessor.new ParseMode.REQUEST with state := State.HEADER_END_LF }, 0, 0, []⟩ =
      Step.next ⟨{ HttpMessageProcessor.new ParseMode.REQUEST with state := State.MESSAGE_BEGIN }, 1, 1,
        [Event.onMessageHeaderEnd, Event.onMessageEnd]⟩ :=
  (end_of_headers.1 [LF] ⟨0, 1⟩
    ⟨{ HttpMessageProcessor.new ParseMode.REQUEST with state := State.HEADER_END_LF }, 0, 0, []⟩
    rfl rfl).trans (by decide)

/-! ## Header side effects -/

/-- C16, as stated, fails for a digit string whose value does not fit `int`: in the pass
through `HEADER_VALUE_END` with the header name `Content-Length` and the value `4294967296`
(ten decimal digits), `contentLength_` receives `value_.as<int>()`, an `int`: what it holds
afterwards lies between -2^31 and 2^31 - 1 and so is not 4294967296, the decimal integer
that the value denotes. -/
theorem content_length_beyond_int :
    (BufferRef.bytes (bytesOf "Content-Length4294967296") ⟨0, 14⟩ = bytesOf "Content-Length" ∧
      BufferRef.bytes (bytesOf "Content-Length4294967296") ⟨14, 10⟩ = bytesOf "4294967296" ∧
      (bytesOf "4294967296").all isdigit = true ∧
      decimalValue (bytesOf "4294967296") = 4294967296) ∧
    (step (bytesOf "Content-Length4294967296") ⟨0, 24⟩ allTrue
        ⟨{ HttpMessageProcessor.new ParseMode.REQUEST with state := State.HEADER_VALUE_END, name := ⟨0, 14⟩, value := ⟨14, 10⟩ }, 24, 24, []⟩).cfg.p.contentLength
      ≠ 4294967296 ∧
    (step (bytesOf "Content-Length4294967296") ⟨0, 24⟩ allTrue
        ⟨{ HttpMessageProcessor.new ParseMode.REQUEST with state := State.HEADER_VALUE_END, name := ⟨0, 14⟩, value := ⟨14, 10⟩ }, 24, 24, []⟩).cfg.p.contentLength
      < 2147483648 := by
  refine ⟨by decide, by decide, by decide⟩

/-- C16 (amended): in the pass through `HEADER_VALUE_END` (any hooks), `contentLength_` is
assigned if and only if the header name equals `Content-Length` ignoring ASCII case: it then
becomes `value_.as<int>()`, which for a value consisting of decimal digits whose decimal
value fits `int` (is below 2^31) is the decimal integer the value denotes, and otherwise it
keeps its value.  The assignment precedes the hook: at the moment
`onMessageHeader(name, value)` is invoked the field already holds the new value. -/
theorem content_length_recognition (buf : List Nat) (chunk : BufferRef) (cb : Hooks) (c : Cfg)
    (hs : c.p.state = State.HEADER_VALUE_END) :
    (step buf chunk cb c).cfg.p.contentLength =
      (if iequals (c.p.name.bytes buf) (bytesOf "Content-Length") = true
        then asInt (c.p.value.bytes buf) else c.p.contentLength) ∧
    ((∀ d ∈ c.p.value.bytes buf, isdigit d = true) →
      decimalValue (c.p.value.bytes buf) < 2 ^ 31 →
      asInt (c.p.value.bytes buf) = (decimalValue (c.p.value.bytes buf) : Int)) ∧
    ∃ s, hookCalls buf chunk cb c = [s] ∧
      s.2 = Event.onMessageHeader (c.p.name.bytes buf) (c.p.value.bytes buf) ∧
      s.1.p.state = State.HEADER_VALUE_END ∧
      s.1.p.contentLength = (step buf chunk cb c).cfg.p.contentLength := by
  obtain ⟨h1, h2⟩ := step_header_value_end buf chunk cb c hs
  obtain ⟨e1, e2, e3, e4, _⟩ := headerEffects_fields buf c.p
  refine ⟨by rw [h1]; exact e4, asInt_digits _, _, h2, ?_, ?_, ?_⟩
  · simp only [e1, e2]
  · simp only [e3, hs]
  · rw [h1]

/-- Witness for C16: the header `content-LENGTH` with the value `42`, and with the value
`2147483647`, the largest that fits `int`. -/
theorem content_length_recognition_witness :
    (step (bytesOf "content-LENGTH42") ⟨0, 16⟩ allTrue
        ⟨{ HttpMessageProcessor.new ParseMode.REQUEST with state := State.HEADER_VALUE_END, name := ⟨0, 14⟩, value := ⟨14, 2⟩ }, 16, 16, []⟩).cfg.p.contentLength = 42 ∧
    decimalValue (bytesOf "42") = 42 ∧
    asInt (BufferRef.bytes (bytesOf "content-LENGTH2147483647") ⟨14, 10⟩) = 2147483647 :=
  ⟨(content_length_recognition (bytesOf "content-LENGTH42") ⟨0, 16⟩ allTrue
      ⟨{ HttpMessageProcessor.new ParseMode.REQUEST with state := State.HEADER_VALUE_END, name := ⟨0, 14⟩, value := ⟨14, 2⟩ }, 16, 16, []⟩
      rfl).1.trans (by decide), by decide,
    ((content_length_recognition (bytesOf "content-LENGTH2147483647") ⟨0, 24⟩ allTrue
      ⟨{ HttpMessageProcessor.new ParseMode.REQUEST with state := State.HEADER_VALUE_END, name := ⟨0, 14⟩, value := ⟨14, 10⟩ }, 24, 24, []⟩
      rfl).2.1 (by decide) (by decide)).trans (by decide)⟩

/-- C17: in the pass through `HEADER_VALUE_END` (any hooks), `chunked_` is set to true if and
only if the header name equals `Transfer-Encoding` and the header value equals `chunked`, both
ignoring ASCII case; for every other header (any other name, or `Transfer-Encoding` with any
other value) `chunked_` keeps its previous value. -/
theorem transfer_encoding_recognition (buf : List Nat) (chunk : BufferRef) (cb : Hooks)
    (c : Cfg) (hs : c.p.state = State.HEADER_VALUE_END) :
    ((iequals (c.p.name.bytes buf) (bytesOf "Transfer-Encoding") = true ∧
        iequals (c.p.value.bytes buf) (bytesOf "chunked") = true) →
      (step buf chunk cb c).cfg.p.chunked = true) ∧
    (¬ (iequals (c.p.name.bytes buf) (bytesOf "Transfer-Encoding") = true ∧
        iequals (c.p.value.bytes buf) (bytesOf "chunked") = true) →
      (step buf chunk cb c).cfg.p.chunked = c.p.chunked) ∧
    ∃ s, hookCalls buf chunk cb c = [s] ∧
      s.2 = Event.onMessageHeader (c.p.name.bytes buf) (c.p.value.bytes buf) := by
  obtain ⟨h1, h2⟩ := step_header_value_end buf chunk cb c hs
  obtain ⟨e1, e2, _, _, e5⟩ := headerEffects_fields buf c.p
  have hc : (step buf chunk cb c).cfg.p.chunked = (headerEffects buf c.p).chunked := by rw [h1]
  refine ⟨?_, ?_, _, h2, by simp only [e1, e2]⟩
  · rintro ⟨ha, hb⟩
    rw [hc, e5, ha, hb]
    simp
  · intro hn
    rw [hc, e5]
    by_cases ha : iequals (c.p.name.bytes buf) (bytesOf "Transfer-Encoding") = true
    · have hb : iequals (c.p.value.bytes buf) (bytesOf "chunked") = false := by
        by_contra hx
        exact hn ⟨ha, by simpa using hx⟩
      simp [ha, hb]
    · simp [ha]

/-- Witness for C17: the header `transfer-ENCODING` with the value `Chunked` sets `chunked_`;
with the value `gzip` it does not. -/
theorem transfer_encoding_recognition_witness :
    (step (bytesOf "transfer-ENCODINGChunked") ⟨0, 24⟩ allTrue
        ⟨{ HttpMessageProcessor.new ParseMode.REQUEST with state := State.HEADER_VALUE_END, name := ⟨0, 17⟩, value := ⟨17, 7⟩ }, 24, 24, []⟩).cfg.p.chunked = true ∧
    (step (bytesOf "Transfer-Encodinggzip") ⟨0, 21⟩ allTrue
        ⟨{ HttpMessageProcessor.new ParseMode.REQUEST with state := State.HEADER_VALUE_END, name := ⟨0, 17⟩, value := ⟨17, 4⟩ }, 21, 21, []⟩).cfg.p.chunked = false :=
  ⟨(transfer_encoding_recognition (bytesOf "transfer-ENCODINGChunked") ⟨0, 24⟩ allTrue
      ⟨{ HttpMessageProcessor.new ParseMode.REQUEST with state := State.HEADER_VALUE_END, name := ⟨0, 17⟩, value := ⟨17, 7⟩ }, 24, 24, []⟩
      rfl).1 (by decide),
   (transfer_encoding_recognition (bytesOf "Transfer-Encodinggzip") ⟨0, 21⟩ allTrue
      ⟨{ HttpMessageProcessor.new ParseMode.REQUEST with state := State.HEADER_VALUE_END, name := ⟨0, 17⟩, value := ⟨17, 4⟩ }, 21, 21, []⟩
      rfl).2.1 (by decide)⟩

/-! ## Start of a message -/

/-- C18 fails on the code: the pass through `MESSAGE_BEGIN` sets `contentLength_` to -1 and
branches by mode, but leaves `chunked_` as it is.  A REQUEST-mode parser in `MESSAGE_BEGIN`
with `chunked_` true and `contentLength_` 7 goes to `REQUEST_LINE_BEGIN` with `contentLength_`
-1 and `chunked_` still true.  So after a chunked request the next request on the same parser,
`POST /p HTTP/1.1\r\nContent-Length: 5\r\n\r\nhello`, has its body read as a chunk size line:
the call ends in `SYNTAX_ERROR` at the `h` of `hello` (92 of 97 bytes consumed) without any
content callback, while a fresh parser delivers `hello` for the same request. -/
theorem chunked_survives_message_begin :
    (step [80] ⟨0, 1⟩ allTrue
        ⟨{ HttpMessageProcessor.new ParseMode.REQUEST with chunked := true, contentLength := 7 }, 0, 0, []⟩) =
      Step.next ⟨{ HttpMessageProcessor.new ParseMode.REQUEST with chunked := true, contentLength := -1, state := State.REQUEST_LINE_BEGIN }, 0, 0, []⟩ ∧
    (process 128 (HttpMessageProcessor.new ParseMode.REQUEST) chunkedThenFixed
        (whole chunkedThenFixed) (some 0) allTrue).map
      (fun r => (r.trace.filter Event.isContent, r.parser.state, r.ret, r.parser.chunked)) =
      some ([], State.SYNTAX_ERROR, 92, true) ∧
    chunkedThenFixed.drop 53 = postHello ∧
    (process 128 (HttpMessageProcessor.new ParseMode.REQUEST) postHello (whole postHello)
        (some 0) allTrue).map
      (fun r => (r.trace.filter Event.isContent, r.parser.state, r.ret, r.parser.chunked)) =
      some ([Event.onMessageContent (bytesOf "hello")], State.MESSAGE_BEGIN, 44, false) := by
  refine ⟨by decide, by decide!, by decide, by decide!⟩

/-! ## Endless content -/

/-- C20 (amended): once the parser is in state `CONTENT_ENDLESS` (reached by a MESSAGE-mode
parser whose headers ended with neither `Content-Length` nor chunked framing), every call of
`process` on a non-empty chunk, made without a cursor or with the cursor at the chunk offset,
returns after one pass, emits exactly one `onMessageContent` whose payload is the entire
chunk, returns `chunk.size`, emits no `onMessageEnd`, and leaves the state `CONTENT_ENDLESS`
and every other parser field unchanged; this holds whatever the hooks return. -/
theorem endless_content (p : HttpMessageProcessor) (buf : List Nat) (chunk : BufferRef)
    (cur : Option Nat) (cb : Hooks) (fuel : Nat)
    (hs : p.state = State.CONTENT_ENDLESS) (hn : 0 < chunk.size)
    (hM : chunk.offset + chunk.size < SIZE_MOD)
    (hcur : cur = none ∨ cur = some chunk.offset) :
    ∃ R, process (fuel + 2) p buf chunk cur cb = some R ∧
      R.trace = [Event.onMessageContent (chunk.bytes buf)] ∧ R.ret = chunk.size ∧
      Event.onMessageEnd ∉ R.trace ∧ R.parser = p ∧ R.parser.state = State.CONTENT_ENDLESS ∧
      R.nparsed = chunk.offset + chunk.size := by
  have hcur2 : cur.getD chunk.offset = chunk.offset := by
    rcases hcur with h | h <;> rw [h] <;> rfl
  have e1 : szSub chunk.offset chunk.offset = 0 := by
    rw [szSub_small _ _ (le_refl _) (by omega)]; omega
  have e2 : chunk.refFrom 0 = chunk := by
    obtain ⟨o, n⟩ := chunk
    simp only [BufferRef.refFrom, BufferRef.mk.injEq]
    simp only at hM
    exact ⟨szAdd_zero o (by omega), by rw [szSub_small _ _ (Nat.zero_le _) (by omega)]; omega⟩
  have e3 : szAdd chunk.offset chunk.size = chunk.offset + chunk.size := szAdd_small _ _ hM
  have e4 : szSub (chunk.offset + chunk.size) chunk.offset = chunk.size := by
    rw [szSub_small _ _ (by omega) hM]; omega
  have hne : (entry p chunk cur).i ≠ chunk.offset + chunk.size := by
    simp only [entry]; omega
  by_cases hcb : cb [] (Event.onMessageContent (chunk.bytes buf)) = true
  · have hst : step buf chunk cb (entry p chunk cur) =
        Step.next ⟨p, chunk.offset + chunk.size, chunk.offset + chunk.size,
          [Event.onMessageContent (chunk.bytes buf)]⟩ := by
      simp only [step, entry, hs, hcur2, e1, e2, e3, callHook, hcb, if_true, List.nil_append]
    have hl : loop buf chunk cb (fuel + 2) (entry p chunk cur) =
        some (⟨p, chunk.offset + chunk.size, chunk.offset + chunk.size,
          [Event.onMessageContent (chunk.bytes buf)]⟩, Exit.chunkEnd) := by
      rw [loop_next buf chunk cb (fuel + 1) _ _ hne hst]
      exact loop_end buf chunk cb fuel _ rfl
    refine ⟨_, process_of_loop_end _ _ _ _ _ _ _ hl, ?_⟩
    simp [tail, hs, finish, e4]
  · have hst : step buf chunk cb (entry p chunk cur) =
        Step.done ⟨p, chunk.offset + chunk.size, chunk.offset + chunk.size,
          [Event.onMessageContent (chunk.bytes buf)]⟩ Exit.hookFalse := by
      simp only [step, entry, hs, hcur2, e1, e2, e3, callHook, hcb, List.nil_append]
      simp
    have hp : process (fuel + 2) p buf chunk cur cb =
        some (finish chunk (⟨p, chunk.offset + chunk.size, chunk.offset + chunk.size,
          [Event.onMessageContent (chunk.bytes buf)]⟩, Exit.hookFalse)) := by
      simp only [process, loop, if_neg hne, hst]
    refine ⟨_, hp, ?_⟩
    simp [finish, e4, hs]

/-- Witness for C20: a MESSAGE-mode parser fed `X: a\r\n\r\nbody` is in `CONTENT_ENDLESS`
afterwards; a MESSAGE-mode parser in that state, called on the chunk `more`, emits that chunk
as one content callback and returns 4. -/
theorem endless_content_witness :
    (process 64 (HttpMessageProcessor.new ParseMode.MESSAGE) endlessMessage ⟨0, 12⟩ (some 0)
        allTrue).map (fun r => r.parser.state) = some State.CONTENT_ENDLESS ∧
    ∃ R, process 2 { HttpMessageProcessor.new ParseMode.MESSAGE with state := State.CONTENT_ENDLESS }
        endlessMessage ⟨12, 4⟩ (some 12) allTrue = some R ∧
      R.trace = [Event.onMessageContent (BufferRef.bytes endlessMessage ⟨12, 4⟩)] ∧ R.ret = 4 ∧
      R.parser.state = State.CONTENT_ENDLESS ∧
      BufferRef.bytes endlessMessage ⟨12, 4⟩ = bytesOf "more" :=
  ⟨by decide!,
    (endless_content { HttpMessageProcessor.new ParseMode.MESSAGE with state := State.CONTENT_ENDLESS }
      endlessMessage ⟨12, 4⟩ (some 12) allTrue 0 rfl (by decide) (by decide) (Or.inr rfl)).imp
      fun _ h => ⟨h.1, h.2.1, h.2.2.1, h.2.2.2.2.2.1, by decide⟩⟩

/-! ## Order of the callbacks -/

/-- C14: for every sequence of calls of `process` on a fresh parser (any mode, any chunks,
buffers and cursors) with hooks returning true, every one of which returns, the callback
trace of all calls together is a prefix of a concatenation of messages, each of the shape:
one `onMessageBegin`, zero or more `onMessageHeader`, one `onMessageHeaderEnd`, zero or more
`onMessageContent`, one `onMessageEnd`.  In particular every `onMessageContent` and every
`onMessageEnd` comes after the `onMessageHeaderEnd` of its message and before the
`onMessageEnd` that closes it (the callbacks before it lead into the body phase). -/
theorem callback_order (mode : ParseMode) (calls : List Call) (q : HttpMessageProcessor)
    (t : List Event)
    (h : processAll allTrue (HttpMessageProcessor.new mode) calls = some (q, t)) :
    (∃ (msgs : List (List Event)) (rest : List Event),
      (∀ m ∈ msgs, IsMessage m) ∧ t ++ rest = msgs.flatten) ∧
    (∃ ph, order Phase.idle t = some ph) ∧
    (∀ pre ev post, t = pre ++ ev :: post → ev.isContent = true ∨ ev = Event.onMessageEnd →
      order Phase.idle pre = some Phase.body) := by
  obtain ⟨ph1, ho, _⟩ := processAll_sync calls _ q t Phase.idle (sync_new mode) h
  refine ⟨?_, ⟨ph1, ho⟩, ?_⟩
  · simpa using order_messages t Phase.idle ph1 [] ho rfl
  · intro pre ev post he hev
    exact order_before t ph1 ho pre ev post he hev

/-- Witness for C14: the simple GET in two calls (16 and 12 bytes), then the POST with a body
on the same parser: the trace is that of two complete messages. -/
theorem callback_order_witness :
    ∃ q, processAll allTrue (HttpMessageProcessor.new ParseMode.REQUEST)
        [⟨64, simpleGet, ⟨0, 16⟩, some 0⟩, ⟨64, simpleGet, ⟨16, 12⟩, some 16⟩,
         ⟨64, postHello, whole postHello, some 0⟩] =
      some (q, [Event.onMessageBeginRequest (bytesOf "GET") (bytesOf "/x") 1 1,
                Event.onMessageHeader (bytesOf "Host") (bytesOf "a"),
                Event.onMessageHeaderEnd, Event.onMessageEnd,
                Event.onMessageBeginRequest (bytesOf "POST") (bytesOf "/p") 1 1,
                Event.onMessageHeader (bytesOf "Content-Length") (bytesOf "5"),
                Event.onMessageHeaderEnd, Event.onMessageContent (bytesOf "hello"),
                Event.onMessageEnd]) ∧
      ∃ (msgs : List (List Event)) (rest : List Event), (∀ m ∈ msgs, IsMessage m) ∧
        [Event.onMessageBeginRequest (bytesOf "GET") (bytesOf "/x") 1 1,
         Event.onMessageHeader (bytesOf "Host") (bytesOf "a"),
         Event.onMessageHeaderEnd, Event.onMessageEnd,
         Event.onMessageBeginRequest (bytesOf "POST") (bytesOf "/p") 1 1,
         Event.onMessageHeader (bytesOf "Content-Length") (bytesOf "5"),
         Event.onMessageHeaderEnd, Event.onMessageContent (bytesOf "hello"),
         Event.onMessageEnd] ++ rest = msgs.flatten :=
  ⟨_, rfl,
    (callback_order ParseMode.REQUEST
      [⟨64, simpleGet, ⟨0, 16⟩, some 0⟩, ⟨64, simpleGet, ⟨16, 12⟩, some 16⟩,
       ⟨64, postHello, whole postHello, some 0⟩] _ _ rfl).1⟩

/-! ## Short-LF leniency -/

/-- C19: short-LF leniency.  For every well-formed, unfolded request head without a body
(request line, header lines, empty line), a fresh REQUEST parser called on the whole head
returns, for the form with bare LF line terminators as for the form with CR LF, with the
same callbacks and payloads: `onMessageBegin(method, uri, major, minor)`, one
`onMessageHeader(name, value)` per header line, `onMessageHeaderEnd()`, `onMessageEnd()`.
Both calls run to the end of their chunk, consume it entirely, and leave the parser in
`MESSAGE_BEGIN`, not in `SYNTAX_ERROR`.  In particular `GET /x HTTP/1.1\nHost: a\n\n` yields
`onMessageBegin("GET", "/x", 1, 1)`, `onMessageHeader("Host", "a")`, `onMessageHeaderEnd()`,
`onMessageEnd()`. -/
theorem short_lf_leniency (method uri major minor : List Nat) (hs : List HeaderLine)
    (hrl : WellFormedRequestLine method uri major minor) (hh : ∀ h ∈ hs, h.WellFormed)
    (hb : Bodyless hs)
    (hM : (requestHead false method uri major minor hs).length < SIZE_MOD)
    (fuel : Nat) (hf : 2 * (requestHead false method uri major minor hs).length < fuel) :
    (∃ rs rl,
      process fuel (HttpMessageProcessor.new ParseMode.REQUEST)
        (requestHead true method uri major minor hs)
        (whole (requestHead true method uri major minor hs)) none allTrue = some rs ∧
      process fuel (HttpMessageProcessor.new ParseMode.REQUEST)
        (requestHead false method uri major minor hs)
        (whole (requestHead false method uri major minor hs)) none allTrue = some rl ∧
      rs.trace = rl.trace ∧ rs.trace = headTrace method uri major minor hs ∧
      rs.parser.state = State.MESSAGE_BEGIN ∧ rl.parser.state = State.MESSAGE_BEGIN ∧
      rs.exit = Exit.chunkEnd ∧ rl.exit = Exit.chunkEnd ∧
      rs.ret = (requestHead true method uri major minor hs).length ∧
      rl.ret = (requestHead false method uri major minor hs).length) ∧
    (shortLfGet = requestHead true (bytesOf "GET") (bytesOf "/x") (bytesOf "1") (bytesOf "1")
        [⟨bytesOf "Host", [SP], bytesOf "a"⟩] ∧
      (process 64 (HttpMessageProcessor.new ParseMode.REQUEST) shortLfGet (whole shortLfGet) none
          allTrue).map (fun r => (r.trace, r.parser.state, r.ret))
        = some ([Event.onMessageBeginRequest (bytesOf "GET") (bytesOf "/x") 1 1,
            Event.onMessageHeader (bytesOf "Host") (bytesOf "a"),
            Event.onMessageHeaderEnd, Event.onMessageEnd], State.MESSAGE_BEGIN, 25)) := by
  have hle := requestHead_length_le method uri major minor hs
  obtain ⟨rs, h1, h2, h3, h4, h5⟩ := process_request_head true method uri major minor hs hrl hh
    hb (by omega) fuel (by omega)
  obtain ⟨rl, k1, k2, k3, k4, k5⟩ := process_request_head false method uri major minor hs hrl hh
    hb hM fuel hf
  refine ⟨⟨rs, rl, h1, k1, by rw [h2, k2], h2, h3, k3, h4, k4, h5, k5⟩, by decide!, by decide!⟩

/-- Witness for C19: the head `GET /x HTTP/1.1`, `Host: a`, empty line, in both forms. -/
theorem short_lf_leniency_witness :
    ∃ rs rl,
      process 60 (HttpMessageProcessor.new ParseMode.REQUEST) shortLfGet (whole shortLfGet) none
        allTrue = some rs ∧
      process 60 (HttpMessageProcessor.new ParseMode.REQUEST)
        (bytesOf "GET /x HTTP/1.1\r\nHost: a\r\n\r\n")
        (whole (bytesOf "GET /x HTTP/1.1\r\nHost: a\r\n\r\n")) none allTrue = some rl ∧
      rs.trace = rl.trace ∧ rs.parser.state = State.MESSAGE_BEGIN ∧
      rl.parser.state = State.MESSAGE_BEGIN :=
  (short_lf_leniency (bytesOf "GET") (bytesOf "/x") (bytesOf "1") (bytesOf "1")
      [⟨bytesOf "Host", [SP], bytesOf "a"⟩]
      ⟨by decide, by decide, by decide, by decide, by decide, by decide⟩
      (fun h hh => by
        rw [List.mem_singleton] at hh
        subst hh
        exact ⟨by decide, by decide, by decide,
          Or.inr ⟨97, [], rfl, by decide, by decide, by decide, fun _ => by decide,
            by decide⟩⟩)
      ⟨by decide, by decide⟩ (by decide) 60 (by decide)).1.imp
    fun _ h => h.imp fun _ h => ⟨h.1, h.2.1, h.2.2.1, h.2.2.2.2.1, h.2.2.2.2.2.1⟩

/-! ## Endless content with the cursor inside the chunk -/

theorem step_endless_at_end (buf : List Nat) (p : HttpMessageProcessor) (i : Nat)
    (t : List Event) (hs : p.state = State.CONTENT_ENDLESS) :
    step buf ⟨12, 4⟩ allTrue ⟨p, i, 16, t⟩
      = Step.next ⟨p, i, 16, t ++ [Event.onMessageContent []]⟩ := by
  have h1 : szSub 16 12 = 4 := by decide
  have h2 : szAdd 12 4 = 16 := by decide
  have h3 : szSub 4 4 = 0 := by decide
  have h4 : szAdd 16 0 = 16 := by decide
  simp only [step, hs, callHook, allTrue, BufferRef.refFrom, h1, h2, h3, h4, if_true,
    Nat.add_zero, BufferRef.bytes, List.take_zero]

theorem endless_stuck (buf : List Nat) (p : HttpMessageProcessor)
    (hs : p.state = State.CONTENT_ENDLESS) : ∀ (f : Nat) (t : List Event),
    loop buf ⟨12, 4⟩ allTrue f ⟨p, 15, 16, t⟩ = none := by
  intro f
  induction f with
  | zero => intro t; rfl
  | succ f ih =>
    intro t
    have hne : (15 : Nat) ≠ 12 + 4 := by decide
    simp only [loop, if_neg hne, step_endless_at_end buf p 15 t hs]
    exact ih _

/-- C20, as stated, fails for a call whose cursor is not at the chunk offset.  A MESSAGE-mode
parser in `CONTENT_ENDLESS` is called on the chunk `more` (offset 12, size 4) with the cursor
at 13.  With hooks that refuse `onMessageContent`, the one content callback receives `ore`,
not the entire chunk.  With hooks returning true the first pass delivers `ore` and moves the
read pointer to 15, one short of the end of the chunk; every later pass delivers an empty
content and moves nothing, so the call never returns, whatever number of passes it is
allowed. -/
theorem endless_content_cursor_inside :
    (process 64 { HttpMessageProcessor.new ParseMode.MESSAGE with state := State.CONTENT_ENDLESS }
        endlessMessage ⟨12, 4⟩ (some 13) refuseContent).map (fun r => (r.trace, r.ret)) =
      some ([Event.onMessageContent (bytesOf "ore")], 4) ∧
    (after endlessMessage ⟨12, 4⟩ allTrue 3
        (entry { HttpMessageProcessor.new ParseMode.MESSAGE with state := State.CONTENT_ENDLESS }
          ⟨12, 4⟩ (some 13))).map (fun c => (c.trace, c.i, c.nparsed, c.p.state)) =
      some ([Event.onMessageContent (bytesOf "ore"), Event.onMessageContent [],
        Event.onMessageContent []], 15, 16, State.CONTENT_ENDLESS) ∧
    ∀ fuel, process fuel { HttpMessageProcessor.new ParseMode.MESSAGE with state := State.CONTENT_ENDLESS }
        endlessMessage ⟨12, 4⟩ (some 13) allTrue = none := by
  refine ⟨by decide!, by decide!, ?_⟩
  intro fuel
  cases fuel with
  | zero => rfl
  | succ f =>
    have hst : step endlessMessage ⟨12, 4⟩ allTrue
        (entry { HttpMessageProcessor.new ParseMode.MESSAGE with state := State.CONTENT_ENDLESS }
          ⟨12, 4⟩ (some 13))
        = Step.next ⟨{ HttpMessageProcessor.new ParseMode.MESSAGE with state := State.CONTENT_ENDLESS }, 15, 16,
            [Event.onMessageContent (bytesOf "ore")]⟩ := by
      decide!
    have hne : (entry { HttpMessageProcessor.new ParseMode.MESSAGE with state := State.CONTENT_ENDLESS }
        ⟨12, 4⟩ (some 13)).i ≠ (⟨12, 4⟩ : BufferRef).offset + (⟨12, 4⟩ : BufferRef).size := by
      decide
    have hstuck := endless_stuck endlessMessage
      { HttpMessageProcessor.new ParseMode.MESSAGE with state := State.CONTENT_ENDLESS } rfl f
      [Event.onMessageContent (bytesOf "ore")]
    simp only [process, loop, if_neg hne, hst, hstuck]

/-! ## The error category -/

/-- C21: the error category's `message` maps the code 0 to `Success`, 1 to `Partial`, 2 to
`Aborted` and 3 to `Invalid Syntax` (the values of the four enumerators), and every other
code of the table, 4 to 31, to `Undefined`. -/
theorem error_category_names :
    categoryMessage 0 = some "Success" ∧ categoryMessage 1 = some "Partial" ∧
    categoryMessage 2 = some "Aborted" ∧ categoryMessage 3 = some "Invalid Syntax" ∧
    categoryMessage (HttpMessageError.Success.toInt) = some "Success" ∧
    categoryMessage (HttpMessageError.Partial.toInt) = some "Partial" ∧
    categoryMessage (HttpMessageError.Aborted.toInt) = some "Aborted" ∧
    categoryMessage (HttpMessageError.SyntaxError.toInt) = some "Invalid Syntax" ∧
    ∀ ec : Int, 4 ≤ ec → ec ≤ 31 → categoryMessage ec = some "Undefined" := by
  refine ⟨by decide, by decide, by decide, by decide, by decide, by decide, by decide,
    by decide, ?_⟩
  intro ec h1 h2
  obtain ⟨n, rfl⟩ := Int.eq_ofNat_of_zero_le (show 0 ≤ ec by omega)
  have h3 : 4 ≤ n := by omega
  have h4 : n ≤ 31 := by omega
  interval_cases n <;> decide

/-- Witness for C21: the code 17 has the name `Undefined`. -/
theorem error_category_names_witness : categoryMessage 17 = some "Undefined" :=
  error_category_names.2.2.2.2.2.2.2.2 17 (by decide) (by decide)

/-! ## Request serialization -/

/-- C22: `ProxyConnection::start` appends to the write buffer exactly the bytes method, SP,
uri, ` HTTP/1.1` CR LF, then for each client request header, in the original order, whose
name is not equal (ignoring case) to `Content-Transfer`, `Expect` or `Connection` the bytes
name, `: `, value, CR LF, and finally CR LF.  Every header with one of the three names is
left out and no other header is left out, reordered or altered (the headers written are the
list of request headers filtered by the name test); the call of `startWrite()` that ends
`start` leaves the buffer as it is.  With an empty buffer at the start, the buffer holds
exactly these bytes. -/
theorem request_serialization (env : Env) (w : World) (hreq : w.self.request = true) :
    (ProxyConnection.start env w).self.writeBuffer
      = w.self.writeBuffer ++ (w.client.method ++ [SP] ++ w.client.uri ++ bytesOf " HTTP/1.1\r\n"
          ++ ((w.client.requestHeaders.filter
                (fun h => !(iequals h.1 (bytesOf "Content-Transfer") ||
                  iequals h.1 (bytesOf "Expect") || iequals h.1 (bytesOf "Connection")))).map
              (fun h => h.1 ++ bytesOf ": " ++ h.2 ++ bytesOf "\r\n")).flatten
          ++ bytesOf "\r\n") ∧
    (w.self.writeBuffer = [] →
      (ProxyConnection.start env w).self.writeBuffer
        = w.client.method ++ [SP] ++ w.client.uri ++ bytesOf " HTTP/1.1\r\n"
          ++ ((w.client.requestHeaders.filter
                (fun h => !(iequals h.1 (bytesOf "Content-Transfer") ||
                  iequals h.1 (bytesOf "Expect") || iequals h.1 (bytesOf "Connection")))).map
              (fun h => h.1 ++ bytesOf ": " ++ h.2 ++ bytesOf "\r\n")).flatten
          ++ bytesOf "\r\n") := by
  have hf : (fun h : List Nat × List Nat => !(iequals h.1 (bytesOf "Content-Transfer") ||
      iequals h.1 (bytesOf "Expect") || iequals h.1 (bytesOf "Connection")))
      = forwardedRequestHeader := rfl
  have key : (ProxyConnection.start env w).self.writeBuffer
      = w.self.writeBuffer ++ (w.client.method ++ [SP] ++ w.client.uri
          ++ bytesOf " HTTP/1.1\r\n"
          ++ ((w.client.requestHeaders.filter forwardedRequestHeader).map
              (fun h => h.1 ++ bytesOf ": " ++ h.2 ++ bytesOf "\r\n")).flatten
          ++ bytesOf "\r\n") := by
    unfold ProxyConnection.start
    rw [startWrite_writeBuffer env _ (by simpa [ProxyConnection.serialize] using hreq)]
    simp only [ProxyConnection.serialize, pushRequestHeaders_eq, SP, List.append_assoc]
  rw [hf]
  refine ⟨key, fun he => ?_⟩
  rw [key, he, List.nil_append]

/-- Witness for C22: `GET /x` with the headers `Host: a`, `connection: close`, `Accept: b`
is written as `GET /x HTTP/1.1`, `Host: a`, `Accept: b`, empty line. -/
theorem request_serialization_witness :
    (ProxyConnection.start ⟨⟨-1, 0⟩, 1, []⟩
        { proxyIn ProxyConnection.State.DISCONNECTED (-1) with client := { method := bytesOf "GET", uri := bytesOf "/x", requestHeaders := [(bytesOf "Host", bytesOf "a"), (bytesOf "connection", bytesOf "close"), (bytesOf "Accept", bytesOf "b")], responseHeaders := [], status := HttpError.Undefined, finished := 0, contentAvailable := false } }).self.writeBuffer
      = bytesOf "GET /x HTTP/1.1\r\nHost: a\r\nAccept: b\r\n\r\n" :=
  ((request_serialization ⟨⟨-1, 0⟩, 1, []⟩
      { proxyIn ProxyConnection.State.DISCONNECTED (-1) with client := { method := bytesOf "GET", uri := bytesOf "/x", requestHeaders := [(bytesOf "Host", bytesOf "a"), (bytesOf "connection", bytesOf "close"), (bytesOf "Accept", bytesOf "b")], responseHeaders := [], status := HttpError.Undefined, finished := 0, contentAvailable := false } }
      rfl).2 rfl).trans (by decide)

/-! ## Response header filtering -/

/-- C23: for every origin response header `(name, value)` and every cloak setting,
`messageHeader` appends `(name, value)` to the end of the client response header list if and
only if the name is not equal (ignoring case) to `Connection` or `Transfer-Encoding` and not
(cloak is true and the name equals `Server` ignoring case); when the header is filtered,
nothing changes at all; in both cases the proxy's own fields are unchanged.  Over a sequence
of headers the list grows by the headers let through, in their wire order. -/
theorem response_header_filtering (w : World) :
    (∀ name value, forwardedResponseHeader w.self.cloak (name, value) = true →
      (ProxyConnection.messageHeader name value w).client.responseHeaders
        = w.client.responseHeaders ++ [(name, value)]) ∧
    (∀ name value, forwardedResponseHeader w.self.cloak (name, value) = false →
      ProxyConnection.messageHeader name value w = w) ∧
    (∀ name value, (ProxyConnection.messageHeader name value w).self = w.self ∧
      (ProxyConnection.messageHeader name value w).alive = w.alive ∧
      (ProxyConnection.messageHeader name value w).closed = w.closed ∧
      (ProxyConnection.messageHeader name value w).client.status = w.client.status) ∧
    (∀ hs : List (List Nat × List Nat),
      (hs.foldl (fun v h => ProxyConnection.messageHeader h.1 h.2 v) w).client.responseHeaders
        = w.client.responseHeaders ++ hs.filter (forwardedResponseHeader w.self.cloak)) := by
  have one : ∀ (v : World) (name value : List Nat),
      (ProxyConnection.messageHeader name value v).self = v.self ∧
      (ProxyConnection.messageHeader name value v).alive = v.alive ∧
      (ProxyConnection.messageHeader name value v).closed = v.closed ∧
      (ProxyConnection.messageHeader name value v).client.status = v.client.status ∧
      (forwardedResponseHeader v.self.cloak (name, value) = false →
        ProxyConnection.messageHeader name value v = v) ∧
      (ProxyConnection.messageHeader name value v).client.responseHeaders
        = v.client.responseHeaders ++
            (if forwardedResponseHeader v.self.cloak (name, value) then [(name, value)]
              else []) := by
    intro v name value
    unfold ProxyConnection.messageHeader ProxyConnection.validateResponseHeader
      forwardedResponseHeader
    cases iequals name (bytesOf "Connection") <;>
      cases iequals name (bytesOf "Transfer-Encoding") <;>
      cases iequals name (bytesOf "Server") <;> cases v.self.cloak <;> simp
  refine ⟨fun name value h => ?_, fun name value h => (one w name value).2.2.2.2.1 h,
    fun name value => ⟨(one w name value).1, (one w name value).2.1, (one w name value).2.2.1,
      (one w name value).2.2.2.1⟩, ?_⟩
  · rw [(one w name value).2.2.2.2.2, h]; rfl
  · intro hs
    induction hs generalizing w with
    | nil => simp
    | cons h hs ih =>
      rw [List.foldl_cons, ih, (one w h.1 h.2).1, (one w h.1 h.2).2.2.2.2.2]
      cases hk : forwardedResponseHeader w.self.cloak (h.1, h.2) <;>
        simp [List.filter_cons, hk]

/-- Witness for C23: with cloaking on, `Content-Type` is appended and `server` is not. -/
theorem response_header_filtering_witness :
    (ProxyConnection.messageHeader (bytesOf "Content-Type") (bytesOf "text/plain")
        (proxyIn ProxyConnection.State.READING 7)).client.responseHeaders
      = [(bytesOf "Content-Type", bytesOf "text/plain")] ∧
    ProxyConnection.messageHeader (bytesOf "server") (bytesOf "x0")
        (proxyIn ProxyConnection.State.READING 7) = proxyIn ProxyConnection.State.READING 7 :=
  ⟨(response_header_filtering (proxyIn ProxyConnection.State.READING 7)).1 (bytesOf "Content-Type")
      (bytesOf "text/plain") (by decide),
    (response_header_filtering (proxyIn ProxyConnection.State.READING 7)).2.1 (bytesOf "server")
      (bytesOf "x0") (by decide)⟩

/-! ## Origin address parsing -/

/-- C24, as stated, fails for the port 0: from the origin string `localhost:0` the constructor
stores the host `localhost` and the port 0, and `connect()`, which takes the port 0 to mean a
Unix-domain socket, opens the Unix-domain socket with the path `localhost` instead of a TCP
connection. -/
theorem origin_port_zero_selects_unix :
    (ProxyConnection.new (bytesOf "localhost:0") true).hostname = bytesOf "localhost" ∧
    (ProxyConnection.new (bytesOf "localhost:0") true).port = 0 ∧
    connectTarget (ProxyConnection.new (bytesOf "localhost:0") true)
      = Target.unix (bytesOf "localhost") ∧
    connectTarget (ProxyConnection.new (bytesOf "localhost:0") true)
      ≠ Target.tcp (bytesOf "localhost") 0 := by
  refine ⟨by decide, by decide, by decide, by decide⟩

/-- C24 (amended): an origin string `unix:<path>` selects the Unix-domain socket with that
path.  An origin string `<host>:<port>` that does not begin with `unix:`, whose port consists
of decimal digits with a value that fits `int`, stores the host and the decimal value of the
port; it selects TCP to that host and port when the value is not 0, and the Unix-domain socket
with the path `<host>` when the value is 0.  An origin string `<host>` without a colon selects
TCP to that host on port 80. -/
theorem origin_parsing :
    (∀ (path : List Nat) (cloak : Bool),
      connectTarget (ProxyConnection.new (bytesOf "unix:" ++ path) cloak) = Target.unix path) ∧
    (∀ (host port : List Nat) (cloak : Bool),
      (bytesOf "unix:").isPrefixOf (host ++ 58 :: port) = false →
      (∀ d ∈ port, isdigit d = true) → decimalValue port < 2 ^ 31 →
      (ProxyConnection.new (host ++ 58 :: port) cloak).hostname = host ∧
      (ProxyConnection.new (host ++ 58 :: port) cloak).port = (decimalValue port : Int) ∧
      (decimalValue port ≠ 0 →
        connectTarget (ProxyConnection.new (host ++ 58 :: port) cloak)
          = Target.tcp host (decimalValue port : Int)) ∧
      (decimalValue port = 0 →
        connectTarget (ProxyConnection.new (host ++ 58 :: port) cloak) = Target.unix host)) ∧
    (∀ (host : List Nat) (cloak : Bool), 58 ∉ host →
      connectTarget (ProxyConnection.new host cloak) = Target.tcp host 80) := by
  have hu : bytesOf "unix:" = [117, 110, 105, 120, 58] := by decide
  refine ⟨?_, ?_, ?_⟩
  · intro path cloak
    have hp : (bytesOf "unix:").isPrefixOf (bytesOf "unix:" ++ path) = true := by
      rw [List.isPrefixOf_iff_prefix]; exact List.prefix_append _ _
    simp only [connectTarget, ProxyConnection.new, parseOrigin, hp, if_true]
    simp [hu]
  · intro host port cloak hnp hd _
    have hr := rfind_append host port 58 (digit_ne_colon port hd)
    have hpo : parseOrigin (host ++ 58 :: port) = (host, (decimalValue port : Int)) := by
      simp only [parseOrigin, hnp, Bool.false_eq_true, if_false, hr, toInt]
      have e := digitsValue_zero port hd
      simp [e]
    refine ⟨?_, ?_, ?_, ?_⟩
    · simp only [ProxyConnection.new, hpo]
    · simp only [ProxyConnection.new, hpo]
    · intro hne
      have : ((decimalValue port : Nat) : Int) ≠ 0 := by exact_mod_cast hne
      simp only [connectTarget, ProxyConnection.new, hpo, ne_eq, this, not_false_eq_true, if_true]
    · intro he
      simp [connectTarget, ProxyConnection.new, hpo, he]
  · intro host cloak hc
    have hnp : (bytesOf "unix:").isPrefixOf host = false := by
      cases hx : (bytesOf "unix:").isPrefixOf host with
      | false => rfl
      | true => exact absurd (unix_prefix_has_colon host hx) hc
    have hpo : parseOrigin host = (host, 80) := by
      simp only [parseOrigin, hnp, Bool.false_eq_true, if_false, rfind_none host 58 hc]
    simp [connectTarget, ProxyConnection.new, hpo]

/-- Witness for C24: `127.0.0.1:3000` selects TCP to `127.0.0.1` on port 3000. -/
theorem origin_parsing_witness :
    connectTarget (ProxyConnection.new (bytesOf "127.0.0.1" ++ 58 :: bytesOf "3000") true)
      = Target.tcp (bytesOf "127.0.0.1") 3000 :=
  ((origin_parsing.2.1 (bytesOf "127.0.0.1") (bytesOf "3000") true (by decide) (by decide)
      (by decide)).2.2.1 (by decide)).trans (by decide)

/-! ## Connect failure -/

/-- C25: when `startWrite()` is called in state `DISCONNECTED` and the connect attempt fails,
or when `onConnectComplete()` finds that `getsockopt` failed or reports a socket error, the
client response status is set to `ServiceUnavailable`, the client request is finished exactly
once (`finish()` is called once, and `request_` is null afterwards, so that the destructor
does not finish it again), and the proxy connection is destroyed.  This holds for every
answer of the operating system and every connection with a client request. -/
theorem connect_failure (env : Env) (w : World) (hreq : w.self.request = true) :
    (w.self.state = ProxyConnection.State.DISCONNECTED →
      (ProxyConnection.connect env w).1 = false →
      (ProxyConnection.startWrite env w).client.status = HttpError.ServiceUnavailable ∧
      (ProxyConnection.startWrite env w).client.finished = w.client.finished + 1 ∧
      (ProxyConnection.startWrite env w).alive = false ∧
      (ProxyConnection.startWrite env w).self.request = false) ∧
    (∀ sockoptRv val : Int, sockoptRv ≠ 0 ∨ val ≠ 0 →
      (ProxyConnection.onConnectComplete env sockoptRv val w).client.status
        = HttpError.ServiceUnavailable ∧
      (ProxyConnection.onConnectComplete env sockoptRv val w).client.finished
        = w.client.finished + 1 ∧
      (ProxyConnection.onConnectComplete env sockoptRv val w).alive = false ∧
      (ProxyConnection.onConnectComplete env sockoptRv val w).self.request = false) := by
  constructor
  · intro hs hc
    obtain ⟨_, c2, c3, _⟩ := connect_frame env w
    obtain ⟨d1, d2, d3, d4, _⟩ := destroy_effect HttpError.ServiceUnavailable
      (ProxyConnection.connect env w).2 (by rw [c2]; exact hreq)
    have e : ProxyConnection.startWrite env w
        = ProxyConnection.destroy HttpError.ServiceUnavailable (ProxyConnection.connect env w).2 := by
      simp only [ProxyConnection.startWrite, hs, hc, Bool.not_false, if_true]
    rw [e, d2, c3]
    exact ⟨by rw [d1]; simp, rfl, d3, d4⟩
  · intro sockoptRv val h
    obtain ⟨d1, d2, d3, d4, _⟩ := destroy_effect HttpError.ServiceUnavailable w hreq
    have e : ProxyConnection.onConnectComplete env sockoptRv val w
        = ProxyConnection.destroy HttpError.ServiceUnavailable w := by
      unfold ProxyConnection.onConnectComplete
      rcases h with h | h
      · simp only [h, if_false]
      · split_ifs <;> rfl
    rw [e, d2]
    exact ⟨by rw [d1]; simp, rfl, d3, d4⟩

/-- Witness for C25: a connection to `localhost:3000` for which `getaddrinfo` fails. -/
theorem connect_failure_witness :
    (ProxyConnection.startWrite ⟨⟨-1, 0⟩, 1, []⟩
        (proxyIn ProxyConnection.State.DISCONNECTED (-1))).client.status
      = HttpError.ServiceUnavailable ∧
    (ProxyConnection.startWrite ⟨⟨-1, 0⟩, 1, []⟩
        (proxyIn ProxyConnection.State.DISCONNECTED (-1))).client.finished = 1 ∧
    (ProxyConnection.startWrite ⟨⟨-1, 0⟩, 1, []⟩
        (proxyIn ProxyConnection.State.DISCONNECTED (-1))).alive = false :=
  ⟨((connect_failure ⟨⟨-1, 0⟩, 1, []⟩ (proxyIn ProxyConnection.State.DISCONNECTED (-1)) rfl).1
      rfl (by decide)).1,
    ((connect_failure ⟨⟨-1, 0⟩, 1, []⟩ (proxyIn ProxyConnection.State.DISCONNECTED (-1)) rfl).1
      rfl (by decide)).2.1,
    ((connect_failure ⟨⟨-1, 0⟩, 1, []⟩ (proxyIn ProxyConnection.State.DISCONNECTED (-1)) rfl).1
      rfl (by decide)).2.2.1⟩

/-! ## Transport errors -/

/-- C26 fails on the code: a failed write in `writeSome()` (`::write` returns 0 or less), an
end-of-file in `readSome()` and a read error other than `EAGAIN` call `close()` and nothing
else.  For every connection whose origin descriptor is open, each of the three hands the
descriptor to `::close` once and leaves the proxy object as it was (not deleted), `request_`
set as it was and the client request untouched: not finished, its status unchanged.  The error
path next to them in `readSome()`, an error reported by `process`, calls `destroy()`: there
the proxy object is deleted and the client request is finished.  For instance, on the
connection built by the constructor for `localhost:3000` and started (state `WRITING`,
descriptor 7), a failed write leaves the proxy alive and the request unfinished; after the
request is written (state `READING`), so do an end-of-file and a read error, while a parse
error deletes the proxy and finishes the request with `InternalServerError`. -/
theorem transport_error_does_not_destroy :
    (∀ w : World, 0 ≤ w.self.fd →
      (∀ rv : Int, rv ≤ 0 →
        (ProxyConnection.writeSome rv w).alive = w.alive ∧
        (ProxyConnection.writeSome rv w).client = w.client ∧
        (ProxyConnection.writeSome rv w).self.request = w.self.request ∧
        (ProxyConnection.writeSome rv w).closed = w.closed ++ [w.self.fd]) ∧
      (∀ (data : List Nat) (eagain : Bool) (processed : World → HttpMessageError × World),
        (ProxyConnection.readSome 0 data eagain processed w).alive = w.alive ∧
        (ProxyConnection.readSome 0 data eagain processed w).client = w.client ∧
        (ProxyConnection.readSome 0 data eagain processed w).self.request = w.self.request ∧
        (ProxyConnection.readSome 0 data eagain processed w).closed
          = w.closed ++ [w.self.fd]) ∧
      (∀ (rv : Int) (data : List Nat) (processed : World → HttpMessageError × World), rv < 0 →
        (ProxyConnection.readSome rv data false processed w).alive = w.alive ∧
        (ProxyConnection.readSome rv data false processed w).client = w.client ∧
        (ProxyConnection.readSome rv data false processed w).self.request = w.self.request ∧
        (ProxyConnection.readSome rv data false processed w).closed
          = w.closed ++ [w.self.fd])) ∧
    ((writingProxy.self.state, writingProxy.self.fd, writingProxy.alive)
        = (ProxyConnection.State.WRITING, 7, true) ∧
      ((ProxyConnection.writeSome (-1) writingProxy).alive,
        (ProxyConnection.writeSome (-1) writingProxy).client.finished,
        (ProxyConnection.writeSome (-1) writingProxy).closed) = (true, 0, [7])) ∧
    ((readingProxy.self.state, readingProxy.self.fd, readingProxy.alive)
        = (ProxyConnection.State.READING, 7, true) ∧
      ((ProxyConnection.readSome 0 [] false (fun v => (HttpMessageError.Partial, v))
          readingProxy).alive,
        (ProxyConnection.readSome 0 [] false (fun v => (HttpMessageError.Partial, v))
          readingProxy).client.finished,
        (ProxyConnection.readSome 0 [] false (fun v => (HttpMessageError.Partial, v))
          readingProxy).closed) = (true, 0, [7]) ∧
      ((ProxyConnection.readSome (-1) [] false (fun v => (HttpMessageError.Partial, v))
          readingProxy).alive,
        (ProxyConnection.readSome (-1) [] false (fun v => (HttpMessageError.Partial, v))
          readingProxy).client.finished,
        (ProxyConnection.readSome (-1) [] false (fun v => (HttpMessageError.Partial, v))
          readingProxy).closed) = (true, 0, [7]) ∧
      ((ProxyConnection.readSome 1 [88] false (fun v => (HttpMessageError.SyntaxError, v))
          readingProxy).alive,
        (ProxyConnection.readSome 1 [88] false (fun v => (HttpMessageError.SyntaxError, v))
          readingProxy).client.finished,
        (ProxyConnection.readSome 1 [88] false (fun v => (HttpMessageError.SyntaxError, v))
          readingProxy).client.status) = (false, 1, HttpError.InternalServerError)) := by
  refine ⟨?_, ⟨by decide, by decide⟩, by decide, by decide, by decide, by decide⟩
  intro w hfd
  have hn : ¬ w.self.fd < 0 := by omega
  have hc : (ProxyConnection.close w).alive = w.alive ∧
      (ProxyConnection.close w).client = w.client ∧
      (ProxyConnection.close w).self.request = w.self.request ∧
      (ProxyConnection.close w).closed = w.closed ++ [w.self.fd] := by
    simp [ProxyConnection.close, hn]
  refine ⟨?_, ?_, ?_⟩
  · intro rv h
    have e : ProxyConnection.writeSome rv w = ProxyConnection.close w := by
      have : ¬ rv > 0 := by omega
      simp only [ProxyConnection.writeSome, this, if_false]
    rw [e]; exact hc
  · intro data eagain processed
    have e : ProxyConnection.readSome 0 data eagain processed w = ProxyConnection.close w := by
      simp [ProxyConnection.readSome]
    rw [e]; exact hc
  · intro rv data processed h
    have e : ProxyConnection.readSome rv data false processed w = ProxyConnection.close w := by
      have h1 : ¬ rv > 0 := by omega
      have h2 : ¬ rv = 0 := by omega
      simp [ProxyConnection.readSome, h1, h2]
    rw [e]; exact hc

/-- Witness for C26: the started connection in state `WRITING` with the origin descriptor 7,
whose write fails. -/
theorem transport_error_does_not_destroy_witness :
    0 ≤ writingProxy.self.fd ∧
    (ProxyConnection.writeSome (-1) writingProxy).alive = writingProxy.alive ∧
    (ProxyConnection.writeSome (-1) writingProxy).client = writingProxy.client :=
  ⟨by decide,
    (((transport_error_does_not_destroy.1 writingProxy (by decide)).1 (-1) (by decide))).1,
    (((transport_error_does_not_destroy.1 writingProxy (by decide)).1 (-1) (by decide))).2.1⟩

/-! ## Timeouts -/

/-- C27, as stated, fails: take the connection built by the constructor for `localhost:3000`,
started (state `WRITING`) and with its request written (state `READING`, origin descriptor 7).
In the write phase and in the read phase alike the timer is not active and the three timeouts
are 0, and the timeout handler, applied to the connection in state `READING`, does not
terminate it: the state is still `READING`, the descriptor 7 has not been closed, the proxy
connection is alive and the client request is not finished. -/
theorem timeout_does_not_terminate :
    (writingProxy.self.state, timerFields writingProxy.self)
      = (ProxyConnection.State.WRITING, false, 0, 0, 0) ∧
    (readingProxy.self.state, readingProxy.self.fd, timerFields readingProxy.self)
      = (ProxyConnection.State.READING, 7, false, 0, 0, 0) ∧
    ((ProxyConnection.timeout readingProxy).self.state,
      (ProxyConnection.timeout readingProxy).self.fd,
      (ProxyConnection.timeout readingProxy).closed,
      (ProxyConnection.timeout readingProxy).alive,
      (ProxyConnection.timeout readingProxy).client.finished)
      = (ProxyConnection.State.READING, 7, [], true, 0) := by
  refine ⟨by decide, by decide, by decide⟩

/-- C27 (amended): timeouts are not in effect.  The constructor sets `connectTimeout_`,
`readTimeout_` and `writeTimeout_` to 0 and no method assigns them, so every `timer_.start`,
each guarded by a timeout greater than 0, is skipped: `startRead()` with `readTimeout_` 0 and
`startWrite()` with `connectTimeout_` and `writeTimeout_` 0 leave the timer as it is.  Hence in
every connection reached from the constructor by calls of its methods (for any origin, client
request and answers of the operating system, the call of the parser inside `readSome()`
leaving the timer alone) the three timeouts are 0 and the timer is not active: no timer
fires, the timeout handler is not invoked, and no connection is terminated by a timeout. -/
theorem timers_never_armed :
    (∀ (origin : List Nat) (cloak : Bool) (client : HttpRequest) (calls : List ProxyCall),
      KeepTimers calls →
      timerFields (runCalls calls ⟨ProxyConnection.new origin cloak, true, client, []⟩).self
        = (false, 0, 0, 0)) ∧
    (∀ w : World, w.self.readTimeout = 0 →
      timerFields (ProxyConnection.startRead w).self = timerFields w.self) ∧
    (∀ w : World, w.self.connectTimeout = 0 → w.self.writeTimeout = 0 →
      timerFields (ProxyConnection.startWriteConnected w).self = timerFields w.self) := by
  refine ⟨?_, startRead_timerFields, startWriteConnected_timerFields⟩
  intro origin cloak client calls hk
  exact runCalls_timerFields calls _ hk (new_timerFields origin cloak)

/-- Witness for C27: the connection for `localhost:3000` is started, its request is written,
and one byte of the response is read. -/
theorem timers_never_armed_witness :
    timerFields (runCalls
        [ProxyCall.start originUp, ProxyCall.writeSome 18,
          ProxyCall.readSome 1 [72] false (fun v => (HttpMessageError.Partial, v))]
        ⟨ProxyConnection.new (bytesOf "localhost:3000") true, true, freshProxy.client, []⟩).self
      = (false, 0, 0, 0) :=
  timers_never_armed.1 (bytesOf "localhost:3000") true freshProxy.client
    [ProxyCall.start originUp, ProxyCall.writeSome 18,
      ProxyCall.readSome 1 [72] false (fun v => (HttpMessageError.Partial, v))]
    (by simp [KeepTimers, ProxyCall.KeepsTimer])

/-! ## Parse start position -/

/-- C28, as stated, fails for a cursor inside the chunk.  On the chunk `@GET / HTTP/1.1`,
empty line, at offset 0 with the cursor at 1, the first byte examined is the `@` at index 0,
not the `G` at index 1: the call ends in `SYNTAX_ERROR` with no callback and the cursor still
at 1, although the bytes from index 1 on are a request that parses when given as a chunk of
their own.  On the chunk `GET /x HTTP/1.1`, `Host: a`, empty line with the cursor at 1 the
bytes are examined from index 0, but every payload reference is taken one byte further: the
callbacks receive the method `ET `, the URI `x `, the header name `ost:` and the header value
CR. -/
theorem parse_starts_at_chunk_begin :
    (process 64 (HttpMessageProcessor.new ParseMode.REQUEST) atGet (whole atGet) (some 1)
        allTrue).map (fun r => (r.trace, r.parser.state, r.nparsed)) =
      some ([], State.SYNTAX_ERROR, 1) ∧
    (process 64 (HttpMessageProcessor.new ParseMode.REQUEST) (atGet.drop 1)
        (whole (atGet.drop 1)) (some 0) allTrue).map (fun r => (r.trace, r.parser.state)) =
      some ([Event.onMessageBeginRequest (bytesOf "GET") (bytesOf "/") 1 1,
        Event.onMessageHeaderEnd, Event.onMessageEnd], State.MESSAGE_BEGIN) ∧
    (process 64 (HttpMessageProcessor.new ParseMode.REQUEST) simpleGet (whole simpleGet)
        (some 1) allTrue).map (fun r => (r.trace, r.i, r.nparsed)) =
      some ([Event.onMessageBeginRequest (bytesOf "ET ") (bytesOf "x ") 1 1,
        Event.onMessageHeader (bytesOf "ost:") [CR],
        Event.onMessageHeaderEnd, Event.onMessageEnd], 28, 29) := by
  refine ⟨by decide!, by decide!, by decide!⟩

/-- C28 (amended): for every chunk and every cursor value, the first byte `process` examines
is the chunk byte at index 0: the read pointer starts at the beginning of the chunk whatever
the cursor, and (hooks returning true) the state, read pointer and cursor after a pass depend
on the buffer only through the byte at the read pointer.  A payload reference (method, URI,
reason phrase, header name, header value) is taken at the stream position of the cursor,
that is at chunk index `cursor - chunk.offset`, and read pointer and cursor advance by the
same amount in every pass.  So a payload reference starts at the byte examined for it when
the cursor equals the stream position of the read pointer, as it does throughout a call
entered with the cursor at `chunk.offset`. -/
theorem parse_start_position :
    (∀ (p : HttpMessageProcessor) (buf buf2 : List Nat) (chunk : BufferRef) (cur : Option Nat),
      (entry p chunk cur).i = chunk.offset ∧
      (entry p chunk cur).nparsed = cur.getD chunk.offset ∧
      (buf.getD chunk.offset 0 = buf2.getD chunk.offset 0 →
        (step buf chunk allTrue (entry p chunk cur)).cfg.p.state
          = (step buf2 chunk allTrue (entry p chunk cur)).cfg.p.state ∧
        (step buf chunk allTrue (entry p chunk cur)).cfg.i
          = (step buf2 chunk allTrue (entry p chunk cur)).cfg.i ∧
        (step buf chunk allTrue (entry p chunk cur)).cfg.nparsed
          = (step buf2 chunk allTrue (entry p chunk cur)).cfg.nparsed)) ∧
    (∀ (buf buf2 : List Nat) (chunk : BufferRef) (c : Cfg),
      buf.getD c.i 0 = buf2.getD c.i 0 →
      (step buf chunk allTrue c).cfg.p.state = (step buf2 chunk allTrue c).cfg.p.state ∧
      (step buf chunk allTrue c).cfg.i = (step buf2 chunk allTrue c).cfg.i ∧
      (step buf chunk allTrue c).cfg.nparsed = (step buf2 chunk allTrue c).cfg.nparsed) ∧
    (∀ (buf : List Nat) (chunk : BufferRef) (cb : Hooks) (c : Cfg),
      chunk.offset ≤ c.nparsed → c.nparsed < SIZE_MOD →
      (c.p.state = State.REQUEST_LINE_BEGIN → isToken (buf.getD c.i 0) = true →
        (step buf chunk cb c).cfg.p.method = ⟨c.nparsed, 1⟩) ∧
      (c.p.state = State.REQUEST_ENTITY_BEGIN → isprint (buf.getD c.i 0) = true →
        (step buf chunk cb c).cfg.p.entity = ⟨c.nparsed, 1⟩) ∧
      (c.p.state = State.STATUS_MESSAGE_BEGIN → isText (buf.getD c.i 0) = true →
        (step buf chunk cb c).cfg.p.message = ⟨c.nparsed, 1⟩) ∧
      (c.p.state = State.HEADER_NAME_BEGIN → isToken (buf.getD c.i 0) = true →
        (step buf chunk cb c).cfg.p.name = ⟨c.nparsed, 1⟩) ∧
      (c.p.state = State.HEADER_VALUE_BEGIN → isText (buf.getD c.i 0) = true →
        (step buf chunk cb c).cfg.p.value = ⟨c.nparsed, 1⟩)) ∧
    (∀ (buf : List Nat) (chunk : BufferRef) (cb : Hooks) (c : Cfg), c.nparsed < SIZE_MOD →
      c.i ≤ (step buf chunk cb c).cfg.i ∧
      (step buf chunk cb c).cfg.nparsed
        = szAdd c.nparsed ((step buf chunk cb c).cfg.i - c.i)) := by
  refine ⟨?_, ?_, ?_, ?_⟩
  · intro p buf buf2 chunk cur
    exact ⟨rfl, rfl, fun h => step_examines_byte_at_i buf buf2 chunk (entry p chunk cur) h⟩
  · intro buf buf2 chunk c h
    exact step_examines_byte_at_i buf buf2 chunk c h
  · intro buf chunk cb c ha hM
    have e := refHere_at_cursor chunk c ha hM
    obtain ⟨h1, h2, h3, h4, h5⟩ := step_takes_ref_at_cursor buf chunk cb c
    exact ⟨fun hs hb => (h1 hs hb).trans e, fun hs hb => (h2 hs hb).trans e,
      fun hs hb => (h3 hs hb).trans e, fun hs hb => (h4 hs hb).trans e,
      fun hs hb => (h5 hs hb).trans e⟩
  · intro buf chunk cb c h
    exact step_lockstep buf chunk cb c h

/-- Witness for C28: a fresh REQUEST parser in `REQUEST_LINE_BEGIN` at the `G` of
`GET /x ...` (read pointer 0) with the cursor at 1 takes the method reference at position
1. -/
theorem parse_start_position_witness :
    (step simpleGet (whole simpleGet) allTrue
        ⟨{ HttpMessageProcessor.new ParseMode.REQUEST with state := State.REQUEST_LINE_BEGIN }, 0, 1, []⟩).cfg.p.method
      = ⟨1, 1⟩ :=
  ((parse_start_position.2.2.1 simpleGet (whole simpleGet) allTrue
      ⟨{ HttpMessageProcessor.new ParseMode.REQUEST with state := State.REQUEST_LINE_BEGIN }, 0, 1, []⟩
      (by decide) (by decide)).1 rfl (by decide))

/-! ## The status code -/

/-- C29 fails on the code: in state `STATUS_CODE_BEGIN`, at a byte that is not a decimal
digit, the pass assigns the value of the enumerator `SYNTAX_ERROR` to the numeric field
`code_` and leaves everything else as it is: the state stays `STATUS_CODE_BEGIN` instead of
becoming `SYNTAX_ERROR`, and the byte is not consumed.  The loop therefore repeats the same
pass for ever: from such a configuration inside a chunk it never returns, whatever number of
passes it is allowed.  On `HTTP/1.1 X00 OK` CR LF a fresh RESPONSE parser reaches
`STATUS_CODE_BEGIN` at the `X` (index 9) after ten passes, and the call never returns. -/
theorem bad_status_code_start_never_returns :
    (∀ (buf : List Nat) (chunk : BufferRef) (cb : Hooks) (c : Cfg),
      c.p.state = State.STATUS_CODE_BEGIN → isdigit (buf.getD c.i 0) = false →
      step buf chunk cb c = Step.next { c with p := { c.p with code := SYNTAX_ERROR_value } } ∧
      (step buf chunk cb c).cfg.p.state = State.STATUS_CODE_BEGIN ∧
      (step buf chunk cb c).cfg.i = c.i ∧ (step buf chunk cb c).cfg.nparsed = c.nparsed) ∧
    (∀ (buf : List Nat) (chunk : BufferRef) (cb : Hooks) (fuel : Nat) (c : Cfg),
      c.p.state = State.STATUS_CODE_BEGIN → isdigit (buf.getD c.i 0) = false →
      c.i ≠ chunk.offset + chunk.size → loop buf chunk cb fuel c = none) ∧
    (after badStatusStart (whole badStatusStart) allTrue 10
        (entry (HttpMessageProcessor.new ParseMode.RESPONSE) (whole badStatusStart) (some 0))).map
      (fun c => (c.p.state, c.i, badStatusStart.getD c.i 0, c.trace))
      = some (State.STATUS_CODE_BEGIN, 9, 88, []) ∧
    (∀ fuel, process fuel (HttpMessageProcessor.new ParseMode.RESPONSE) badStatusStart
      (whole badStatusStart) (some 0) allTrue = none) := by
  refine ⟨?_, ?_, by decide!, ?_⟩
  · intro buf chunk cb c hs hb
    have e := step_status_code_begin_bad buf chunk cb c hs hb
    rw [e]
    exact ⟨rfl, hs, rfl, rfl⟩
  · intro buf chunk cb fuel c hs hb hi
    exact status_code_begin_stuck buf chunk cb fuel c hs hb hi
  · intro fuel
    have ha : ∃ c, after badStatusStart (whole badStatusStart) allTrue 10
        (entry (HttpMessageProcessor.new ParseMode.RESPONSE) (whole badStatusStart) (some 0))
          = some c ∧ c.p.state = State.STATUS_CODE_BEGIN ∧
        isdigit (badStatusStart.getD c.i 0) = false ∧
        c.i ≠ (whole badStatusStart).offset + (whole badStatusStart).size := by
      decide!
    obtain ⟨c, a, hs, hb, hi⟩ := ha
    have hl : loop badStatusStart (whole badStatusStart) allTrue (10 + fuel)
        (entry (HttpMessageProcessor.new ParseMode.RESPONSE) (whole badStatusStart) (some 0))
          = none := by
      rw [after_loop _ _ _ 10 _ c fuel a]
      exact status_code_begin_stuck _ _ _ fuel c hs hb hi
    have hl2 : loop badStatusStart (whole badStatusStart) allTrue fuel
        (entry (HttpMessageProcessor.new ParseMode.RESPONSE) (whole badStatusStart) (some 0))
          = none := by
      cases hx : loop badStatusStart (whole badStatusStart) allTrue fuel
        (entry (HttpMessageProcessor.new ParseMode.RESPONSE) (whole badStatusStart) (some 0)) with
      | none => rfl
      | some r =>
        have := loop_mono_le _ _ _ fuel (10 + fuel) _ r (by omega) hx
        rw [hl] at this
        exact absurd this (by simp)
    simp only [process, hl2]

/-- Witness for C29: a RESPONSE parser in `STATUS_CODE_BEGIN` at the `X` of `X00`. -/
theorem bad_status_code_start_never_returns_witness :
    step (bytesOf "X00") ⟨0, 3⟩ allTrue
        ⟨{ HttpMessageProcessor.new ParseMode.RESPONSE with state := State.STATUS_CODE_BEGIN, code := 7 }, 0, 0, []⟩
      = Step.next ⟨{ HttpMessageProcessor.new ParseMode.RESPONSE with state := State.STATUS_CODE_BEGIN, code := SYNTAX_ERROR_value }, 0, 0, []⟩ :=
  (bad_status_code_start_never_returns.1 (bytesOf "X00") ⟨0, 3⟩ allTrue
    ⟨{ HttpMessageProcessor.new ParseMode.RESPONSE with state := State.STATUS_CODE_BEGIN, code := 7 }, 0, 0, []⟩
    rfl (by decide)).1

/-- C30, as stated, fails: status lines whose code has two or four digits are accepted.  On
`HTTP/1.1 20 OK` CR LF and on `HTTP/1.1 2000 OK` CR LF a fresh RESPONSE parser invokes
`onMessageBegin` with the codes 20 and 2000 and is in `HEADER_NAME_BEGIN`, not in
`SYNTAX_ERROR`, afterwards. -/
theorem status_code_length_not_checked :
    (process 64 (HttpMessageProcessor.new ParseMode.RESPONSE) shortStatusCode
        (whole shortStatusCode) (some 0) allTrue).map (fun r => (r.trace, r.parser.state)) =
      some ([Event.onMessageBeginResponse 1 1 20 (bytesOf "OK")], State.HEADER_NAME_BEGIN) ∧
    (process 64 (HttpMessageProcessor.new ParseMode.RESPONSE) longStatusCode
        (whole longStatusCode) (some 0) allTrue).map (fun r => (r.trace, r.parser.state)) =
      some ([Event.onMessageBeginResponse 1 1 2000 (bytesOf "OK")], State.HEADER_NAME_BEGIN) := by
  refine ⟨by decide!, by decide!⟩

/-- C30 (amended): in RESPONSE mode a status line `HTTP/major.minor SP code`, followed by SP
and a reason phrase of one or more TEXT bytes or directly by CR LF, is accepted whenever its
status code consists of one or more decimal digits, whatever their number: a fresh parser
called on the line returns at its end in `HEADER_NAME_BEGIN`, having invoked `onMessageBegin`
once with the version numbers, the decimal value of the code and the reason phrase (empty
when CR LF follows the code directly).  So `HTTP/1.1 200 OK`, `HTTP/1.1 20 OK` and
`HTTP/1.1 2000 OK` are all accepted. -/
theorem status_code_any_length (major minor code reason : List Nat)
    (hmaj : ∀ b ∈ major, isdigit b = true) (hmin : ∀ b ∈ minor, isdigit b = true)
    (hne : code ≠ []) (hcode : ∀ b ∈ code, isdigit b = true)
    (hreason : ∀ b ∈ reason, isText b = true)
    (hM : (statusLine major minor code reason).length < SIZE_MOD)
    (fuel : Nat) (hf : (statusLine major minor code reason).length + 1 < fuel) :
    (∃ r, process fuel (HttpMessageProcessor.new ParseMode.RESPONSE)
          (statusLine major minor code reason) (whole (statusLine major minor code reason))
          none allTrue = some r ∧
      r.trace = [Event.onMessageBeginResponse (digitsValue 0 major) (digitsValue 0 minor)
        (decimalValue code : Int) reason] ∧
      r.parser.state = State.HEADER_NAME_BEGIN ∧ r.exit = Exit.chunkEnd ∧
      r.ret = (statusLine major minor code reason).length) ∧
    (statusLine (bytesOf "1") (bytesOf "1") (bytesOf "200") (bytesOf "OK")
        = bytesOf "HTTP/1.1 200 OK\r\n" ∧
      statusLine (bytesOf "1") (bytesOf "1") (bytesOf "200") [] = bytesOf "HTTP/1.1 200\r\n" ∧
      statusLine (bytesOf "1") (bytesOf "1") (bytesOf "20") (bytesOf "OK") = shortStatusCode ∧
      statusLine (bytesOf "1") (bytesOf "1") (bytesOf "2000") (bytesOf "OK")
        = longStatusCode) := by
  exact ⟨process_status_line major minor code reason hmaj hmin hne hcode hreason hM fuel hf,
    by decide, by decide, by decide, by decide⟩

/-- Witness for C30: the status line `HTTP/1.1 2000 OK`. -/
theorem status_code_any_length_witness :
    ∃ r, process 64 (HttpMessageProcessor.new ParseMode.RESPONSE)
        (statusLine (bytesOf "1") (bytesOf "1") (bytesOf "2000") (bytesOf "OK"))
        (whole (statusLine (bytesOf "1") (bytesOf "1") (bytesOf "2000") (bytesOf "OK")))
        none allTrue = some r ∧
      r.trace = [Event.onMessageBeginResponse (digitsValue 0 (bytesOf "1"))
        (digitsValue 0 (bytesOf "1")) (decimalValue (bytesOf "2000") : Int) (bytesOf "OK")] ∧
      r.parser.state = State.HEADER_NAME_BEGIN :=
  (status_code_any_length (bytesOf "1") (bytesOf "1") (bytesOf "2000") (bytesOf "OK")
      (by decide) (by decide) (by decide) (by decide) (by decide) (by decide) 64
      (by decide)).1.imp
    fun _ h => ⟨h.1, h.2.1, h.2.2.1⟩

/-! ## Closing the origin descriptor twice -/

/-- C39 fails on the code: `close()` passes the open origin descriptor to `::close` and then
stores 0, not a negative value, in `fd_`.  For every connection with an open origin
descriptor (`fd_ >= 0`): after `close()` the descriptor has been closed once, `fd_` is 0 and
`isClosed()` (`fd_ < 0`) is false; a second `close()` passes the descriptor 0 to `::close`;
`destroy()` closes the origin descriptor and then, in the `close()` run by the destructor,
the descriptor 0; and `destroy()` after a `close()` closes the descriptor 0 twice.  So the
later calls do perform close system calls, on a descriptor (0) that is not the origin's. -/
theorem close_is_not_idempotent (w : World) (hfd : 0 ≤ w.self.fd) :
    (ProxyConnection.close w).self.fd = 0 ∧
    ProxyConnection.isClosed (ProxyConnection.close w).self = false ∧
    (ProxyConnection.close w).closed = w.closed ++ [w.self.fd] ∧
    (ProxyConnection.close (ProxyConnection.close w)).closed = w.closed ++ [w.self.fd, 0] ∧
    (∀ code, (ProxyConnection.destroy code w).closed = w.closed ++ [w.self.fd, 0]) ∧
    (∀ code, (ProxyConnection.destroy code (ProxyConnection.close w)).closed
      = w.closed ++ [w.self.fd, 0, 0]) ∧
    (ProxyConnection.destructor (ProxyConnection.close w)).closed
      = w.closed ++ [w.self.fd, 0] := by
  have hn : ¬ w.self.fd < 0 := by omega
  have h1 : ProxyConnection.close w
      = { w with self := { w.self with timerActive := false, ioActive := false, fd := 0 }, closed := w.closed ++ [w.self.fd] } := by
    simp only [ProxyConnection.close, hn, if_false]
  have h2 : ∀ v : World, v.self.fd = 0 →
      (ProxyConnection.close v).closed = v.closed ++ [0] ∧
      (ProxyConnection.close v).self.fd = 0 ∧
      (ProxyConnection.close v).self.request = v.self.request := by
    intro v hv
    simp [ProxyConnection.close, hv]
  have h3 : ∀ v : World, v.self.fd = 0 →
      (ProxyConnection.destructor v).closed = v.closed ++ [0] := by
    intro v hv
    obtain ⟨e1, _, _⟩ := h2 v hv
    unfold ProxyConnection.destructor
    split_ifs <;> simp [e1]
  have h4 : ∀ (code : HttpError) (v : World), v.self.fd = 0 →
      (ProxyConnection.destroy code v).closed = v.closed ++ [0, 0] := by
    intro code v hv
    obtain ⟨e1, e2, e3⟩ := h2 v hv
    unfold ProxyConnection.destroy
    simp only [hv, ge_iff_le, le_refl, if_true]
    split_ifs <;> (rw [h3 _ (by simpa using e2)]; simp [e1])
  refine ⟨by rw [h1], by rw [h1]; rfl, by rw [h1], ?_, ?_, ?_, ?_⟩
  · rw [(h2 _ (by rw [h1])).1, h1]; simp
  · intro code
    unfold ProxyConnection.destroy
    simp only [ge_iff_le, hfd, if_true]
    split_ifs <;> (rw [h3 _ (by rw [h1])]; rw [h1]; simp)
  · intro code
    rw [h4 code _ (by rw [h1]), h1]; simp
  · rw [h3 _ (by rw [h1]), h1]; simp

/-- Witness for C39: a connection in state `READING` with the origin descriptor 7: `destroy()`
closes the descriptors 7 and 0. -/
theorem close_is_not_idempotent_witness :
    (ProxyConnection.destroy HttpError.Undefined (proxyIn ProxyConnection.State.READING 7)).closed
      = [7, 0] :=
  (close_is_not_idempotent (proxyIn ProxyConnection.State.READING 7) (by decide)).2.2.2.2.1
    HttpError.Undefined

/-! ## Transport selection -/

/-- C36: the end-of-chunk tail branch is unreachable.  For every parser reached from a fresh
parser (any mode) by a sequence of calls of `process` that returned (any hooks, chunks,
buffers and cursors): if its state is `CONTENT_BEGIN` then `content_length > 0` or `chunked`
or the mode is MESSAGE; the same holds after any number of passes of a further call; and
when the byte loop of a further call is left, the condition tested after the loop
(`CONTENT_BEGIN`, `content_length < 0`, not chunked, mode other than MESSAGE) does not hold,
the code after the loop changes nothing and invokes no hook, so that no `onMessageEnd` comes
from that branch, and the call returns what the loop left. -/
theorem tail_branch_unreachable (cb : Hooks) (mode : ParseMode) (calls : List Call)
    (q : HttpMessageProcessor) (t : List Event)
    (h : processAll cb (HttpMessageProcessor.new mode) calls = some (q, t)) :
    (q.state = State.CONTENT_BEGIN →
      (q.contentLength > 0 ∨ q.chunked = true ∨ q.mode = ParseMode.MESSAGE)) ∧
    (∀ (k : Call) (n : Nat) (c : Cfg),
      after k.buf k.chunk cb n (entry q k.chunk k.cursor) = some c →
      c.p.state = State.CONTENT_BEGIN →
        (c.p.contentLength > 0 ∨ c.p.chunked = true ∨ c.p.mode = ParseMode.MESSAGE)) ∧
    (∀ (k : Call) (c : Cfg) (w : Exit),
      loop k.buf k.chunk cb k.fuel (entry q k.chunk k.cursor) = some (c, w) →
      ¬ (c.p.state = State.CONTENT_BEGIN ∧ c.p.contentLength < 0 ∧ c.p.chunked = false ∧
          c.p.mode ≠ ParseMode.MESSAGE) ∧
      tail cb c = (c, Exit.chunkEnd) ∧ tailCalls c = [] ∧
      process k.fuel q k.buf k.chunk k.cursor cb = some (finish k.chunk (c, w))) := by
  have hq : Inv q := processAll_inv cb calls _ q t (inv_new mode) h
  refine ⟨hq.1, ?_, ?_⟩
  · intro k n c ha
    exact (after_inv k.buf k.chunk cb n _ c hq ha).1
  · intro k c w hl
    have hc : Inv c.p := (loop_inv k.buf k.chunk cb k.fuel _ c w hq hl).1
    have hno : ¬ (c.p.state = State.CONTENT_BEGIN ∧ c.p.contentLength < 0 ∧
        c.p.chunked = false ∧ c.p.mode ≠ ParseMode.MESSAGE) := by
      rintro ⟨h1, h2, h3, h4⟩
      rcases hc.1 h1 with h5 | h5 | h5
      · omega
      · rw [h3] at h5; cases h5
      · exact h4 h5
    refine ⟨hno, tail_inv cb c hc, by simp only [tailCalls, hno, if_false], ?_⟩
    unfold process
    rw [hl]
    cases w
    · simp only [tail_inv cb c hc]
    · rfl
    · rfl

/-- Witness for C36: the head of the POST request with `Content-Length: 5`, after which the
parser is in `CONTENT_BEGIN` with a positive content length. -/
theorem tail_branch_unreachable_witness :
    ∃ q t, processAll allTrue (HttpMessageProcessor.new ParseMode.REQUEST)
        [⟨64, postHead, whole postHead, none⟩] = some (q, t) ∧
      q.state = State.CONTENT_BEGIN ∧
      (q.contentLength > 0 ∨ q.chunked = true ∨ q.mode = ParseMode.MESSAGE) :=
  ⟨_, _, rfl, rfl,
    (tail_branch_unreachable allTrue ParseMode.REQUEST [⟨64, postHead, whole postHead, none⟩]
      _ _ rfl).1 rfl⟩

/-! ## Termination of the byte loop -/

/-- C34 fails on the code: two states have a pass that consumes no byte, keeps the state and
stays in the loop.  In `CONTENT_CHUNK_BODY`, once the data of the chunk has been delivered
(`contentLength_` is 0), a byte other than CR leaves the configuration exactly as it was;
in `STATUS_CODE_BEGIN` a byte that is not a digit only overwrites `code_`.  From such a
configuration inside a chunk the loop never ends, whatever number of passes it is allowed.
The first configuration is reached from a fresh parser: on the chunked response
`HTTP/1.1 200 OK`, `Transfer-Encoding: chunked`, empty line, `5` CR LF `helloX`, a fresh
RESPONSE parser with hooks returning true is in `CONTENT_CHUNK_BODY` at the `X` (index 55)
after 56 passes, having delivered `hello`, and the call never returns. -/
theorem byte_loop_can_stall :
    (∀ (buf : List Nat) (chunk : BufferRef) (cb : Hooks) (c : Cfg),
      c.p.state = State.CONTENT_CHUNK_BODY → c.p.contentLength = 0 → buf.getD c.i 0 ≠ CR →
      step buf chunk cb c = Step.next c) ∧
    (∀ (buf : List Nat) (chunk : BufferRef) (cb : Hooks) (fuel : Nat) (c : Cfg),
      c.p.state = State.CONTENT_CHUNK_BODY → c.p.contentLength = 0 → buf.getD c.i 0 ≠ CR →
      c.i ≠ chunk.offset + chunk.size → loop buf chunk cb fuel c = none) ∧
    (∀ (buf : List Nat) (chunk : BufferRef) (cb : Hooks) (fuel : Nat) (c : Cfg),
      c.p.state = State.STATUS_CODE_BEGIN → isdigit (buf.getD c.i 0) = false →
      c.i ≠ chunk.offset + chunk.size →
      (∃ c1, step buf chunk cb c = Step.next c1 ∧ c1.p.state = c.p.state ∧ c1.i = c.i ∧
        c1.nparsed = c.nparsed ∧ c1.trace = c.trace) ∧
      loop buf chunk cb fuel c = none) ∧
    (after chunkWithoutCr (whole chunkWithoutCr) allTrue 56
        (entry (HttpMessageProcessor.new ParseMode.RESPONSE) (whole chunkWithoutCr) none)).map
      (fun c => (c.p.state, c.p.contentLength, c.i, chunkWithoutCr.getD c.i 0))
      = some (State.CONTENT_CHUNK_BODY, 0, 55, 88) ∧
    (after chunkWithoutCr (whole chunkWithoutCr) allTrue 56
        (entry (HttpMessageProcessor.new ParseMode.RESPONSE) (whole chunkWithoutCr) none)).map
      (fun c => c.trace.filter Event.isContent)
      = some [Event.onMessageContent (bytesOf "hello")] ∧
    (∀ fuel, process fuel (HttpMessageProcessor.new ParseMode.RESPONSE) chunkWithoutCr
      (whole chunkWithoutCr) none allTrue = none) := by
  refine ⟨?_, ?_, ?_, by decide!, by decide!, ?_⟩
  · intro buf chunk cb c hs hl hb
    exact step_chunk_body_idle buf chunk cb c hs hl hb
  · intro buf chunk cb fuel c hs hl hb hi
    exact chunk_body_stuck buf chunk cb fuel c hs hl hb hi
  · intro buf chunk cb fuel c hs hb hi
    refine ⟨⟨_, step_status_code_begin_bad buf chunk cb c hs hb, rfl, rfl, rfl, rfl⟩, ?_⟩
    exact status_code_begin_stuck buf chunk cb fuel c hs hb hi
  · have ha : ∃ c, after chunkWithoutCr (whole chunkWithoutCr) allTrue 56
        (entry (HttpMessageProcessor.new ParseMode.RESPONSE) (whole chunkWithoutCr) none)
          = some c ∧ c.p.state = State.CONTENT_CHUNK_BODY ∧ c.p.contentLength = 0 ∧
        chunkWithoutCr.getD c.i 0 ≠ CR ∧
        c.i ≠ (whole chunkWithoutCr).offset + (whole chunkWithoutCr).size := by
      decide!
    obtain ⟨c, a, hs, hl, hb, hi⟩ := ha
    exact process_never_returns _ _ _ _ _ 56 c a
      (fun f => chunk_body_stuck _ _ _ f c hs hl hb hi)

/-- Witness for C34: a RESPONSE parser in `CONTENT_CHUNK_BODY` with nothing left of the chunk,
at the `X` of `X` CR LF. -/
theorem byte_loop_can_stall_witness :
    step (bytesOf "X\r\n") ⟨0, 3⟩ allTrue
        ⟨{ HttpMessageProcessor.new ParseMode.RESPONSE with state := State.CONTENT_CHUNK_BODY, contentLength := 0 }, 0, 0, []⟩
      = Step.next ⟨{ HttpMessageProcessor.new ParseMode.RESPONSE with state := State.CONTENT_CHUNK_BODY, contentLength := 0 }, 0, 0, []⟩ :=
  byte_loop_can_stall.1 (bytesOf "X\r\n") ⟨0, 3⟩ allTrue
    ⟨{ HttpMessageProcessor.new ParseMode.RESPONSE with state := State.CONTENT_CHUNK_BODY, contentLength := 0 }, 0, 0, []⟩
    rfl rfl (by decide)

/-! ## The version numbers of a response -/

/-- C35 fails on the code: in RESPONSE mode the pass through `MESSAGE_BEGIN` resets
`contentLength_` and `code_` but neither `versionMajor_` nor `versionMinor_` (the REQUEST
branch resets both), and the version states continue the decimal value from what the fields
hold.  So for every RESPONSE parser in `MESSAGE_BEGIN` the next status line
`HTTP/major.minor SP code ...` reports the decimal digits of its version appended to the
version numbers left by the message before.  Two consecutive responses
`HTTP/1.1 204 No Content` on one fresh RESPONSE parser report the versions 1 and 1 for the
first and 11 and 11 for the second. -/
theorem response_version_not_reset :
    (∀ (buf : List Nat) (chunk : BufferRef) (cb : Hooks) (c : Cfg),
      c.p.state = State.MESSAGE_BEGIN → c.p.mode = ParseMode.RESPONSE →
      ∃ c1, step buf chunk cb c = Step.next c1 ∧ c1.p.state = State.STATUS_LINE_BEGIN ∧
        c1.p.versionMajor = c.p.versionMajor ∧ c1.p.versionMinor = c.p.versionMinor ∧
        c1.p.code = 0 ∧ c1.p.contentLength = -1) ∧
    (∀ (buf : List Nat) (major minor code reason rest : List Nat) (p : HttpMessageProcessor)
      (i : Nat) (t : List Event), buf.length < SIZE_MOD →
      (∀ b ∈ major, isdigit b = true) → (∀ b ∈ minor, isdigit b = true) → code ≠ [] →
      (∀ b ∈ code, isdigit b = true) → (∀ b ∈ reason, isText b = true) →
      p.state = State.MESSAGE_BEGIN → p.mode = ParseMode.RESPONSE →
      buf.drop i = statusLine major minor code reason ++ rest →
      ∃ q, after buf (whole buf) allTrue ((statusLine major minor code reason).length + 1)
            ⟨p, i, i, t⟩
          = some ⟨q, i + (statusLine major minor code reason).length,
              i + (statusLine major minor code reason).length,
              t ++ [Event.onMessageBeginResponse (digitsValue p.versionMajor major)
                (digitsValue p.versionMinor minor) (digitsValue 0 code)
                (if reason = [] then p.message.bytes buf else reason)]⟩) ∧
    (digitsValue 0 (bytesOf "1") = 1 ∧ digitsValue 1 (bytesOf "1") = 11) ∧
    (process 128 (HttpMessageProcessor.new ParseMode.RESPONSE) twoResponses
        (whole twoResponses) none allTrue).map (fun r => (r.trace, r.parser.state, r.ret))
      = some ([Event.onMessageBeginResponse 1 1 204 (bytesOf "No Content"),
          Event.onMessageHeaderEnd, Event.onMessageEnd,
          Event.onMessageBeginResponse 11 11 204 (bytesOf "No Content"),
          Event.onMessageHeaderEnd, Event.onMessageEnd], State.MESSAGE_BEGIN, 54) := by
  refine ⟨?_, ?_, ⟨by decide, by decide⟩, by decide!⟩
  · intro buf chunk cb c hs hm
    obtain ⟨p, i, n, t⟩ := c
    exact ⟨_, step_message_begin_response buf chunk cb p i n t hs hm, rfl, rfl, rfl, rfl, rfl⟩
  · intro buf major minor code reason rest p i t hM hmaj hmin hne hcode hreason hs hm hdrop
    obtain ⟨q, a, _⟩ := after_status_line buf hM major minor code reason rest p i t hmaj hmin
      hne hcode hreason hs hm hdrop
    exact ⟨q, a⟩

/-- Witness for C35: a RESPONSE parser in `MESSAGE_BEGIN` that holds the version 1.1 of the
response before. -/
theorem response_version_not_reset_witness :
    ∃ c1, step (bytesOf "HTTP/1.1 204 No Content\r\n\r\n") (whole (bytesOf "HTTP/1.1 204 No Content\r\n\r\n")) allTrue
        ⟨{ HttpMessageProcessor.new ParseMode.RESPONSE with versionMajor := 1, versionMinor := 1, code := 204 }, 0, 0, []⟩
          = Step.next c1 ∧ c1.p.state = State.STATUS_LINE_BEGIN ∧
        c1.p.versionMajor = 1 ∧ c1.p.versionMinor = 1 ∧ c1.p.code = 0 ∧
        c1.p.contentLength = -1 :=
  response_version_not_reset.1 (bytesOf "HTTP/1.1 204 No Content\r\n\r\n")
    (whole (bytesOf "HTTP/1.1 204 No Content\r\n\r\n")) allTrue
    ⟨{ HttpMessageProcessor.new ParseMode.RESPONSE with versionMajor := 1, versionMinor := 1, code := 204 }, 0, 0, []⟩
    rfl rfl

/-! ## A header value folded with bare LF -/

/-- C33 fails on the code: in `LWS_SP_HT_BEGIN` the SP or HT that continues a header line
extends a value that is not empty by three bytes (the statement carries the note
`CR LF (SP | HT)`), also when the state was entered from the bare LF that short-LF leniency
accepts, where only the two bytes LF and SP or HT were consumed.  After such a fold the value
reaches one byte beyond the read pointer, and every later byte of the value moves its end one
byte further.  On `GET / HTTP/1.1` LF `X: a` LF ` b` LF LF the value is one byte long after the
`a`; after the LF and the SP (read pointer at index 21, the `b`, not yet consumed) it is four
bytes long and covers the indices 18 to 21; and `onMessageHeader` receives the value `a` LF SP
`b` LF, which ends with the LF that terminates the header line. -/
theorem lf_fold_extends_by_three :
    (∀ (buf : List Nat) (chunk : BufferRef) (cb : Hooks) (p : HttpMessageProcessor)
      (i : Nat) (t : List Event), p.state = State.HEADER_VALUE → buf.getD i 0 = LF →
      (buf.getD (i + 1) 0 = SP ∨ buf.getD (i + 1) 0 = HT) → p.value.size ≠ 0 →
      i + 2 < SIZE_MOD → i ≠ chunk.offset + chunk.size → i + 1 ≠ chunk.offset + chunk.size →
      after buf chunk cb 2 ⟨p, i, i, t⟩
        = some ⟨{ p with value := ⟨p.value.offset, szAdd p.value.size 3⟩, state := State.LWS_SP_HT, lwsNext := State.HEADER_VALUE, lwsNull := State.HEADER_VALUE_END }, i + 2, i + 2, t⟩) ∧
    (after lfFold (whole lfFold) allTrue 21
        (entry (HttpMessageProcessor.new ParseMode.REQUEST) (whole lfFold) none)).map
      (fun c => (c.p.state, c.i, c.p.value)) = some (State.HEADER_VALUE, 19, ⟨18, 1⟩) ∧
    (after lfFold (whole lfFold) allTrue 23
        (entry (HttpMessageProcessor.new ParseMode.REQUEST) (whole lfFold) none)).map
      (fun c => (c.p.state, c.i, c.p.value, lfFold.getD c.i 0))
      = some (State.LWS_SP_HT, 21, ⟨18, 4⟩, 98) ∧
    (process 64 (HttpMessageProcessor.new ParseMode.REQUEST) lfFold (whole lfFold) none
        allTrue).map (fun r => (r.trace, r.parser.state, r.ret))
      = some ([Event.onMessageBeginRequest (bytesOf "GET") (bytesOf "/") 1 1,
          Event.onMessageHeader (bytesOf "X") (bytesOf "a\n b\n"),
          Event.onMessageHeaderEnd, Event.onMessageEnd], State.MESSAGE_BEGIN, 24) := by
  refine ⟨?_, by decide!, by decide!, by decide!⟩
  intro buf chunk cb p i t hs hb0 hb1 hv hi h0 h1
  have a1 := after_one buf chunk cb _ _ h0 (step_header_value_lf buf chunk cb p i t hs hb0 (by omega))
  have a2 := after_one buf chunk cb _ _ h1
    (step_lws_sp_ht_begin_fold buf chunk cb { p with state := State.LWS_SP_HT_BEGIN, lwsNext := State.HEADER_VALUE, lwsNull := State.HEADER_VALUE_END } (i + 1) t rfl hb1 hv (by omega))
  exact after_trans buf chunk cb 1 1 _ _ _ a1 a2

/-- Witness for C33: a parser in `HEADER_VALUE` with the value `a`, at the LF of `a` LF SP `b`. -/
theorem lf_fold_extends_by_three_witness :
    after (bytesOf "a\n b\n") (whole (bytesOf "a\n b\n")) allTrue 2
        ⟨{ HttpMessageProcessor.new ParseMode.REQUEST with state := State.HEADER_VALUE, value := ⟨0, 1⟩ }, 1, 1, []⟩
      = some ⟨{ HttpMessageProcessor.new ParseMode.REQUEST with value := ⟨0, szAdd 1 3⟩, state := State.LWS_SP_HT, lwsNext := State.HEADER_VALUE, lwsNull := State.HEADER_VALUE_END }, 1 + 2, 1 + 2, []⟩ :=
  lf_fold_extends_by_three.1 (bytesOf "a\n b\n") (whole (bytesOf "a\n b\n")) allTrue
    { HttpMessageProcessor.new ParseMode.REQUEST with state := State.HEADER_VALUE, value := ⟨0, 1⟩ }
    1 [] rfl (by decide) (by decide) (by decide) (by decide) (by decide) (by decide)

/-! ## Framing of the body -/

/-- C38: for every client request whose method is a non-empty token, whose URI is a non-empty
string of printable characters other than SP, and whose forwarded headers (those not named
`Content-Transfer`, `Expect` or `Connection`) have non-empty token names and values that
consist of TEXT bytes and do not start with SP or HT: the bytes `ProxyConnection::start`
leaves in the (before empty) write buffer, given as one chunk to a fresh REQUEST parser with
hooks returning true, make `process` return at the end of the chunk, not in `SYNTAX_ERROR`,
with the callbacks `onMessageBegin(method, uri, 1, 1)`, then one `onMessageHeader(name, value)`
for each forwarded header, in the original order and with the same name and value, then
`onMessageHeaderEnd` (followed by `onMessageEnd` exactly when the headers announce no
body). -/
theorem serialize_parse_round_trip (env : Env) (w : World) (fuel : Nat)
    (hreq : w.self.request = true) (hempty : w.self.writeBuffer = [])
    (hm : w.client.method ≠ [] ∧ ∀ b ∈ w.client.method, isToken b = true)
    (hu : w.client.uri ≠ [] ∧ ∀ b ∈ w.client.uri, isprint b = true ∧ b ≠ SP)
    (hh : ∀ h ∈ w.client.requestHeaders, forwardedRequestHeader h = true →
      h.1 ≠ [] ∧ (∀ b ∈ h.1, isToken b = true) ∧ (∀ b ∈ h.2, isText b = true) ∧
      h.2.head? ≠ some SP ∧ h.2.head? ≠ some HT)
    (hM : (ProxyConnection.start env w).self.writeBuffer.length < SIZE_MOD)
    (hf : 2 * (ProxyConnection.start env w).self.writeBuffer.length < fuel) :
    ∃ r, process fuel (HttpMessageProcessor.new ParseMode.REQUEST)
          (ProxyConnection.start env w).self.writeBuffer
          (whole (ProxyConnection.start env w).self.writeBuffer) none allTrue = some r ∧
      (∃ post, r.trace = Event.onMessageBeginRequest w.client.method w.client.uri 1 1 ::
          ((w.client.requestHeaders.filter forwardedRequestHeader).map
              (fun h => Event.onMessageHeader h.1 h.2) ++ Event.onMessageHeaderEnd :: post) ∧
        (post = [] ∨ post = [Event.onMessageEnd])) ∧
      r.parser.state ≠ State.SYNTAX_ERROR ∧ r.exit = Exit.chunkEnd ∧
      r.ret = (ProxyConnection.start env w).self.writeBuffer.length := by
  have hbuf := start_writeBuffer_eq_head env w hreq hempty
  rw [hbuf] at hM hf ⊢
  have hrl : WellFormedRequestLine w.client.method w.client.uri [49] [49] :=
    ⟨hm.1, hm.2, hu.1, hu.2, by decide, by decide⟩
  have hwf : ∀ h ∈ (w.client.requestHeaders.filter forwardedRequestHeader).map wireHeader,
      h.WellFormed := by
    intro h hmem
    obtain ⟨x, hx, rfl⟩ := List.mem_map.mp hmem
    obtain ⟨hx1, hx2⟩ := List.mem_filter.mp hx
    obtain ⟨k1, k2, k3, k4, k5⟩ := hh x hx1 hx2
    refine wireHeader_wellFormed x k1 k2 k3 ?_
    intro v0 vs hv
    rw [hv] at k4 k5
    exact ⟨fun e => k4 (by rw [e]; rfl), fun e => k5 (by rw [e]; rfl)⟩
  obtain ⟨r, hp, htr, hst, _, _, hex, hret⟩ :=
    process_request_head_any false w.client.method w.client.uri [49] [49] _ hrl hwf hM fuel hf
  have hv : digitsValue 0 [49] = 1 := by decide
  refine ⟨r, hp, ⟨(if contentExpected ParseMode.REQUEST
      (((w.client.requestHeaders.filter forwardedRequestHeader).map wireHeader).foldl headerFrame
        (-1, false)) then [] else [Event.onMessageEnd]), ?_, ?_⟩, ?_, hex, hret⟩
  · rw [htr, hv, List.map_map]
    rfl
  · split_ifs
    · exact Or.inl rfl
    · exact Or.inr rfl
  · rw [hst]
    split_ifs <;> simp

/-- Witness for C38: the request `GET /x` with the headers `Host: a`, `connection: close` and
`Accept: b`. -/
theorem serialize_parse_round_trip_witness :
    ∃ r, process 128 (HttpMessageProcessor.new ParseMode.REQUEST)
          (ProxyConnection.start ⟨⟨-1, 0⟩, 1, []⟩
            { proxyIn ProxyConnection.State.DISCONNECTED (-1) with client := { method := bytesOf "GET", uri := bytesOf "/x", requestHeaders := [(bytesOf "Host", bytesOf "a"), (bytesOf "connection", bytesOf "close"), (bytesOf "Accept", bytesOf "b")], responseHeaders := [], status := HttpError.Undefined, finished := 0, contentAvailable := false } }).self.writeBuffer
          (whole (ProxyConnection.start ⟨⟨-1, 0⟩, 1, []⟩
            { proxyIn ProxyConnection.State.DISCONNECTED (-1) with client := { method := bytesOf "GET", uri := bytesOf "/x", requestHeaders := [(bytesOf "Host", bytesOf "a"), (bytesOf "connection", bytesOf "close"), (bytesOf "Accept", bytesOf "b")], responseHeaders := [], status := HttpError.Undefined, finished := 0, contentAvailable := false } }).self.writeBuffer)
          none allTrue = some r ∧
      r.parser.state ≠ State.SYNTAX_ERROR ∧ r.exit = Exit.chunkEnd :=
  (serialize_parse_round_trip ⟨⟨-1, 0⟩, 1, []⟩
      { proxyIn ProxyConnection.State.DISCONNECTED (-1) with client := { method := bytesOf "GET", uri := bytesOf "/x", requestHeaders := [(bytesOf "Host", bytesOf "a"), (bytesOf "connection", bytesOf "close"), (bytesOf "Accept", bytesOf "b")], responseHeaders := [], status := HttpError.Undefined, finished := 0, contentAvailable := false } }
      128 rfl rfl ⟨by decide, by decide⟩ ⟨by decide, by decide⟩ (by decide) (by decide)
      (by decide)).imp
    fun _ h => ⟨h.1, h.2.2.1, h.2.2.2.1⟩

/-! ## The byte after a header line -/

/-- C37, as stated, fails for a header line whose value is empty after white space: when the
input `GET / HTTP/1.1` CR LF `Host: ` CR LF has been given to a fresh REQUEST parser, the
state is `HEADER_VALUE_END`, not `LWS_SP_HT_BEGIN` (no `onMessageHeader` has been invoked, and
all 24 bytes are consumed). -/
theorem empty_value_header_waits_in_value_end :
    (process 64 (HttpMessageProcessor.new ParseMode.REQUEST) openEmptyHeader
        (whole openEmptyHeader) none allTrue).map
      (fun r => (r.parser.state, decide (r.parser.state = State.LWS_SP_HT_BEGIN), r.trace,
        r.ret, r.exit))
      = some (State.HEADER_VALUE_END, false,
          [Event.onMessageBeginRequest (bytesOf "GET") (bytesOf "/") 1 1], 24,
          Exit.chunkEnd) := by
  decide!

/-- C37 (amended): header callbacks need one byte of lookahead.  For every well-formed request
line, well-formed header lines before, and well-formed, unfolded header line
`name ":" ws value` CR LF at which the input ends: a fresh REQUEST parser called on this input
returns at its end, having consumed all of it, with `onMessageBegin` and the callbacks of the
header lines before, and without `onMessageHeader` for the last line.  Its state is
`LWS_SP_HT_BEGIN`, or `HEADER_VALUE_END` when the value is empty and white space follows the
colon.  In the next call, on a chunk that is not empty and whose first byte is neither SP nor
HT, `onMessageHeader(name, value)` is the first callback: it is invoked within the first two
passes, while the read pointer is at the first byte of that chunk.  For
`GET / HTTP/1.1` CR LF `Host: a` CR LF the state is `LWS_SP_HT_BEGIN`. -/
theorem header_needs_lookahead :
    (∀ (method uri major minor : List Nat) (hs : List HeaderLine) (h : HeaderLine) (fuel : Nat),
      WellFormedRequestLine method uri major minor → (∀ x ∈ hs, x.WellFormed) →
      h.WellFormed → (openHead method uri major minor hs h).length < SIZE_MOD →
      2 * (openHead method uri major minor hs h).length < fuel →
      ∃ r, process fuel (HttpMessageProcessor.new ParseMode.REQUEST)
            (openHead method uri major minor hs h)
            (whole (openHead method uri major minor hs h)) none allTrue = some r ∧
        r.trace = Event.onMessageBeginRequest method uri (digitsValue 0 major)
            (digitsValue 0 minor) :: hs.map (fun x => Event.onMessageHeader x.name x.value) ∧
        r.parser.state = (if h.value = [] ∧ h.ws ≠ [] then State.HEADER_VALUE_END
          else State.LWS_SP_HT_BEGIN) ∧
        r.exit = Exit.chunkEnd ∧ r.ret = (openHead method uri major minor hs h).length ∧
        ∀ (b1 : Nat) (ext : List Nat), b1 ≠ SP → b1 ≠ HT →
          ∃ n c, 1 ≤ n ∧ n ≤ 2 ∧
            after (openHead method uri major minor hs h ++ b1 :: ext)
                ⟨(openHead method uri major minor hs h).length, 1 + ext.length⟩ allTrue n
                (entry r.parser ⟨(openHead method uri major minor hs h).length, 1 + ext.length⟩
                  (some (openHead method uri major minor hs h).length)) = some c ∧
            c.trace = [Event.onMessageHeader h.name h.value] ∧
            c.i = (openHead method uri major minor hs h).length) ∧
    (openHeader = openHead (bytesOf "GET") (bytesOf "/") (bytesOf "1") (bytesOf "1") []
        ⟨bytesOf "Host", [SP], bytesOf "a"⟩ ∧
      (process 64 (HttpMessageProcessor.new ParseMode.REQUEST) openHeader (whole openHeader)
          none allTrue).map (fun r => (r.parser.state, r.trace, r.ret))
        = some (State.LWS_SP_HT_BEGIN,
            [Event.onMessageBeginRequest (bytesOf "GET") (bytesOf "/") 1 1], 25)) := by
  refine ⟨?_, by decide, by decide!⟩
  intro method uri major minor hs h fuel hrl hh hw hM hf
  obtain ⟨r, hp, htr, hst, hnull, hex, hret, hnm, hvl⟩ :=
    process_open_head method uri major minor hs h hrl hh hw hM fuel hf
  refine ⟨r, hp, htr, hst, hex, hret, ?_⟩
  intro b1 ext h1 h2
  have hd : (openHead method uri major minor hs h ++ b1 :: ext).drop
      (openHead method uri major minor hs h).length = b1 :: ext := List.drop_left _ _
  obtain ⟨hb, _, _⟩ := getD_of_drop _ _ _ _ hd
  have hq : r.parser.state = State.HEADER_VALUE_END ∨
      (r.parser.state = State.LWS_SP_HT_BEGIN ∧ r.parser.lwsNull = State.HEADER_VALUE_END ∧
        (openHead method uri major minor hs h ++ b1 :: ext).getD
          (⟨(openHead method uri major minor hs h).length, 1 + ext.length⟩ : BufferRef).offset 0
            ≠ SP ∧
        (openHead method uri major minor hs h ++ b1 :: ext).getD
          (⟨(openHead method uri major minor hs h).length, 1 + ext.length⟩ : BufferRef).offset 0
            ≠ HT) := by
    rw [hst]
    unfold HeaderLine.openState
    split_ifs
    · exact Or.inl rfl
    · exact Or.inr ⟨rfl, hnull, by simp only [hb]; exact h1, by simp only [hb]; exact h2⟩
  obtain ⟨n, c, hn2, hn1, a, hct, hci, _⟩ :=
    header_emitted_next_call (openHead method uri major minor hs h ++ b1 :: ext)
      ⟨(openHead method uri major minor hs h).length, 1 + ext.length⟩ r.parser
      (by simp only; omega) hq
  refine ⟨n, c, hn1, hn2, a, ?_, hci⟩
  rw [hct, hnm, hvl]

/-- Witness for C37: the input `GET / HTTP/1.1` CR LF `Host: a` CR LF, followed in the next
call by a chunk that starts with `A`. -/
theorem header_needs_lookahead_witness :
    ∃ r, process 64 (HttpMessageProcessor.new ParseMode.REQUEST)
          (openHead (bytesOf "GET") (bytesOf "/") (bytesOf "1") (bytesOf "1") []
            ⟨bytesOf "Host", [SP], bytesOf "a"⟩)
          (whole (openHead (bytesOf "GET") (bytesOf "/") (bytesOf "1") (bytesOf "1") []
            ⟨bytesOf "Host", [SP], bytesOf "a"⟩)) none allTrue = some r ∧
      r.trace = [Event.onMessageBeginRequest (bytesOf "GET") (bytesOf "/")
        (digitsValue 0 (bytesOf "1")) (digitsValue 0 (bytesOf "1"))] ∧
      r.exit = Exit.chunkEnd :=
  (header_needs_lookahead.1 (bytesOf "GET") (bytesOf "/") (bytesOf "1") (bytesOf "1") []
      ⟨bytesOf "Host", [SP], bytesOf "a"⟩ 64
      ⟨by decide, by decide, by decide, by decide, by decide, by decide⟩
      (fun x hx => absurd hx (List.not_mem_nil x))
      ⟨by decide, by decide, by decide,
        Or.inr ⟨97, [], rfl, by decide, by decide, by decide, fun _ => by decide, by decide⟩⟩
      (by decide) (by decide)).imp
    fun _ h => ⟨h.1, h.2.1, h.2.2.2.1⟩

/-! ## The remaining bytes of a body -/

/-- C32: the remaining-bytes invariant (integers unbounded).  For every parser reached from a
fresh parser (any mode) by calls of `process` that returned (any hooks, chunks, buffers and
cursors), and for every configuration a further call passes through: when the state is
`CONTENT` or `CONTENT_CHUNK_BODY`, `content_length` is not negative; and a pass in such a
state, with the cursor at the read pointer inside a chunk that lies in the buffer, hands to
`onMessageContent` exactly as many bytes as it takes off `content_length`, which stays
non-negative (the sum of `content_length` and the bytes delivered does not change).  The pass
that enters `CONTENT` from `CONTENT_BEGIN`, and the one that enters `CONTENT_CHUNK_BODY` after
the size line, leave `content_length` as announced and deliver nothing.  So `content_length`
is what was announced less what was delivered: when a part of the body, shorter than
`content_length` (itself below 2^64), is fed in any pieces, all its bytes are delivered,
`content_length` is less by their number, and the state is the same.  On the POST request with `Content-Length: 5`,
after the head and `he` the state is `CONTENT` with `content_length` 3; on the chunked
response, after the size line `5` and `he` the state is `CONTENT_CHUNK_BODY` with
`content_length` 3. -/
theorem remaining_bytes_invariant (cb : Hooks) (mode : ParseMode) (calls : List Call)
    (q : HttpMessageProcessor) (t : List Event)
    (h : processAll cb (HttpMessageProcessor.new mode) calls = some (q, t)) :
    ((q.state = State.CONTENT ∨ q.state = State.CONTENT_CHUNK_BODY) → 0 ≤ q.contentLength) ∧
    (∀ (k : Call) (n : Nat) (c : Cfg),
      after k.buf k.chunk cb n (entry q k.chunk k.cursor) = some c →
      (c.p.state = State.CONTENT ∨ c.p.state = State.CONTENT_CHUNK_BODY) →
      0 ≤ c.p.contentLength ∧
      (c.Placed k.buf k.chunk →
        0 ≤ (step k.buf k.chunk cb c).cfg.p.contentLength ∧
        (step k.buf k.chunk cb c).cfg.p.contentLength
            + (delivered (step k.buf k.chunk cb c).cfg.trace : Int)
          = c.p.contentLength + (delivered c.trace : Int))) ∧
    (∀ (buf : List Nat) (chunk : BufferRef) (c : Cfg),
      (c.p.state = State.CONTENT_BEGIN ∨
        (c.p.state = State.CONTENT_CHUNK_LF1 ∧ buf.getD c.i 0 = LF ∧ c.p.contentLength ≠ 0)) →
      (step buf chunk cb c).cfg.p.contentLength = c.p.contentLength ∧
      (step buf chunk cb c).cfg.trace = c.trace) ∧
    ((q.state = State.CONTENT ∨ q.state = State.CONTENT_CHUNK_BODY) →
      q.contentLength < (SIZE_MOD : Int) →
      ∀ (buf : List Nat) (pieces : List Nat) (off fuel : Nat), buf.length < SIZE_MOD →
        2 ≤ fuel → (pieces.sum : Int) < q.contentLength → off + pieces.sum ≤ buf.length →
        ∃ t2, feed fuel buf allTrue q off off pieces
            = some ({ q with contentLength := q.contentLength - (pieces.sum : Int) },
                off + pieces.sum, t2) ∧
          delivered t2 = pieces.sum ∧ ∀ e ∈ t2, e.isContent = true) ∧
    ((process 64 (HttpMessageProcessor.new ParseMode.REQUEST) postHello ⟨0, 41⟩ none
          allTrue).map (fun r => (r.parser.state, r.parser.contentLength, delivered r.trace))
        = some (State.CONTENT, 3, 2) ∧
      (process 64 (HttpMessageProcessor.new ParseMode.RESPONSE) chunkedHello ⟨0, 52⟩ none
          allTrue).map (fun r => (r.parser.state, r.parser.contentLength, delivered r.trace))
        = some (State.CONTENT_CHUNK_BODY, 3, 2)) := by
  have hq : Counted q := processAll_counted cb calls _ q t (counted_new mode) h
  refine ⟨?_, ?_, ?_, ?_, by decide!, by decide!⟩
  · intro hs
    exact hq.1 (by rcases hs with hs | hs <;> rw [hs] <;> rfl)
  · intro k n c ha hs
    have hc : Counted c.p := after_counted k.buf k.chunk cb n _ c hq ha
    have h0 : 0 ≤ c.p.contentLength := hc.1 (by rcases hs with hs | hs <;> rw [hs] <;> rfl)
    exact ⟨h0, fun hp => step_body_count k.buf k.chunk cb c hs h0 hp⟩
  · intro buf chunk c hs
    rcases hs with hs | ⟨hs, hb, hl⟩
    · simp only [step, hs, Cfg.setState]
      split_ifs <;> exact ⟨rfl, rfl⟩
    · simp only [step, hs, hb, Cfg.eat, Cfg.setState, Cfg.advance]
      split_ifs <;> exact ⟨rfl, rfl⟩
  · intro hs hlt buf pieces off fuel hM hf hsum hb
    exact feed_body_count buf hM fuel hf pieces q off hs hlt hsum hb

/-- Witness for C32: the head of the POST request with `Content-Length: 5` and the first two
bytes of its body, after which the parser is in `CONTENT`. -/
theorem remaining_bytes_invariant_witness :
    ∃ q t, processAll allTrue (HttpMessageProcessor.new ParseMode.REQUEST)
        [⟨64, postHello, ⟨0, 41⟩, none⟩] = some (q, t) ∧
      q.state = State.CONTENT ∧ 0 ≤ q.contentLength :=
  ⟨_, _, rfl, rfl,
    (remaining_bytes_invariant allTrue ParseMode.REQUEST [⟨64, postHello, ⟨0, 41⟩, none⟩]
      _ _ rfl).1 (Or.inl rfl)⟩

end X0
